import Mathlib

/-!
# KryptoSAT: a shallow embedding of the core algorithms

Embedded source files: `booleanFct.h` (expression trees, evaluation, the
canonical comparator), `encrypt.h` (GF(2) polynomials in algebraic normal form
and the per-bit encryption), `kryptoSAT.h` (key generation), `rng.h` (the
random number generator interface), `kryptoSAT.cpp` (the program state and the
encryption of a clear text) and `functionParser.h` (reading and writing keys
and ciphers as text).

Conventions.

* `std::list<T>` is `List T`; an iterator into a list is the pair of the part
  before it and the part from it on.
* `size_t` and `long` are 64 bits wide.  Every `size_t` value below is a list
  length, a loop counter running up to a given count, or an index into an
  array held in memory, so it is modelled by `Nat` (and `long` by `Int`)
  without wrap-around.
  `unsigned int` and `int` are 32 bits wide; `encrypt` narrows `size_t` and
  `long` values into them, and these conversions are modelled explicitly with
  `% 2^32`.
  Where the program computes with a count given by the user, or writes a
  number to a text and reads it back, the 64 bits are explicit as well
  (`% 2^64`, `toLong`, `toSizeT`, and the range of `stol`).
* A text is the list of its characters; an input stream is the list of the
  characters not yet read together with its state flags.
* `front()` of an empty list, and reading an array slot that was never
  written, are undefined in C++.  Functions that can reach one of them return
  an `Option`; `none` is that outcome.
* Loops that need not terminate carry a budget of iterations (`fuel`) and
  return `none` when it is used up.
* Output to `cout`/`cerr` and timing are not modelled.
-/

/-! ## rng.h: the generator interface -/

/-- The interface `rng`.  A generator object is a state of type `σ`; a call
returns its result together with the state after the call.  Only the two
drawing methods are used by the embedded code. -/
structure rng (σ : Type) where
  /-- The method `randomBool()`. -/
  randomBool : σ → Bool × σ
  /-- The method `randomInt(max)`. -/
  randomInt : σ → Nat → Nat × σ

/-! ## booleanFct.h: expression trees -/

/-- The enumeration `booleanFctTypes`. -/
inductive booleanFctTypes where
  | BFT_TRUE
  | BFT_FALSE
  | BFT_INPUT
  | BFT_NOT
  | BFT_AND
  | BFT_OR
  | BFT_XOR
  deriving DecidableEq

/-- The cast `(int)` of an enumerator. -/
def booleanFctTypes.toInt : booleanFctTypes → Int
  | BFT_TRUE => 0
  | BFT_FALSE => 1
  | BFT_INPUT => 2
  | BFT_NOT => 3
  | BFT_AND => 4
  | BFT_OR => 5
  | BFT_XOR => 6

/-- The class `BF` with its implementations: one constructor per instantiation
`booleanFct<TYPE>`.  Every node is a `list<BF*>` of children and stores
`nbrOfVars`; `booleanFct<BFT_INPUT>` stores `inputVar` as well.  A node owns its
children, so a pointer to a child is the child; null children are not
represented. -/
inductive BF where
  | TRUE (nbrOfVars : Nat) (children : List BF)
  | FALSE (nbrOfVars : Nat) (children : List BF)
  | INPUT (nbrOfVars : Nat) (inputVar : Nat) (children : List BF)
  | NOT (nbrOfVars : Nat) (children : List BF)
  | AND (nbrOfVars : Nat) (children : List BF)
  | OR (nbrOfVars : Nat) (children : List BF)
  | XOR (nbrOfVars : Nat) (children : List BF)

namespace BF

/-- The children of a node (the node seen as `list<BF*>`). -/
def children : BF → List BF
  | TRUE _ cs | FALSE _ cs | INPUT _ _ cs | NOT _ cs | AND _ cs | OR _ cs | XOR _ cs => cs

/-- The method `size()`. -/
def size (x : BF) : Nat := x.children.length

/-- The method `myType()`. -/
def myType : BF → booleanFctTypes
  | TRUE _ _ => .BFT_TRUE
  | FALSE _ _ => .BFT_FALSE
  | INPUT _ _ _ => .BFT_INPUT
  | NOT _ _ => .BFT_NOT
  | AND _ _ => .BFT_AND
  | OR _ _ => .BFT_OR
  | XOR _ _ => .BFT_XOR

/-- The method `getNumberOfVars()`. -/
def getNumberOfVars : BF → Nat
  | TRUE n _ | FALSE n _ | INPUT n _ _ | NOT n _ | AND n _ | OR n _ | XOR n _ => n

mutual
/-- The method `evaluate(input)`.  The array `input` is the function from
indices to entries. -/
def evaluate (input : Nat → Bool) : BF → Bool
  | TRUE _ _ => true
  | FALSE _ _ => false
  | INPUT nbrOfVars inputVar _ => if inputVar ≥ nbrOfVars then false else input inputVar
  | NOT _ [] => false
  | NOT _ (c :: _) => ! evaluate input c
  | AND _ cs => evaluateAnd input true cs
  | OR _ cs => evaluateOr input false cs
  | XOR _ cs => evaluateXor input false cs
/-- The loop of `booleanFct<BFT_AND>::evaluate`, `re = re && (*it)->evaluate(input)`. -/
def evaluateAnd (input : Nat → Bool) : Bool → List BF → Bool
  | re, [] => re
  | re, c :: cs => evaluateAnd input (re && evaluate input c) cs
/-- The loop of `booleanFct<BFT_OR>::evaluate`, `re = re || (*it)->evaluate(input)`. -/
def evaluateOr (input : Nat → Bool) : Bool → List BF → Bool
  | re, [] => re
  | re, c :: cs => evaluateOr input (re || evaluate input c) cs
/-- The loop of `booleanFct<BFT_XOR>::evaluate`, `re = re != (*it)->evaluate(input)`. -/
def evaluateXor (input : Nat → Bool) : Bool → List BF → Bool
  | re, [] => re
  | re, c :: cs => evaluateXor input (re != evaluate input c) cs
end

/-- The method `getDependence()`, computed in the integers without the
conversion of the result to `long`.  This is the value that the `long` of the
source holds as long as `inputVar + 1` fits a `long`, that is for every index
below `2^63 - 1`; `getDependenceLong` is the method with the 64 bits of its
result explicit. -/
def getDependence : BF → Int
  | TRUE _ _ => 0
  | FALSE _ _ => 0
  | INPUT _ inputVar _ => (inputVar : Int) + 1
  | NOT _ [] => 0
  | NOT _ (c :: _) => - getDependence c
  | AND _ [] => 0
  | AND _ (c :: _) => getDependence c
  | OR _ [] => 0
  | OR _ (c :: _) => getDependence c
  | XOR _ [] => 0
  | XOR _ (c :: _) => getDependence c

/-- The leaf comparison of `compare`, reached when both nodes have no children.
For different types the source reads `front()` of both (empty) child lists,
which is undefined: `none`. -/
def compareLeaf (x y : BF) : Option Int :=
  if x.getDependence < y.getDependence then some (-1)
  else if x.getDependence > y.getDependence then some 1
  else if x.myType ≠ y.myType then none
  else some 0

/-- The part of `compare` after the null tests, given the outcome `rec` of the
recursive comparison of children. -/
def compareNode (x y : BF) (rec : Option Int) : Option Int :=
  if x.size < y.size then some (-1)
  else if x.size > y.size then some 1
  else if x.size > 0 then rec
  else compareLeaf x y

mutual
/-- The function `compare(const BF*, const BF*)` on non-null arguments. -/
def compare : BF → BF → Option Int
  | TRUE n cs, y => compareNode (TRUE n cs) y (compareChildren cs y.children)
  | FALSE n cs, y => compareNode (FALSE n cs) y (compareChildren cs y.children)
  | INPUT n v cs, y => compareNode (INPUT n v cs) y (compareChildren cs y.children)
  | NOT n cs, y => compareNode (NOT n cs) y (compareChildren cs y.children)
  | AND n cs, y => compareNode (AND n cs) y (compareChildren cs y.children)
  | OR n cs, y => compareNode (OR n cs) y (compareChildren cs y.children)
  | XOR n cs, y => compareNode (XOR n cs) y (compareChildren cs y.children)
/-- The loop "recursive comparison of children" of `compare`: `j` runs through
the children of `y`, `i` alongside through those of `x`. -/
def compareChildren : List BF → List BF → Option Int
  | _, [] => some 0
  | [], _ :: _ => none
  | i :: is, j :: js =>
    match compare i j with
    | none => none
    | some re => if re ≠ 0 then some re else compareChildren is js
end

end BF

namespace kryptoSAT

/-! ## encrypt.h: polynomials -/

/-- An ANF polynomial: `list<list<unsigned int>>`.  Per the source comment the
entries are variable numbers `> 0`, and `0` is the constant 1. -/
abbrev ANF := List (List Nat)

/-- The function `compare(const list<unsigned int>&, const list<unsigned int>&)`. -/
def compare : List Nat → List Nat → Int
  | [], [] => 0
  | [], _ :: _ => -1
  | _ :: _, [] => 1
  | a :: x, b :: y =>
    if a < b then -1
    else if a > b then 1
    else compare x y

/-- The `operator<` on `list<unsigned int>`. -/
def lt (x y : List Nat) : Bool := decide (compare x y < 0)

/-- The function `cmp`, the comparator handed to `sort`. -/
def cmp (x y : List Nat) : Bool := lt x y

/-- The `operator==` on `list<unsigned int>`. -/
def eq (x y : List Nat) : Bool := decide (compare x y = 0)

/-- The `operator>` on `list<unsigned int>`: `rhs < lhs`. -/
def gt (lhs rhs : List Nat) : Bool := lt rhs lhs

/-- The method `front()`; `none` on the empty list, where it is undefined. -/
def front {α : Type} : List α → Option α
  | [] => none
  | a :: _ => some a

/-- One round of the `lit2` loop of `multiplyToANF`: walk `lit1` through `prod`
while `*lit1 < *lit2`, then insert `lit2` unless an equal entry is met. -/
def insertLit (lit2 : Nat) : List Nat → List Nat
  | [] => [lit2]
  | lit1 :: rest =>
    if lit1 < lit2 then lit1 :: insertLit lit2 rest
    else if lit1 > lit2 then lit2 :: lit1 :: rest
    else lit1 :: rest

/-- The product of two conjunctions, the body of the double loop of
`multiplyToANF` up to `prod`: `i` comes from `gp`, `j` from the old `g`. -/
def multiplyMonomial (i j : List Nat) : Option (List Nat) :=
  match front i with
  | none => none
  | some fi =>
    if fi = 0 then some j
    else
      match front j with
      | none => none
      | some fj =>
        if fj ≠ 0 then some (j.foldl (fun prod lit2 => insertLit lit2 prod) i)
        else some i

/-- The loop `while(j!=g.end() && *j < x) j++`; the iterator `j` is the pair
(part of `g` before `j`, part of `g` from `j` on). -/
def skipLess (x : List Nat) : ANF → ANF → ANF × ANF
  | pre, [] => (pre, [])
  | pre, y :: suf => if lt y x then skipLess x (pre ++ [y]) suf else (pre, y :: suf)

/-- The loop body shared by `addToANF` and the sorted branch of `multiplyToANF`:
advance `j`, then `j=g.insert(j,x)` when `j` is at the end or `*j > x`, and
`j=g.erase(j)` otherwise.  `insert` returns the position of the new entry,
`erase` the position after the erased one. -/
def insertOrErase (x : List Nat) (st : ANF × ANF) : ANF × ANF :=
  match skipLess x st.1 st.2 with
  | (pre, []) => (pre, [x])
  | (pre, y :: suf) => if gt y x then (pre, x :: y :: suf) else (pre, suf)

/-- The function `addToANF`; the result is the modified first argument. -/
def addToANF (g gp : ANF) : ANF :=
  let st := gp.foldl (fun st i => insertOrErase i st) ([], g)
  st.1 ++ st.2

/-- The function `concatANF`. -/
def concatANF (g gp : ANF) : ANF := g ++ gp

/-- The step "add product to big sum" of `multiplyToANF`. -/
def addProduct (sortResult : Bool) (g : ANF) (prod : List Nat) : ANF :=
  if sortResult then
    let st := insertOrErase prod ([], g)
    st.1 ++ st.2
  else g ++ [prod]

/-- The test `x.size()==1 && x.front().front()==0` of `multiplyToANF`. -/
def isOne (x : ANF) : Option Bool :=
  if x.length = 1 then
    match front x with
    | none => none
    | some m =>
      match front m with
      | none => none
      | some v => some (decide (v = 0))
  else some false

/-- The double loop of `multiplyToANF` ("actual multiplication"): `l` is the old
value of `g`, the accumulator starts empty. -/
def multiplyLoop (l gp : ANF) (sortResult : Bool) : Option ANF :=
  gp.foldlM (fun g i =>
    l.foldlM (fun g j =>
      match multiplyMonomial i j with
      | none => none
      | some prod => some (addProduct sortResult g prod)) g) []

/-- The function `multiplyToANF`; the result is the modified first argument. -/
def multiplyToANF (g gp : ANF) (sortResult : Bool) : Option ANF :=
  if g.length = 0 then some g
  else if gp.length = 0 then some []
  else
    match isOne gp with
    | none => none
    | some true => some g
    | some false =>
      match isOne g with
      | none => none
      | some true => some gp
      | some false => multiplyLoop g gp sortResult

/-- Stable insertion of `x` into a list sorted by the strict order `less`:
`x` goes before the first entry that is not less than it. -/
def orderedInsert {α : Type} (less : α → α → Bool) (x : α) : List α → List α
  | [] => [x]
  | y :: ys => if less y x then y :: orderedInsert less x ys else x :: y :: ys

/-- The method `std::list::sort(comp)`.  It is specified to be a stable sort;
every stable sort returns the same list, here computed by stable insertion. -/
def listSort {α : Type} (less : α → α → Bool) : List α → List α
  | [] => []
  | x :: xs => orderedInsert less x (listSort less xs)

/-- The deleting loop of `sortANF`: when the entry after `i` equals `*i` both
are erased and `i` moves to the entry after them, otherwise `i` advances. -/
def deletePairs : ANF → ANF
  | [] => []
  | [x] => [x]
  | x :: y :: rest => if eq y x then deletePairs rest else x :: deletePairs (y :: rest)

/-- The function `sortANF`. -/
def sortANF (g : ANF) (subSort : Bool) : ANF :=
  let g1 := if subSort then g.map (listSort (fun a b : Nat => decide (a < b))) else g
  deletePairs (listSort cmp g1)

/-- The body of the loop over `sub` of `RandomFunction`: `V` replaces a leading
`0` of the conjunction `subI` and is pushed to its front otherwise. -/
def putInFront (V : Nat) (subI : List Nat) : Option (List Nat) :=
  match front subI with
  | none => none
  | some f => if f = 0 then some (V :: subI.tail) else some (V :: subI)

/-- The loop over `variables` of `RandomFunction`, started on the list `vars`
with the result list `re`.  Each round erases the current variable `V` from
the list, calls `RandomFunction` on what is left (its coin, then its own
loop), and appends the returned conjunctions with `V` put in front. -/
def randomFunctionLoop {σ : Type} (r : rng σ) : List Nat → ANF → σ → Option (ANF × σ)
  | [], re, st => some (re, st)
  | V :: vars, re, st =>
    let coin := r.randomBool st
    match randomFunctionLoop r vars (if coin.1 then [[0]] else []) coin.2 with
    | none => none
    | some (sub, st1) =>
      match sub.mapM (putInFront V) with
      | none => none
      | some sub1 => randomFunctionLoop r vars (re ++ sub1) st1

/-- The function `RandomFunction(r, variables)`; `vars` is the list `variables`. -/
def RandomFunction {σ : Type} (r : rng σ) (vars : List Nat) (st : σ) : Option (ANF × σ) :=
  let coin := r.randomBool st
  randomFunctionLoop r vars (if coin.1 then [[0]] else []) coin.2

/-- Conversion of a `size_t` value to `unsigned int`. -/
def toUInt (x : Nat) : Nat := x % 2 ^ 32

/-- Conversion of a `long` value to `int`. -/
def toInt32 (x : Int) : Int := (x + 2 ^ 31) % 2 ^ 32 - 2 ^ 31

/-- Conversion of an `int` value to `unsigned int`. -/
def intToUInt (x : Int) : Nat := (x % 2 ^ 32).toNat

/-- The inner loop of the permutation step of `encrypt`: `j` walks through
`notUsed` (`pre` is the part before `j`), and the entry at `j` is taken when
`r->randomInt(invProb)==0`.  Returns the value written to `s[i]` (`none` when
the loop ends without writing), the new `notUsed` and the generator state.
`invProb` counts the entries from `j` on, so it is at least 1 whenever it is
decremented and `invProb--` does not wrap. -/
def drawEntry {σ : Type} (r : rng σ) : List Nat → List Nat → Nat → σ → Option Nat × List Nat × σ
  | [], pre, _, st => (none, pre, st)
  | x :: rest, pre, invProb, st =>
    let d := r.randomInt st invProb
    if d.1 = 0 then (some x, pre ++ rest, d.2)
    else drawEntry r rest (pre ++ [x]) (invProb - 1) d.2

/-- The outer loop of the permutation step, `count` rounds from the current
`notUsed` and the part of the array `s` filled so far.  A slot of `s` that was
not written is `none`. -/
def drawPermutation {σ : Type} (r : rng σ) :
    Nat → List Nat → List (Option Nat) → σ → List (Option Nat) × σ
  | 0, _, s, st => (s, st)
  | count + 1, notUsed, s, st =>
    let e := drawEntry r notUsed [] (toUInt notUsed.length) st
    drawPermutation r count e.2.1 (s ++ [e.1]) e.2.2

/-- The "inverse search" of `encrypt`: the first `i < m` with `s[i]==cN`,
counted from `i`.  `none` when there is none (the source then returns 0) or
when a slot that was never written is read. -/
def inverseSearch : List (Option Nat) → Nat → Nat → Option Nat
  | [], _, _ => none
  | none :: _, _, _ => none
  | some v :: rest, cN, i => if v = cN then some i else inverseSearch rest cN (i + 1)

/-- The loop over the literals of one clause in `encrypt`: from the current
`nClause[i]` and `depends[i]`, multiply by `1 + x_V` for `V > 0` and by
`x_{-V}` otherwise, and record the variable. -/
def convertLiterals : List BF → ANF → List Nat → Option (ANF × List Nat)
  | [], nClause, depends => some (nClause, depends)
  | lit :: lits, nClause, depends =>
    let V : Int := toInt32 lit.getDependence
    let cur : ANF := if V > 0 then [[0], [intToUInt V]] else [[intToUInt (-V)]]
    let dep : Nat := if V > 0 then intToUInt V else intToUInt (-V)
    match multiplyToANF nClause cur true with
    | none => none
    | some prod => convertLiterals lits prod (depends ++ [dep])

/-- The loop over the clauses of the public key in `encrypt`, from clause
number `cN` on; `nClause` and `depends` are the two arrays.  `none` when the
source returns 0 or runs into undefined behaviour. -/
def convertClauses (s : List (Option Nat)) :
    List BF → Nat → List ANF → List (List Nat) → Option (List ANF × List (List Nat))
  | [], _, nClause, depends => some (nClause, depends)
  | k :: ks, cN, nClause, depends =>
    match inverseSearch s cN 0 with
    | none => none
    | some i =>
      if (nClause.getD i []).length ≠ 0 ∨ (depends.getD i []).length ≠ 0 then none
      else
        match convertLiterals k.children [[0]] (depends.getD i []) with
        | none => none
        | some (nc, dep) =>
          convertClauses s ks (toUInt (cN + 1)) (nClause.set i nc) (depends.set i dep)

/-- The gathering loop over `k` of `encrypt`: the concatenation of
`depends[(k+i)%m]` for `k < beta`, `k ≠ j`. -/
def gatherDepends (depends : List (List Nat)) (m beta i j : Nat) : List Nat :=
  (List.range beta).foldl (fun Rdepends k =>
    if k ≠ j then Rdepends ++ depends.getD (toUInt (k + i) % m) [] else Rdepends) []

/-- The loop "delete doubles" of `encrypt`: an entry equal to its successor is
erased. -/
def deleteDoubles : List Nat → List Nat
  | [] => []
  | [x] => [x]
  | x :: y :: rest => if y = x then deleteDoubles (y :: rest) else x :: deleteDoubles (y :: rest)

/-- The body of the loop over `j` of `encrypt`: one cipher summand is appended
to `g`. -/
def cipherSummand {σ : Type} (r : rng σ) (nClause : List ANF) (depends : List (List Nat))
    (m beta i j : Nat) (g : ANF) (st : σ) : Option (ANF × σ) :=
  let Rdepends := deleteDoubles
    (listSort (fun a b : Nat => decide (a < b)) (gatherDepends depends m beta i j))
  match RandomFunction r Rdepends st with
  | none => none
  | some (R, st1) =>
    match multiplyToANF R (nClause.getD (toUInt (i + beta) % m) []) false with
    | none => none
    | some R1 => some (concatANF g R1, st1)

/-- The double loop over `i < m` and `j < beta` of `encrypt`. -/
def cipherLoop {σ : Type} (r : rng σ) (nClause : List ANF) (depends : List (List Nat))
    (m beta : Nat) (st : σ) : Option (ANF × σ) :=
  (List.range m).foldlM (fun acc i =>
    (List.range beta).foldlM (fun acc j =>
      cipherSummand r nClause depends m beta i j acc.1 acc.2) acc) ([], st)

/-- The last part of `encrypt`, "converting back to usual representation". -/
def toBF (n : Nat) (g : ANF) : BF :=
  BF.XOR n (g.map (fun i =>
    BF.AND n (i.map (fun j => if j = 0 then BF.TRUE n [] else BF.INPUT n (j - 1) []))))

/-- The polynomial `g` of `encrypt` just before it is converted to a tree,
with the generator state after the call. -/
def encryptANF {σ : Type} (r : rng σ) (publicKey : BF) (input : Bool)
    (beta_ : Nat) (st : σ) : Option (ANF × σ) :=
  let m := toUInt publicKey.size
  let beta := toUInt beta_
  let perm := drawPermutation r m (List.range m) [] st
  match convertClauses perm.1 publicKey.children 0
      (List.replicate m []) (List.replicate m []) with
  | none => none
  | some (nClause, depends) =>
    match cipherLoop r nClause depends m beta perm.2 with
    | none => none
    | some (g, st1) =>
      let g1 := sortANF g false
      some (if input then addToANF g1 [[0]] else g1, st1)

/-- The function `encrypt(r, privateKeyLength, publicKey, input, beta_)`.  The
result is the returned tree and the generator state after the call; `none`
when the source returns the null pointer or runs into undefined behaviour. -/
def encrypt {σ : Type} (r : rng σ) (privateKeyLength : Nat) (publicKey : BF) (input : Bool)
    (beta_ : Nat) (st : σ) : Option (BF × σ) :=
  match encryptANF r publicKey input beta_ st with
  | none => none
  | some (g, st1) => some (toBF (toUInt privateKeyLength) g, st1)

/-! ## kryptoSAT.h: key generation -/

/-- The function `generatePrivateKey`: `length` draws of `randomBool`. -/
def generatePrivateKey {σ : Type} (r : rng σ) : Nat → σ → List Bool × σ
  | 0, st => ([], st)
  | length + 1, st =>
    let b := r.randomBool st
    let rest := generatePrivateKey r length b.2
    (b.1 :: rest.1, rest.2)

/-- The loop `while(!varAccepted)` of `generatePublicKey` for one position:
`vars` holds the variables chosen for the earlier positions. -/
def drawVariable {σ : Type} (r : rng σ) (privateKeyLength : Nat) (vars : List Nat) :
    Nat → σ → Option (Nat × σ)
  | 0, _ => none
  | fuel + 1, st =>
    let d := r.randomInt st privateKeyLength
    if vars.all (fun v => decide (v ≠ d.1)) then some (d.1, d.2)
    else drawVariable r privateKeyLength vars fuel d.2

/-- The loop over `j` "generate random clause" of `generatePublicKey`, for the
`count` positions still to fill. -/
def drawVariables {σ : Type} (r : rng σ) (privateKeyLength : Nat) (fuel : Nat) :
    Nat → List Nat → σ → Option (List Nat × σ)
  | 0, vars, st => some (vars, st)
  | count + 1, vars, st =>
    match drawVariable r privateKeyLength vars fuel st with
    | none => none
    | some (var, st1) => drawVariables r privateKeyLength fuel count (vars ++ [var]) st1

/-- The loop "generate data structure along with signs": one literal per
variable, positive when `randomBool` returns true. -/
def drawSigns {σ : Type} (r : rng σ) (privateKeyLength : Nat) : List Nat → σ → List BF × σ
  | [], st => ([], st)
  | v :: vars, st =>
    let b := r.randomBool st
    let rest := drawSigns r privateKeyLength vars b.2
    ((if b.1 then BF.INPUT privateKeyLength v []
      else BF.NOT privateKeyLength [BF.INPUT privateKeyLength v []]) :: rest.1, rest.2)

/-- The loop "check for doubles": whether some clause of `re` compares equal
to `c`; `none` when a comparison is undefined. -/
def checkForDoubles (c : BF) : List BF → Option Bool
  | [] => some false
  | i :: re =>
    match BF.compare i c with
    | none => none
    | some v => if v = 0 then some true else checkForDoubles c re

/-- The loop `while(!clauseAccepted)` of `generatePublicKey`: reroll the signs
until the private key fulfils the clause, then accept the clause unless it is
a double. -/
def plantClause {σ : Type} (r : rng σ) (privateKey : Nat → Bool) (privateKeyLength : Nat)
    (vars : List Nat) (re : List BF) : Nat → σ → Option (List BF × σ)
  | 0, _ => none
  | fuel + 1, st =>
    let c := drawSigns r privateKeyLength vars st
    if ! BF.evaluate privateKey (BF.OR privateKeyLength c.1) then
      plantClause r privateKey privateKeyLength vars re fuel c.2
    else
      match checkForDoubles (BF.OR privateKeyLength c.1) re with
      | none => none
      | some found =>
        some (if found then re else re ++ [BF.OR privateKeyLength c.1], c.2)

/-- The loop `while(re->size()<nbrClauses)` of `generatePublicKey`. -/
def generateClauses {σ : Type} (r : rng σ) (privateKey : Nat → Bool)
    (privateKeyLength nbrClauses varsPerClause : Nat) :
    Nat → List BF → σ → Option (List BF × σ)
  | 0, re, st => if re.length < nbrClauses then none else some (re, st)
  | fuel + 1, re, st =>
    if re.length < nbrClauses then
      match drawVariables r privateKeyLength (fuel + 1) varsPerClause [] st with
      | none => none
      | some (vars, st1) =>
        match plantClause r privateKey privateKeyLength vars re (fuel + 1) st1 with
        | none => none
        | some (re1, st2) =>
          generateClauses r privateKey privateKeyLength nbrClauses varsPerClause fuel re1 st2
    else some (re, st)

/-- The function `generatePublicKey(r, privateKey, privateKeyLength,
nbrClauses, varsPerClause)`, every loop limited to `fuel` rounds.  The result
is the returned key and the generator state after the call; `none` when the
budget is used up or a comparison is undefined. -/
def generatePublicKey {σ : Type} (r : rng σ) (privateKey : Nat → Bool)
    (privateKeyLength nbrClauses varsPerClause : Nat) (fuel : Nat) (st : σ) :
    Option (BF × σ) :=
  match generateClauses r privateKey privateKeyLength nbrClauses varsPerClause fuel [] st with
  | none => none
  | some (re, st1) => some (BF.AND privateKeyLength re, st1)

/-- The value of a conjunction under an assignment, in the format stated at the
top of `encrypt.h`: entry `0` is the constant 1, entry `v > 0` is the variable
with number `v`, that is `input[v-1]`. -/
def monomialValue (input : Nat → Bool) (m : List Nat) : Bool :=
  m.foldl (fun re v => re && (if v = 0 then true else input (v - 1))) true

/-- The value of an ANF polynomial under an assignment: the XOR of the values of
its conjunctions. -/
def anfValue (input : Nat → Bool) (g : ANF) : Bool :=
  g.foldl (fun re m => re != monomialValue input m) false

/-! ## Vocabulary of the statements -/

/-- The strict order on conjunctions given by `operator<`. -/
def Lt (x y : List Nat) : Prop := lt x y = true

instance (x y : List Nat) : Decidable (Lt x y) := by unfold Lt; infer_instance

/-- The order `x ≤ y` on conjunctions: `y` does not come before `x`. -/
def Le (x y : List Nat) : Prop := ¬ Lt y x

/-- A strictly ascending list of conjunctions. -/
def Ascending (g : ANF) : Prop := g.Pairwise Lt

instance (g : ANF) : Decidable (Ascending g) := by unfold Ascending; infer_instance

/-- A monomial of the data model: the reserved `[0]`, or a non-empty strictly
ascending list of positive variable ids. -/
def isMonomial (m : List Nat) : Prop :=
  m = [0] ∨ (m ≠ [] ∧ m.Pairwise (fun a b => a < b) ∧ ∀ v ∈ m, 0 < v)

instance (m : List Nat) : Decidable (isMonomial m) := by unfold isMonomial; infer_instance

/-- A canonical polynomial: a strictly ascending list of monomials. -/
def Canonical (g : ANF) : Prop := Ascending g ∧ ∀ m ∈ g, isMonomial m

instance (g : ANF) : Decidable (Canonical g) := by unfold Canonical; infer_instance

/-- The list that `sortANF` sorts: `g` after the optional inner sort. -/
def innerSorted (g : ANF) (subSort : Bool) : ANF :=
  if subSort then g.map (listSort (fun a b : Nat => decide (a < b))) else g

/-- The set of variable ids of a monomial, the reserved `[0]` being the empty
set. -/
def monomialSet (m : List Nat) : Finset Nat := if m = [0] then ∅ else m.toFinset

/-- The monomial of a set of variable ids: its ascending list, and the
reserved `[0]` for the empty set. -/
def setMonomial (S : Finset Nat) : List Nat := if S = ∅ then [0] else S.sort (fun a b => a ≤ b)

/-- The sorted union of two monomials. -/
def sortedUnion (A B : List Nat) : List Nat := setMonomial (monomialSet A ∪ monomialSet B)

/-- The number of pairs (A in g, B in h) whose sorted union is `S`. -/
def pairCount (g h : ANF) (S : List Nat) : Nat :=
  (g.product h).countP (fun p => decide (sortedUnion p.1 p.2 = S))

/-- The random number generator keeps the contract of `randomInt`: the result
lies in `[0,max)`. -/
def Conforming {σ : Type} (r : rng σ) : Prop :=
  ∀ (st : σ) (max : Nat), 0 < max → (r.randomInt st max).1 < max

/-- A literal of a clause over `n` variables: `Variable(i)` or
`Not(Variable(i))` with `i < n`. -/
def isLiteral (n : Nat) : BF → Prop
  | BF.INPUT n1 i [] => n1 = n ∧ i < n
  | BF.NOT n1 [BF.INPUT n2 i []] => n1 = n ∧ n2 = n ∧ i < n
  | _ => False

/-- A clause over `n` variables: an `OrOf` of literals. -/
def isClause (n : Nat) : BF → Prop
  | BF.OR n1 lits => n1 = n ∧ ∀ l ∈ lits, isLiteral n l
  | _ => False

/-- A CNF public key over `n` variables: an `AndOf` of clauses. -/
def isCNF (n : Nat) : BF → Prop
  | BF.AND n1 clauses => n1 = n ∧ ∀ c ∈ clauses, isClause n c
  | _ => False

/-! ## Auxiliary functions of the proofs -/

/-- The product that `multiplyMonomial` returns when both lists are non-empty. -/
def prodOf (i j : List Nat) : List Nat :=
  if i.head? = some 0 then j
  else if j.head? = some 0 then i
  else j.foldl (fun prod lit2 => insertLit lit2 prod) i

/-- The products formed by the double loop of `multiplyToANF`, in the order in
which they are formed. -/
def products (l gp : ANF) : ANF := gp.flatMap (fun i => l.map (fun j => prodOf i j))

/-- A conjunction as `encrypt` handles it over `n` variables: non-empty, and
either the reserved `[0]` or made of variable numbers in `1..n`. -/
def goodMono (n : Nat) (m : List Nat) : Prop :=
  m ≠ [] ∧ (m = [0] ∨ ∀ v ∈ m, 0 < v ∧ v ≤ n)

/-- A polynomial all of whose conjunctions are good. -/
def goodANF (n : Nat) (g : ANF) : Prop := ∀ m ∈ g, goodMono n m

/-- The two trees compare non-zero: `compare` is defined on them and its value
is not `0`. -/
def Differ (a b : BF) : Prop := ∃ v, BF.compare a b = some v ∧ v ≠ 0

/-! ## Concrete instances -/

/-- A linear congruential generator with 64 states. -/
def lcg : rng Nat :=
  ⟨fun s => (decide ((s / 4) % 2 = 0), (5 * s + 3) % 64),
   fun s max => ((s / 4) % max, (5 * s + 3) % 64)⟩

/-- A generator whose every draw is `true` resp. `0`. -/
def constantRng : rng Unit := ⟨fun st => (true, st), fun st _ => (0, st)⟩

/-- The private key `[true, false, true]`, continued periodically. -/
def alternatingKey : Nat → Bool := fun i => decide (i % 2 = 0)

/-- A two-clause key over three variables that `alternatingKey` fulfils. -/
def smallKey : BF :=
  BF.AND 3 [BF.OR 3 [BF.INPUT 3 0 [], BF.INPUT 3 2 []],
    BF.OR 3 [BF.NOT 3 [BF.INPUT 3 1 []], BF.INPUT 3 0 []]]

/-- A one-clause key over `2^32` variables: the clause is the last variable. -/
def wideKey : BF := BF.AND (2 ^ 32) [BF.OR (2 ^ 32) [BF.INPUT (2 ^ 32) (2 ^ 32 - 1) []]]

/-! ## kryptoSAT.cpp: the program state -/

/-- The class `state` of `kryptoSAT.cpp`, without the mode flags and file
names: the parameters of key generation, the keys, the clear text (the array
`clearText` together with `clearTextLength`), the cipher, the salt, the
generator object and `beta`.  A null pointer is `none`. -/
structure state (σ : Type) where
  /-- The literals per clause. -/
  k : Nat
  /-- The private key length. -/
  n : Nat
  /-- The number of clauses. -/
  m : Nat
  /-- The pointer `publicKey`. -/
  publicKey : Option BF
  /-- The pointer `privateKey`. -/
  privateKey : Option (Nat → Bool)
  /-- The pointer `clearText` with `clearTextLength`. -/
  clearText : Option (List Bool)
  /-- The pointer `cipher`. -/
  cipher : Option (List BF)
  /-- The salt. -/
  salt : Nat
  /-- The generator object `r`. -/
  r : σ
  /-- The window parameter. -/
  beta : Nat

/-- The constructor `state::state()`; `r0` is the fresh generator object and
`goodSeed` the value that `r->getGoodSeed()` returns. -/
def state.init {σ : Type} (r0 : σ) (goodSeed : Nat) : state σ :=
  ⟨3, 1024, 0, none, none, none, none, goodSeed, r0, 3⟩

/-- The method `state::checkM()`; the product `n * 5` is formed in `size_t`. -/
def state.checkM {σ : Type} (I : state σ) : state σ :=
  if I.m = 0 then
    ⟨I.k, I.n, (I.n * 5) % 2 ^ 64, I.publicKey, I.privateKey, I.clearText, I.cipher, I.salt,
      I.r, I.beta⟩
  else I

/-- The literal `l` is `Variable(v)` or `Not(Variable(v))` over `n` variables. -/
def isLiteralOf (n v : Nat) (l : BF) : Prop :=
  l = BF.INPUT n v [] ∨ l = BF.NOT n [BF.INPUT n v []]

/-- A clause as `generatePublicKey` builds it: an `OrOf` over `n` variables with
exactly `k` children, the literals of `k` pairwise distinct variable indices
below `n`, in the order of the list `vars`. -/
def isPlantedClause (n k : Nat) (c : BF) : Prop :=
  ∃ (vars : List Nat) (lits : List BF), c = BF.OR n lits ∧ vars.length = k ∧ vars.Nodup ∧
    (∀ v ∈ vars, v < n) ∧ List.Forall₂ (isLiteralOf n) vars lits

/-- The results of `count` successive calls of `randomBool`, with the generator
state after them. -/
def coinFlips {σ : Type} (r : rng σ) : Nat → σ → List Bool × σ
  | 0, st => ([], st)
  | count + 1, st =>
    let b := r.randomBool st
    let rest := coinFlips r count b.2
    (b.1 :: rest.1, rest.2)

/-- The entries of `ms` whose flip in `fs` is `true`, in their order. -/
def selectBy {α : Type} : List Bool → List α → List α
  | b :: fs, m :: ms => if b then m :: selectBy fs ms else selectBy fs ms
  | _, _ => []

/-- The value of `putInFront` on a non-empty conjunction. -/
def putFront (V : Nat) (subI : List Nat) : List Nat :=
  if subI.head? = some 0 then V :: subI.tail else V :: subI

/-- The conjunctions that the loop of `RandomFunction` decides on, in the order
of its coin flips. -/
def loopMonomials : List Nat → ANF
  | [] => []
  | V :: vars => ([0] :: loopMonomials vars).map (putFront V) ++ loopMonomials vars

/-- The conjunctions that `RandomFunction` decides on, in the order of its coin
flips: the constant first. -/
def allMonomials (vars : List Nat) : ANF := [0] :: loopMonomials vars

/-- A monomial over the variables `vars`: the constant `[0]` or a non-empty
sublist of `vars`. -/
def isMonomialOver (vars : List Nat) (m : List Nat) : Prop :=
  m = [0] ∨ (m ≠ [] ∧ m.Sublist vars)

/-- A cipher summand over `n` variables: an `AndOf` whose only child is
`Constant(true)`, or an `AndOf` of at least one `Variable` with strictly
increasing indices below `n`. -/
def isSummand (n : Nat) (t : BF) : Prop :=
  t = BF.AND n [BF.TRUE n []] ∨
  ∃ ids : List Nat, ids ≠ [] ∧ ids.Pairwise (fun a b => a < b) ∧ (∀ i ∈ ids, i < n) ∧
    t = BF.AND n (ids.map (fun i => BF.INPUT n i []))

/-- A cipher tree over `n` variables: an `XorOf` of pairwise different cipher
summands. -/
def isCipherTree (n : Nat) (t : BF) : Prop :=
  ∃ cs : List BF, t = BF.XOR n cs ∧ (∀ c ∈ cs, isSummand n c) ∧ cs.Nodup

/-- A polynomial all of whose conjunctions are monomials over the variables
`1..n`. -/
def monoANF (n : Nat) (g : ANF) : Prop := ∀ m ∈ g, isMonomial m ∧ ∀ v ∈ m, v ≤ n

/-- A one-clause key over `2^32` variables: the clause is the last variable or
the variable 4. -/
def wrapKey : BF :=
  BF.AND (2 ^ 32) [BF.OR (2 ^ 32) [BF.INPUT (2 ^ 32) (2 ^ 32 - 1) [], BF.INPUT (2 ^ 32) 4 []]]

end kryptoSAT

namespace BF

/-! ## booleanFct.h: sorting -/

/-- The function `boolCompare`, `compare(x,y)<0`; `none` where `compare` is
undefined. -/
def boolCompare (x y : BF) : Option Bool :=
  match compare x y with
  | none => none
  | some v => some (decide (v < 0))

/-- The comparator `boolCompare` as a total function, for pairs on which
`compare` is defined. -/
def lessBF (x y : BF) : Bool :=
  match boolCompare x y with
  | none => false
  | some b => b

/-- The call `sort(boolCompare)` on a list of children.  `std::list::sort`
asks for a comparator that is a strict weak ordering of the entries; the model
returns `none` unless `compare` is defined on every pair of entries, and then
the list in the order of the stable sort. -/
def sortChildren (cs : List BF) : Option (List BF) :=
  if cs.all (fun a => cs.all (fun b => (compare a b).isSome)) then
    some (kryptoSAT.listSort lessBF cs)
  else none

/-- The node `x` with the list of children `cs` in place of its own. -/
def withChildren : BF → List BF → BF
  | TRUE n _, cs => TRUE n cs
  | FALSE n _, cs => FALSE n cs
  | INPUT n v _, cs => INPUT n v cs
  | NOT n _, cs => NOT n cs
  | AND n _, cs => AND n cs
  | OR n _, cs => OR n cs
  | XOR n _, cs => XOR n cs

mutual
/-- The method `recursiveSort()`: the children are sorted recursively, then
the list of children is sorted with `boolCompare`.  The result is the node
after the call. -/
def recursiveSort : BF → Option BF
  | TRUE n cs =>
    match recursiveSortList cs with
    | none => none
    | some cs1 =>
      match sortChildren cs1 with
      | none => none
      | some cs2 => some (TRUE n cs2)
  | FALSE n cs =>
    match recursiveSortList cs with
    | none => none
    | some cs1 =>
      match sortChildren cs1 with
      | none => none
      | some cs2 => some (FALSE n cs2)
  | INPUT n v cs =>
    match recursiveSortList cs with
    | none => none
    | some cs1 =>
      match sortChildren cs1 with
      | none => none
      | some cs2 => some (INPUT n v cs2)
  | NOT n cs =>
    match recursiveSortList cs with
    | none => none
    | some cs1 =>
      match sortChildren cs1 with
      | none => none
      | some cs2 => some (NOT n cs2)
  | AND n cs =>
    match recursiveSortList cs with
    | none => none
    | some cs1 =>
      match sortChildren cs1 with
      | none => none
      | some cs2 => some (AND n cs2)
  | OR n cs =>
    match recursiveSortList cs with
    | none => none
    | some cs1 =>
      match sortChildren cs1 with
      | none => none
      | some cs2 => some (OR n cs2)
  | XOR n cs =>
    match recursiveSortList cs with
    | none => none
    | some cs1 =>
      match sortChildren cs1 with
      | none => none
      | some cs2 => some (XOR n cs2)
/-- The loop of `recursiveSort()` over the children. -/
def recursiveSortList : List BF → Option (List BF)
  | [] => some []
  | c :: cs =>
    match recursiveSort c with
    | none => none
    | some c1 =>
      match recursiveSortList cs with
      | none => none
      | some cs1 => some (c1 :: cs1)
end

end BF

namespace kryptoSAT

/-! ## kryptoSAT.cpp: encryption of the clear text -/

/-- The interface `rng` with its method `seed(size_t)`: the generator object
after the call. -/
structure seededRng (σ : Type) extends rng σ where
  /-- The method `seed(seed)`. -/
  seed : σ → Nat → σ

/-- The contract of `seed`, "seed for reproducible pseudo random sequences":
the generator object after `seed(v)` depends on `v` only. -/
def Reproducible {σ : Type} (R : seededRng σ) : Prop :=
  ∀ (s1 s2 : σ) (v : Nat), R.seed s1 v = R.seed s2 v

/-- The loop of `encrypt(state&)` that folds the clear text into `seed`; both
`seed` and `pow` are `size_t`. -/
def seedLoop : List Bool → Nat → Nat → Nat
  | [], seed, _ => seed
  | b :: bs, seed, pow =>
    let seed1 := (seed + pow * (if b then 1 else 0)) % 2 ^ 64
    let pow1 := (pow * 2) % 2 ^ 64
    seedLoop bs seed1 (if pow1 ≠ pow1 then 1 else pow1)

/-- The value handed to `r->seed` by `encrypt(state&)`: `salt ^ seed`. -/
def clearTextSeed (salt : Nat) (clearText : List Bool) : Nat :=
  Nat.xor salt (seedLoop clearText 0 1)

/-- The encryption loop of `encrypt(state&)`: one call of `encrypt` per bit,
on the same generator.  The cipher is `none` when one of the calls has no
tree to return. -/
def encryptBits {σ : Type} (r : rng σ) (n : Nat) (publicKey : BF) (beta : Nat) :
    List Bool → σ → Option (List BF × σ)
  | [], st => some ([], st)
  | b :: bs, st =>
    match encrypt r n publicKey b beta st with
    | none => none
    | some (c, st1) =>
      match encryptBits r n publicKey beta bs st1 with
      | none => none
      | some (cs, st2) => some (c :: cs, st2)

/-- The function `encrypt(state&)` of `kryptoSAT.cpp`: the returned flag and
the state after the call.  The generator is seeded from the salt and the clear
text, the public key is sorted in place, and every bit is encrypted.  `none`
when sorting or one of the encryptions has no defined result. -/
def state.encrypt {σ : Type} (R : seededRng σ) (I : state σ) : Option (Bool × state σ) :=
  match I.clearText with
  | none => some (false, I)
  | some clearText =>
    match I.publicKey with
    | none => some (false, I)
    | some publicKey =>
      let st := R.seed I.r (clearTextSeed I.salt clearText)
      match publicKey.recursiveSort with
      | none => none
      | some sorted =>
        match encryptBits R.torng I.n sorted I.beta clearText st with
        | none => none
        | some (cipher, st1) =>
          some (true, ⟨I.k, I.n, I.m, some sorted, I.privateKey, I.clearText, some cipher,
            I.salt, st1, I.beta⟩)

/-- The generator `lcg` with `seed(v)` setting the state to `v % 64`. -/
def seededLcg : seededRng Nat := ⟨lcg, fun _ v => v % 64⟩

/-- A program state holding `smallKey`, the clear text `[true, false]`, the salt
7 and `beta = 2`. -/
def smallState : state Nat :=
  ⟨3, 3, 2, some smallKey, none, some [true, false], none, 7, 0, 2⟩

/-! ## kryptoSAT.h: the default overloads -/

/-- The overload `generatePublicKey(r, privateKey, privateKeyLength)`: the call
`generatePublicKey(r, privateKey, privateKeyLength, 8*privateKeyLength, 3)`,
the product being formed in `size_t`. -/
def generatePublicKeyDefault {σ : Type} (r : rng σ) (privateKey : Nat → Bool)
    (privateKeyLength : Nat) (fuel : Nat) (st : σ) : Option (BF × σ) :=
  generatePublicKey r privateKey privateKeyLength ((8 * privateKeyLength) % 2 ^ 64) 3 fuel st

/-- The overload `encrypt(r, privateKeyLength, publicKey, input)`: the call
`encrypt(r, privateKeyLength, publicKey, input, 3)`. -/
def encryptDefault {σ : Type} (r : rng σ) (privateKeyLength : Nat) (publicKey : BF)
    (input : Bool) (st : σ) : Option (BF × σ) :=
  encrypt r privateKeyLength publicKey input 3 st

/-! ## encrypt.h: the list `g` of `encrypt` before the final sort -/

/-- The list `g` of `encrypt` when the double loop has ended, just before
`sortANF(g,false)`, with the generator state: the permutation step, the loop
over the clauses and the double loop, as in `encryptANF`. -/
def preCanonical {σ : Type} (r : rng σ) (publicKey : BF) (beta_ : Nat) (st : σ) :
    Option (ANF × σ) :=
  let m := toUInt publicKey.size
  let beta := toUInt beta_
  let perm := drawPermutation r m (List.range m) [] st
  match convertClauses perm.1 publicKey.children 0
      (List.replicate m []) (List.replicate m []) with
  | none => none
  | some (nClause, depends) => cipherLoop r nClause depends m beta perm.2

/-! ## Vocabulary of the later statements -/

/-- A polynomial all of whose conjunctions are non-empty and strictly
ascending. -/
def tidyANF (g : ANF) : Prop := ∀ m ∈ g, m ≠ [] ∧ m.Pairwise (fun a b => a < b)

/-- No entry of the list compares greater than a later one: `compare` is
defined on every such pair and is `≤ 0`. -/
def NonDecreasing (cs : List BF) : Prop :=
  cs.Pairwise (fun a b => ∃ v, BF.compare a b = some v ∧ v ≤ 0)

/-- The node `c` with its children in the order of the stable sort by
`boolCompare`. -/
def sortLits (c : BF) : BF := c.withChildren (listSort BF.lessBF c.children)

/-- A key whose two clauses have the same literals in different order. -/
def mirrorKey : BF :=
  BF.AND 3 [BF.OR 3 [BF.INPUT 3 0 [], BF.INPUT 3 2 []],
    BF.OR 3 [BF.INPUT 3 2 [], BF.INPUT 3 0 []]]

mutual
/-- Every `Not` node of the tree has at most one child. -/
def unaryNots : BF → Prop
  | BF.TRUE _ cs => unaryNotsList cs
  | BF.FALSE _ cs => unaryNotsList cs
  | BF.INPUT _ _ cs => unaryNotsList cs
  | BF.NOT _ cs => cs.length ≤ 1 ∧ unaryNotsList cs
  | BF.AND _ cs => unaryNotsList cs
  | BF.OR _ cs => unaryNotsList cs
  | BF.XOR _ cs => unaryNotsList cs
/-- Every `Not` node of every tree of the list has at most one child. -/
def unaryNotsList : List BF → Prop
  | [] => True
  | c :: cs => unaryNots c ∧ unaryNotsList cs
end

/-- The number with the binary digits `bits`, least significant first. -/
def binaryValue : List Bool → Nat
  | [] => 0
  | b :: bs => (if b then 1 else 0) + 2 * binaryValue bs

/-- The variable `pow` of the loop of `encrypt(state&)` when the loop has
ended, started from `pow`. -/
def powLoop : List Bool → Nat → Nat
  | [], pow => pow
  | _ :: bs, pow =>
    let pow1 := (pow * 2) % 2 ^ 64
    powLoop bs (if pow1 ≠ pow1 then 1 else pow1)

/-! ## functionParser.h: streams and numbers

A text is the list of its characters.  `size_t` and `long` have 64 bits where
a number is written or read. -/

/-- An input stream: the characters not yet extracted and the state flags
`eofbit` and `failbit`. -/
structure istream where
  rest : List Char
  eofbit : Bool
  failbit : Bool

/-- The method `good()`: no state flag is set. -/
def istream.good (s : istream) : Bool := !s.eofbit && !s.failbit

/-- A stream from which nothing has been extracted yet, as
`istringstream iss(line)` or a file that was just opened. -/
def istringstream (str : List Char) : istream := ⟨str, false, false⟩

/-- The characters in front of the first `delim` and the characters behind
it, `none` when there is no `delim`. -/
def extract (delim : Char) : List Char → List Char × Option (List Char)
  | [] => ([], none)
  | c :: cs =>
    if c = delim then ([], some cs)
    else (c :: (extract delim cs).1, (extract delim cs).2)

/-- The function `getline(s, str, delim)`: the stream and the string after the
call.  On a stream that is not good the string is left as it is and `failbit`
is set.  Otherwise the string is erased and characters are extracted up to the
delimiter, which is extracted and dropped; when the end of the input is reached
first, `eofbit` is set, and `failbit` as well if nothing was extracted. -/
def getline (s : istream) (str : List Char) (delim : Char) : istream × List Char :=
  if s.good then
    match (extract delim s.rest).2 with
    | some rest => (⟨rest, false, false⟩, (extract delim s.rest).1)
    | none => (⟨[], true, (extract delim s.rest).1.isEmpty⟩, (extract delim s.rest).1)
  else (⟨s.rest, s.eofbit, true⟩, str)

/-- The loop `while (file.good()) { getline(file, line); body }`, where `body`
acts on the local variables `v` and has no result when it leaves the function.
No result when the fuel runs out. -/
def whileGood {V : Type} (body : V → List Char → Option V) :
    Nat → istream → List Char → V → Option V
  | 0, _, _, _ => none
  | fuel + 1, file, line, v =>
    if file.good then
      match body v (getline file line (Char.ofNat 10)).2 with
      | none => none
      | some v1 =>
        whileGood body fuel (getline file line (Char.ofNat 10)).1
          (getline file line (Char.ofNat 10)).2 v1
    else some v

/-- The loop `while (getline(iss, token, ' ')) { body }`; the loop goes on
while `failbit` is not set after the call of `getline`. -/
def whileGetline {V : Type} (body : V → List Char → Option V) :
    Nat → istream → List Char → V → Option V
  | 0, _, _, _ => none
  | fuel + 1, iss, token, v =>
    if (getline iss token ' ').1.failbit then some v
    else
      match body v (getline iss token ' ').2 with
      | none => none
      | some v1 =>
        whileGetline body fuel (getline iss token ' ').1 (getline iss token ' ').2 v1

/-- The function `isspace` of the "C" locale. -/
def isspace (c : Char) : Bool := c.toNat = 32 || (9 ≤ c.toNat && c.toNat ≤ 13)

/-- The number with the decimal digits `ds`. -/
def digitsValue (ds : List Char) : Nat :=
  ds.foldl (fun acc c => 10 * acc + (c.toNat - 48)) 0

/-- The function `stol(str)`: leading white space is skipped, then an optional
sign and the longest run of decimal digits are read.  No result when an
exception is thrown: `invalid_argument` when there is no digit, `out_of_range`
when the value is not a `long`. -/
def stol (str : List Char) : Option Int :=
  let s := str.dropWhile isspace
  let body := if s.head? = some '-' ∨ s.head? = some '+' then s.tail else s
  let digits := body.takeWhile Char.isDigit
  if digits = [] then none
  else
    let v : Int :=
      if s.head? = some '-' then -(digitsValue digits : Int) else (digitsValue digits : Int)
    if -(2 : Int) ^ 63 ≤ v ∧ v < 2 ^ 63 then some v else none

/-- Conversion of a `long` to `size_t`. -/
def toSizeT (v : Int) : Nat := (v % 2 ^ 64).toNat

/-- Conversion to `long`: the value in `[-2^63, 2^63)` that is equal modulo
`2^64`. -/
def toLong (v : Int) : Int := (v + 2 ^ 63) % 2 ^ 64 - 2 ^ 63

/-- The output `os << v` of a `size_t`: its decimal digits. -/
def printSizeT (v : Nat) : List Char := Nat.toDigits 10 v

/-- The output `os << v` of a `long`: a minus sign for a negative value, and
the decimal digits. -/
def printLong (v : Int) : List Char :=
  if v < 0 then '-' :: Nat.toDigits 10 (-v).toNat else Nat.toDigits 10 v.toNat

/-- The output of `endl`. -/
def endl : List Char := [Char.ofNat 10]

/-! ## functionParser.h: reading -/

/-- The local variables of `readCNF` and of `readANF` that live across the
lines; `re` is `none` for the null pointer. -/
structure readerVars where
  nbrVars : Nat
  nbrClauses : Nat
  actualNbrClauses : Nat
  re : Option BF

/-- The branch `if(nbrVars==0)` of `readCNF` and `readANF`: the line
`p format nbrVars nbrClauses`.  The four tokens are read without a look at the
stream; `root` is the constructor of the tree to return.  No result when the
function returns 0 or `stol` throws. -/
def readHeader (format : List Char) (root : Nat → BF) (v : readerVars) (line : List Char) :
    Option readerVars :=
  let t1 := getline (istringstream line) [] ' '
  if t1.2 ≠ "p".toList then none
  else
    let t2 := getline t1.1 t1.2 ' '
    if t2.2 ≠ format then none
    else
      let t3 := getline t2.1 t2.2 ' '
      match stol t3.2 with
      | none => none
      | some nbrVars =>
        let t4 := getline t3.1 t3.2 ' '
        match stol t4.2 with
        | none => none
        | some nbrClauses =>
          some ⟨toSizeT nbrVars, toSizeT nbrClauses, v.actualNbrClauses,
            some (root (toSizeT nbrVars))⟩

/-- The body of the token loop of `readCNF`, on `finishedClause` and the
children of `bigOr`.  No result when the function returns 0, `stol` throws or
`-VN` overflows. -/
def cnfToken (nbrVars : Nat) (v : Bool × List BF) (token : List Char) :
    Option (Bool × List BF) :=
  if v.1 then none
  else
    match stol token with
    | none => none
    | some VN =>
      if VN < 0 then
        if VN = -(2 : Int) ^ 63 then none
        else some (v.1, v.2 ++ [BF.NOT nbrVars [BF.INPUT nbrVars (toSizeT (-VN - 1)) []]])
      else if VN > 0 then some (v.1, v.2 ++ [BF.INPUT nbrVars (toSizeT (VN - 1)) []])
      else some (true, v.2)

/-- The body of the loop over the lines of `readCNF`. -/
def readCNFLine (v : readerVars) (line : List Char) : Option readerVars :=
  if line.length > 0 ∧ line.head? ≠ some 'c' ∧ line.head? ≠ some '#' then
    if v.nbrVars = 0 then readHeader "cnf".toList (fun n => BF.AND n []) v line
    else
      match whileGetline (cnfToken v.nbrVars) (line.length + 2) (istringstream line) []
          (false, []) with
      | none => none
      | some (finishedClause, bigOr) =>
        if !finishedClause then none
        else
          match v.re with
          | none => none
          | some re =>
            some ⟨v.nbrVars, v.nbrClauses, v.actualNbrClauses + 1,
              some (re.withChildren (re.children ++ [BF.OR v.nbrVars bigOr]))⟩
  else some v

/-- The function `readCNF(istream&)` on a stream with the content `text`.
No result when the function returns 0 or leaves by an exception. -/
def readCNF (text : List Char) : Option BF :=
  match whileGood readCNFLine (text.length + 2) (istringstream text) [] ⟨0, 0, 0, none⟩ with
  | none => none
  | some v => if v.actualNbrClauses ≠ v.nbrClauses then none else v.re

/-- The body of the token loop of `readANF`, on `finishedClause` and the
children of `bigAnd`. -/
def anfToken (nbrVars : Nat) (v : Bool × List BF) (token : List Char) :
    Option (Bool × List BF) :=
  if v.1 ∧ token ≠ "0".toList then none
  else
    match stol token with
    | none => none
    | some VN =>
      if VN < 0 then none
      else if VN > 0 then some (v.1, v.2 ++ [BF.INPUT nbrVars (toSizeT (VN - 1)) []])
      else some (true, v.2)

/-- The body of the loop over the lines of `readANF`. -/
def readANFLine (v : readerVars) (line : List Char) : Option readerVars :=
  if line.length > 0 ∧ line.head? ≠ some 'c' ∧ line.head? ≠ some '#' then
    if v.nbrVars = 0 then readHeader "anf".toList (fun n => BF.XOR n []) v line
    else
      match whileGetline (anfToken v.nbrVars) (line.length + 2) (istringstream line) []
          (false, []) with
      | none => none
      | some (finishedClause, bigAnd) =>
        if !finishedClause then none
        else
          match v.re with
          | none => none
          | some re =>
            some ⟨v.nbrVars, v.nbrClauses, v.actualNbrClauses + 1,
              some (re.withChildren (re.children ++
                [BF.AND v.nbrVars
                  (if bigAnd.length < 1 then bigAnd ++ [BF.TRUE v.nbrVars []] else bigAnd)]))⟩
  else some v

/-- The function `readANF(istream&)` on a stream with the content `text`.
No result when the function returns 0, leaves by an exception, or reads
`re->size()` of the null pointer. -/
def readANF (text : List Char) : Option BF :=
  match whileGood readANFLine (text.length + 2) (istringstream text) [] ⟨0, 0, 0, none⟩ with
  | none => none
  | some v =>
    if v.actualNbrClauses ≠ v.nbrClauses then none
    else
      match v.re with
      | none => none
      | some re => some re

/-! ## functionParser.h: writing -/

/-- The inner loop of `writeCNF` and `writeANF`: `os << (*j)->getDependence()
<< " "` for every child; the `long` that `getDependence()` returns is the
dependence converted to 64 bits. -/
def writeDependences : List BF → List Char → List Char
  | [], out => out
  | j :: js, out =>
    writeDependences js (out ++ printLong (toLong j.getDependence) ++ " ".toList)

/-- The loop over the children in `writeCNF` and `writeANF`, `type` being the
type that every child has to have: the text written and the value
returned. -/
def writeLoop (type : booleanFctTypes) : List BF → List Char → List Char × Bool
  | [], out => (out, true)
  | i :: is, out =>
    if i.myType ≠ type then (out, false)
    else writeLoop type is (writeDependences i.children out ++ "0".toList ++ endl)

/-- The function `writeCNF(ostream&, cnf)`: the text written to the stream and
the value returned. -/
def writeCNF (cnf : BF) : List Char × Bool :=
  writeLoop booleanFctTypes.BFT_OR cnf.children
    ("c This cnf file was written by the cnfparser of KryptoSAT.".toList ++ endl ++
      "c The format is specified in e.g. http://www.dwheeler.com/essays/minisat-user-guide.html".toList
      ++ endl ++ "c".toList ++ endl ++
      "p cnf ".toList ++ printSizeT cnf.getNumberOfVars ++ " ".toList ++ printSizeT cnf.size
      ++ endl)

/-- The function `writeANF(ostream&, anf)`: the text written to the stream and
the value returned. -/
def writeANF (anf : BF) : List Char × Bool :=
  writeLoop booleanFctTypes.BFT_AND anf.children
    ("c The format of the next line is 'p anf numberOfVariables NumberOfSummands'".toList
      ++ endl ++
      "p anf ".toList ++ printSizeT anf.getNumberOfVars ++ " ".toList ++ printSizeT anf.size
      ++ endl ++
      "c The following lines specify the summands, one per line.".toList ++ endl ++
      "c Each summand is a conjunction of variables (without negation).".toList ++ endl ++
      "c These are given as a space seperated list of their indices terminated by '0'.".toList
      ++ endl ++
      "c A double  '0 0' indicates the constant summand '1'.".toList ++ endl)

/-! ## Auxiliary functions of the proofs about functionParser.h -/

/-- The text written for a child of a clause or summand, without the blank
behind it. -/
def dependenceToken (j : BF) : List Char := printLong (toLong j.getDependence)

/-- The line written for a clause or summand, without the line feed. -/
def childLine (c : BF) : List Char :=
  (c.children.map dependenceToken).flatMap (fun t => t ++ [' ']) ++ ['0']

/-- A text made of decimal digits and minus signs only. -/
def Numeric (t : List Char) : Prop := ∀ c ∈ t, c.isDigit = true ∨ c = '-'

/-- The lines that `writeCNF` writes for a node over `n` variables with the
children `cs`, without the line feeds. -/
def cnfLines (n : Nat) (cs : List BF) : List (List Char) :=
  ["c This cnf file was written by the cnfparser of KryptoSAT.".toList,
    "c The format is specified in e.g. http://www.dwheeler.com/essays/minisat-user-guide.html".toList,
    "c".toList,
    ['p'] ++ ' ' :: (['c', 'n', 'f'] ++ ' ' :: (printSizeT n ++ ' ' :: printSizeT cs.length))] ++
  cs.map childLine

/-- The lines that `writeANF` writes for a node over `n` variables with the
children `cs`, without the line feeds. -/
def anfLines (n : Nat) (cs : List BF) : List (List Char) :=
  ["c The format of the next line is 'p anf numberOfVariables NumberOfSummands'".toList,
    ['p'] ++ ' ' :: (['a', 'n', 'f'] ++ ' ' :: (printSizeT n ++ ' ' :: printSizeT cs.length)),
    "c The following lines specify the summands, one per line.".toList,
    "c Each summand is a conjunction of variables (without negation).".toList,
    "c These are given as a space seperated list of their indices terminated by '0'.".toList,
    "c A double  '0 0' indicates the constant summand '1'.".toList] ++
  cs.map childLine

/-- The lines of a text: the parts between the line feeds, the part behind
the last line feed included. -/
def splitLines : List Char → List (List Char)
  | [] => [[]]
  | c :: cs =>
    if c = Char.ofNat 10 then [] :: splitLines cs
    else
      match splitLines cs with
      | [] => [[c]]
      | l :: ls => (c :: l) :: ls

/-- The tokens of a line: the parts between the blanks, the part behind the
last blank included unless it is empty. -/
def splitTokens : List Char → List (List Char)
  | [] => []
  | c :: cs =>
    if c = ' ' then [] :: splitTokens cs
    else
      match splitTokens cs with
      | [] => [[c]]
      | t :: ts => (c :: t) :: ts

/-! ## booleanFct.h: `getDependence` with the 64 bits explicit -/

/-- The method `getDependence()` with the width of its result explicit.
`booleanFct<BFT_INPUT>` forms `inputVar + 1` in `size_t` and returns it as a
`long`; `booleanFct<BFT_NOT>` negates the `long` of its first child, which for
the smallest `long` gives that value again; the other nodes return 0 or the
`long` of their first child. -/
def getDependenceLong : BF → Int
  | BF.TRUE _ _ => 0
  | BF.FALSE _ _ => 0
  | BF.INPUT _ inputVar _ => toLong (((inputVar + 1) % 2 ^ 64 : Nat) : Int)
  | BF.NOT _ [] => 0
  | BF.NOT _ (c :: _) => toLong (- getDependenceLong c)
  | BF.AND _ [] => 0
  | BF.AND _ (c :: _) => getDependenceLong c
  | BF.OR _ [] => 0
  | BF.OR _ (c :: _) => getDependenceLong c
  | BF.XOR _ [] => 0
  | BF.XOR _ (c :: _) => getDependenceLong c

/-! # Lemmas -/

open BF

theorem compare_self (x : List Nat) : compare x x = 0 := by
  induction x with
  | nil => rfl
  | cons a x ih => simp [compare, ih]

theorem eq_of_compare_eq_zero : ∀ (x y : List Nat), compare x y = 0 → x = y
  | [], [] => fun _ => rfl
  | [], _ :: _ => fun h => by simp [compare] at h
  | _ :: _, [] => fun h => by simp [compare] at h
  | a :: x, b :: y => fun h => by
    simp only [compare] at h
    by_cases h1 : a < b
    · simp [h1] at h
    · by_cases h2 : a > b
      · simp [h1, h2] at h
      · simp only [h1, h2, if_false] at h
        have hab : a = b := by omega
        rw [hab, eq_of_compare_eq_zero x y h]

theorem compare_eq_zero_iff (x y : List Nat) : compare x y = 0 ↔ x = y :=
  ⟨eq_of_compare_eq_zero x y, fun h => h ▸ compare_self x⟩

theorem eq_iff (x y : List Nat) : eq x y = true ↔ x = y := by
  simp [eq, compare_eq_zero_iff]

theorem compare_swap : ∀ (x y : List Nat), compare y x = - compare x y
  | [], [] => rfl
  | [], _ :: _ => rfl
  | _ :: _, [] => rfl
  | a :: x, b :: y => by
    simp only [compare]
    rcases Nat.lt_trichotomy a b with h | h | h
    · have h1 : ¬ b < a := by omega
      have h2 : a < b := h
      simp [h1, h2]
    · subst h; simp [compare_swap x y]
    · have h1 : ¬ a < b := by omega
      have h2 : b < a := h
      simp [h1, h2]

theorem Lt_iff (x y : List Nat) : Lt x y ↔ compare x y < 0 := by
  simp [Lt, lt]

theorem Lt_irrefl (x : List Nat) : ¬ Lt x x := by
  simp [Lt_iff, compare_self]

theorem Lt_asymm {x y : List Nat} (h : Lt x y) : ¬ Lt y x := by
  rw [Lt_iff] at *
  rw [compare_swap x y]; omega

theorem Lt_trichotomy (x y : List Nat) : Lt x y ∨ x = y ∨ Lt y x := by
  rw [Lt_iff, Lt_iff, ← compare_eq_zero_iff, compare_swap x y]
  omega

theorem compare_cons_neg {a b : Nat} {x y : List Nat} (h : compare (a :: x) (b :: y) < 0) :
    a < b ∨ (a = b ∧ compare x y < 0) := by
  simp only [compare] at h
  by_cases h1 : a < b
  · exact Or.inl h1
  · by_cases h2 : a > b
    · simp [h1, h2] at h
    · simp only [h1, h2, if_false] at h
      exact Or.inr ⟨by omega, h⟩

theorem compare_cons_neg_of {a b : Nat} {x y : List Nat}
    (h : a < b ∨ (a = b ∧ compare x y < 0)) : compare (a :: x) (b :: y) < 0 := by
  simp only [compare]
  rcases h with h | ⟨h, h2⟩
  · simp [h]
  · subst h; simpa using h2

theorem Lt_trans : ∀ {x y z : List Nat}, Lt x y → Lt y z → Lt x z
  | [], [], _ => fun h _ => absurd h (Lt_irrefl _)
  | [], _ :: _, [] => fun _ h => by simp [Lt_iff, compare] at h
  | [], _ :: _, _ :: _ => fun _ _ => by simp [Lt_iff, compare]
  | _ :: _, [], _ => fun h _ => by simp [Lt_iff, compare] at h
  | _ :: _, _ :: _, [] => fun _ h => by simp [Lt_iff, compare] at h
  | a :: x, b :: y, c :: z => fun h1 h2 => by
    rw [Lt_iff] at *
    apply compare_cons_neg_of
    rcases compare_cons_neg h1 with h1 | ⟨h1, h1'⟩ <;>
      rcases compare_cons_neg h2 with h2 | ⟨h2, h2'⟩
    · left; omega
    · left; omega
    · left; omega
    · right
      refine ⟨by omega, ?_⟩
      have := @Lt_trans x y z
      simp only [Lt_iff] at this
      exact this h1' h2'

theorem gt_iff (x y : List Nat) : gt x y = true ↔ Lt y x := Iff.rfl

theorem Ascending.nodup {g : ANF} (h : Ascending g) : g.Nodup :=
  List.Pairwise.imp (fun {a b} (hab : Lt a b) (heq : a = b) => Lt_irrefl b (heq ▸ hab)) h

theorem Ascending.ext {g h : ANF} (hg : Ascending g) (hh : Ascending h)
    (hm : ∀ z, z ∈ g ↔ z ∈ h) : g = h :=
  haveI : IsAntisymm (List Nat) Lt := ⟨fun _ _ h1 h2 => absurd h2 (Lt_asymm h1)⟩
  List.eq_of_perm_of_sorted ((List.perm_ext_iff_of_nodup hg.nodup hh.nodup).2 hm) hg hh


theorem insertOrErase_cons_lt {x y : List Nat} (pre suf : ANF) (h : Lt y x) :
    insertOrErase x (pre, y :: suf) = insertOrErase x (pre ++ [y], suf) := by
  have h' : lt y x = true := h
  simp [insertOrErase, skipLess, h']

theorem insertOrErase_cons_gt {x y : List Nat} (pre suf : ANF) (h : Lt x y) :
    insertOrErase x (pre, y :: suf) = (pre, x :: y :: suf) := by
  have h1 : lt y x = false := by
    have := Lt_asymm h
    simpa [Lt] using this
  have h2 : gt y x = true := h
  simp [insertOrErase, skipLess, h1, h2]

theorem insertOrErase_cons_eq (x : List Nat) (pre suf : ANF) :
    insertOrErase x (pre, x :: suf) = (pre, suf) := by
  have h1 : lt x x = false := by
    have := Lt_irrefl x
    simpa [Lt] using this
  simp [insertOrErase, skipLess, h1, gt]

theorem skipLess_eq (x : List Nat) (pre suf : ANF) :
    skipLess x pre suf =
      (pre ++ suf.takeWhile (fun y => lt y x), suf.dropWhile (fun y => lt y x)) := by
  induction suf generalizing pre with
  | nil => simp [skipLess]
  | cons y suf ih =>
    by_cases h : lt y x = true
    · simp [skipLess, h, ih, List.takeWhile_cons, List.dropWhile_cons]
    · simp [skipLess, h, List.takeWhile_cons, List.dropWhile_cons]

/-- On a canonical list whose passed part lies below `x`, one round of
`insertOrErase` toggles the membership of `x` and keeps the list canonical. -/
theorem insertOrErase_spec (x : List Nat) (st : ANF × ANF)
    (hs : Ascending (st.1 ++ st.2)) (hp : ∀ p ∈ st.1, Lt p x) :
    Ascending ((insertOrErase x st).1 ++ (insertOrErase x st).2) ∧
    (∀ p ∈ (insertOrErase x st).1, Lt p x) ∧
    (∀ z, z ∈ (insertOrErase x st).1 ++ (insertOrErase x st).2 ↔
      ((z ∈ st.1 ++ st.2 ∧ z ≠ x) ∨ (z ∉ st.1 ++ st.2 ∧ z = x))) := by
  obtain ⟨pre, suf⟩ := st
  simp only at hs hp ⊢
  induction suf generalizing pre with
  | nil =>
    simp only [insertOrErase, skipLess]
    refine ⟨?_, hp, ?_⟩
    · unfold Ascending at *
      rw [List.pairwise_append] at *
      exact ⟨hs.1, List.pairwise_singleton _ _, fun a ha b hb => by
        rw [List.mem_singleton] at hb; subst hb; exact hp a ha⟩
    · intro z
      simp only [List.append_nil, List.mem_append, List.mem_singleton]
      constructor
      · rintro (h | h)
        · exact Or.inl ⟨h, fun e => Lt_irrefl x (e ▸ hp z h)⟩
        · exact Or.inr ⟨fun hz => Lt_irrefl x (h ▸ hp z hz), h⟩
      · rintro (⟨h, _⟩ | ⟨_, h⟩)
        · exact Or.inl h
        · exact Or.inr h
  | cons y suf ih =>
    rcases Lt_trichotomy y x with hyx | hyx | hyx
    · rw [insertOrErase_cons_lt pre suf hyx]
      have hs' : Ascending ((pre ++ [y]) ++ suf) := by simpa using hs
      have hp' : ∀ p ∈ pre ++ [y], Lt p x := by
        intro p hp1
        rcases List.mem_append.1 hp1 with h | h
        · exact hp p h
        · rw [List.mem_singleton] at h; subst h; exact hyx
      have := ih (pre ++ [y]) hs' hp'
      simpa using this
    · subst hyx
      rw [insertOrErase_cons_eq]
      have hnd := hs.nodup
      refine ⟨?_, hp, ?_⟩
      · unfold Ascending at *
        rw [List.pairwise_append] at *
        exact ⟨hs.1, (List.pairwise_cons.1 hs.2.1).2, fun a ha b hb =>
          hs.2.2 a ha b (List.mem_cons_of_mem _ hb)⟩
      · intro z
        have hx1 : y ∉ pre := fun h => Lt_irrefl y (hp y h)
        have hx2 : y ∉ suf := by
          have := (List.pairwise_append.1 hs).2.1
          exact fun h => Lt_irrefl y ((List.pairwise_cons.1 this).1 y h)
        simp only [List.mem_append, List.mem_cons]
        constructor
        · rintro (h | h)
          · exact Or.inl ⟨Or.inl h, fun e => hx1 (e ▸ h)⟩
          · exact Or.inl ⟨Or.inr (Or.inr h), fun e => hx2 (e ▸ h)⟩
        · rintro (⟨h | h | h, hne⟩ | ⟨hn, he⟩)
          · exact Or.inl h
          · exact absurd h hne
          · exact Or.inr h
          · exact absurd (Or.inr (Or.inl he)) hn
    · rw [insertOrErase_cons_gt pre suf hyx]
      have hsuf := (List.pairwise_append.1 hs).2.1
      have hys : ∀ b ∈ suf, Lt y b := (List.pairwise_cons.1 hsuf).1
      refine ⟨?_, hp, ?_⟩
      · unfold Ascending at *
        rw [List.pairwise_append] at *
        refine ⟨hs.1, List.pairwise_cons.2 ⟨?_, hs.2.1⟩, ?_⟩
        · intro b hb
          rcases List.mem_cons.1 hb with h | h
          · subst h; exact hyx
          · exact Lt_trans hyx (hys b h)
        · intro a ha b hb
          rcases List.mem_cons.1 hb with h | h
          · subst h; exact hp a ha
          · exact hs.2.2 a ha b h
      · intro z
        have hx1 : x ∉ pre := fun h => Lt_irrefl x (hp x h)
        have hx2 : x ∉ y :: suf := by
          intro h
          rcases List.mem_cons.1 h with h | h
          · subst h; exact Lt_irrefl _ hyx
          · exact Lt_asymm hyx (hys x h)
        simp only [List.mem_append, List.mem_cons] at hx2 ⊢
        constructor
        · rintro (h | h | h)
          · exact Or.inl ⟨Or.inl h, fun e => hx1 (e ▸ h)⟩
          · subst h
            exact Or.inr ⟨fun hh => hh.elim hx1 hx2, rfl⟩
          · exact Or.inl ⟨Or.inr h, fun e => hx2 (e ▸ h)⟩
        · rintro (⟨h | h, hne⟩ | ⟨hn, he⟩)
          · exact Or.inl h
          · exact Or.inr (Or.inr h)
          · exact Or.inr (Or.inl he)


theorem addFold_spec (gp : ANF) (st : ANF × ANF) (hgp : Ascending gp)
    (hs : Ascending (st.1 ++ st.2)) (hp : ∀ x ∈ gp, ∀ p ∈ st.1, Lt p x) :
    Ascending ((gp.foldl (fun st i => insertOrErase i st) st).1 ++
      (gp.foldl (fun st i => insertOrErase i st) st).2) ∧
    ∀ z, z ∈ (gp.foldl (fun st i => insertOrErase i st) st).1 ++
        (gp.foldl (fun st i => insertOrErase i st) st).2 ↔
      ((z ∈ st.1 ++ st.2 ∧ z ∉ gp) ∨ (z ∉ st.1 ++ st.2 ∧ z ∈ gp)) := by
  induction gp generalizing st with
  | nil => simp [hs]
  | cons x rest ih =>
    obtain ⟨h1, h2, h3⟩ := insertOrErase_spec x st hs (fun p hpp => hp x (List.mem_cons_self _ _) p hpp)
    have hx : ∀ b ∈ rest, Lt x b := (List.pairwise_cons.1 hgp).1
    have hrest : Ascending rest := (List.pairwise_cons.1 hgp).2
    have hp' : ∀ x' ∈ rest, ∀ p ∈ (insertOrErase x st).1, Lt p x' :=
      fun x' hx' p hpp => Lt_trans (h2 p hpp) (hx x' hx')
    obtain ⟨i1, i2⟩ := ih (insertOrErase x st) hrest h1 hp'
    rw [List.foldl_cons]
    refine ⟨i1, fun z => ?_⟩
    rw [i2 z, h3 z]
    have hxr : x ∉ rest := fun h => Lt_irrefl x (hx x h)
    simp only [List.mem_cons]
    by_cases hzx : z = x
    · subst hzx; tauto
    · tauto

/-- On canonical inputs `addToANF` returns the canonical symmetric difference. -/
theorem addToANF_spec (g h : ANF) (hg : Ascending g) (hh : Ascending h) :
    Ascending (addToANF g h) ∧
    ∀ z, z ∈ addToANF g h ↔ ((z ∈ g ∧ z ∉ h) ∨ (z ∉ g ∧ z ∈ h)) := by
  have := addFold_spec h ([], g) hh (by simpa using hg) (by simp)
  simpa [addToANF] using this

theorem addToANF_self_inverse (g h : ANF) (hg : Ascending g) (hh : Ascending h) :
    addToANF (addToANF g h) h = g := by
  obtain ⟨c1, m1⟩ := addToANF_spec g h hg hh
  obtain ⟨c2, m2⟩ := addToANF_spec (addToANF g h) h c1 hh
  apply Ascending.ext c2 hg
  intro z
  rw [m2 z, m1 z]
  tauto


theorem Le_iff (x y : List Nat) : Le x y ↔ Lt x y ∨ x = y := by
  unfold Le
  rcases Lt_trichotomy x y with h | h | h
  · exact ⟨fun _ => Or.inl h, fun _ => Lt_asymm h⟩
  · subst h; exact ⟨fun _ => Or.inr rfl, fun _ => Lt_irrefl x⟩
  · constructor
    · intro h'; exact absurd h h'
    · rintro (h' | h')
      · exact absurd h (Lt_asymm h')
      · subst h'; exact absurd h (Lt_irrefl x)

theorem Le_trans {x y z : List Nat} (h1 : Le x y) (h2 : Le y z) : Le x z := by
  rw [Le_iff] at *
  rcases h1 with h1 | h1 <;> rcases h2 with h2 | h2
  · exact Or.inl (Lt_trans h1 h2)
  · subst h2; exact Or.inl h1
  · subst h1; exact Or.inl h2
  · subst h1; subst h2; exact Or.inr rfl

section Sorting
variable {α : Type} (less : α → α → Bool)

theorem orderedInsert_perm (x : α) (l : List α) : (orderedInsert less x l).Perm (x :: l) := by
  induction l with
  | nil => simp [orderedInsert]
  | cons y ys ih =>
    simp only [orderedInsert]
    split_ifs
    · exact (List.Perm.cons y ih).trans (List.Perm.swap x y ys)
    · exact List.Perm.refl _

theorem listSort_perm (l : List α) : (listSort less l).Perm l := by
  induction l with
  | nil => simp [listSort]
  | cons x xs ih =>
    simp only [listSort]
    exact (orderedInsert_perm less x _).trans (List.Perm.cons x ih)

theorem orderedInsert_sorted
    (hasymm : ∀ a b, less a b = true → less b a = false)
    (htrans : ∀ a b c, less b a = false → less c b = false → less c a = false)
    (x : α) (l : List α) (hl : l.Pairwise (fun a b => less b a = false)) :
    (orderedInsert less x l).Pairwise (fun a b => less b a = false) := by
  induction l with
  | nil => simp [orderedInsert]
  | cons y ys ih =>
    obtain ⟨hy, hys⟩ := List.pairwise_cons.1 hl
    simp only [orderedInsert]
    by_cases h : less y x = true
    · rw [if_pos h]
      refine List.pairwise_cons.2 ⟨?_, ih hys⟩
      intro z hz
      rcases List.mem_cons.1 ((orderedInsert_perm less x ys).subset hz) with e | e
      · subst e; exact hasymm _ _ h
      · exact hy z e
    · rw [if_neg h]
      have h' : less y x = false := by simpa using h
      refine List.pairwise_cons.2 ⟨?_, hl⟩
      intro z hz
      rcases List.mem_cons.1 hz with e | e
      · subst e; exact h'
      · exact htrans _ _ _ h' (hy z e)

theorem listSort_sorted
    (hasymm : ∀ a b, less a b = true → less b a = false)
    (htrans : ∀ a b c, less b a = false → less c b = false → less c a = false)
    (l : List α) : (listSort less l).Pairwise (fun a b => less b a = false) := by
  induction l with
  | nil => simp [listSort]
  | cons x xs ih => exact orderedInsert_sorted less hasymm htrans x _ ih

theorem listSort_of_sorted (l : List α) (hl : l.Pairwise (fun a b => less b a = false)) :
    listSort less l = l := by
  induction l with
  | nil => rfl
  | cons x xs ih =>
    obtain ⟨hx, hxs⟩ := List.pairwise_cons.1 hl
    simp only [listSort, ih hxs]
    cases xs with
    | nil => rfl
    | cons y ys => simp [orderedInsert, hx y (List.mem_cons_self _ _)]

end Sorting

theorem cmp_asymm (a b : List Nat) (h : cmp a b = true) : cmp b a = false := by
  have : ¬ Lt b a := Lt_asymm h
  simpa [Lt, cmp] using this

theorem cmp_false_iff (a b : List Nat) : cmp b a = false ↔ Le a b := by
  simp [Le, Lt, cmp]

theorem cmp_trans (a b c : List Nat) (h1 : cmp b a = false) (h2 : cmp c b = false) :
    cmp c a = false := by
  rw [cmp_false_iff] at *
  exact Le_trans h1 h2

theorem listSort_cmp_sorted (l : ANF) : (listSort cmp l).Pairwise Le := by
  have := listSort_sorted cmp cmp_asymm cmp_trans l
  exact this.imp (fun {a b} h => (cmp_false_iff a b).1 h)

theorem listSort_cmp_of_canonical (l : ANF) (h : Ascending l) : listSort cmp l = l := by
  apply listSort_of_sorted
  exact List.Pairwise.imp (fun {a b} (hab : Lt a b) => (cmp_false_iff a b).2 (Lt_asymm hab)) h

theorem deletePairs_subset : ∀ (l : ANF), ∀ z ∈ deletePairs l, z ∈ l
  | [] => by simp [deletePairs]
  | [x] => by simp [deletePairs]
  | x :: y :: rest => by
    intro z hz
    simp only [deletePairs] at hz
    split_ifs at hz with h
    · exact List.mem_cons_of_mem _ (List.mem_cons_of_mem _ (deletePairs_subset rest z hz))
    · rcases List.mem_cons.1 hz with e | e
      · subst e; exact List.mem_cons_self _ _
      · exact List.mem_cons_of_mem _ (deletePairs_subset (y :: rest) z e)

theorem deletePairs_spec : ∀ (l : ANF), l.Pairwise Le →
    Ascending (deletePairs l) ∧ ∀ z, z ∈ deletePairs l ↔ Odd (l.count z)
  | [] => by intro _; simp [deletePairs, Ascending]
  | [x] => by
    intro _
    refine ⟨by simp [deletePairs, Ascending], fun z => ?_⟩
    simp only [deletePairs, List.mem_singleton, List.count_cons, List.count_nil]
    by_cases h : z = x
    · subst h; simp
    · have : ¬ x = z := fun e => h e.symm
      simp [h, this]
  | x :: y :: rest => by
    intro hl
    obtain ⟨hx, hyr⟩ := List.pairwise_cons.1 hl
    obtain ⟨hy, hr⟩ := List.pairwise_cons.1 hyr
    simp only [deletePairs]
    by_cases h : eq y x = true
    · have hxy : y = x := (eq_iff y x).1 h
      subst hxy
      rw [if_pos h]
      obtain ⟨c, m⟩ := deletePairs_spec rest hr
      refine ⟨c, fun z => ?_⟩
      rw [m z, List.count_cons, List.count_cons]
      by_cases hz : y = z
      · subst hz; simp [Nat.odd_iff]; omega
      · simp [hz]
    · rw [if_neg h]
      have hne : y ≠ x := fun e => h ((eq_iff y x).2 e)
      have hlt : Lt x y := by
        rcases (Le_iff x y).1 (hx y (List.mem_cons_self _ _)) with h1 | h1
        · exact h1
        · exact absurd h1.symm hne
      have hall : ∀ z ∈ y :: rest, Lt x z := by
        intro z hz
        rcases List.mem_cons.1 hz with e | e
        · subst e; exact hlt
        · rcases (Le_iff y z).1 (hy z e) with h1 | h1
          · exact Lt_trans hlt h1
          · subst h1; exact hlt
      obtain ⟨c, m⟩ := deletePairs_spec (y :: rest) hyr
      refine ⟨List.pairwise_cons.2 ⟨fun z hz => hall z (deletePairs_subset _ z hz), c⟩, fun z => ?_⟩
      rw [List.mem_cons, m z, List.count_cons (a := z) (b := x)]
      by_cases hz : z = x
      · subst hz
        have hn : z ∉ y :: rest := fun hm => Lt_irrefl z (hall z hm)
        rw [List.count_eq_zero_of_not_mem hn]
        simp
      · have : ¬ x = z := fun e => hz e.symm
        simp [hz, this]


theorem foldl_and_eq {α : Type} (f : α → Bool) (l : List α) (b : Bool) :
    l.foldl (fun re v => re && f v) b = (b && l.all f) := by
  induction l generalizing b with
  | nil => simp
  | cons x xs ih => simp [ih, Bool.and_assoc]

theorem foldl_bne_eq {α : Type} (f : α → Bool) (l : List α) (b : Bool) :
    l.foldl (fun re v => re != f v) b = (b != l.foldl (fun re v => re != f v) false) := by
  induction l generalizing b with
  | nil => simp
  | cons x xs ih =>
    simp only [List.foldl_cons]
    rw [ih (b != f x), ih (false != f x)]
    cases b <;> cases f x <;> simp

theorem monomialValue_eq_all (a : Nat → Bool) (m : List Nat) :
    monomialValue a m = m.all (fun v => if v = 0 then true else a (v - 1)) := by
  simp [monomialValue, foldl_and_eq]

theorem monomialValue_perm (a : Nat → Bool) {m m' : List Nat} (h : m.Perm m') :
    monomialValue a m = monomialValue a m' := by
  rw [monomialValue_eq_all, monomialValue_eq_all, Bool.eq_iff_iff]
  simp only [List.all_eq_true]
  exact ⟨fun H x hx => H x (h.symm.subset hx), fun H x hx => H x (h.subset hx)⟩

theorem anfValue_nil (a : Nat → Bool) : anfValue a [] = false := rfl

theorem anfValue_cons (a : Nat → Bool) (m : List Nat) (g : ANF) :
    anfValue a (m :: g) = (monomialValue a m != anfValue a g) := by
  unfold anfValue
  rw [List.foldl_cons, foldl_bne_eq]
  simp

theorem anfValue_append (a : Nat → Bool) (g h : ANF) :
    anfValue a (g ++ h) = (anfValue a g != anfValue a h) := by
  induction g with
  | nil => simp [anfValue_nil]
  | cons m g ih =>
    rw [List.cons_append, anfValue_cons, anfValue_cons, ih]
    cases monomialValue a m <;> cases anfValue a g <;> cases anfValue a h <;> rfl

theorem anfValue_perm (a : Nat → Bool) {g h : ANF} (p : g.Perm h) :
    anfValue a g = anfValue a h := by
  induction p with
  | nil => rfl
  | cons x _ ih => rw [anfValue_cons, anfValue_cons, ih]
  | swap x y l =>
    simp only [anfValue_cons]
    cases monomialValue a x <;> cases monomialValue a y <;> cases anfValue a l <;> rfl
  | trans _ _ ih1 ih2 => rw [ih1, ih2]

theorem anfValue_deletePairs (a : Nat → Bool) : ∀ (l : ANF),
    anfValue a (deletePairs l) = anfValue a l
  | [] => rfl
  | [x] => rfl
  | x :: y :: rest => by
    simp only [deletePairs]
    by_cases h : eq y x = true
    · rw [if_pos h, anfValue_deletePairs a rest]
      have : y = x := (eq_iff y x).1 h
      subst this
      simp only [anfValue_cons]
      cases monomialValue a y <;> cases anfValue a rest <;> rfl
    · rw [if_neg h, anfValue_cons, anfValue_deletePairs a (y :: rest), anfValue_cons a x]

theorem anfValue_map_sort (a : Nat → Bool) (g : ANF) :
    anfValue a (g.map (listSort (fun x y : Nat => decide (x < y)))) = anfValue a g := by
  induction g with
  | nil => rfl
  | cons m g ih =>
    rw [List.map_cons, anfValue_cons, anfValue_cons, ih,
      monomialValue_perm a (listSort_perm _ m)]

theorem sortANF_eq (g : ANF) (subSort : Bool) :
    sortANF g subSort = deletePairs (listSort cmp (innerSorted g subSort)) := rfl

theorem sortANF_spec (g : ANF) (subSort : Bool) :
    Ascending (sortANF g subSort) ∧
    (∀ z, z ∈ sortANF g subSort ↔ Odd ((innerSorted g subSort).count z)) ∧
    ∀ a, anfValue a (sortANF g subSort) = anfValue a g := by
  obtain ⟨c, m⟩ := deletePairs_spec _ (listSort_cmp_sorted (innerSorted g subSort))
  refine ⟨c, fun z => ?_, fun a => ?_⟩
  · rw [sortANF_eq, m z]
    unfold List.count
    rw [List.Perm.countP_eq _ (listSort_perm cmp _)]
  · rw [sortANF_eq, anfValue_deletePairs, anfValue_perm a (listSort_perm cmp _)]
    cases subSort
    · rfl
    · exact anfValue_map_sort a g

theorem deletePairs_of_canonical : ∀ (l : ANF), Ascending l → deletePairs l = l
  | [] => fun _ => rfl
  | [x] => fun _ => rfl
  | x :: y :: rest => fun h => by
    obtain ⟨hx, hyr⟩ := List.pairwise_cons.1 h
    have hlt : Lt x y := hx y (List.mem_cons_self _ _)
    have hne : ¬ eq y x = true := fun e => by
      have := (eq_iff y x).1 e
      subst this
      exact Lt_irrefl _ hlt
    simp only [deletePairs, if_neg hne, deletePairs_of_canonical (y :: rest) hyr]

theorem sortANF_of_canonical (g : ANF) (h : Ascending g) : sortANF g false = g := by
  rw [sortANF_eq]
  simp only [innerSorted]
  rw [if_neg (by simp), listSort_cmp_of_canonical g h, deletePairs_of_canonical g h]

theorem natLt_asymm (a b : Nat) (h : decide (a < b) = true) : decide (b < a) = false := by
  simp at *; omega

theorem natLt_trans (a b c : Nat) (h1 : decide (b < a) = false) (h2 : decide (c < b) = false) :
    decide (c < a) = false := by
  simp at *; omega

theorem sortANF_idem (g : ANF) (subSort : Bool) :
    sortANF (sortANF g subSort) subSort = sortANF g subSort := by
  obtain ⟨c, m, _⟩ := sortANF_spec g subSort
  have key : innerSorted (sortANF g subSort) subSort = sortANF g subSort := by
    cases subSort
    · rfl
    · simp only [innerSorted, if_true]
      conv_rhs => rw [← List.map_id (sortANF g true)]
      apply List.map_congr_left
      intro z hz
      have hz1 : z ∈ innerSorted g true := by
        have := (m z).1 hz
        by_contra hn
        rw [List.count_eq_zero_of_not_mem hn] at this
        simp at this
      simp only [innerSorted, if_true, List.mem_map] at hz1
      obtain ⟨w, _, rfl⟩ := hz1
      exact listSort_of_sorted _ _ (listSort_sorted _ natLt_asymm natLt_trans w)
  rw [sortANF_eq (sortANF g subSort), key, listSort_cmp_of_canonical _ c,
    deletePairs_of_canonical _ c]

/-! ### Products of conjunctions -/

theorem mem_insertLit (v : Nat) (l : List Nat) (z : Nat) :
    z ∈ insertLit v l ↔ z = v ∨ z ∈ l := by
  induction l with
  | nil => simp [insertLit]
  | cons a l ih =>
    simp only [insertLit]
    by_cases h1 : a < v
    · simp only [if_pos h1, List.mem_cons, ih]; tauto
    · by_cases h2 : a > v
      · simp only [if_neg h1, if_pos h2, List.mem_cons]
      · have : a = v := by omega
        subst this
        simp only [if_neg h1, if_neg h2, List.mem_cons]; tauto

theorem insertLit_sorted (v : Nat) (l : List Nat) (h : l.Pairwise (fun a b => a < b)) :
    (insertLit v l).Pairwise (fun a b => a < b) := by
  induction l with
  | nil => simp [insertLit]
  | cons a l ih =>
    obtain ⟨ha, hl⟩ := List.pairwise_cons.1 h
    simp only [insertLit]
    by_cases h1 : a < v
    · rw [if_pos h1]
      refine List.pairwise_cons.2 ⟨fun z hz => ?_, ih hl⟩
      rcases (mem_insertLit v l z).1 hz with e | e
      · subst e; exact h1
      · exact ha z e
    · by_cases h2 : a > v
      · rw [if_neg h1, if_pos h2]
        refine List.pairwise_cons.2 ⟨fun z hz => ?_, h⟩
        rcases List.mem_cons.1 hz with e | e
        · subst e; exact h2
        · exact lt_trans h2 (ha z e)
      · rw [if_neg h1, if_neg h2]; exact h

theorem mem_foldl_insertLit (j i : List Nat) (z : Nat) :
    z ∈ j.foldl (fun prod lit2 => insertLit lit2 prod) i ↔ z ∈ i ∨ z ∈ j := by
  induction j generalizing i with
  | nil => simp
  | cons a j ih =>
    rw [List.foldl_cons, ih, mem_insertLit, List.mem_cons]; tauto

theorem foldl_insertLit_sorted (j i : List Nat) (h : i.Pairwise (fun a b => a < b)) :
    (j.foldl (fun prod lit2 => insertLit lit2 prod) i).Pairwise (fun a b => a < b) := by
  induction j generalizing i with
  | nil => simpa using h
  | cons a j ih => rw [List.foldl_cons]; exact ih _ (insertLit_sorted a i h)

theorem multiplyMonomial_eq (i j : List Nat) (hi : i ≠ []) (hj : j ≠ []) :
    multiplyMonomial i j = some (prodOf i j) := by
  cases i with
  | nil => exact absurd rfl hi
  | cons a i =>
    cases j with
    | nil => exact absurd rfl hj
    | cons b j =>
      simp only [multiplyMonomial, front, prodOf, List.head?_cons, Option.some.injEq]
      by_cases h1 : a = 0
      · simp [h1]
      · by_cases h2 : b = 0
        · simp [h1, h2]
        · simp [h1, h2]

theorem sort_toFinset_of_sorted (l : List Nat) (h : l.Pairwise (fun a b => a < b)) :
    l.toFinset.sort (fun a b => a ≤ b) = l := by
  have hnd : l.Nodup := h.imp (fun {a b} hab => Nat.ne_of_lt hab)
  exact (List.toFinset_sort (fun a b : Nat => a ≤ b) hnd).2 (h.imp (fun {a b} hab => Nat.le_of_lt hab))

theorem sort_eq_of_toFinset_eq (l : List Nat) (S : Finset Nat)
    (h : l.Pairwise (fun a b => a < b)) (hS : l.toFinset = S) :
    S.sort (fun a b => a ≤ b) = l := by
  rw [← hS]; exact sort_toFinset_of_sorted l h

theorem isMonomial_ne_nil {m : List Nat} (h : isMonomial m) : m ≠ [] := by
  rcases h with h | h
  · rw [h]; simp
  · exact h.1

theorem isMonomial_cases {m : List Nat} (h : isMonomial m) :
    m = [0] ∨ (m ≠ [0] ∧ m ≠ [] ∧ m.Pairwise (fun a b => a < b) ∧ (∀ v ∈ m, 0 < v) ∧
      m.head? ≠ some 0) := by
  rcases h with h | ⟨h1, h2, h3⟩
  · exact Or.inl h
  · refine Or.inr ⟨?_, h1, h2, h3, ?_⟩
    · intro e; rw [e] at h3; exact absurd (h3 0 (List.mem_singleton_self 0)) (by simp)
    · cases m with
      | nil => simp
      | cons a m =>
        have := h3 a (List.mem_cons_self _ _)
        simp; omega

theorem monomialSet_of_ne {m : List Nat} (h : m ≠ [0]) : monomialSet m = m.toFinset := by
  simp [monomialSet, h]

theorem setMonomial_monomialSet {m : List Nat} (h : isMonomial m) :
    setMonomial (monomialSet m) = m := by
  rcases isMonomial_cases h with h | ⟨h0, h1, h2, h3, _⟩
  · subst h; simp [monomialSet, setMonomial]
  · rw [monomialSet_of_ne h0]
    have hne : m.toFinset ≠ ∅ := by
      rw [Ne, List.toFinset_eq_empty_iff]; exact h1
    simp only [setMonomial, if_neg hne]
    exact sort_toFinset_of_sorted m h2

theorem zero_not_mem_monomialSet {m : List Nat} (h : isMonomial m) : 0 ∉ monomialSet m := by
  rcases isMonomial_cases h with h | ⟨h0, _, _, h3, _⟩
  · subst h; simp [monomialSet]
  · rw [monomialSet_of_ne h0, List.mem_toFinset]
    intro hz; exact absurd (h3 0 hz) (by simp)

theorem isMonomial_setMonomial (S : Finset Nat) (h : 0 ∉ S) : isMonomial (setMonomial S) := by
  unfold setMonomial
  by_cases hS : S = ∅
  · rw [if_pos hS]; exact Or.inl rfl
  · rw [if_neg hS]
    right
    refine ⟨?_, ?_, ?_⟩
    · intro e
      have := Finset.sort_toFinset (fun a b : Nat => a ≤ b) S
      rw [e] at this
      exact hS (by simpa using this.symm)
    · exact Finset.sort_sorted_lt S
    · intro v hv
      rw [Finset.mem_sort] at hv
      rcases Nat.eq_zero_or_pos v with e | e
      · subst e; exact absurd hv h
      · exact e

theorem monomialSet_setMonomial (S : Finset Nat) (h : 0 ∉ S) :
    monomialSet (setMonomial S) = S := by
  unfold setMonomial
  by_cases hS : S = ∅
  · rw [if_pos hS]; simp [monomialSet, hS]
  · rw [if_neg hS]
    have hne : S.sort (fun a b => a ≤ b) ≠ [0] := by
      intro e
      have : 0 ∈ S.sort (fun a b => a ≤ b) := by rw [e]; simp
      rw [Finset.mem_sort] at this
      exact h this
    rw [monomialSet_of_ne hne, Finset.sort_toFinset]

theorem isMonomial_sortedUnion {A B : List Nat} (hA : isMonomial A) (hB : isMonomial B) :
    isMonomial (sortedUnion A B) := by
  apply isMonomial_setMonomial
  rw [Finset.mem_union]
  rintro (h | h)
  · exact zero_not_mem_monomialSet hA h
  · exact zero_not_mem_monomialSet hB h

theorem sortedUnion_comm (A B : List Nat) : sortedUnion A B = sortedUnion B A := by
  unfold sortedUnion; rw [Finset.union_comm]

theorem sortedUnion_one_right {A : List Nat} (hA : isMonomial A) : sortedUnion A [0] = A := by
  unfold sortedUnion
  have : monomialSet [0] = ∅ := by simp [monomialSet]
  rw [this, Finset.union_empty, setMonomial_monomialSet hA]

theorem sortedUnion_one_left {A : List Nat} (hA : isMonomial A) : sortedUnion [0] A = A := by
  rw [sortedUnion_comm, sortedUnion_one_right hA]

/-- On monomials the product formed by `multiplyToANF` is the sorted union. -/
theorem prodOf_eq_sortedUnion {i j : List Nat} (hi : isMonomial i) (hj : isMonomial j) :
    prodOf i j = sortedUnion i j := by
  rcases isMonomial_cases hi with h | ⟨hi0, hi1, hi2, hi3, hi4⟩
  · subst h
    simp only [prodOf, List.head?_cons, if_true]
    exact (sortedUnion_one_left hj).symm
  · rcases isMonomial_cases hj with h | ⟨hj0, hj1, hj2, hj3, hj4⟩
    · subst h
      simp only [prodOf, if_neg hi4, List.head?_cons, if_true]
      exact (sortedUnion_one_right hi).symm
    · simp only [prodOf, if_neg hi4, if_neg hj4]
      unfold sortedUnion
      rw [monomialSet_of_ne hi0, monomialSet_of_ne hj0]
      have hne : i.toFinset ∪ j.toFinset ≠ ∅ := by
        intro e
        have := Finset.union_eq_empty.1 e
        exact hi1 ((List.toFinset_eq_empty_iff i).1 this.1)
      simp only [setMonomial, if_neg hne]
      symm
      apply sort_eq_of_toFinset_eq _ _ (foldl_insertLit_sorted j i hi2)
      ext z
      simp [mem_foldl_insertLit]

/-! ### The double loop of `multiplyToANF` -/

theorem foldlM_option_eq {α β : Type} (f : β → α → Option β) (f1 : β → α → β) (l : List α)
    (h : ∀ b, ∀ a ∈ l, f b a = some (f1 b a)) (b : β) :
    l.foldlM f b = some (l.foldl f1 b) := by
  induction l generalizing b with
  | nil => rfl
  | cons a l ih =>
    rw [List.foldlM_cons, h b a (List.mem_cons_self _ _)]
    simp only [Option.some_bind, List.foldl_cons]
    exact ih (fun b a ha => h b a (List.mem_cons_of_mem _ ha)) _

theorem foldl_flatMap_map {α β γ : Type} (f : γ → β → γ) (p : α → α → β) (l gp : List α) (b : γ) :
    (gp.flatMap (fun i => l.map (fun j => p i j))).foldl f b =
      gp.foldl (fun g i => l.foldl (fun g j => f g (p i j)) g) b := by
  induction gp generalizing b with
  | nil => rfl
  | cons i gp ih =>
    rw [List.flatMap_cons, List.foldl_append, List.foldl_cons, ih, List.foldl_map]

theorem multiplyLoop_eq (l gp : ANF) (sortResult : Bool)
    (hl : ∀ m ∈ l, m ≠ []) (hgp : ∀ m ∈ gp, m ≠ []) :
    multiplyLoop l gp sortResult = some ((products l gp).foldl (addProduct sortResult) []) := by
  unfold multiplyLoop products
  rw [foldl_flatMap_map]
  apply foldlM_option_eq
  intro b i hi
  apply foldlM_option_eq
  intro b' j hj
  rw [multiplyMonomial_eq i j (hgp i hi) (hl j hj)]

/-! ### Accumulating the products in sorted mode -/

theorem addProduct_true_spec (acc : ANF) (p : List Nat) (h : Ascending acc) :
    Ascending (addProduct true acc p) ∧
    ∀ z, z ∈ addProduct true acc p ↔ ((z ∈ acc ∧ z ≠ p) ∨ (z ∉ acc ∧ z = p)) := by
  have := insertOrErase_spec p ([], acc) (by simpa using h) (by simp)
  simp only [addProduct, if_true]
  exact ⟨this.1, by simpa using this.2.2⟩

theorem foldl_addProduct_spec (P : ANF) (acc : ANF) (h : Ascending acc) :
    Ascending (P.foldl (addProduct true) acc) ∧
    ∀ z, z ∈ P.foldl (addProduct true) acc ↔
      ((z ∈ acc ∧ ¬ Odd (P.count z)) ∨ (z ∉ acc ∧ Odd (P.count z))) := by
  induction P generalizing acc with
  | nil => simp [h]
  | cons p P ih =>
    obtain ⟨a1, a2⟩ := addProduct_true_spec acc p h
    obtain ⟨i1, i2⟩ := ih (addProduct true acc p) a1
    rw [List.foldl_cons]
    refine ⟨i1, fun z => ?_⟩
    rw [i2 z, a2 z, List.count_cons]
    by_cases hz : z = p
    · subst hz
      simp only [beq_self_eq_true, if_true, Nat.odd_add_one]
      tauto
    · have : (p == z) = false := by simpa using fun e => hz e.symm
      simp only [this, Bool.false_eq_true, if_false, Nat.add_zero]
      tauto

theorem foldl_addProduct_false (P acc : ANF) : P.foldl (addProduct false) acc = acc ++ P := by
  induction P generalizing acc with
  | nil => simp
  | cons p P ih => simp [List.foldl_cons, ih, addProduct]

/-! ### Counting pairs -/

theorem sum_map_add_indicator {β : Type} (a : β → Nat) (c : β → Bool) (ys : List β) :
    (ys.map (fun y => a y + (if c y = true then 1 else 0))).sum =
      (ys.map a).sum + ys.countP c := by
  induction ys with
  | nil => simp
  | cons y ys ih =>
    simp only [List.map_cons, List.sum_cons, ih, List.countP_cons]
    omega

theorem sum_countP_swap {α β : Type} (c : α → β → Bool) (xs : List α) (ys : List β) :
    (xs.map (fun x => ys.countP (fun y => c x y))).sum =
      (ys.map (fun y => xs.countP (fun x => c x y))).sum := by
  induction xs with
  | nil => simp
  | cons x xs ih =>
    simp only [List.map_cons, List.sum_cons, List.countP_cons, ih]
    rw [sum_map_add_indicator (fun y => xs.countP (fun x => c x y)) (fun y => c x y) ys]
    omega

theorem countP_flatMap_map {α β γ : Type} (P : γ → Bool) (f : α → β → γ)
    (xs : List α) (ys : List β) :
    (xs.flatMap (fun x => ys.map (f x))).countP P =
      (xs.map (fun x => ys.countP (fun y => P (f x y)))).sum := by
  induction xs with
  | nil => simp
  | cons x xs ih =>
    rw [List.flatMap_cons, List.countP_append, ih, List.countP_map]
    simp [Function.comp_def]

theorem pairCount_eq_sum (g h : ANF) (S : List Nat) :
    pairCount g h S =
      (g.map (fun A => h.countP (fun B => decide (sortedUnion A B = S)))).sum := by
  unfold pairCount List.product
  exact countP_flatMap_map (fun p : List Nat × List Nat => decide (sortedUnion p.1 p.2 = S))
    Prod.mk g h

theorem products_eq_of_monomials (l gp : ANF) (hl : ∀ m ∈ l, isMonomial m)
    (hgp : ∀ m ∈ gp, isMonomial m) :
    products l gp = gp.flatMap (fun i => l.map (fun j => sortedUnion j i)) := by
  unfold products
  apply List.flatMap_congr
  intro i hi
  apply List.map_congr_left
  intro j hj
  rw [prodOf_eq_sortedUnion (hgp i hi) (hl j hj), sortedUnion_comm]

theorem count_products (l gp : ANF) (hl : ∀ m ∈ l, isMonomial m)
    (hgp : ∀ m ∈ gp, isMonomial m) (S : List Nat) :
    (products l gp).count S = pairCount l gp S := by
  rw [products_eq_of_monomials l gp hl hgp, pairCount_eq_sum, List.count,
    countP_flatMap_map (fun z => z == S) (fun i j => sortedUnion j i) gp l,
    sum_countP_swap]
  congr 1
  apply List.map_congr_left
  intro A _
  congr 1
  funext B
  simp [Bool.beq_eq_decide_eq]

theorem isMonomial_of_mem_products (l gp : ANF) (hl : ∀ m ∈ l, isMonomial m)
    (hgp : ∀ m ∈ gp, isMonomial m) : ∀ z ∈ products l gp, isMonomial z := by
  intro z hz
  rw [products_eq_of_monomials l gp hl hgp, List.mem_flatMap] at hz
  obtain ⟨i, hi, hz⟩ := hz
  rw [List.mem_map] at hz
  obtain ⟨j, hj, rfl⟩ := hz
  exact isMonomial_sortedUnion (hl j hj) (hgp i hi)

/-! ### `multiplyToANF` in sorted mode -/

theorem isOne_of_monomials (x : ANF) (hx : ∀ m ∈ x, isMonomial m) :
    isOne x = some (decide (x = [[0]])) := by
  unfold isOne
  by_cases hlen : x.length = 1
  · rw [if_pos hlen]
    obtain ⟨m, rfl⟩ := List.length_eq_one.1 hlen
    have hm := hx m (List.mem_singleton_self m)
    rcases isMonomial_cases hm with h | ⟨h0, h1, _, _, h4⟩
    · subst h; rfl
    · cases m with
      | nil => exact absurd rfl h1
      | cons a t =>
        have ha : a ≠ 0 := by simpa using h4
        have : ¬ ([a :: t] = [[0]]) := by
          intro e
          simp only [List.cons.injEq, and_true] at e
          exact ha e.1
        simp [front, ha, this]
  · rw [if_neg hlen]
    have : ¬ (x = [[0]]) := fun e => hlen (by rw [e]; rfl)
    simp [this]

theorem pairCount_nil_left (h : ANF) (S : List Nat) : pairCount [] h S = 0 := by
  simp [pairCount_eq_sum]

theorem pairCount_nil_right (g : ANF) (S : List Nat) : pairCount g [] S = 0 := by
  simp [pairCount_eq_sum]

theorem odd_count_iff_mem {g : ANF} (hg : g.Nodup) (S : List Nat) :
    Odd (g.count S) ↔ S ∈ g := by
  induction g with
  | nil => simp
  | cons a g ih =>
    obtain ⟨ha, hg'⟩ := List.nodup_cons.1 hg
    rw [List.count_cons, List.mem_cons]
    by_cases h : a = S
    · subst h
      rw [List.count_eq_zero_of_not_mem ha]
      simp
    · have h' : (a == S) = false := by simpa using h
      have h3 : ¬ S = a := fun e => h e.symm
      simp [h', h3, ih hg']

theorem pairCount_one_right (g : ANF) (hg : ∀ m ∈ g, isMonomial m) (S : List Nat) :
    pairCount g [[0]] S = g.count S := by
  rw [pairCount_eq_sum]
  induction g with
  | nil => simp
  | cons A g ih =>
    have hA := hg A (List.mem_cons_self _ _)
    rw [List.map_cons, List.sum_cons, ih (fun m hm => hg m (List.mem_cons_of_mem _ hm)),
      List.count_cons]
    simp only [List.countP_cons, List.countP_nil, sortedUnion_one_right hA, Nat.zero_add]
    simp only [decide_eq_true_eq, beq_iff_eq]
    omega

theorem pairCount_one_left (h : ANF) (hh : ∀ m ∈ h, isMonomial m) (S : List Nat) :
    pairCount [[0]] h S = h.count S := by
  rw [pairCount_eq_sum]
  simp only [List.map_cons, List.map_nil, List.sum_cons, List.sum_nil, Nat.add_zero]
  rw [List.count]
  apply List.countP_congr
  intro B hB
  rw [sortedUnion_one_left (hh B hB)]
  simp

/-- On canonical polynomials the sorted `multiplyToANF` returns the canonical
GF(2) product. -/
theorem multiplyToANF_spec (g h : ANF) (hg : Canonical g) (hh : Canonical h) :
    ∃ r, multiplyToANF g h true = some r ∧ Canonical r ∧
      ∀ S, S ∈ r ↔ Odd (pairCount g h S) := by
  unfold multiplyToANF
  by_cases h1 : g.length = 0
  · rw [if_pos h1]
    have : g = [] := List.length_eq_zero.1 h1
    subst this
    exact ⟨[], rfl, hg, fun S => by simp [pairCount_nil_left]⟩
  rw [if_neg h1]
  by_cases h2 : h.length = 0
  · rw [if_pos h2]
    have : h = [] := List.length_eq_zero.1 h2
    subst this
    exact ⟨[], rfl, hh, fun S => by simp [pairCount_nil_right]⟩
  rw [if_neg h2, isOne_of_monomials h hh.2, isOne_of_monomials g hg.2]
  by_cases h3 : h = [[0]]
  · subst h3
    refine ⟨g, by simp, hg, fun S => ?_⟩
    rw [pairCount_one_right g hg.2, odd_count_iff_mem (Ascending.nodup hg.1)]
  by_cases h4 : g = [[0]]
  · subst h4
    refine ⟨h, by simp [h3], hh, fun S => ?_⟩
    rw [pairCount_one_left h hh.2, odd_count_iff_mem (Ascending.nodup hh.1)]
  have hl : ∀ m ∈ g, m ≠ [] := fun m hm => isMonomial_ne_nil (hg.2 m hm)
  have hgp : ∀ m ∈ h, m ≠ [] := fun m hm => isMonomial_ne_nil (hh.2 m hm)
  have hspec := foldl_addProduct_spec (products g h) [] (by simp [Ascending])
  have hmem : ∀ S, S ∈ (products g h).foldl (addProduct true) [] ↔ Odd (pairCount g h S) := by
    intro S
    rw [hspec.2 S, count_products g h hg.2 hh.2]
    simp
  refine ⟨_, by simp [h3, h4, multiplyLoop_eq g h true hl hgp], ⟨hspec.1, ?_⟩, hmem⟩
  intro m hm
  have hodd := (hspec.2 m).1 hm
  have hin : m ∈ products g h := by
    by_contra hn
    rw [List.count_eq_zero_of_not_mem hn] at hodd
    simp at hodd
  exact isMonomial_of_mem_products g h hg.2 hh.2 m hin

theorem multiplyToANF_one_right (g : ANF) (sortResult : Bool) :
    multiplyToANF g [[0]] sortResult = some g := by
  unfold multiplyToANF
  by_cases h1 : g.length = 0
  · rw [if_pos h1]
  · rw [if_neg h1]; rfl

theorem multiplyToANF_one_left (g : ANF) (hg : ∀ m ∈ g, isMonomial m) (sortResult : Bool) :
    multiplyToANF [[0]] g sortResult = some g := by
  unfold multiplyToANF
  by_cases h2 : g.length = 0
  · have : g = [] := List.length_eq_zero.1 h2
    subst this; rfl
  · rw [if_neg (by simp), if_neg h2, isOne_of_monomials g hg]
    by_cases h3 : g = [[0]]
    · subst h3; rfl
    · simp [h3, isOne, front]

theorem multiplyToANF_zero_right (g : ANF) (sortResult : Bool) :
    multiplyToANF g [] sortResult = some [] := by
  unfold multiplyToANF
  by_cases h1 : g.length = 0
  · rw [if_pos h1, List.length_eq_zero.1 h1]
  · rw [if_neg h1]; rfl

theorem multiplyToANF_zero_left (g : ANF) (sortResult : Bool) :
    multiplyToANF [] g sortResult = some [] := rfl

/-! ### Distributivity -/

theorem sum_map_addToANF (f : List Nat → Nat) (g h : ANF) (hg : Ascending g) (hh : Ascending h) :
    ((addToANF g h).map f).sum + 2 * ((g.filter (fun x => decide (x ∈ h))).map f).sum =
      (g.map f).sum + (h.map f).sum := by
  obtain ⟨ha, hm⟩ := addToANF_spec g h hg hh
  have p1 : (g.filter (fun x => decide (x ∈ h)) ++ g.filter (fun x => !decide (x ∈ h))).Perm g :=
    List.filter_append_perm _ g
  have p2 : (h.filter (fun x => decide (x ∈ g)) ++ h.filter (fun x => !decide (x ∈ g))).Perm h :=
    List.filter_append_perm _ h
  have hgn := Ascending.nodup hg
  have hhn := Ascending.nodup hh
  have p3 : (addToANF g h).Perm
      (g.filter (fun x => !decide (x ∈ h)) ++ h.filter (fun x => !decide (x ∈ g))) := by
    apply (List.perm_ext_iff_of_nodup (Ascending.nodup ha) ?_).2
    · intro z
      rw [hm z]
      simp only [List.mem_append, List.mem_filter, Bool.not_eq_true', decide_eq_false_iff_not]
      tauto
    · apply List.Nodup.append (hgn.filter _) (hhn.filter _)
      intro z hz1 hz2
      simp only [List.mem_filter, Bool.not_eq_true', decide_eq_false_iff_not] at hz1 hz2
      exact hz2.2 hz1.1
  have p4 : (g.filter (fun x => decide (x ∈ h))).Perm (h.filter (fun x => decide (x ∈ g))) := by
    apply (List.perm_ext_iff_of_nodup (hgn.filter _) (hhn.filter _)).2
    intro z
    simp only [List.mem_filter, decide_eq_true_eq]
    tauto
  have s1 := (p1.map f).sum_eq
  have s2 := (p2.map f).sum_eq
  have s3 := (p3.map f).sum_eq
  have s4 := (p4.map f).sum_eq
  simp only [List.map_append, List.sum_append] at s1 s2 s3
  omega

theorem odd_pairCount_addToANF (g h p : ANF) (hg : Ascending g) (hh : Ascending h)
    (S : List Nat) :
    Odd (pairCount (addToANF g h) p S) ↔
      ((Odd (pairCount g p S) ∧ ¬ Odd (pairCount h p S)) ∨
        (¬ Odd (pairCount g p S) ∧ Odd (pairCount h p S))) := by
  have := sum_map_addToANF (fun A => p.countP (fun B => decide (sortedUnion A B = S))) g h hg hh
  simp only [← pairCount_eq_sum] at this
  simp only [Nat.odd_iff]
  omega

theorem Canonical_addToANF (g h : ANF) (hg : Canonical g) (hh : Canonical h) :
    Canonical (addToANF g h) := by
  obtain ⟨ha, hm⟩ := addToANF_spec g h hg.1 hh.1
  refine ⟨ha, fun m hmem => ?_⟩
  rcases (hm m).1 hmem with h1 | h1
  · exact hg.2 m h1.1
  · exact hh.2 m h1.2

theorem listSort_of_isMonomial {m : List Nat} (h : isMonomial m) :
    listSort (fun a b : Nat => decide (a < b)) m = m := by
  apply listSort_of_sorted
  rcases h with h | ⟨_, h2, _⟩
  · subst h; simp
  · exact h2.imp (fun {a b} hab => by simp; omega)

theorem sortANF_of_Canonical (g : ANF) (hg : Canonical g) (subSort : Bool) :
    sortANF g subSort = g := by
  have key : innerSorted g subSort = g := by
    cases subSort
    · rfl
    · simp only [innerSorted, if_true]
      conv_rhs => rw [← List.map_id g]
      exact List.map_congr_left (fun m hm => listSort_of_isMonomial (hg.2 m hm))
  rw [sortANF_eq, key, listSort_cmp_of_canonical g hg.1, deletePairs_of_canonical g hg.1]

theorem multiply_distrib (g h p : ANF) (hg : Canonical g) (hh : Canonical h) (hp : Canonical p) :
    ∃ r1 r2 r3, multiplyToANF (addToANF g h) p true = some r1 ∧
      multiplyToANF g p true = some r2 ∧ multiplyToANF h p true = some r3 ∧
      sortANF r1 true = sortANF (addToANF r2 r3) true := by
  obtain ⟨r1, e1, c1, m1⟩ := multiplyToANF_spec (addToANF g h) p (Canonical_addToANF g h hg hh) hp
  obtain ⟨r2, e2, c2, m2⟩ := multiplyToANF_spec g p hg hp
  obtain ⟨r3, e3, c3, m3⟩ := multiplyToANF_spec h p hh hp
  refine ⟨r1, r2, r3, e1, e2, e3, ?_⟩
  have c4 := Canonical_addToANF r2 r3 c2 c3
  rw [sortANF_of_Canonical r1 c1, sortANF_of_Canonical _ c4]
  apply Ascending.ext c1.1 c4.1
  intro z
  rw [m1 z, (addToANF_spec r2 r3 c2.1 c3.1).2 z, m2 z, m3 z]
  exact odd_pairCount_addToANF g h p hg.1 hh.1 z

/-! ### Evaluation of trees -/

theorem evaluateAnd_eq (input : Nat → Bool) (cs : List BF) (re : Bool) :
    evaluateAnd input re cs = (re && cs.all (evaluate input)) := by
  induction cs generalizing re with
  | nil => simp [evaluateAnd]
  | cons c cs ih => simp [evaluateAnd, ih, Bool.and_assoc]

theorem evaluateOr_eq (input : Nat → Bool) (cs : List BF) (re : Bool) :
    evaluateOr input re cs = (re || cs.any (evaluate input)) := by
  induction cs generalizing re with
  | nil => simp [evaluateOr]
  | cons c cs ih => simp [evaluateOr, ih, Bool.or_assoc]

theorem evaluateXor_eq (input : Nat → Bool) (cs : List BF) (re : Bool) :
    evaluateXor input re cs = (re != evaluateXor input false cs) := by
  induction cs generalizing re with
  | nil => simp [evaluateXor]
  | cons c cs ih =>
    simp only [evaluateXor]
    rw [ih (re != evaluate input c), ih (false != evaluate input c)]
    cases re <;> cases evaluate input c <;> simp

theorem evaluate_AND (input : Nat → Bool) (n : Nat) (cs : List BF) :
    evaluate input (AND n cs) = cs.all (evaluate input) := by
  simp [evaluate, evaluateAnd_eq]

theorem evaluate_OR (input : Nat → Bool) (n : Nat) (cs : List BF) :
    evaluate input (OR n cs) = cs.any (evaluate input) := by
  simp [evaluate, evaluateOr_eq]

/-! ### The comparator is antisymmetric -/

theorem compare_unfold (x y : BF) :
    BF.compare x y = compareNode x y (compareChildren x.children y.children) := by
  cases x <;> simp [BF.compare, children]

theorem compareLeaf_swap (x y : BF) :
    compareLeaf y x = Option.map (fun v => -v) (compareLeaf x y) := by
  unfold compareLeaf
  by_cases h1 : x.getDependence < y.getDependence
  · have h2 : ¬ y.getDependence < x.getDependence := by omega
    simp [h1, h2]
  · by_cases h2 : y.getDependence < x.getDependence
    · simp [h1, h2]
    · by_cases h3 : x.myType = y.myType
      · simp [h1, h2, h3]
      · have h4 : ¬ y.myType = x.myType := fun e => h3 e.symm
        simp [h1, h2, h3, h4]

theorem compareNode_swap (x y : BF) (r1 r2 : Option Int)
    (h : x.size = y.size → r2 = Option.map (fun v => -v) r1) :
    compareNode y x r2 = Option.map (fun v => -v) (compareNode x y r1) := by
  unfold compareNode
  by_cases h1 : x.size < y.size
  · have h2 : ¬ y.size < x.size := by omega
    simp [h1, h2]
  · by_cases h2 : y.size < x.size
    · simp [h1, h2]
    · have h3 : x.size = y.size := by omega
      by_cases h4 : x.size > 0
      · have h5 : y.size > 0 := by omega
        simp [h1, h2, h4, h5, h h3]
      · have h5 : ¬ y.size > 0 := by omega
        simp only [h1, h2, h4, h5, if_false]
        exact compareLeaf_swap x y

mutual
theorem bf_compare_swap : ∀ (x y : BF),
    BF.compare y x = Option.map (fun v => -v) (BF.compare x y)
  | TRUE n cs, y => by
    rw [compare_unfold y, compare_unfold (TRUE n cs)]
    exact compareNode_swap _ _ _ _ (fun h => compareChildren_swap cs y.children h)
  | FALSE n cs, y => by
    rw [compare_unfold y, compare_unfold (FALSE n cs)]
    exact compareNode_swap _ _ _ _ (fun h => compareChildren_swap cs y.children h)
  | INPUT n v cs, y => by
    rw [compare_unfold y, compare_unfold (INPUT n v cs)]
    exact compareNode_swap _ _ _ _ (fun h => compareChildren_swap cs y.children h)
  | NOT n cs, y => by
    rw [compare_unfold y, compare_unfold (NOT n cs)]
    exact compareNode_swap _ _ _ _ (fun h => compareChildren_swap cs y.children h)
  | AND n cs, y => by
    rw [compare_unfold y, compare_unfold (AND n cs)]
    exact compareNode_swap _ _ _ _ (fun h => compareChildren_swap cs y.children h)
  | OR n cs, y => by
    rw [compare_unfold y, compare_unfold (OR n cs)]
    exact compareNode_swap _ _ _ _ (fun h => compareChildren_swap cs y.children h)
  | XOR n cs, y => by
    rw [compare_unfold y, compare_unfold (XOR n cs)]
    exact compareNode_swap _ _ _ _ (fun h => compareChildren_swap cs y.children h)
theorem compareChildren_swap : ∀ (xs ys : List BF), xs.length = ys.length →
    compareChildren ys xs = Option.map (fun v => -v) (compareChildren xs ys)
  | [], [], _ => by simp [compareChildren]
  | [], _ :: _, h => by simp at h
  | _ :: _, [], h => by simp at h
  | x :: xs, y :: ys, h => by
    have hlen : xs.length = ys.length := by simpa using h
    simp only [compareChildren]
    rw [bf_compare_swap x y, compareChildren_swap xs ys hlen]
    cases hc : BF.compare x y with
    | none => simp
    | some v =>
      by_cases hv : v = 0
      · simp [hv]
      · simp [hv]
end

/-! ### Key generation -/

theorem Differ.symm {a b : BF} (h : Differ a b) : Differ b a := by
  obtain ⟨v, hv, hne⟩ := h
  refine ⟨-v, ?_, by omega⟩
  rw [bf_compare_swap a b, hv]; rfl

theorem checkForDoubles_false (c : BF) (re : List BF) (h : checkForDoubles c re = some false) :
    ∀ i ∈ re, Differ i c := by
  induction re with
  | nil => simp
  | cons i re ih =>
    simp only [checkForDoubles] at h
    cases hc : BF.compare i c with
    | none => rw [hc] at h; simp at h
    | some v =>
      rw [hc] at h
      by_cases hv : v = 0
      · simp [hv] at h
      · simp only [if_neg hv] at h
        intro x hx
        rcases List.mem_cons.1 hx with e | e
        · subst e; exact ⟨v, hc, hv⟩
        · exact ih h x e

theorem plantClause_spec {σ : Type} (r : rng σ) (privateKey : Nat → Bool) (n : Nat)
    (vars : List Nat) (re : List BF) (fuel : Nat) (st : σ) (re1 : List BF) (st1 : σ)
    (h : plantClause r privateKey n vars re fuel st = some (re1, st1)) :
    re1 = re ∨ ∃ c, re1 = re ++ [c] ∧ evaluate privateKey c = true ∧ ∀ i ∈ re, Differ i c := by
  induction fuel generalizing st with
  | zero => simp [plantClause] at h
  | succ fuel ih =>
    simp only [plantClause] at h
    by_cases he : evaluate privateKey (OR n (drawSigns r n vars st).1) = true
    · simp only [he, Bool.not_true, Bool.false_eq_true, if_false] at h
      cases hd : checkForDoubles (OR n (drawSigns r n vars st).1) re with
      | none => rw [hd] at h; simp at h
      | some found =>
        rw [hd] at h
        simp only [Option.some.injEq, Prod.mk.injEq] at h
        cases found with
        | true => left; simpa using h.1.symm
        | false =>
          right
          exact ⟨_, by simpa using h.1.symm, he, checkForDoubles_false _ _ hd⟩
    · have he' : evaluate privateKey (OR n (drawSigns r n vars st).1) = false := by
        simpa using he
      simp only [he', Bool.not_false, if_true] at h
      exact ih _ h

theorem generateClauses_spec {σ : Type} (r : rng σ) (privateKey : Nat → Bool)
    (n m k : Nat) (fuel : Nat) (re : List BF) (st : σ) (re1 : List BF) (st1 : σ)
    (h : generateClauses r privateKey n m k fuel re st = some (re1, st1))
    (hp : ∀ c ∈ re, evaluate privateKey c = true) (hd : re.Pairwise Differ) :
    (∀ c ∈ re1, evaluate privateKey c = true) ∧ re1.Pairwise Differ := by
  induction fuel generalizing re st with
  | zero =>
    simp only [generateClauses] at h
    split_ifs at h
    simp only [Option.some.injEq, Prod.mk.injEq] at h
    rw [← h.1]; exact ⟨hp, hd⟩
  | succ fuel ih =>
    simp only [generateClauses] at h
    split_ifs at h with hlen
    · cases hv : drawVariables r n (fuel + 1) k [] st with
      | none => rw [hv] at h; simp at h
      | some vs =>
        obtain ⟨vars, st2⟩ := vs
        rw [hv] at h
        simp only at h
        cases hc : plantClause r privateKey n vars re (fuel + 1) st2 with
        | none => rw [hc] at h; simp at h
        | some res =>
          obtain ⟨re2, st3⟩ := res
          rw [hc] at h
          simp only at h
          rcases plantClause_spec r privateKey n vars re (fuel + 1) st2 re2 st3 hc with e | ⟨c, e, hev, hdiff⟩
          · rw [e] at h; exact ih re st3 h hp hd
          · rw [e] at h
            apply ih _ st3 h
            · intro x hx
              rcases List.mem_append.1 hx with hx | hx
              · exact hp x hx
              · rw [List.mem_singleton] at hx; subst hx; exact hev
            · rw [List.pairwise_append]
              refine ⟨hd, List.pairwise_singleton _ _, fun a ha b hb => ?_⟩
              rw [List.mem_singleton] at hb; subst hb; exact hdiff a ha
    · simp only [Option.some.injEq, Prod.mk.injEq] at h
      rw [← h.1]; exact ⟨hp, hd⟩

theorem generatePublicKey_spec {σ : Type} (r : rng σ) (privateKey : Nat → Bool)
    (n m k : Nat) (fuel : Nat) (st : σ) (key : BF) (st1 : σ)
    (h : generatePublicKey r privateKey n m k fuel st = some (key, st1)) :
    ∃ re, key = AND n re ∧ (∀ c ∈ re, evaluate privateKey c = true) ∧ re.Pairwise Differ := by
  unfold generatePublicKey at h
  cases hg : generateClauses r privateKey n m k fuel [] st with
  | none => rw [hg] at h; simp at h
  | some res =>
    obtain ⟨re, st2⟩ := res
    rw [hg] at h
    simp only [Option.some.injEq, Prod.mk.injEq] at h
    have := generateClauses_spec r privateKey n m k fuel [] st re st2 hg (by simp) (by simp)
    exact ⟨re, h.1.symm, this⟩

/-! ### Values of products -/

theorem goodMono_one (n : Nat) : goodMono n [0] := ⟨by simp, Or.inl rfl⟩

theorem goodANF_nil (n : Nat) : goodANF n [] := fun _ h => absurd h (List.not_mem_nil _)

theorem goodMono_head {n : Nat} {m : List Nat} (h : goodMono n m) :
    m.head? = some 0 → m = [0] := by
  intro hh
  rcases h.2 with e | e
  · exact e
  · cases m with
    | nil => simp at hh
    | cons a t =>
      simp only [List.head?_cons, Option.some.injEq] at hh
      have := (e a (List.mem_cons_self _ _)).1
      omega

theorem monomialValue_one (a : Nat → Bool) : monomialValue a [0] = true := rfl

theorem goodMono_prodOf {n : Nat} {i j : List Nat} (hi : goodMono n i) (hj : goodMono n j) :
    goodMono n (prodOf i j) := by
  unfold prodOf
  by_cases h1 : i.head? = some 0
  · rw [if_pos h1]; exact hj
  · rw [if_neg h1]
    by_cases h2 : j.head? = some 0
    · rw [if_pos h2]; exact hi
    · rw [if_neg h2]
      have hi' : ∀ v ∈ i, 0 < v ∧ v ≤ n := by
        rcases hi.2 with e | e
        · subst e; simp at h1
        · exact e
      have hj' : ∀ v ∈ j, 0 < v ∧ v ≤ n := by
        rcases hj.2 with e | e
        · subst e; simp at h2
        · exact e
      refine ⟨?_, Or.inr ?_⟩
      · intro e
        obtain ⟨x, hx⟩ := List.exists_mem_of_ne_nil i hi.1
        have : x ∈ j.foldl (fun prod lit2 => insertLit lit2 prod) i :=
          (mem_foldl_insertLit j i x).2 (Or.inl hx)
        rw [e] at this
        exact List.not_mem_nil _ this
      · intro v hv
        rcases (mem_foldl_insertLit j i v).1 hv with h | h
        · exact hi' v h
        · exact hj' v h

theorem monomialValue_prodOf (a : Nat → Bool) {n : Nat} {i j : List Nat}
    (hi : goodMono n i) (hj : goodMono n j) :
    monomialValue a (prodOf i j) = (monomialValue a i && monomialValue a j) := by
  unfold prodOf
  by_cases h1 : i.head? = some 0
  · rw [if_pos h1, goodMono_head hi h1, monomialValue_one]; simp
  · rw [if_neg h1]
    by_cases h2 : j.head? = some 0
    · rw [if_pos h2, goodMono_head hj h2, monomialValue_one]; simp
    · rw [if_neg h2, Bool.eq_iff_iff]
      simp only [monomialValue_eq_all, Bool.and_eq_true, List.all_eq_true, mem_foldl_insertLit]
      constructor
      · intro H; exact ⟨fun x hx => H x (Or.inl hx), fun x hx => H x (Or.inr hx)⟩
      · rintro ⟨H1, H2⟩ x (hx | hx)
        · exact H1 x hx
        · exact H2 x hx

theorem anfValue_map_prodOf (a : Nat → Bool) {n : Nat} (i : List Nat) (l : ANF)
    (hi : goodMono n i) (hl : goodANF n l) :
    anfValue a (l.map (fun j => prodOf i j)) = (monomialValue a i && anfValue a l) := by
  induction l with
  | nil => simp [anfValue_nil]
  | cons j l ih =>
    rw [List.map_cons, anfValue_cons, anfValue_cons,
      ih (fun m hm => hl m (List.mem_cons_of_mem _ hm)),
      monomialValue_prodOf a hi (hl j (List.mem_cons_self _ _))]
    cases monomialValue a i <;> cases monomialValue a j <;> cases anfValue a l <;> rfl

theorem anfValue_products (a : Nat → Bool) {n : Nat} (l gp : ANF)
    (hl : goodANF n l) (hgp : goodANF n gp) :
    anfValue a (products l gp) = (anfValue a l && anfValue a gp) := by
  unfold products
  induction gp with
  | nil => simp [anfValue_nil]
  | cons i gp ih =>
    rw [List.flatMap_cons, anfValue_append, anfValue_cons,
      ih (fun m hm => hgp m (List.mem_cons_of_mem _ hm)),
      anfValue_map_prodOf a i l (hgp i (List.mem_cons_self _ _)) hl]
    cases monomialValue a i <;> cases anfValue a l <;> cases anfValue a gp <;> rfl

theorem goodANF_products {n : Nat} (l gp : ANF) (hl : goodANF n l) (hgp : goodANF n gp) :
    goodANF n (products l gp) := by
  intro z hz
  unfold products at hz
  rw [List.mem_flatMap] at hz
  obtain ⟨i, hi, hz⟩ := hz
  rw [List.mem_map] at hz
  obtain ⟨j, hj, rfl⟩ := hz
  exact goodMono_prodOf (hgp i hi) (hl j hj)

/-! ### Values under `insertOrErase`, for arbitrary lists -/

theorem insertOrErase_value (a : Nat → Bool) (x : List Nat) (st : ANF × ANF) :
    anfValue a ((insertOrErase x st).1 ++ (insertOrErase x st).2) =
        (anfValue a (st.1 ++ st.2) != monomialValue a x) ∧
    ∀ z ∈ (insertOrErase x st).1 ++ (insertOrErase x st).2, z ∈ st.1 ++ st.2 ∨ z = x := by
  obtain ⟨pre, suf⟩ := st
  simp only
  induction suf generalizing pre with
  | nil =>
    simp only [insertOrErase, skipLess, List.append_nil]
    refine ⟨?_, fun z hz => ?_⟩
    · rw [anfValue_append, anfValue_cons, anfValue_nil]; simp
    · simpa using hz
  | cons y suf ih =>
    rcases Lt_trichotomy y x with hyx | hyx | hyx
    · rw [insertOrErase_cons_lt pre suf hyx]
      have := ih (pre ++ [y])
      simpa using this
    · subst hyx
      rw [insertOrErase_cons_eq]
      refine ⟨?_, fun z hz => ?_⟩
      · simp only [anfValue_append, anfValue_cons]
        cases anfValue a pre <;> cases monomialValue a y <;> cases anfValue a suf <;> rfl
      · simp only [List.mem_append, List.mem_cons] at hz ⊢
        tauto
    · rw [insertOrErase_cons_gt pre suf hyx]
      refine ⟨?_, fun z hz => ?_⟩
      · simp only [anfValue_append, anfValue_cons]
        cases anfValue a pre <;> cases monomialValue a y <;> cases monomialValue a x <;>
          cases anfValue a suf <;> rfl
      · simp only [List.mem_append, List.mem_cons] at hz ⊢
        tauto

theorem addToANF_value (a : Nat → Bool) (g h : ANF) :
    anfValue a (addToANF g h) = (anfValue a g != anfValue a h) ∧
    ∀ z ∈ addToANF g h, z ∈ g ∨ z ∈ h := by
  have key : ∀ (h : ANF) (st : ANF × ANF),
      anfValue a ((h.foldl (fun st i => insertOrErase i st) st).1 ++
          (h.foldl (fun st i => insertOrErase i st) st).2) =
        (anfValue a (st.1 ++ st.2) != anfValue a h) ∧
      ∀ z ∈ (h.foldl (fun st i => insertOrErase i st) st).1 ++
          (h.foldl (fun st i => insertOrErase i st) st).2, z ∈ st.1 ++ st.2 ∨ z ∈ h := by
    intro h
    induction h with
    | nil => intro st; simp [anfValue_nil]
    | cons x h ih =>
      intro st
      obtain ⟨v1, m1⟩ := insertOrErase_value a x st
      obtain ⟨v2, m2⟩ := ih (insertOrErase x st)
      rw [List.foldl_cons]
      refine ⟨?_, fun z hz => ?_⟩
      · rw [v2, v1, anfValue_cons]
        cases anfValue a (st.1 ++ st.2) <;> cases monomialValue a x <;> cases anfValue a h <;> rfl
      · rcases m2 z hz with h1 | h1
        · rcases m1 z h1 with h2 | h2
          · exact Or.inl h2
          · exact Or.inr (h2 ▸ List.mem_cons_self _ _)
        · exact Or.inr (List.mem_cons_of_mem _ h1)
  have := key h ([], g)
  simpa [addToANF] using this

theorem addProduct_value (a : Nat → Bool) (sortResult : Bool) (g : ANF) (p : List Nat) :
    anfValue a (addProduct sortResult g p) = (anfValue a g != monomialValue a p) ∧
    ∀ z ∈ addProduct sortResult g p, z ∈ g ∨ z = p := by
  cases sortResult
  · simp only [addProduct, Bool.false_eq_true, if_false]
    refine ⟨?_, fun z hz => by simpa using hz⟩
    rw [anfValue_append, anfValue_cons, anfValue_nil]; simp
  · have := insertOrErase_value a p ([], g)
    simpa [addProduct] using this

theorem foldl_addProduct_value (a : Nat → Bool) (sortResult : Bool) (P acc : ANF) :
    anfValue a (P.foldl (addProduct sortResult) acc) = (anfValue a acc != anfValue a P) ∧
    ∀ z ∈ P.foldl (addProduct sortResult) acc, z ∈ acc ∨ z ∈ P := by
  induction P generalizing acc with
  | nil => simp [anfValue_nil]
  | cons p P ih =>
    obtain ⟨v1, m1⟩ := addProduct_value a sortResult acc p
    obtain ⟨v2, m2⟩ := ih (addProduct sortResult acc p)
    rw [List.foldl_cons]
    refine ⟨?_, fun z hz => ?_⟩
    · rw [v2, v1, anfValue_cons]
      cases anfValue a acc <;> cases monomialValue a p <;> cases anfValue a P <;> rfl
    · rcases m2 z hz with h1 | h1
      · rcases m1 z h1 with h2 | h2
        · exact Or.inl h2
        · exact Or.inr (h2 ▸ List.mem_cons_self _ _)
      · exact Or.inr (List.mem_cons_of_mem _ h1)

theorem isOne_of_good {n : Nat} (x : ANF) (hx : goodANF n x) :
    isOne x = some (decide (x = [[0]])) := by
  unfold isOne
  by_cases hlen : x.length = 1
  · rw [if_pos hlen]
    obtain ⟨m, rfl⟩ := List.length_eq_one.1 hlen
    have hm := hx m (List.mem_singleton_self m)
    cases m with
    | nil => exact absurd rfl hm.1
    | cons b t =>
      by_cases hb : b = 0
      · subst hb
        have := goodMono_head hm (by simp)
        rw [this]; rfl
      · have : ¬ ([b :: t] = [[0]]) := by
          intro e
          simp only [List.cons.injEq, and_true] at e
          exact hb e.1
        simp [front, hb, this]
  · rw [if_neg hlen]
    have : ¬ (x = [[0]]) := fun e => hlen (by rw [e]; rfl)
    simp [this]

/-- On good polynomials `multiplyToANF` returns, in either mode, a good
polynomial whose value is the conjunction of the values of its arguments. -/
theorem multiplyToANF_value {n : Nat} (g h : ANF) (sortResult : Bool)
    (hg : goodANF n g) (hh : goodANF n h) :
    ∃ r, multiplyToANF g h sortResult = some r ∧ goodANF n r ∧
      ∀ a, anfValue a r = (anfValue a g && anfValue a h) := by
  unfold multiplyToANF
  by_cases h1 : g.length = 0
  · rw [if_pos h1]
    have : g = [] := List.length_eq_zero.1 h1
    subst this
    exact ⟨[], rfl, hg, fun a => by simp [anfValue_nil]⟩
  rw [if_neg h1]
  by_cases h2 : h.length = 0
  · rw [if_pos h2]
    have : h = [] := List.length_eq_zero.1 h2
    subst this
    exact ⟨[], rfl, hh, fun a => by simp [anfValue_nil]⟩
  rw [if_neg h2, isOne_of_good h hh, isOne_of_good g hg]
  by_cases h3 : h = [[0]]
  · subst h3
    exact ⟨g, by simp, hg, fun a => by simp [anfValue_cons, anfValue_nil, monomialValue_one]⟩
  by_cases h4 : g = [[0]]
  · subst h4
    exact ⟨h, by simp [h3], hh, fun a => by simp [anfValue_cons, anfValue_nil, monomialValue_one]⟩
  have hl : ∀ m ∈ g, m ≠ [] := fun m hm => (hg m hm).1
  have hgp : ∀ m ∈ h, m ≠ [] := fun m hm => (hh m hm).1
  refine ⟨(products g h).foldl (addProduct sortResult) [],
    by simp [h3, h4, multiplyLoop_eq g h sortResult hl hgp], ?_, fun a => ?_⟩
  · intro z hz
    rcases (foldl_addProduct_value (fun _ => true) sortResult (products g h) []).2 z hz with e | e
    · exact absurd e (List.not_mem_nil _)
    · exact goodANF_products g h hg hh z e
  · rw [(foldl_addProduct_value a sortResult (products g h) []).1, anfValue_products a g h hg hh]
    simp [anfValue_nil]

/-! ### The tree of a polynomial -/

theorem evaluate_toBF_summand (a : Nat → Bool) {n : Nat} {m : List Nat} (hm : goodMono n m) :
    evaluate a (AND n (m.map (fun j => if j = 0 then TRUE n [] else INPUT n (j - 1) []))) =
      monomialValue a m := by
  have key : ∀ j ∈ m, evaluate a (if j = 0 then TRUE n [] else INPUT n (j - 1) []) =
      (if j = 0 then true else a (j - 1)) := by
    intro j hj
    by_cases h0 : j = 0
    · simp [h0, evaluate]
    · have hle : j ≤ n := by
        rcases hm.2 with e | e
        · rw [e] at hj; simp at hj; exact absurd hj h0
        · exact (e j hj).2
      have : ¬ (j - 1 ≥ n) := by omega
      simp [h0, evaluate, this]
  rw [evaluate_AND, monomialValue_eq_all, Bool.eq_iff_iff]
  simp only [List.all_eq_true, List.mem_map, forall_exists_index, and_imp,
    forall_apply_eq_imp_iff₂]
  constructor
  · intro H j hj; rw [← key j hj]; exact H j hj
  · intro H j hj; rw [key j hj]; exact H j hj

theorem evaluate_toBF (a : Nat → Bool) {n : Nat} (g : ANF) (hg : goodANF n g) :
    evaluate a (toBF n g) = anfValue a g := by
  unfold toBF
  simp only [evaluate]
  induction g with
  | nil => rfl
  | cons m g ih =>
    rw [List.map_cons, evaluateXor, evaluateXor_eq, anfValue_cons,
      ih (fun z hz => hg z (List.mem_cons_of_mem _ hz)),
      evaluate_toBF_summand a (hg m (List.mem_cons_self _ _))]
    simp

/-! ### Literals and clauses -/

theorem isLiteral_cases {n : Nat} {lit : BF} (h : isLiteral n lit) :
    (∃ i, i < n ∧ lit = INPUT n i []) ∨ (∃ i, i < n ∧ lit = NOT n [INPUT n i []]) := by
  unfold isLiteral at h
  split at h
  · obtain ⟨rfl, hi⟩ := h; exact Or.inl ⟨_, hi, rfl⟩
  · obtain ⟨rfl, rfl, hi⟩ := h; exact Or.inr ⟨_, hi, rfl⟩
  · exact absurd h id

theorem isClause_cases {n : Nat} {c : BF} (h : isClause n c) :
    ∃ lits, c = OR n lits ∧ ∀ l ∈ lits, isLiteral n l := by
  unfold isClause at h
  split at h
  · obtain ⟨rfl, hl⟩ := h; exact ⟨_, rfl, hl⟩
  · exact absurd h id

theorem isCNF_cases {n : Nat} {pk : BF} (h : isCNF n pk) :
    ∃ clauses, pk = AND n clauses ∧ ∀ c ∈ clauses, isClause n c := by
  unfold isCNF at h
  split at h
  · obtain ⟨rfl, hl⟩ := h; exact ⟨_, rfl, hl⟩
  · exact absurd h id

theorem toInt32_of_small (x : Int) (h1 : -(2 ^ 31) ≤ x) (h2 : x < 2 ^ 31) : toInt32 x = x := by
  unfold toInt32
  omega

theorem intToUInt_of_small (x : Nat) (h : x < 2 ^ 32) : intToUInt (x : Int) = x := by
  unfold intToUInt
  omega

theorem toUInt_of_small (x : Nat) (h : x < 2 ^ 32) : toUInt x = x := by
  unfold toUInt
  omega

/-- What the loop of `convertLiterals` does with one literal. -/
theorem literal_step {n : Nat} (hn : n < 2 ^ 31) {lit : BF} (h : isLiteral n lit) :
    ∃ (cur : ANF) (dep : Nat),
      (if toInt32 lit.getDependence > 0 then [[0], [intToUInt (toInt32 lit.getDependence)]]
        else [[intToUInt (-toInt32 lit.getDependence)]]) = cur ∧
      (if toInt32 lit.getDependence > 0 then intToUInt (toInt32 lit.getDependence)
        else intToUInt (-toInt32 lit.getDependence)) = dep ∧
      goodANF n cur ∧ (∀ a, anfValue a cur = ! evaluate a lit) ∧ 0 < dep ∧ dep ≤ n := by
  rcases isLiteral_cases h with ⟨i, hi, rfl⟩ | ⟨i, hi, rfl⟩
  · have hd : toInt32 (getDependence (INPUT n i [])) = ((i + 1 : Nat) : Int) := by
      simp only [getDependence]
      rw [toInt32_of_small] <;> omega
    have hpos : ((i + 1 : Nat) : Int) > 0 := by omega
    rw [hd, if_pos hpos, if_pos hpos, intToUInt_of_small (i + 1) (by omega)]
    refine ⟨_, _, rfl, rfl, ?_, ?_, by omega, by omega⟩
    · intro m hm
      simp only [List.mem_cons, List.mem_singleton, List.not_mem_nil, or_false] at hm
      rcases hm with e | e
      · subst e; exact goodMono_one n
      · subst e
        exact ⟨by simp, Or.inr (fun v hv => by
          rw [List.mem_singleton] at hv; subst hv; omega)⟩
    · intro a
      have : ¬ (i ≥ n) := by omega
      simp [anfValue_cons, anfValue_nil, monomialValue_eq_all, evaluate, this]
  · have hd : toInt32 (getDependence (NOT n [INPUT n i []])) = -((i + 1 : Nat) : Int) := by
      simp only [getDependence]
      rw [toInt32_of_small] <;> omega
    have hpos : ¬ (-((i + 1 : Nat) : Int) > 0) := by omega
    rw [hd, if_neg hpos, if_neg hpos, neg_neg, intToUInt_of_small (i + 1) (by omega)]
    refine ⟨_, _, rfl, rfl, ?_, ?_, by omega, by omega⟩
    · intro m hm
      rw [List.mem_singleton] at hm
      subst hm
      exact ⟨by simp, Or.inr (fun v hv => by
        rw [List.mem_singleton] at hv; subst hv; omega)⟩
    · intro a
      have : ¬ (i ≥ n) := by omega
      simp [anfValue_cons, anfValue_nil, monomialValue_eq_all, evaluate, this]

theorem convertLiterals_spec {n : Nat} (hn : n < 2 ^ 31) (lits : List BF)
    (hl : ∀ l ∈ lits, isLiteral n l) (nClause : ANF) (depends : List Nat)
    (hg : goodANF n nClause) (hd : ∀ v ∈ depends, 0 < v ∧ v ≤ n) :
    ∃ nc dep, convertLiterals lits nClause depends = some (nc, dep) ∧ goodANF n nc ∧
      (∀ a, anfValue a nc = (anfValue a nClause && ! lits.any (evaluate a))) ∧
      ∀ v ∈ dep, 0 < v ∧ v ≤ n := by
  induction lits generalizing nClause depends with
  | nil => exact ⟨nClause, depends, rfl, hg, fun a => by simp, hd⟩
  | cons lit lits ih =>
    obtain ⟨cur, dep, e1, e2, hcur, hval, hdep1, hdep2⟩ :=
      literal_step hn (hl lit (List.mem_cons_self _ _))
    obtain ⟨prod, hp, hgood, hpv⟩ := multiplyToANF_value nClause cur true hg hcur
    have hd' : ∀ v ∈ depends ++ [dep], 0 < v ∧ v ≤ n := by
      intro v hv
      rcases List.mem_append.1 hv with h | h
      · exact hd v h
      · rw [List.mem_singleton] at h; subst h; exact ⟨hdep1, hdep2⟩
    obtain ⟨nc, dp, e, hnc, hv, hdp⟩ :=
      ih (fun l hl' => hl l (List.mem_cons_of_mem _ hl')) prod (depends ++ [dep]) hgood hd'
    refine ⟨nc, dp, ?_, hnc, fun a => ?_, hdp⟩
    · simp only [convertLiterals]
      rw [e1, e2, hp]
      exact e
    · rw [hv a, hpv a, hval a, List.any_cons]
      cases anfValue a nClause <;> cases evaluate a lit <;> simp

/-! ### The permutation step -/

theorem drawEntry_spec {σ : Type} (r : rng σ) (hr : Conforming r) (notUsed pre : List Nat)
    (st : σ) (hne : notUsed ≠ []) :
    ∃ x rest st1, drawEntry r notUsed pre notUsed.length st = (some x, rest, st1) ∧
      (x :: rest).Perm (pre ++ notUsed) := by
  induction notUsed generalizing pre st with
  | nil => exact absurd rfl hne
  | cons x rest ih =>
    simp only [drawEntry]
    by_cases h0 : (r.randomInt st (x :: rest).length).1 = 0
    · rw [if_pos h0]
      exact ⟨x, pre ++ rest, _, rfl, List.perm_middle.symm⟩
    · rw [if_neg h0]
      have hrest : rest ≠ [] := by
        intro e
        subst e
        have := hr st 1 (by omega)
        simp only [List.length_singleton] at h0
        omega
      obtain ⟨y, rest1, st1, e, hp⟩ := ih (pre ++ [x]) (r.randomInt st (x :: rest).length).2 hrest
      refine ⟨y, rest1, st1, ?_, ?_⟩
      · simpa using e
      · simpa using hp

theorem drawPermutation_spec {σ : Type} (r : rng σ) (hr : Conforming r) (count : Nat)
    (notUsed : List Nat) (s : List (Option Nat)) (st : σ)
    (hc : notUsed.length = count) (hsmall : count < 2 ^ 32) :
    ∃ l : List Nat, (drawPermutation r count notUsed s st).1 = s ++ l.map some ∧
      l.Perm notUsed := by
  induction count generalizing notUsed s st with
  | zero =>
    have : notUsed = [] := List.length_eq_zero.1 hc
    subst this
    exact ⟨[], by simp [drawPermutation], List.Perm.refl _⟩
  | succ count ih =>
    have hne : notUsed ≠ [] := by
      intro e; rw [e] at hc; simp at hc
    obtain ⟨x, rest, st1, e, hp⟩ := drawEntry_spec r hr notUsed [] st hne
    have hlen : rest.length = count := by
      have := hp.length_eq
      simp only [List.length_cons, List.nil_append] at this
      omega
    obtain ⟨l, e2, hp2⟩ := ih rest (s ++ [some x]) st1 hlen (by omega)
    refine ⟨x :: l, ?_, ?_⟩
    · simp only [drawPermutation]
      rw [toUInt_of_small _ (by omega), e]
      simpa using e2
    · exact (List.Perm.cons x hp2).trans (by simpa using hp)

theorem inverseSearch_spec (l : List Nat) (c k : Nat) (h : c ∈ l) :
    ∃ i, inverseSearch (l.map some) c k = some (k + i) ∧ l.get? i = some c := by
  induction l generalizing k with
  | nil => exact absurd h (List.not_mem_nil _)
  | cons a l ih =>
    simp only [List.map_cons, inverseSearch]
    by_cases e : a = c
    · rw [if_pos e]; exact ⟨0, rfl, by simp [e]⟩
    · rw [if_neg e]
      have hc : c ∈ l := by
        rcases List.mem_cons.1 h with h1 | h1
        · exact absurd h1.symm e
        · exact h1
      obtain ⟨i, e1, e2⟩ := ih (k + 1) hc
      exact ⟨i + 1, by rw [e1]; congr 1; omega, by simpa using e2⟩

/-! ### The clause arrays -/

theorem getD_set_nonempty {α : Type} (l : List (List α)) (i j : Nat) (v : List α)
    (h : ((l.set i v).getD j []).length ≠ 0) : j = i ∨ (l.getD j []).length ≠ 0 := by
  by_cases e : j = i
  · exact Or.inl e
  · right
    have : (l.set i v)[j]? = l[j]? := List.getElem?_set_ne (fun e' => e e'.symm)
    simpa [List.getD_eq_getElem?_getD, this] using h

theorem mem_set {α : Type} (l : List α) (i : Nat) (v x : α) (h : x ∈ l.set i v) :
    x ∈ l ∨ x = v := List.mem_or_eq_of_mem_set h

theorem convertClauses_spec {n : Nat} (hn : n < 2 ^ 31) (priv : Nat → Bool) (l : List Nat)
    (m : Nat) (hl : l.Perm (List.range m)) (hm : m < 2 ^ 32) (ks : List BF) (cN : Nat)
    (nC : List ANF) (dep : List (List Nat))
    (hks : ∀ k ∈ ks, isClause n k ∧ evaluate priv k = true)
    (hcN : cN + ks.length ≤ m)
    (hfresh : ∀ i, (nC.getD i []).length ≠ 0 ∨ (dep.getD i []).length ≠ 0 →
      ∃ c, c < cN ∧ l.get? i = some c)
    (h1 : ∀ x ∈ nC, goodANF n x ∧ anfValue priv x = false)
    (h2 : ∀ d ∈ dep, ∀ v ∈ d, 0 < v ∧ v ≤ n) :
    ∃ nC1 dep1, convertClauses (l.map some) ks cN nC dep = some (nC1, dep1) ∧
      (∀ x ∈ nC1, goodANF n x ∧ anfValue priv x = false) ∧
      (∀ d ∈ dep1, ∀ v ∈ d, 0 < v ∧ v ≤ n) := by
  induction ks generalizing cN nC dep with
  | nil => exact ⟨nC, dep, rfl, h1, h2⟩
  | cons k ks ih =>
    simp only [List.length_cons] at hcN
    have hmem : cN ∈ l := hl.symm.subset (List.mem_range.2 (by omega))
    obtain ⟨i, e1, e2⟩ := inverseSearch_spec l cN 0 hmem
    rw [Nat.zero_add] at e1
    have hslot : ¬ ((nC.getD i []).length ≠ 0 ∨ (dep.getD i []).length ≠ 0) := by
      intro hne
      obtain ⟨c, hc, hc2⟩ := hfresh i hne
      rw [e2] at hc2
      simp only [Option.some.injEq] at hc2
      omega
    have hdep0 : dep.getD i [] = [] := by
      apply List.length_eq_zero.1
      by_contra hne
      exact hslot (Or.inr hne)
    obtain ⟨hk1, hk2⟩ := hks k (List.mem_cons_self _ _)
    obtain ⟨lits, rfl, hlits⟩ := isClause_cases hk1
    obtain ⟨nc, dp, e3, g1, g2, g3⟩ := convertLiterals_spec hn lits hlits [[0]] []
      (fun x hx => by rw [List.mem_singleton] at hx; subst hx; exact goodMono_one n)
      (fun v hv => absurd hv (List.not_mem_nil _))
    have hval : anfValue priv nc = false := by
      rw [g2 priv]
      rw [evaluate_OR] at hk2
      simp [hk2]
    obtain ⟨nC1, dep1, e4, r1, r2⟩ := ih (cN + 1) (nC.set i nc) (dep.set i dp)
      (fun k' hk' => hks k' (List.mem_cons_of_mem _ hk')) (by omega)
      (by
        intro j hj
        rcases hj with hj | hj
        · rcases getD_set_nonempty nC i j nc hj with e | e
          · subst e; exact ⟨cN, by omega, e2⟩
          · obtain ⟨c, hc, hc2⟩ := hfresh j (Or.inl e)
            exact ⟨c, by omega, hc2⟩
        · rcases getD_set_nonempty dep i j dp hj with e | e
          · subst e; exact ⟨cN, by omega, e2⟩
          · obtain ⟨c, hc, hc2⟩ := hfresh j (Or.inr e)
            exact ⟨c, by omega, hc2⟩)
      (by
        intro x hx
        rcases mem_set nC i nc x hx with e | e
        · exact h1 x e
        · subst e; exact ⟨g1, hval⟩)
      (by
        intro d hd
        rcases mem_set dep i dp d hd with e | e
        · exact h2 d e
        · subst e; exact g3)
    refine ⟨nC1, dep1, ?_, r1, r2⟩
    simp only [convertClauses]
    rw [e1]
    simp only []
    rw [if_neg hslot]
    simp only [children, hdep0, e3]
    rw [toUInt_of_small _ (by omega)]
    exact e4

/-! ### Random functions -/

theorem mapM_option_eq {α β : Type} (f : α → Option β) (f1 : α → β) (l : List α)
    (h : ∀ x ∈ l, f x = some (f1 x)) : l.mapM f = some (l.map f1) := by
  induction l with
  | nil => rfl
  | cons a l ih =>
    rw [List.mapM_cons, h a (List.mem_cons_self _ _),
      ih (fun x hx => h x (List.mem_cons_of_mem _ hx))]
    rfl

theorem goodMono_front {n : Nat} {m : List Nat} (hm : goodMono n m) : ∃ a, front m = some a ∧
    m.head? = some a := by
  cases m with
  | nil => exact absurd rfl hm.1
  | cons a t => exact ⟨a, rfl, rfl⟩

theorem goodMono_prepend {n V : Nat} (hV : 0 < V ∧ V ≤ n) {m : List Nat} (hm : goodMono n m) :
    goodMono n (if m.head? = some 0 then V :: m.tail else V :: m) := by
  by_cases h : m.head? = some 0
  · rw [if_pos h, goodMono_head hm h]
    exact ⟨by simp, Or.inr (fun v hv => by
      simp only [List.tail_cons, List.mem_singleton] at hv; subst hv; exact hV)⟩
  · rw [if_neg h]
    refine ⟨by simp, Or.inr (fun v hv => ?_)⟩
    rcases List.mem_cons.1 hv with e | e
    · subst e; exact hV
    · rcases hm.2 with e1 | e1
      · subst e1; simp at h
      · exact e1 v e

theorem randomFunctionLoop_spec {σ : Type} (r : rng σ) {n : Nat} (vars : List Nat)
    (hv : ∀ v ∈ vars, 0 < v ∧ v ≤ n) (re : ANF) (hre : goodANF n re) (st : σ) :
    ∃ res st1, randomFunctionLoop r vars re st = some (res, st1) ∧ goodANF n res := by
  induction vars generalizing re st with
  | nil => exact ⟨re, st, rfl, hre⟩
  | cons V vars ih =>
    have hv' : ∀ v ∈ vars, 0 < v ∧ v ≤ n := fun v h => hv v (List.mem_cons_of_mem _ h)
    have hV := hv V (List.mem_cons_self _ _)
    have hstart : goodANF n (if (r.randomBool st).1 = true then [[0]] else []) := by
      split_ifs
      · intro m hm; rw [List.mem_singleton] at hm; subst hm; exact goodMono_one n
      · exact goodANF_nil n
    obtain ⟨sub, st1, e1, hsub⟩ := ih hv' _ hstart (r.randomBool st).2
    have hmap : ∀ x ∈ sub, putInFront V x =
        some (if x.head? = some 0 then V :: x.tail else V :: x) := by
      intro m hm
      obtain ⟨a, ha1, ha2⟩ := goodMono_front (hsub m hm)
      unfold putInFront
      rw [ha1, ha2]
      by_cases h0 : a = 0
      · simp [h0]
      · simp [h0]
    have hgood : goodANF n (re ++ sub.map (fun subI =>
        if subI.head? = some 0 then V :: subI.tail else V :: subI)) := by
      intro m hm
      rcases List.mem_append.1 hm with h | h
      · exact hre m h
      · rw [List.mem_map] at h
        obtain ⟨m0, hm0, rfl⟩ := h
        exact goodMono_prepend hV (hsub m0 hm0)
    obtain ⟨res, st2, e2, hres⟩ := ih hv' _ hgood st1
    refine ⟨res, st2, ?_, hres⟩
    simp only [randomFunctionLoop]
    rw [e1]
    simp only []
    rw [mapM_option_eq _ (fun subI => if subI.head? = some 0 then V :: subI.tail else V :: subI)
      sub hmap]
    exact e2

theorem RandomFunction_spec {σ : Type} (r : rng σ) {n : Nat} (vars : List Nat)
    (hv : ∀ v ∈ vars, 0 < v ∧ v ≤ n) (st : σ) :
    ∃ res st1, RandomFunction r vars st = some (res, st1) ∧ goodANF n res := by
  unfold RandomFunction
  apply randomFunctionLoop_spec r vars hv
  split_ifs
  · intro m hm; rw [List.mem_singleton] at hm; subst hm; exact goodMono_one n
  · exact goodANF_nil n

/-! ### The cipher loop -/

theorem deleteDoubles_subset : ∀ (l : List Nat), ∀ v ∈ deleteDoubles l, v ∈ l
  | [] => by simp [deleteDoubles]
  | [x] => by simp [deleteDoubles]
  | x :: y :: rest => by
    intro v hv
    simp only [deleteDoubles] at hv
    split_ifs at hv
    · exact List.mem_cons_of_mem _ (deleteDoubles_subset (y :: rest) v hv)
    · rcases List.mem_cons.1 hv with e | e
      · subst e; exact List.mem_cons_self _ _
      · exact List.mem_cons_of_mem _ (deleteDoubles_subset (y :: rest) v e)

theorem getD_mem_or_nil {α : Type} (l : List (List α)) (i : Nat) :
    l.getD i [] ∈ l ∨ l.getD i [] = [] := by
  by_cases h : i < l.length
  · left
    rw [List.getD_eq_getElem l [] h]
    exact List.getElem_mem h
  · right
    exact List.getD_eq_default l [] (by omega)

theorem getD_replicate_nil {α : Type} (k i : Nat) :
    ((List.replicate k ([] : List α)).getD i []).length = 0 := by
  rcases getD_mem_or_nil (List.replicate k ([] : List α)) i with h | h
  · rw [List.eq_of_mem_replicate h]; rfl
  · rw [h]; rfl

theorem gatherDepends_subset (depends : List (List Nat)) (m beta i j : Nat) :
    ∀ v ∈ gatherDepends depends m beta i j, ∃ d ∈ depends, v ∈ d := by
  unfold gatherDepends
  have key : ∀ (ks : List Nat) (acc : List Nat), (∀ v ∈ acc, ∃ d ∈ depends, v ∈ d) →
      ∀ v ∈ ks.foldl (fun Rdepends k =>
        if k ≠ j then Rdepends ++ depends.getD (toUInt (k + i) % m) [] else Rdepends) acc,
        ∃ d ∈ depends, v ∈ d := by
    intro ks
    induction ks with
    | nil => intro acc h; simpa using h
    | cons k ks ih =>
      intro acc h
      rw [List.foldl_cons]
      apply ih
      split_ifs
      · intro v hv
        rcases List.mem_append.1 hv with h1 | h1
        · exact h v h1
        · rcases getD_mem_or_nil depends (toUInt (k + i) % m) with h2 | h2
          · exact ⟨_, h2, h1⟩
          · rw [h2] at h1; exact absurd h1 (List.not_mem_nil _)
      · exact h
  exact key _ [] (fun v hv => absurd hv (List.not_mem_nil _))

theorem cipherSummand_spec {σ : Type} (r : rng σ) {n : Nat} (priv : Nat → Bool)
    (nClause : List ANF) (depends : List (List Nat))
    (h1 : ∀ x ∈ nClause, goodANF n x ∧ anfValue priv x = false)
    (h2 : ∀ d ∈ depends, ∀ v ∈ d, 0 < v ∧ v ≤ n)
    (m beta i j : Nat) (g : ANF) (st : σ)
    (hg : goodANF n g ∧ anfValue priv g = false) :
    ∃ g1 st1, cipherSummand r nClause depends m beta i j g st = some (g1, st1) ∧
      goodANF n g1 ∧ anfValue priv g1 = false := by
  have hvars : ∀ v ∈ deleteDoubles (listSort (fun a b : Nat => decide (a < b))
      (gatherDepends depends m beta i j)), 0 < v ∧ v ≤ n := by
    intro v hv
    have hv1 := deleteDoubles_subset _ v hv
    have hv2 := (listSort_perm _ _).subset hv1
    obtain ⟨d, hd, hvd⟩ := gatherDepends_subset depends m beta i j v hv2
    exact h2 d hd v hvd
  obtain ⟨R, st1, e1, hR⟩ := RandomFunction_spec r _ hvars st
  have hnc : goodANF n (nClause.getD (toUInt (i + beta) % m) []) ∧
      anfValue priv (nClause.getD (toUInt (i + beta) % m) []) = false := by
    rcases getD_mem_or_nil nClause (toUInt (i + beta) % m) with h | h
    · exact h1 _ h
    · rw [h]; exact ⟨goodANF_nil n, rfl⟩
  obtain ⟨R1, e2, hR1, hval⟩ := multiplyToANF_value R _ false hR hnc.1
  refine ⟨concatANF g R1, st1, ?_, ?_, ?_⟩
  · simp only [cipherSummand]
    rw [e1]
    simp only []
    rw [e2]
  · intro z hz
    rcases List.mem_append.1 hz with h | h
    · exact hg.1 z h
    · exact hR1 z h
  · unfold concatANF
    rw [anfValue_append, hg.2, hval priv, hnc.2]
    simp

theorem foldlM_invariant {α β : Type} (P : β → Prop) (f : β → α → Option β) (l : List α)
    (h : ∀ b a, P b → ∃ b1, f b a = some b1 ∧ P b1) (b : β) (hb : P b) :
    ∃ b1, l.foldlM f b = some b1 ∧ P b1 := by
  induction l generalizing b with
  | nil => exact ⟨b, rfl, hb⟩
  | cons a l ih =>
    obtain ⟨b1, e, hb1⟩ := h b a hb
    obtain ⟨b2, e2, hb2⟩ := ih b1 hb1
    refine ⟨b2, ?_, hb2⟩
    rw [List.foldlM_cons, e]
    exact e2

theorem cipherLoop_spec {σ : Type} (r : rng σ) {n : Nat} (priv : Nat → Bool)
    (nClause : List ANF) (depends : List (List Nat))
    (h1 : ∀ x ∈ nClause, goodANF n x ∧ anfValue priv x = false)
    (h2 : ∀ d ∈ depends, ∀ v ∈ d, 0 < v ∧ v ≤ n)
    (m beta : Nat) (st : σ) :
    ∃ g st1, cipherLoop r nClause depends m beta st = some (g, st1) ∧
      goodANF n g ∧ anfValue priv g = false := by
  have := foldlM_invariant (fun acc : ANF × σ => goodANF n acc.1 ∧ anfValue priv acc.1 = false)
    (fun acc i => (List.range beta).foldlM (fun acc j =>
      cipherSummand r nClause depends m beta i j acc.1 acc.2) acc) (List.range m)
    (fun b i hb => foldlM_invariant _ _ _ (fun b' j hb' => by
      obtain ⟨g1, st1, e, hg⟩ := cipherSummand_spec r priv nClause depends h1 h2 m beta i j
        b'.1 b'.2 hb'
      exact ⟨(g1, st1), e, hg⟩) b hb)
    ([], st) ⟨goodANF_nil n, rfl⟩
  obtain ⟨⟨g, st1⟩, e, hg⟩ := this
  exact ⟨g, st1, e, hg⟩

/-! ### Decryption undoes encryption -/

theorem encryptANF_spec {σ : Type} (r : rng σ) (hr : Conforming r) {n : Nat} (hn : n < 2 ^ 31)
    (priv : Nat → Bool) (pk : BF) (hpk : isCNF n pk) (hsize : pk.size < 2 ^ 32)
    (hsat : evaluate priv pk = true) (b : Bool) (beta : Nat) (st : σ) :
    ∃ g st1, encryptANF r pk b beta st = some (g, st1) ∧ goodANF n g ∧ anfValue priv g = b := by
  obtain ⟨clauses, rfl, hcl⟩ := isCNF_cases hpk
  have hsz : toUInt (AND n clauses).size = clauses.length := by
    rw [toUInt_of_small _ hsize]; rfl
  obtain ⟨l, el, hl⟩ := drawPermutation_spec r hr clauses.length (List.range clauses.length) []
    st (List.length_range _) (by simpa [size, children] using hsize)
  rw [List.nil_append] at el
  rw [evaluate_AND, List.all_eq_true] at hsat
  obtain ⟨nC, dep, e1, i1, i2⟩ := convertClauses_spec hn priv l clauses.length hl
    (by simpa [size, children] using hsize) clauses 0
    (List.replicate clauses.length []) (List.replicate clauses.length [])
    (fun k hk => ⟨hcl k hk, hsat k hk⟩) (by omega)
    (by
      intro i hi
      exfalso
      rcases hi with hi | hi
      · exact hi (getD_replicate_nil _ i)
      · exact hi (getD_replicate_nil _ i))
    (by
      intro x hx
      rw [List.eq_of_mem_replicate hx]
      exact ⟨goodANF_nil n, rfl⟩)
    (by
      intro d hd
      rw [List.eq_of_mem_replicate hd]
      intro v hv
      exact absurd hv (List.not_mem_nil _))
  obtain ⟨g, st1, e2, hg1, hg2⟩ := cipherLoop_spec r priv nC dep i1 i2 clauses.length
    (toUInt beta) (drawPermutation r clauses.length (List.range clauses.length) [] st).2
  obtain ⟨c3, m3, v3⟩ := sortANF_spec g false
  have hgood3 : goodANF n (sortANF g false) := by
    intro z hz
    have hodd := (m3 z).1 hz
    apply hg1 z
    by_contra hn'
    simp only [innerSorted, Bool.false_eq_true, if_false] at hodd
    rw [List.count_eq_zero_of_not_mem hn'] at hodd
    simp at hodd
  refine ⟨if b then addToANF (sortANF g false) [[0]] else sortANF g false, st1, ?_, ?_, ?_⟩
  · simp only [encryptANF]
    rw [hsz]
    simp only [children]
    rw [el, e1]
    simp only []
    rw [e2]
  · cases b
    · simpa using hgood3
    · simp only [if_true]
      intro z hz
      rcases (addToANF_value priv _ _).2 z hz with h | h
      · exact hgood3 z h
      · rw [List.mem_singleton] at h; subst h; exact goodMono_one n
  · cases b
    · simp only [Bool.false_eq_true, if_false]
      rw [v3 priv, hg2]
    · simp only [if_true]
      rw [(addToANF_value priv _ _).1, v3 priv, hg2]
      rfl

theorem encrypt_correct {σ : Type} (r : rng σ) (hr : Conforming r) {n : Nat} (hn : n < 2 ^ 31)
    (priv : Nat → Bool) (pk : BF) (hpk : isCNF n pk) (hsize : pk.size < 2 ^ 32)
    (hsat : evaluate priv pk = true) (b : Bool) (beta : Nat) (st : σ) :
    ∃ c st1, encrypt r n pk b beta st = some (c, st1) ∧ evaluate priv c = b := by
  obtain ⟨g, st1, e, hg, hv⟩ := encryptANF_spec r hr hn priv pk hpk hsize hsat b beta st
  refine ⟨toBF n g, st1, ?_, ?_⟩
  · simp only [encrypt]
    rw [e, toUInt_of_small n (by omega)]
  · rw [evaluate_toBF priv g hg, hv]

/-! ### Folds of `evaluate` -/

theorem evaluateXor_false_iff_odd (input : Nat → Bool) (cs : List BF) :
    evaluateXor input false cs = true ↔ Odd (cs.countP (evaluate input)) := by
  induction cs with
  | nil => simp [evaluateXor]
  | cons c cs ih =>
    rw [evaluateXor, evaluateXor_eq, List.countP_cons]
    cases hc : evaluate input c
    · simpa using ih
    · simp only [if_true, Nat.odd_add_one, ← ih]
      cases evaluateXor input false cs <;> simp

/-! ### The comparator is a strict weak order where it is defined -/

theorem compareLeaf_self (x : BF) : compareLeaf x x = some 0 := by
  simp [compareLeaf]

theorem compareNode_self (x : BF) (r : Option Int) (h : r = some 0) :
    compareNode x x r = some 0 := by
  unfold compareNode
  by_cases h0 : x.size > 0
  · simp [h0, h]
  · simp [h0, compareLeaf_self]

mutual
theorem bf_compare_self : ∀ (x : BF), BF.compare x x = some 0
  | TRUE n cs => by
    rw [compare_unfold]; exact compareNode_self _ _ (compareChildren_self cs)
  | FALSE n cs => by
    rw [compare_unfold]; exact compareNode_self _ _ (compareChildren_self cs)
  | INPUT n v cs => by
    rw [compare_unfold]; exact compareNode_self _ _ (compareChildren_self cs)
  | NOT n cs => by
    rw [compare_unfold]; exact compareNode_self _ _ (compareChildren_self cs)
  | AND n cs => by
    rw [compare_unfold]; exact compareNode_self _ _ (compareChildren_self cs)
  | OR n cs => by
    rw [compare_unfold]; exact compareNode_self _ _ (compareChildren_self cs)
  | XOR n cs => by
    rw [compare_unfold]; exact compareNode_self _ _ (compareChildren_self cs)
theorem compareChildren_self : ∀ (xs : List BF), compareChildren xs xs = some 0
  | [] => by simp [compareChildren]
  | x :: xs => by
    simp only [compareChildren]
    rw [bf_compare_self x, compareChildren_self xs]
    simp
end

theorem compareLeaf_trans (x y z : BF) (a b : Int)
    (h1 : compareLeaf x y = some a) (h2 : compareLeaf y z = some b) (ha : a ≤ 0) (hb : b ≤ 0) :
    ∃ c, compareLeaf x z = some c ∧ c ≤ 0 ∧ (c < 0 ↔ a < 0 ∨ b < 0) := by
  unfold compareLeaf at *
  by_cases e1 : x.getDependence < y.getDependence
  · simp only [if_pos e1, Option.some.injEq] at h1
    by_cases e2 : y.getDependence < z.getDependence
    · have e3 : x.getDependence < z.getDependence := by omega
      exact ⟨-1, by simp [e3], by omega, by omega⟩
    · by_cases e2a : y.getDependence > z.getDependence
      · simp only [if_neg e2, if_pos e2a, Option.some.injEq] at h2
        omega
      · have e3 : x.getDependence < z.getDependence := by omega
        exact ⟨-1, by simp [e3], by omega, by omega⟩
  · by_cases e1a : x.getDependence > y.getDependence
    · simp only [if_neg e1, if_pos e1a, Option.some.injEq] at h1
      omega
    · simp only [if_neg e1, if_neg e1a] at h1
      by_cases t1 : x.myType = y.myType
      · simp only [t1, ne_eq, not_true_eq_false, if_false, Option.some.injEq] at h1
        by_cases e2 : y.getDependence < z.getDependence
        · have e3 : x.getDependence < z.getDependence := by omega
          simp only [if_pos e2, Option.some.injEq] at h2
          exact ⟨-1, by simp [e3], by omega, by omega⟩
        · by_cases e2a : y.getDependence > z.getDependence
          · simp only [if_neg e2, if_pos e2a, Option.some.injEq] at h2
            omega
          · simp only [if_neg e2, if_neg e2a] at h2
            by_cases t2 : y.myType = z.myType
            · simp only [t2, ne_eq, not_true_eq_false, if_false, Option.some.injEq] at h2
              have e3 : ¬ x.getDependence < z.getDependence := by omega
              have e3a : ¬ x.getDependence > z.getDependence := by omega
              have t3 : x.myType = z.myType := t1.trans t2
              exact ⟨0, by simp [e3, e3a, t3], by omega, by omega⟩
            · simp [t2] at h2
      · simp [t1] at h1

theorem compareNode_trans (x y z : BF) (r1 r2 r3 : Option Int)
    (hrec : x.size = y.size → y.size = z.size → ∀ a b, r1 = some a → r2 = some b →
      a ≤ 0 → b ≤ 0 → ∃ c, r3 = some c ∧ c ≤ 0 ∧ (c < 0 ↔ a < 0 ∨ b < 0))
    (a b : Int) (h1 : compareNode x y r1 = some a) (h2 : compareNode y z r2 = some b)
    (ha : a ≤ 0) (hb : b ≤ 0) :
    ∃ c, compareNode x z r3 = some c ∧ c ≤ 0 ∧ (c < 0 ↔ a < 0 ∨ b < 0) := by
  unfold compareNode at *
  by_cases e1 : x.size < y.size
  · simp only [if_pos e1, Option.some.injEq] at h1
    by_cases e2 : y.size < z.size
    · have e3 : x.size < z.size := by omega
      exact ⟨-1, by simp [e3], by omega, by omega⟩
    · by_cases e2a : y.size > z.size
      · simp only [if_neg e2, if_pos e2a, Option.some.injEq] at h2
        omega
      · have e3 : x.size < z.size := by omega
        exact ⟨-1, by simp [e3], by omega, by omega⟩
  · by_cases e1a : x.size > y.size
    · simp only [if_neg e1, if_pos e1a, Option.some.injEq] at h1
      omega
    · simp only [if_neg e1, if_neg e1a] at h1
      by_cases e2 : y.size < z.size
      · simp only [if_pos e2, Option.some.injEq] at h2
        have e3 : x.size < z.size := by omega
        exact ⟨-1, by simp [e3], by omega, by omega⟩
      · by_cases e2a : y.size > z.size
        · simp only [if_neg e2, if_pos e2a, Option.some.injEq] at h2
          omega
        · simp only [if_neg e2, if_neg e2a] at h2
          have e3 : ¬ x.size < z.size := by omega
          have e3a : ¬ x.size > z.size := by omega
          simp only [if_neg e3, if_neg e3a]
          by_cases p : x.size > 0
          · have py : y.size > 0 := by omega
            simp only [if_pos p] at h1 ⊢
            simp only [if_pos py] at h2
            exact hrec (by omega) (by omega) a b h1 h2 ha hb
          · have py : ¬ y.size > 0 := by omega
            simp only [if_neg p] at h1 ⊢
            simp only [if_neg py] at h2
            exact compareLeaf_trans x y z a b h1 h2 ha hb

mutual
theorem bf_compare_trans : ∀ (x y z : BF) (a b : Int),
    BF.compare x y = some a → BF.compare y z = some b → a ≤ 0 → b ≤ 0 →
    ∃ c, BF.compare x z = some c ∧ c ≤ 0 ∧ (c < 0 ↔ a < 0 ∨ b < 0)
  | TRUE n cs, y, z, a, b => by
    rw [compare_unfold (TRUE n cs) y, compare_unfold y z, compare_unfold (TRUE n cs) z]
    exact compareNode_trans (TRUE n cs) y z _ _ _
      (fun e1 e2 => compareChildren_trans cs y.children z.children e1 e2) a b
  | FALSE n cs, y, z, a, b => by
    rw [compare_unfold (FALSE n cs) y, compare_unfold y z, compare_unfold (FALSE n cs) z]
    exact compareNode_trans (FALSE n cs) y z _ _ _
      (fun e1 e2 => compareChildren_trans cs y.children z.children e1 e2) a b
  | INPUT n v cs, y, z, a, b => by
    rw [compare_unfold (INPUT n v cs) y, compare_unfold y z, compare_unfold (INPUT n v cs) z]
    exact compareNode_trans (INPUT n v cs) y z _ _ _
      (fun e1 e2 => compareChildren_trans cs y.children z.children e1 e2) a b
  | NOT n cs, y, z, a, b => by
    rw [compare_unfold (NOT n cs) y, compare_unfold y z, compare_unfold (NOT n cs) z]
    exact compareNode_trans (NOT n cs) y z _ _ _
      (fun e1 e2 => compareChildren_trans cs y.children z.children e1 e2) a b
  | AND n cs, y, z, a, b => by
    rw [compare_unfold (AND n cs) y, compare_unfold y z, compare_unfold (AND n cs) z]
    exact compareNode_trans (AND n cs) y z _ _ _
      (fun e1 e2 => compareChildren_trans cs y.children z.children e1 e2) a b
  | OR n cs, y, z, a, b => by
    rw [compare_unfold (OR n cs) y, compare_unfold y z, compare_unfold (OR n cs) z]
    exact compareNode_trans (OR n cs) y z _ _ _
      (fun e1 e2 => compareChildren_trans cs y.children z.children e1 e2) a b
  | XOR n cs, y, z, a, b => by
    rw [compare_unfold (XOR n cs) y, compare_unfold y z, compare_unfold (XOR n cs) z]
    exact compareNode_trans (XOR n cs) y z _ _ _
      (fun e1 e2 => compareChildren_trans cs y.children z.children e1 e2) a b
theorem compareChildren_trans : ∀ (xs ys zs : List BF), xs.length = ys.length →
    ys.length = zs.length → ∀ (a b : Int),
    compareChildren xs ys = some a → compareChildren ys zs = some b → a ≤ 0 → b ≤ 0 →
    ∃ c, compareChildren xs zs = some c ∧ c ≤ 0 ∧ (c < 0 ↔ a < 0 ∨ b < 0)
  | [], [], [], _, _, a, b => by
    intro h1 h2 _ _
    simp only [compareChildren, Option.some.injEq] at h1 h2
    exact ⟨0, by simp [compareChildren], by omega, by omega⟩
  | [], [], _ :: _, _, h, _, _ => by simp at h
  | [], _ :: _, _, h, _, _, _ => by simp at h
  | _ :: _, [], _, h, _, _, _ => by simp at h
  | _ :: _, _ :: _, [], _, h, _, _ => by simp at h
  | x :: xs, y :: ys, z :: zs, e1, e2, a, b => by
    intro h1 h2 ha hb
    have l1 : xs.length = ys.length := by simpa using e1
    have l2 : ys.length = zs.length := by simpa using e2
    simp only [compareChildren] at h1 h2 ⊢
    cases c1 : BF.compare x y with
    | none => rw [c1] at h1; simp at h1
    | some a1 =>
      cases c2 : BF.compare y z with
      | none => rw [c2] at h2; simp at h2
      | some b1 =>
        rw [c1] at h1
        rw [c2] at h2
        simp only at h1 h2
        have ha1 : a1 ≤ 0 := by
          by_cases q : a1 = 0
          · omega
          · rw [if_pos q] at h1; simp only [Option.some.injEq] at h1; omega
        have hb1 : b1 ≤ 0 := by
          by_cases q : b1 = 0
          · omega
          · rw [if_pos q] at h2; simp only [Option.some.injEq] at h2; omega
        obtain ⟨c3, e3, le3, iff3⟩ := bf_compare_trans x y z a1 b1 c1 c2 ha1 hb1
        rw [e3]
        simp only
        by_cases q1 : a1 = 0
        · rw [if_neg (by simpa using q1)] at h1
          by_cases q2 : b1 = 0
          · rw [if_neg (by simpa using q2)] at h2
            have q3 : c3 = 0 := by omega
            rw [if_neg (by simpa using q3)]
            exact compareChildren_trans xs ys zs l1 l2 a b h1 h2 ha hb
          · rw [if_pos q2] at h2
            simp only [Option.some.injEq] at h2
            have q3 : c3 ≠ 0 := by omega
            rw [if_pos q3]
            exact ⟨c3, rfl, le3, by omega⟩
        · rw [if_pos q1] at h1
          simp only [Option.some.injEq] at h1
          have q3 : c3 ≠ 0 := by omega
          rw [if_pos q3]
          exact ⟨c3, rfl, le3, by omega⟩
end

/-! ### The shape of generated keys -/

theorem drawVariable_spec {σ : Type} (r : rng σ) (n : Nat) (vars : List Nat) (fuel : Nat)
    (st : σ) (v : Nat) (st1 : σ) (h : drawVariable r n vars fuel st = some (v, st1)) :
    v ∉ vars ∧ (Conforming r → 0 < n → v < n) := by
  induction fuel generalizing st with
  | zero => simp [drawVariable] at h
  | succ fuel ih =>
    simp only [drawVariable] at h
    split_ifs at h with hall
    · simp only [Option.some.injEq, Prod.mk.injEq] at h
      rw [← h.1]
      refine ⟨fun hm => ?_, fun hr hn => hr st n hn⟩
      have := List.all_eq_true.1 hall _ hm
      simp at this
    · exact ih _ h

theorem drawVariables_spec {σ : Type} (r : rng σ) (n fuel : Nat) (count : Nat)
    (vars : List Nat) (st : σ) (vs : List Nat) (st1 : σ)
    (h : drawVariables r n fuel count vars st = some (vs, st1)) :
    vs.length = vars.length + count ∧ (vars.Nodup → vs.Nodup) ∧
    (Conforming r → 0 < n → (∀ v ∈ vars, v < n) → ∀ v ∈ vs, v < n) := by
  induction count generalizing vars st with
  | zero =>
    simp only [drawVariables, Option.some.injEq, Prod.mk.injEq] at h
    rw [← h.1]
    exact ⟨rfl, id, fun _ _ hv => hv⟩
  | succ count ih =>
    simp only [drawVariables] at h
    cases hd : drawVariable r n vars fuel st with
    | none => rw [hd] at h; simp at h
    | some p =>
      obtain ⟨var, st2⟩ := p
      rw [hd] at h
      simp only at h
      obtain ⟨h1, h2⟩ := drawVariable_spec r n vars fuel st var st2 hd
      obtain ⟨i1, i2, i3⟩ := ih (vars ++ [var]) st2 h
      refine ⟨by rw [i1]; simp; omega, fun hnd => i2 ?_, fun hr hn hv => i3 hr hn ?_⟩
      · rw [List.nodup_append]
        refine ⟨hnd, List.nodup_singleton _, ?_⟩
        intro a ha hb
        rw [List.mem_singleton] at hb
        subst hb
        exact h1 ha
      · intro v hv1
        rcases List.mem_append.1 hv1 with e | e
        · exact hv v e
        · rw [List.mem_singleton] at e; subst e; exact h2 hr hn

theorem drawSigns_spec {σ : Type} (r : rng σ) (n : Nat) (vars : List Nat) (st : σ) :
    List.Forall₂ (isLiteralOf n) vars (drawSigns r n vars st).1 := by
  induction vars generalizing st with
  | nil => exact List.Forall₂.nil
  | cons v vars ih =>
    simp only [drawSigns]
    refine List.Forall₂.cons ?_ (ih _)
    unfold isLiteralOf
    split_ifs
    · exact Or.inl rfl
    · exact Or.inr rfl

theorem plantClause_shape {σ : Type} (r : rng σ) (privateKey : Nat → Bool) (n : Nat)
    (vars : List Nat) (re : List BF) (fuel : Nat) (st : σ) (re1 : List BF) (st1 : σ)
    (h : plantClause r privateKey n vars re fuel st = some (re1, st1)) :
    re1 = re ∨ ∃ lits, re1 = re ++ [OR n lits] ∧ List.Forall₂ (isLiteralOf n) vars lits := by
  induction fuel generalizing st with
  | zero => simp [plantClause] at h
  | succ fuel ih =>
    simp only [plantClause] at h
    by_cases he : evaluate privateKey (OR n (drawSigns r n vars st).1) = true
    · simp only [he, Bool.not_true, Bool.false_eq_true, if_false] at h
      cases hd : checkForDoubles (OR n (drawSigns r n vars st).1) re with
      | none => rw [hd] at h; simp at h
      | some found =>
        rw [hd] at h
        simp only [Option.some.injEq, Prod.mk.injEq] at h
        cases found with
        | true => left; simpa using h.1.symm
        | false =>
          right
          exact ⟨_, by simpa using h.1.symm, drawSigns_spec r n vars st⟩
    · have he1 : evaluate privateKey (OR n (drawSigns r n vars st).1) = false := by
        simpa using he
      simp only [he1, Bool.not_false, if_true] at h
      exact ih _ h

theorem generateClauses_shape {σ : Type} (r : rng σ) (hr : Conforming r)
    (privateKey : Nat → Bool) (n m k : Nat) (hn : 0 < n) (fuel : Nat) (re : List BF) (st : σ)
    (re1 : List BF) (st1 : σ)
    (h : generateClauses r privateKey n m k fuel re st = some (re1, st1))
    (hlen : re.length ≤ m) (hre : ∀ c ∈ re, isPlantedClause n k c) :
    re1.length = m ∧ ∀ c ∈ re1, isPlantedClause n k c := by
  induction fuel generalizing re st with
  | zero =>
    simp only [generateClauses] at h
    split_ifs at h with hl
    simp only [Option.some.injEq, Prod.mk.injEq] at h
    rw [← h.1]; exact ⟨by omega, hre⟩
  | succ fuel ih =>
    simp only [generateClauses] at h
    split_ifs at h with hl
    · cases hv : drawVariables r n (fuel + 1) k [] st with
      | none => rw [hv] at h; simp at h
      | some vs =>
        obtain ⟨vars, st2⟩ := vs
        rw [hv] at h
        simp only at h
        obtain ⟨v1, v2, v3⟩ := drawVariables_spec r n (fuel + 1) k [] st vars st2 hv
        cases hc : plantClause r privateKey n vars re (fuel + 1) st2 with
        | none => rw [hc] at h; simp at h
        | some res =>
          obtain ⟨re2, st3⟩ := res
          rw [hc] at h
          simp only at h
          rcases plantClause_shape r privateKey n vars re (fuel + 1) st2 re2 st3 hc with
            e | ⟨lits, e, hl2⟩
          · rw [e] at h; exact ih re st3 h hlen hre
          · rw [e] at h
            apply ih _ st3 h
            · simp; omega
            · intro c hc1
              rcases List.mem_append.1 hc1 with hc1 | hc1
              · exact hre c hc1
              · rw [List.mem_singleton] at hc1
                subst hc1
                exact ⟨vars, lits, rfl, by simpa using v1, v2 List.nodup_nil,
                  v3 hr hn (fun _ hx => absurd hx (List.not_mem_nil _)), hl2⟩
    · simp only [Option.some.injEq, Prod.mk.injEq] at h
      rw [← h.1]; exact ⟨by omega, hre⟩

theorem generatePublicKey_shape {σ : Type} (r : rng σ) (hr : Conforming r)
    (privateKey : Nat → Bool) (n m k : Nat) (hn : 0 < n) (fuel : Nat) (st : σ) (key : BF)
    (st1 : σ) (h : generatePublicKey r privateKey n m k fuel st = some (key, st1)) :
    ∃ clauses, key = AND n clauses ∧ clauses.length = m ∧
      ∀ c ∈ clauses, isPlantedClause n k c := by
  unfold generatePublicKey at h
  cases hg : generateClauses r privateKey n m k fuel [] st with
  | none => rw [hg] at h; simp at h
  | some res =>
    obtain ⟨re, st2⟩ := res
    rw [hg] at h
    simp only [Option.some.injEq, Prod.mk.injEq] at h
    obtain ⟨l1, l2⟩ := generateClauses_shape r hr privateKey n m k hn fuel [] st re st2 hg
      (by simp) (by simp)
    exact ⟨re, h.1.symm, l1, l2⟩

/-! ### More literals than variables -/

theorem length_le_of_nodup_lt (n : Nat) (vs : List Nat) (hnd : vs.Nodup)
    (hlt : ∀ v ∈ vs, v < n) : vs.length ≤ n := by
  have hsub : vs ⊆ List.range n := fun v hv => List.mem_range.2 (hlt v hv)
  have := (List.subperm_of_subset hnd hsub).length_le
  simpa using this

theorem generatePublicKey_none_of_lt {σ : Type} (r : rng σ) (hr : Conforming r)
    (privateKey : Nat → Bool) (n m k : Nat) (hn : 0 < n) (hk : n < k) (hm : 0 < m)
    (fuel : Nat) (st : σ) :
    generatePublicKey r privateKey n m k fuel st = none := by
  have hv : ∀ fuel1 st, drawVariables r n fuel1 k [] st = none := by
    intro fuel1 st
    cases hd : drawVariables r n fuel1 k [] st with
    | none => rfl
    | some p =>
      obtain ⟨vs, st1⟩ := p
      obtain ⟨v1, v2, v3⟩ := drawVariables_spec r n fuel1 k [] st vs st1 hd
      have := length_le_of_nodup_lt n vs (v2 List.nodup_nil)
        (v3 hr hn (fun _ hx => absurd hx (List.not_mem_nil _)))
      simp only [List.length_nil, Nat.zero_add] at v1
      omega
  unfold generatePublicKey
  cases fuel with
  | zero => simp [generateClauses, hm]
  | succ fuel => simp [generateClauses, hm, hv]

/-! ### Random functions and their coin flips -/

theorem coinFlips_length {σ : Type} (r : rng σ) (count : Nat) (st : σ) :
    (coinFlips r count st).1.length = count := by
  induction count generalizing st with
  | zero => rfl
  | succ count ih => simp [coinFlips, ih]

theorem coinFlips_add {σ : Type} (r : rng σ) (a b : Nat) (st : σ) :
    coinFlips r (a + b) st =
      ((coinFlips r a st).1 ++ (coinFlips r b (coinFlips r a st).2).1,
        (coinFlips r b (coinFlips r a st).2).2) := by
  induction a generalizing st with
  | zero => simp [coinFlips]
  | succ a ih =>
    rw [Nat.add_right_comm]
    simp only [coinFlips, ih, List.cons_append]

theorem selectBy_nil_left {α : Type} (ms : List α) : selectBy [] ms = [] := by
  cases ms <;> rfl

theorem selectBy_nil_right {α : Type} (fs : List Bool) : selectBy fs ([] : List α) = [] := by
  cases fs <;> rfl

theorem selectBy_append {α : Type} (fs gs : List Bool) (ms ns : List α)
    (h : fs.length = ms.length) :
    selectBy (fs ++ gs) (ms ++ ns) = selectBy fs ms ++ selectBy gs ns := by
  induction fs generalizing ms with
  | nil =>
    cases ms with
    | nil => simp [selectBy_nil_left]
    | cons m ms => simp at h
  | cons b fs ih =>
    cases ms with
    | nil => simp at h
    | cons m ms =>
      have hl : fs.length = ms.length := by simpa using h
      cases b
      · simp [selectBy, ih ms hl]
      · simp [selectBy, ih ms hl]

theorem selectBy_map {α β : Type} (f : α → β) (fs : List Bool) (ms : List α) :
    selectBy fs (ms.map f) = (selectBy fs ms).map f := by
  induction fs generalizing ms with
  | nil => simp [selectBy_nil_left]
  | cons b fs ih =>
    cases ms with
    | nil => simp [selectBy_nil_right]
    | cons m ms =>
      cases b
      · simp [selectBy, ih]
      · simp [selectBy, ih]

theorem selectBy_sublist {α : Type} (fs : List Bool) (ms : List α) :
    (selectBy fs ms).Sublist ms := by
  induction fs generalizing ms with
  | nil => simp [selectBy_nil_left]
  | cons b fs ih =>
    cases ms with
    | nil => simp [selectBy_nil_right]
    | cons m ms =>
      cases b
      · simpa [selectBy] using (ih ms).cons m
      · simpa [selectBy] using (ih ms).cons₂ m

theorem loopMonomials_ne_nil (vars : List Nat) : ∀ m ∈ loopMonomials vars, m ≠ [] := by
  induction vars with
  | nil => simp [loopMonomials]
  | cons V vars ih =>
    intro m hm
    simp only [loopMonomials, List.map_cons, List.cons_append, List.mem_cons, List.mem_append,
      List.mem_map] at hm
    rcases hm with e | ⟨m1, _, e⟩ | e
    · rw [e]; simp [putFront]
    · rw [← e]; unfold putFront; split_ifs <;> simp
    · exact ih m e

theorem putInFront_eq (V : Nat) (m : List Nat) (h : m ≠ []) :
    putInFront V m = some (putFront V m) := by
  cases m with
  | nil => exact absurd rfl h
  | cons a t =>
    simp only [putInFront, front, putFront, List.head?_cons, Option.some.injEq, List.tail_cons]
    by_cases h0 : a = 0
    · simp [h0]
    · simp [h0]

theorem loopMonomials_length_cons (V : Nat) (vars : List Nat) :
    (loopMonomials (V :: vars)).length =
      1 + (loopMonomials vars).length + (loopMonomials vars).length := by
  simp [loopMonomials]; omega

theorem randomFunctionLoop_eq {σ : Type} (r : rng σ) (vars : List Nat) (re : ANF) (st : σ) :
    randomFunctionLoop r vars re st =
      some (re ++ selectBy (coinFlips r (loopMonomials vars).length st).1 (loopMonomials vars),
        (coinFlips r (loopMonomials vars).length st).2) := by
  induction vars generalizing re st with
  | nil => simp [randomFunctionLoop, loopMonomials, coinFlips, selectBy_nil_left]
  | cons V vars ih =>
    simp only [randomFunctionLoop]
    rw [ih]
    simp only
    have hsub : (if (r.randomBool st).1 = true then [[0]] else []) ++
        selectBy (coinFlips r (loopMonomials vars).length (r.randomBool st).2).1
          (loopMonomials vars) =
        selectBy ((r.randomBool st).1 ::
          (coinFlips r (loopMonomials vars).length (r.randomBool st).2).1)
          ([0] :: loopMonomials vars) := by
      cases (r.randomBool st).1 <;> simp [selectBy]
    rw [hsub, mapM_option_eq (putInFront V) (putFront V) _
      (fun x hx => putInFront_eq V x (by
        have := (selectBy_sublist _ _).subset hx
        rcases List.mem_cons.1 this with e | e
        · rw [e]; simp
        · exact loopMonomials_ne_nil vars x e))]
    simp only
    rw [ih, loopMonomials_length_cons, coinFlips_add, coinFlips_add]
    simp only [coinFlips, List.append_assoc, List.nil_append, List.cons_append]
    congr 2
    rw [← selectBy_map]
    have hlen : ((r.randomBool st).1 ::
        (coinFlips r (loopMonomials vars).length (r.randomBool st).2).1).length =
        (([0] :: loopMonomials vars).map (putFront V)).length := by
      simp [coinFlips_length]
    have := selectBy_append _
      (coinFlips r (loopMonomials vars).length
        (coinFlips r (loopMonomials vars).length (r.randomBool st).2).2).1 _
      (loopMonomials vars) hlen
    simp only [loopMonomials]
    rw [← this]
    simp

theorem allMonomials_length (vars : List Nat) :
    (allMonomials vars).length = 2 ^ vars.length := by
  unfold allMonomials
  induction vars with
  | nil => simp [loopMonomials]
  | cons V vars ih =>
    rw [List.length_cons] at ih ⊢
    rw [loopMonomials_length_cons, List.length_cons, pow_succ]
    omega

theorem RandomFunction_eq {σ : Type} (r : rng σ) (vars : List Nat) (st : σ) :
    RandomFunction r vars st =
      some (selectBy (coinFlips r (2 ^ vars.length) st).1 (allMonomials vars),
        (coinFlips r (2 ^ vars.length) st).2) := by
  unfold RandomFunction
  rw [randomFunctionLoop_eq, ← allMonomials_length]
  simp only [allMonomials, List.length_cons, coinFlips]
  cases (r.randomBool st).1 <;> simp [selectBy]

/-! ### The monomials over a list of variables -/

theorem mem_loopMonomials (vars : List Nat) (hs : vars.Pairwise (fun a b => a < b))
    (hp : ∀ v ∈ vars, 0 < v) (m : List Nat) :
    m ∈ loopMonomials vars ↔ m ≠ [] ∧ m.Sublist vars := by
  induction vars generalizing m with
  | nil =>
    simp only [loopMonomials, List.not_mem_nil, List.sublist_nil, false_iff, not_and]
    exact fun h1 h2 => h1 h2
  | cons V vars ih =>
    obtain ⟨_, hs1⟩ := List.pairwise_cons.1 hs
    have hp1 : ∀ v ∈ vars, 0 < v := fun v hv => hp v (List.mem_cons_of_mem _ hv)
    have hput : ∀ m1 ∈ loopMonomials vars, putFront V m1 = V :: m1 := by
      intro m1 hm1
      obtain ⟨hne, hsub⟩ := (ih hs1 hp1 m1).1 hm1
      cases m1 with
      | nil => exact absurd rfl hne
      | cons a t =>
        have ha : 0 < a := hp1 a (hsub.subset (List.mem_cons_self _ _))
        have : a ≠ 0 := by omega
        simp [putFront, this]
    simp only [loopMonomials, List.map_cons, List.cons_append, List.mem_cons, List.mem_append,
      List.mem_map]
    rw [List.sublist_cons_iff]
    constructor
    · rintro (e | ⟨m1, hm1, e⟩ | e)
      · rw [e]
        exact ⟨by simp [putFront], Or.inr ⟨[], by simp [putFront], List.nil_sublist _⟩⟩
      · rw [← e, hput m1 hm1]
        exact ⟨by simp, Or.inr ⟨m1, rfl, ((ih hs1 hp1 m1).1 hm1).2⟩⟩
      · obtain ⟨h1, h2⟩ := (ih hs1 hp1 m).1 e
        exact ⟨h1, Or.inl h2⟩
    · rintro ⟨hne, h | ⟨t, e, ht⟩⟩
      · exact Or.inr (Or.inr ((ih hs1 hp1 m).2 ⟨hne, h⟩))
      · by_cases h0 : t = []
        · left; rw [e, h0]; simp [putFront]
        · right; left
          have hm1 := (ih hs1 hp1 t).2 ⟨h0, ht⟩
          exact ⟨t, hm1, by rw [hput t hm1, e]⟩

theorem mem_allMonomials (vars : List Nat) (hs : vars.Pairwise (fun a b => a < b))
    (hp : ∀ v ∈ vars, 0 < v) (m : List Nat) :
    m ∈ allMonomials vars ↔ isMonomialOver vars m := by
  unfold allMonomials isMonomialOver
  rw [List.mem_cons, mem_loopMonomials vars hs hp]

theorem loopMonomials_nodup (vars : List Nat) (hs : vars.Pairwise (fun a b => a < b))
    (hp : ∀ v ∈ vars, 0 < v) : (loopMonomials vars).Nodup := by
  induction vars with
  | nil => simp [loopMonomials]
  | cons V vars ih =>
    obtain ⟨hV, hs1⟩ := List.pairwise_cons.1 hs
    have hp1 : ∀ v ∈ vars, 0 < v := fun v hv => hp v (List.mem_cons_of_mem _ hv)
    have hVpos : 0 < V := hp V (List.mem_cons_self _ _)
    have hnd := ih hs1 hp1
    have hput : ∀ m1 ∈ loopMonomials vars, putFront V m1 = V :: m1 := by
      intro m1 hm1
      obtain ⟨hne, hsub⟩ := (mem_loopMonomials vars hs1 hp1 m1).1 hm1
      cases m1 with
      | nil => exact absurd rfl hne
      | cons a t =>
        have ha : 0 < a := hp1 a (hsub.subset (List.mem_cons_self _ _))
        have : a ≠ 0 := by omega
        simp [putFront, this]
    have hmap : (loopMonomials vars).map (putFront V) = (loopMonomials vars).map (List.cons V) :=
      List.map_congr_left hput
    simp only [loopMonomials, List.map_cons]
    rw [hmap]
    have h1 : putFront V [0] = [V] := by simp [putFront]
    rw [h1, List.cons_append, List.nodup_cons, List.nodup_append]
    refine ⟨?_, hnd.map (List.cons_injective), hnd, ?_⟩
    · simp only [List.mem_append, List.mem_map, not_or, not_exists, not_and]
      refine ⟨fun m1 hm1 e => ?_, fun hm => ?_⟩
      · have := loopMonomials_ne_nil vars m1 hm1
        simp only [List.cons.injEq, true_and] at e
        exact this e
      · have := ((mem_loopMonomials vars hs1 hp1 [V]).1 hm).2.subset (List.mem_singleton_self V)
        exact absurd (hV V this) (lt_irrefl V)
    · intro m hm1 hm2
      rw [List.mem_map] at hm1
      obtain ⟨m1, _, e⟩ := hm1
      have hsub := ((mem_loopMonomials vars hs1 hp1 m).1 hm2).2
      have : V ∈ m := by rw [← e]; exact List.mem_cons_self _ _
      exact absurd (hV V (hsub.subset this)) (lt_irrefl V)

theorem allMonomials_nodup (vars : List Nat) (hs : vars.Pairwise (fun a b => a < b))
    (hp : ∀ v ∈ vars, 0 < v) : (allMonomials vars).Nodup := by
  unfold allMonomials
  rw [List.nodup_cons]
  refine ⟨fun h => ?_, loopMonomials_nodup vars hs hp⟩
  have := ((mem_loopMonomials vars hs hp [0]).1 h).2.subset (List.mem_singleton_self 0)
  exact absurd (hp 0 this) (lt_irrefl 0)

/-! ### Selections from a list without repetitions -/

theorem selectBy_map_decide {α : Type} (p : α → Bool) (ms : List α) :
    selectBy (ms.map p) ms = ms.filter p := by
  induction ms with
  | nil => rfl
  | cons m ms ih =>
    cases h : p m
    · simp [selectBy, h, ih]
    · simp [selectBy, h, ih]

theorem flips_eq_of_selectBy {α : Type} [DecidableEq α] (ms : List α) (hnd : ms.Nodup)
    (fs : List Bool) (hl : fs.length = ms.length) :
    fs = ms.map (fun m => decide (m ∈ selectBy fs ms)) := by
  induction ms generalizing fs with
  | nil =>
    have : fs = [] := List.length_eq_zero.1 (by simpa using hl)
    rw [this]; rfl
  | cons m ms ih =>
    cases fs with
    | nil => simp at hl
    | cons b fs =>
      obtain ⟨hm, hnd1⟩ := List.nodup_cons.1 hnd
      have hl1 : fs.length = ms.length := by simpa using hl
      have hnot : m ∉ selectBy fs ms := fun h => hm ((selectBy_sublist fs ms).subset h)
      rw [List.map_cons]
      congr 1
      · cases b
        · simp [selectBy, hnot]
        · simp [selectBy]
      · conv_lhs => rw [ih hnd1 fs hl1]
        apply List.map_congr_left
        intro x hx
        have hxm : x ≠ m := fun e => hm (e ▸ hx)
        cases b
        · simp [selectBy]
        · simp [selectBy, hxm]

theorem existsUnique_flips (ms : List (List Nat)) (hnd : ms.Nodup) (T : Finset (List Nat))
    (hT : ∀ m ∈ T, m ∈ ms) :
    ∃! fs : List Bool, fs.length = ms.length ∧ (selectBy fs ms).toFinset = T := by
  refine ⟨ms.map (fun m => decide (m ∈ T)), ⟨by simp, ?_⟩, ?_⟩
  · rw [selectBy_map_decide]
    ext m
    simp only [List.mem_toFinset, List.mem_filter, decide_eq_true_eq]
    exact ⟨fun h => h.2, fun h => ⟨hT m h, h⟩⟩
  · rintro fs ⟨hl, hsel⟩
    rw [flips_eq_of_selectBy ms hnd fs hl]
    apply List.map_congr_left
    intro m _
    have h : m ∈ selectBy fs ms ↔ m ∈ T := by rw [← hsel, List.mem_toFinset]
    exact decide_eq_decide.2 h

/-! ### The shape of the cipher -/

theorem monoANF_nil (n : Nat) : monoANF n [] := fun _ h => absurd h (List.not_mem_nil _)

theorem isMonomial_one : isMonomial [0] := Or.inl rfl

theorem isMonomial_singleton {u : Nat} (h : 0 < u) : isMonomial [u] :=
  Or.inr ⟨by simp, by simp, fun v hv => by rw [List.mem_singleton] at hv; subst hv; exact h⟩

theorem monoANF_one (n : Nat) : monoANF n [[0]] := by
  intro m hm
  rw [List.mem_singleton] at hm
  subst hm
  exact ⟨isMonomial_one, fun v hv => by rw [List.mem_singleton] at hv; omega⟩

theorem monoANF.good {n : Nat} {g : ANF} (h : monoANF n g) : goodANF n g := by
  intro m hm
  obtain ⟨h1, h2⟩ := h m hm
  refine ⟨isMonomial_ne_nil h1, ?_⟩
  rcases h1 with e | ⟨_, _, h3⟩
  · exact Or.inl e
  · exact Or.inr (fun v hv => ⟨h3 v hv, h2 v hv⟩)

theorem monoANF_of_good {n : Nat} {g : ANF} (h1 : ∀ m ∈ g, isMonomial m) (h2 : goodANF n g) :
    monoANF n g := by
  intro m hm
  refine ⟨h1 m hm, fun v hv => ?_⟩
  rcases (h2 m hm).2 with e | e
  · rw [e, List.mem_singleton] at hv; omega
  · exact (e v hv).2

/-- In either mode `multiplyToANF` returns on polynomials of monomials, and its
result is made of monomials. -/
theorem multiplyToANF_mono {n : Nat} (g h : ANF) (sortResult : Bool)
    (hg : monoANF n g) (hh : monoANF n h) :
    ∃ r, multiplyToANF g h sortResult = some r ∧ monoANF n r := by
  obtain ⟨r, e, hgood, _⟩ := multiplyToANF_value g h sortResult hg.good hh.good
  refine ⟨r, e, monoANF_of_good ?_ hgood⟩
  have hgm : ∀ m ∈ g, isMonomial m := fun m hm => (hg m hm).1
  have hhm : ∀ m ∈ h, isMonomial m := fun m hm => (hh m hm).1
  unfold multiplyToANF at e
  by_cases h1 : g.length = 0
  · rw [if_pos h1] at e
    simp only [Option.some.injEq] at e
    subst e; exact hgm
  rw [if_neg h1] at e
  by_cases h2 : h.length = 0
  · rw [if_pos h2] at e
    simp only [Option.some.injEq] at e
    subst e
    exact fun _ hm => absurd hm (List.not_mem_nil _)
  rw [if_neg h2, isOne_of_monomials h hhm, isOne_of_monomials g hgm] at e
  by_cases h3 : h = [[0]]
  · subst h3
    simp only [decide_True, Option.some.injEq] at e
    subst e; exact hgm
  by_cases h4 : g = [[0]]
  · subst h4
    simp only [h3, decide_False, decide_True, Option.some.injEq] at e
    subst e; exact hhm
  simp only [h3, h4, decide_False] at e
  rw [multiplyLoop_eq g h sortResult (fun m hm => isMonomial_ne_nil (hgm m hm))
    (fun m hm => isMonomial_ne_nil (hhm m hm))] at e
  simp only [Option.some.injEq] at e
  subst e
  intro z hz
  rcases (foldl_addProduct_value (fun _ => true) sortResult (products g h) []).2 z hz with e | e
  · exact absurd e (List.not_mem_nil _)
  · exact isMonomial_of_mem_products g h hgm hhm z e

/-- What the loop of `convertLiterals` does with one literal of a key over
fewer than `2^32` variables. -/
theorem literal_mono {n : Nat} (hn : n < 2 ^ 32) {lit : BF} (h : isLiteral n lit) :
    monoANF n (if toInt32 lit.getDependence > 0
        then [[0], [intToUInt (toInt32 lit.getDependence)]]
        else [[intToUInt (-toInt32 lit.getDependence)]]) ∧
      0 < (if toInt32 lit.getDependence > 0 then intToUInt (toInt32 lit.getDependence)
        else intToUInt (-toInt32 lit.getDependence)) ∧
      (if toInt32 lit.getDependence > 0 then intToUInt (toInt32 lit.getDependence)
        else intToUInt (-toInt32 lit.getDependence)) ≤ n := by
  have key : (toInt32 lit.getDependence > 0 →
        0 < intToUInt (toInt32 lit.getDependence) ∧ intToUInt (toInt32 lit.getDependence) ≤ n) ∧
      (¬ toInt32 lit.getDependence > 0 →
        0 < intToUInt (-toInt32 lit.getDependence) ∧
          intToUInt (-toInt32 lit.getDependence) ≤ n) := by
    rcases isLiteral_cases h with ⟨i, hi, rfl⟩ | ⟨i, hi, rfl⟩
    · simp only [getDependence]
      unfold toInt32 intToUInt
      constructor <;> intro _ <;> omega
    · simp only [getDependence]
      unfold toInt32 intToUInt
      constructor <;> intro _ <;> omega
  by_cases hV : toInt32 lit.getDependence > 0
  · rw [if_pos hV, if_pos hV]
    obtain ⟨h1, h2⟩ := key.1 hV
    refine ⟨?_, h1, h2⟩
    intro m hm
    simp only [List.mem_cons, List.mem_singleton, List.not_mem_nil, or_false] at hm
    rcases hm with e | e
    · subst e; exact monoANF_one n [0] (List.mem_singleton_self _)
    · subst e
      exact ⟨isMonomial_singleton h1, fun v hv => by
        rw [List.mem_singleton] at hv; subst hv; exact h2⟩
  · rw [if_neg hV, if_neg hV]
    obtain ⟨h1, h2⟩ := key.2 hV
    refine ⟨?_, h1, h2⟩
    intro m hm
    rw [List.mem_singleton] at hm
    subst hm
    exact ⟨isMonomial_singleton h1, fun v hv => by
      rw [List.mem_singleton] at hv; subst hv; exact h2⟩

theorem convertLiterals_mono {n : Nat} (hn : n < 2 ^ 32) (lits : List BF)
    (hl : ∀ l ∈ lits, isLiteral n l) (nClause : ANF) (depends : List Nat)
    (hg : monoANF n nClause) (hd : ∀ v ∈ depends, 0 < v ∧ v ≤ n) :
    ∃ nc dep, convertLiterals lits nClause depends = some (nc, dep) ∧ monoANF n nc ∧
      ∀ v ∈ dep, 0 < v ∧ v ≤ n := by
  induction lits generalizing nClause depends with
  | nil => exact ⟨nClause, depends, rfl, hg, hd⟩
  | cons lit lits ih =>
    obtain ⟨hcur, hdep1, hdep2⟩ := literal_mono hn (hl lit (List.mem_cons_self _ _))
    obtain ⟨prod, hp, hmono⟩ := multiplyToANF_mono nClause _ true hg hcur
    obtain ⟨nc, dp, e, hnc, hdp⟩ :=
      ih (fun l hl' => hl l (List.mem_cons_of_mem _ hl')) prod _ hmono
        (fun v hv => by
          rcases List.mem_append.1 hv with h | h
          · exact hd v h
          · rw [List.mem_singleton] at h; subst h; exact ⟨hdep1, hdep2⟩)
    refine ⟨nc, dp, ?_, hnc, hdp⟩
    simp only [convertLiterals]
    rw [hp]
    exact e

theorem convertClauses_mono {n : Nat} (hn : n < 2 ^ 32) (l : List Nat)
    (m : Nat) (hl : l.Perm (List.range m)) (hm : m < 2 ^ 32) (ks : List BF) (cN : Nat)
    (nC : List ANF) (dep : List (List Nat))
    (hks : ∀ k ∈ ks, isClause n k)
    (hcN : cN + ks.length ≤ m)
    (hfresh : ∀ i, (nC.getD i []).length ≠ 0 ∨ (dep.getD i []).length ≠ 0 →
      ∃ c, c < cN ∧ l.get? i = some c)
    (h1 : ∀ x ∈ nC, monoANF n x)
    (h2 : ∀ d ∈ dep, ∀ v ∈ d, 0 < v ∧ v ≤ n) :
    ∃ nC1 dep1, convertClauses (l.map some) ks cN nC dep = some (nC1, dep1) ∧
      (∀ x ∈ nC1, monoANF n x) ∧
      (∀ d ∈ dep1, ∀ v ∈ d, 0 < v ∧ v ≤ n) := by
  induction ks generalizing cN nC dep with
  | nil => exact ⟨nC, dep, rfl, h1, h2⟩
  | cons k ks ih =>
    simp only [List.length_cons] at hcN
    have hmem : cN ∈ l := hl.symm.subset (List.mem_range.2 (by omega))
    obtain ⟨i, e1, e2⟩ := inverseSearch_spec l cN 0 hmem
    rw [Nat.zero_add] at e1
    have hslot : ¬ ((nC.getD i []).length ≠ 0 ∨ (dep.getD i []).length ≠ 0) := by
      intro hne
      obtain ⟨c, hc, hc2⟩ := hfresh i hne
      rw [e2] at hc2
      simp only [Option.some.injEq] at hc2
      omega
    have hdep0 : dep.getD i [] = [] := by
      apply List.length_eq_zero.1
      by_contra hne
      exact hslot (Or.inr hne)
    have hk1 := hks k (List.mem_cons_self _ _)
    obtain ⟨lits, rfl, hlits⟩ := isClause_cases hk1
    obtain ⟨nc, dp, e3, g1, g3⟩ := convertLiterals_mono hn lits hlits [[0]] []
      (monoANF_one n) (fun v hv => absurd hv (List.not_mem_nil _))
    obtain ⟨nC1, dep1, e4, r1, r2⟩ := ih (cN + 1) (nC.set i nc) (dep.set i dp)
      (fun k' hk' => hks k' (List.mem_cons_of_mem _ hk')) (by omega)
      (by
        intro j hj
        rcases hj with hj | hj
        · rcases getD_set_nonempty nC i j nc hj with e | e
          · subst e; exact ⟨cN, by omega, e2⟩
          · obtain ⟨c, hc, hc2⟩ := hfresh j (Or.inl e)
            exact ⟨c, by omega, hc2⟩
        · rcases getD_set_nonempty dep i j dp hj with e | e
          · subst e; exact ⟨cN, by omega, e2⟩
          · obtain ⟨c, hc, hc2⟩ := hfresh j (Or.inr e)
            exact ⟨c, by omega, hc2⟩)
      (by
        intro x hx
        rcases mem_set nC i nc x hx with e | e
        · exact h1 x e
        · subst e; exact g1)
      (by
        intro d hd
        rcases mem_set dep i dp d hd with e | e
        · exact h2 d e
        · subst e; exact g3)
    refine ⟨nC1, dep1, ?_, r1, r2⟩
    simp only [convertClauses]
    rw [e1]
    simp only []
    rw [if_neg hslot]
    simp only [children, hdep0, e3]
    rw [toUInt_of_small _ (by omega)]
    exact e4

theorem inverseSearch_none (l : List Nat) (c k : Nat) (h : c ∉ l) :
    inverseSearch (l.map some) c k = none := by
  induction l generalizing k with
  | nil => rfl
  | cons a l ih =>
    simp only [List.map_cons, inverseSearch]
    have ha : a ≠ c := fun e => h (e ▸ List.mem_cons_self _ _)
    rw [if_neg ha]
    exact ih (k + 1) (fun hc => h (List.mem_cons_of_mem _ hc))

/-- The loop over the clauses fails when it meets more clauses than the
permutation has entries. -/
theorem convertClauses_none (l : List Nat) (m : Nat) (hl : ∀ x ∈ l, x < m) (hm : m < 2 ^ 32)
    (ks : List BF) (cN : Nat) (nC : List ANF) (dep : List (List Nat))
    (hcN : cN ≤ m) (hlen : m < cN + ks.length) :
    convertClauses (l.map some) ks cN nC dep = none := by
  induction ks generalizing cN nC dep with
  | nil => simp at hlen; omega
  | cons k ks ih =>
    simp only [List.length_cons] at hlen
    simp only [convertClauses]
    by_cases hc : cN = m
    · rw [inverseSearch_none l cN 0 (fun h => by have := hl cN h; omega)]
    · cases h1 : inverseSearch (l.map some) cN 0 with
      | none => rfl
      | some i =>
        simp only []
        split_ifs
        · rfl
        · cases h2 : convertLiterals k.children [[0]] (dep.getD i []) with
          | none => rfl
          | some p =>
            obtain ⟨nc, dp⟩ := p
            simp only []
            rw [toUInt_of_small _ (by omega)]
            exact ih (cN + 1) _ _ (by omega) (by omega)

/-! ### The variables of a random function -/

theorem deleteDoubles_strict : ∀ (l : List Nat),
    l.Pairwise (fun a b => decide (b < a) = false) →
    (deleteDoubles l).Pairwise (fun a b => a < b)
  | [], _ => by simp [deleteDoubles]
  | [x], _ => by simp [deleteDoubles]
  | x :: y :: rest, h => by
    obtain ⟨hx, hrest⟩ := List.pairwise_cons.1 h
    have ih := deleteDoubles_strict (y :: rest) hrest
    simp only [deleteDoubles]
    by_cases e : y = x
    · rw [if_pos e]; exact ih
    · rw [if_neg e]
      refine List.pairwise_cons.2 ⟨fun z hz => ?_, ih⟩
      have hz1 := deleteDoubles_subset _ z hz
      have hxy := hx y (List.mem_cons_self _ _)
      simp only [decide_eq_false_iff_not, not_lt] at hxy
      rcases List.mem_cons.1 hz1 with e1 | e1
      · subst e1; omega
      · have hyz := (List.pairwise_cons.1 hrest).1 z e1
        simp only [decide_eq_false_iff_not, not_lt] at hyz
        omega

theorem isMonomial_of_isMonomialOver {vars m : List Nat}
    (hs : vars.Pairwise (fun a b => a < b)) (hp : ∀ v ∈ vars, 0 < v)
    (h : isMonomialOver vars m) : isMonomial m := by
  rcases h with e | ⟨h1, h2⟩
  · exact Or.inl e
  · exact Or.inr ⟨h1, hs.sublist h2, fun v hv => hp v (h2.subset hv)⟩

theorem RandomFunction_mono {σ : Type} (r : rng σ) {n : Nat} (vars : List Nat)
    (hs : vars.Pairwise (fun a b => a < b)) (hv : ∀ v ∈ vars, 0 < v ∧ v ≤ n) (st : σ) :
    ∃ res st1, RandomFunction r vars st = some (res, st1) ∧ monoANF n res := by
  refine ⟨_, _, RandomFunction_eq r vars st, ?_⟩
  intro m hm
  have hm1 := (selectBy_sublist _ _).subset hm
  have hover := (mem_allMonomials vars hs (fun v h => (hv v h).1) m).1 hm1
  refine ⟨isMonomial_of_isMonomialOver hs (fun v h => (hv v h).1) hover, fun v hvm => ?_⟩
  rcases hover with e | ⟨_, h2⟩
  · rw [e, List.mem_singleton] at hvm; omega
  · exact (hv v (h2.subset hvm)).2

/-! ### The cipher loop on monomials -/

theorem cipherSummand_mono {σ : Type} (r : rng σ) {n : Nat}
    (nClause : List ANF) (depends : List (List Nat))
    (h1 : ∀ x ∈ nClause, monoANF n x)
    (h2 : ∀ d ∈ depends, ∀ v ∈ d, 0 < v ∧ v ≤ n)
    (m beta i j : Nat) (g : ANF) (st : σ) (hg : monoANF n g) :
    ∃ g1 st1, cipherSummand r nClause depends m beta i j g st = some (g1, st1) ∧
      monoANF n g1 := by
  have hvars : ∀ v ∈ deleteDoubles (listSort (fun a b : Nat => decide (a < b))
      (gatherDepends depends m beta i j)), 0 < v ∧ v ≤ n := by
    intro v hv
    have hv1 := deleteDoubles_subset _ v hv
    have hv2 := (listSort_perm _ _).subset hv1
    obtain ⟨d, hd, hvd⟩ := gatherDepends_subset depends m beta i j v hv2
    exact h2 d hd v hvd
  have hstrict := deleteDoubles_strict _
    (listSort_sorted (fun a b : Nat => decide (a < b)) natLt_asymm natLt_trans
      (gatherDepends depends m beta i j))
  obtain ⟨R, st1, e1, hR⟩ := RandomFunction_mono r _ hstrict hvars st
  have hnc : monoANF n (nClause.getD (toUInt (i + beta) % m) []) := by
    rcases getD_mem_or_nil nClause (toUInt (i + beta) % m) with h | h
    · exact h1 _ h
    · rw [h]; exact monoANF_nil n
  obtain ⟨R1, e2, hR1⟩ := multiplyToANF_mono R _ false hR hnc
  refine ⟨concatANF g R1, st1, ?_, ?_⟩
  · simp only [cipherSummand]
    rw [e1]
    simp only []
    rw [e2]
  · intro z hz
    rcases List.mem_append.1 hz with h | h
    · exact hg z h
    · exact hR1 z h

theorem cipherLoop_mono {σ : Type} (r : rng σ) {n : Nat}
    (nClause : List ANF) (depends : List (List Nat))
    (h1 : ∀ x ∈ nClause, monoANF n x)
    (h2 : ∀ d ∈ depends, ∀ v ∈ d, 0 < v ∧ v ≤ n)
    (m beta : Nat) (st : σ) :
    ∃ g st1, cipherLoop r nClause depends m beta st = some (g, st1) ∧ monoANF n g := by
  have := foldlM_invariant (fun acc : ANF × σ => monoANF n acc.1)
    (fun acc i => (List.range beta).foldlM (fun acc j =>
      cipherSummand r nClause depends m beta i j acc.1 acc.2) acc) (List.range m)
    (fun b i hb => foldlM_invariant _ _ _ (fun b' j hb' => by
      obtain ⟨g1, st1, e, hg⟩ := cipherSummand_mono r nClause depends h1 h2 m beta i j
        b'.1 b'.2 hb'
      exact ⟨(g1, st1), e, hg⟩) b hb)
    ([], st) (monoANF_nil n)
  obtain ⟨⟨g, st1⟩, e, hg⟩ := this
  exact ⟨g, st1, e, hg⟩

/-- For a key over fewer than `2^32` variables with fewer than `2^32` clauses
`encrypt` arrives at a strictly ascending polynomial of monomials. -/
theorem encryptANF_mono {σ : Type} (r : rng σ) (hr : Conforming r) {n : Nat} (hn : n < 2 ^ 32)
    (pk : BF) (hpk : isCNF n pk) (hsize : pk.size < 2 ^ 32) (b : Bool) (beta : Nat) (st : σ) :
    ∃ g st1, encryptANF r pk b beta st = some (g, st1) ∧ Ascending g ∧ monoANF n g := by
  obtain ⟨clauses, rfl, hcl⟩ := isCNF_cases hpk
  have hsz : toUInt (AND n clauses).size = clauses.length := by
    rw [toUInt_of_small _ hsize]; rfl
  obtain ⟨l, el, hl⟩ := drawPermutation_spec r hr clauses.length (List.range clauses.length) []
    st (List.length_range _) (by simpa [size, children] using hsize)
  rw [List.nil_append] at el
  obtain ⟨nC, dep, e1, i1, i2⟩ := convertClauses_mono hn l clauses.length hl
    (by simpa [size, children] using hsize) clauses 0
    (List.replicate clauses.length []) (List.replicate clauses.length [])
    hcl (by omega)
    (by
      intro i hi
      exfalso
      rcases hi with hi | hi
      · exact hi (getD_replicate_nil _ i)
      · exact hi (getD_replicate_nil _ i))
    (by
      intro x hx
      rw [List.eq_of_mem_replicate hx]
      exact monoANF_nil n)
    (by
      intro d hd
      rw [List.eq_of_mem_replicate hd]
      intro v hv
      exact absurd hv (List.not_mem_nil _))
  obtain ⟨g, st1, e2, hg1⟩ := cipherLoop_mono r nC dep i1 i2 clauses.length
    (toUInt beta) (drawPermutation r clauses.length (List.range clauses.length) [] st).2
  obtain ⟨c3, m3, _⟩ := sortANF_spec g false
  have hmono3 : monoANF n (sortANF g false) := by
    intro z hz
    have hodd := (m3 z).1 hz
    apply hg1 z
    by_contra hn'
    simp only [innerSorted, Bool.false_eq_true, if_false] at hodd
    rw [List.count_eq_zero_of_not_mem hn'] at hodd
    simp at hodd
  refine ⟨if b then addToANF (sortANF g false) [[0]] else sortANF g false, st1, ?_, ?_, ?_⟩
  · simp only [encryptANF]
    rw [hsz]
    simp only [children]
    rw [el, e1]
    simp only []
    rw [e2]
  · cases b
    · simpa using c3
    · simp only [if_true]
      exact (addToANF_spec _ _ c3 (List.pairwise_singleton _ _)).1
  · cases b
    · simpa using hmono3
    · simp only [if_true]
      intro z hz
      rcases (addToANF_value (fun _ => true) _ _).2 z hz with h | h
      · exact hmono3 z h
      · exact monoANF_one n z h

/-- A key with `2^32` clauses or more: `encrypt` returns the null pointer. -/
theorem encryptANF_none_of_large {σ : Type} (r : rng σ) (hr : Conforming r) (pk : BF)
    (hsize : 2 ^ 32 ≤ pk.size) (b : Bool) (beta : Nat) (st : σ) :
    encryptANF r pk b beta st = none := by
  have hm : toUInt pk.size < 2 ^ 32 := by unfold toUInt; omega
  have hlt : toUInt pk.size < pk.size := by omega
  obtain ⟨l, el, hl⟩ := drawPermutation_spec r hr (toUInt pk.size) (List.range (toUInt pk.size))
    [] st (List.length_range _) hm
  rw [List.nil_append] at el
  have hnone := convertClauses_none l (toUInt pk.size)
    (fun x hx => List.mem_range.1 (hl.subset hx)) hm pk.children 0
    (List.replicate (toUInt pk.size) []) (List.replicate (toUInt pk.size) [])
    (Nat.zero_le _) (by rw [Nat.zero_add]; exact hlt)
  simp only [encryptANF]
  rw [el, hnone]

/-! ### The tree of a polynomial of monomials -/

theorem leaf_injective (n : Nat) : Function.Injective
    (fun j : Nat => if j = 0 then BF.TRUE n [] else BF.INPUT n (j - 1) []) := by
  intro a b h
  by_cases ha : a = 0 <;> by_cases hb : b = 0
  · rw [ha, hb]
  · simp [ha, hb] at h
  · simp [ha, hb] at h
  · simp only [ha, hb, if_false, BF.INPUT.injEq, and_true, true_and] at h
    omega

theorem summand_injective (n : Nat) : Function.Injective
    (fun i : List Nat =>
      BF.AND n (i.map (fun j => if j = 0 then BF.TRUE n [] else BF.INPUT n (j - 1) []))) := by
  intro a b h
  simp only [BF.AND.injEq, true_and] at h
  exact List.map_injective_iff.2 (leaf_injective n) h

theorem isSummand_of_monomial {n : Nat} {m : List Nat} (h1 : isMonomial m)
    (h2 : ∀ v ∈ m, v ≤ n) :
    isSummand n
      (BF.AND n (m.map (fun j => if j = 0 then BF.TRUE n [] else BF.INPUT n (j - 1) []))) := by
  rcases h1 with e | ⟨hne, hs, hp⟩
  · left; rw [e]; rfl
  · right
    refine ⟨m.map (fun j => j - 1), by simpa using hne, ?_, ?_, ?_⟩
    · rw [List.pairwise_map]
      refine hs.imp_of_mem ?_
      intro a b ha hb hab
      have := hp a ha
      omega
    · intro i hi
      rw [List.mem_map] at hi
      obtain ⟨j, hj, rfl⟩ := hi
      have := hp j hj
      have := h2 j hj
      omega
    · rw [List.map_map]
      congr 1
      apply List.map_congr_left
      intro j hj
      have := hp j hj
      have h0 : j ≠ 0 := by omega
      simp [h0]

theorem isCipherTree_toBF {n : Nat} {g : ANF} (hg : Ascending g) (hm : monoANF n g) :
    isCipherTree n (toBF n g) := by
  refine ⟨_, rfl, ?_, ?_⟩
  · intro c hc
    rw [List.mem_map] at hc
    obtain ⟨m, hmg, rfl⟩ := hc
    exact isSummand_of_monomial (hm m hmg).1 (hm m hmg).2
  · exact (Ascending.nodup hg).map (summand_injective n)

/-- The shape of the tree that `encrypt` returns for a key over fewer than
`2^32` variables. -/
theorem encrypt_shape {σ : Type} (r : rng σ) (hr : Conforming r) {n : Nat} (hn : n < 2 ^ 32)
    (pk : BF) (hpk : isCNF n pk) (b : Bool) (beta : Nat) (st : σ) :
    (∀ c st1, encrypt r n pk b beta st = some (c, st1) → isCipherTree n c) ∧
    (pk.size < 2 ^ 32 → ∃ c st1, encrypt r n pk b beta st = some (c, st1)) := by
  by_cases hsize : pk.size < 2 ^ 32
  · obtain ⟨g, st1, e, hasc, hmono⟩ := encryptANF_mono r hr hn pk hpk hsize b beta st
    have henc : encrypt r n pk b beta st = some (toBF n g, st1) := by
      simp only [encrypt]
      rw [e, toUInt_of_small n hn]
    refine ⟨fun c st2 h => ?_, fun _ => ⟨_, _, henc⟩⟩
    rw [henc] at h
    simp only [Option.some.injEq, Prod.mk.injEq] at h
    rw [← h.1]
    exact isCipherTree_toBF hasc hmono
  · refine ⟨fun c st2 h => ?_, fun h => absurd h hsize⟩
    have hnone := encryptANF_none_of_large r hr pk (by omega) b beta st
    simp only [encrypt] at h
    rw [hnone] at h
    exact absurd h (by simp)

/-! ### Sorting with a comparator that is an order on the entries only -/

theorem orderedInsert_sorted_on {α : Type} (less : α → α → Bool) (x : α) (l : List α)
    (htrans : ∀ a ∈ x :: l, ∀ b ∈ x :: l, ∀ c ∈ x :: l,
      less b a = false → less c b = false → less c a = false)
    (hasymm : ∀ a ∈ x :: l, ∀ b ∈ x :: l, less a b = true → less b a = false)
    (hl : l.Pairwise (fun a b => less b a = false)) :
    (orderedInsert less x l).Pairwise (fun a b => less b a = false) := by
  induction l with
  | nil => simp [orderedInsert]
  | cons y ys ih =>
    obtain ⟨hy, hys⟩ := List.pairwise_cons.1 hl
    simp only [orderedInsert]
    by_cases h : less y x = true
    · rw [if_pos h]
      have hsub : ∀ a, a ∈ x :: ys → a ∈ x :: y :: ys := by
        intro a ha
        rcases List.mem_cons.1 ha with e | e
        · exact e ▸ List.mem_cons_self _ _
        · exact List.mem_cons_of_mem _ (List.mem_cons_of_mem _ e)
      refine List.pairwise_cons.2 ⟨?_, ih
        (fun a ha b hb c hc => htrans a (hsub a ha) b (hsub b hb) c (hsub c hc))
        (fun a ha b hb => hasymm a (hsub a ha) b (hsub b hb)) hys⟩
      intro z hz
      rcases List.mem_cons.1 ((orderedInsert_perm less x ys).subset hz) with e | e
      · subst e
        exact hasymm y (List.mem_cons_of_mem _ (List.mem_cons_self _ _)) z
          (List.mem_cons_self _ _) h
      · exact hy z e
    · rw [if_neg h]
      have h' : less y x = false := by simpa using h
      refine List.pairwise_cons.2 ⟨?_, hl⟩
      intro z hz
      rcases List.mem_cons.1 hz with e | e
      · subst e; exact h'
      · exact htrans x (List.mem_cons_self _ _) y
          (List.mem_cons_of_mem _ (List.mem_cons_self _ _)) z
          (List.mem_cons_of_mem _ (List.mem_cons_of_mem _ e)) h' (hy z e)

theorem listSort_sorted_on {α : Type} (less : α → α → Bool) (l : List α)
    (htrans : ∀ a ∈ l, ∀ b ∈ l, ∀ c ∈ l,
      less b a = false → less c b = false → less c a = false)
    (hasymm : ∀ a ∈ l, ∀ b ∈ l, less a b = true → less b a = false) :
    (listSort less l).Pairwise (fun a b => less b a = false) := by
  induction l with
  | nil => simp [listSort]
  | cons x xs ih =>
    have hmem : ∀ a, a ∈ x :: listSort less xs → a ∈ x :: xs := by
      intro a ha
      rcases List.mem_cons.1 ha with e | e
      · exact e ▸ List.mem_cons_self _ _
      · exact List.mem_cons_of_mem _ ((listSort_perm less xs).subset e)
    exact orderedInsert_sorted_on less x _
      (fun a ha b hb c hc => htrans a (hmem a ha) b (hmem b hb) c (hmem c hc))
      (fun a ha b hb => hasymm a (hmem a ha) b (hmem b hb))
      (ih (fun a ha b hb c hc => htrans a (List.mem_cons_of_mem _ ha) b
          (List.mem_cons_of_mem _ hb) c (List.mem_cons_of_mem _ hc))
        (fun a ha b hb => hasymm a (List.mem_cons_of_mem _ ha) b (List.mem_cons_of_mem _ hb)))

/-! ### The comparator of `recursiveSort` -/

theorem lessBF_of_compare {x y : BF} {v : Int} (h : BF.compare x y = some v) :
    lessBF x y = decide (v < 0) := by
  simp [lessBF, boolCompare, h]

theorem lessBF_asymm {a b : BF} (hd : (BF.compare a b).isSome = true)
    (h : lessBF a b = true) : lessBF b a = false := by
  obtain ⟨v, hv⟩ := Option.isSome_iff_exists.1 hd
  have hs : BF.compare b a = some (-v) := by rw [bf_compare_swap a b, hv]; rfl
  rw [lessBF_of_compare hv] at h
  rw [lessBF_of_compare hs]
  simp only [decide_eq_true_eq] at h
  simp only [decide_eq_false_iff_not]
  omega

theorem lessBF_trans {a b c : BF} (hab : (BF.compare a b).isSome = true)
    (hbc : (BF.compare b c).isSome = true)
    (h1 : lessBF b a = false) (h2 : lessBF c b = false) : lessBF c a = false := by
  obtain ⟨u, hu⟩ := Option.isSome_iff_exists.1 hab
  obtain ⟨w, hw⟩ := Option.isSome_iff_exists.1 hbc
  have hba : BF.compare b a = some (-u) := by rw [bf_compare_swap a b, hu]; rfl
  have hcb : BF.compare c b = some (-w) := by rw [bf_compare_swap b c, hw]; rfl
  rw [lessBF_of_compare hba] at h1
  rw [lessBF_of_compare hcb] at h2
  simp only [decide_eq_false_iff_not] at h1 h2
  obtain ⟨t, ht, ht0, _⟩ := bf_compare_trans a b c u w hu hw (by omega) (by omega)
  have hca : BF.compare c a = some (-t) := by rw [bf_compare_swap a c, ht]; rfl
  rw [lessBF_of_compare hca]
  simp only [decide_eq_false_iff_not]
  omega

theorem sortChildren_eq {cs cs1 : List BF} (h : sortChildren cs = some cs1) :
    (∀ a ∈ cs, ∀ b ∈ cs, (BF.compare a b).isSome = true) ∧ cs1 = listSort lessBF cs := by
  unfold sortChildren at h
  split_ifs at h with hd
  simp only [Option.some.injEq] at h
  refine ⟨?_, h.symm⟩
  intro a ha b hb
  rw [List.all_eq_true] at hd
  have := hd a ha
  rw [List.all_eq_true] at this
  exact this b hb

/-- Sorting a sorted list of children returns it. -/
theorem sortChildren_idem {cs cs1 : List BF} (h : sortChildren cs = some cs1) :
    sortChildren cs1 = some cs1 := by
  obtain ⟨hd, rfl⟩ := sortChildren_eq h
  have hperm := listSort_perm lessBF cs
  have hd1 : ∀ a ∈ listSort lessBF cs, ∀ b ∈ listSort lessBF cs,
      (BF.compare a b).isSome = true :=
    fun a ha b hb => hd a (hperm.subset ha) b (hperm.subset hb)
  have hsorted := listSort_sorted_on lessBF cs
    (fun a ha b hb c hc => lessBF_trans (hd a ha b hb) (hd b hb c hc))
    (fun a ha b hb => lessBF_asymm (hd a ha b hb))
  unfold sortChildren
  rw [if_pos, listSort_of_sorted lessBF _ hsorted]
  rw [List.all_eq_true]
  intro a ha
  rw [List.all_eq_true]
  intro b hb
  exact hd1 a ha b hb

theorem sortChildren_mem {cs cs1 : List BF} (h : sortChildren cs = some cs1) :
    ∀ c ∈ cs1, c ∈ cs := by
  obtain ⟨_, rfl⟩ := sortChildren_eq h
  exact fun c hc => (listSort_perm lessBF cs).subset hc

theorem recursiveSortList_of_fixed : ∀ (l : List BF), (∀ c ∈ l, recursiveSort c = some c) →
    recursiveSortList l = some l
  | [], _ => by simp [recursiveSortList]
  | c :: cs, h => by
    simp only [recursiveSortList]
    rw [h c (List.mem_cons_self _ _),
      recursiveSortList_of_fixed cs (fun x hx => h x (List.mem_cons_of_mem _ hx))]

/-- The step of the idempotence proof at a node with children `cs`. -/
theorem recursiveSort_node_idem {cs1 cs2 : List BF}
    (ih : ∀ c1 ∈ cs1, recursiveSort c1 = some c1)
    (h2 : sortChildren cs1 = some cs2) :
    recursiveSortList cs2 = some cs2 ∧ sortChildren cs2 = some cs2 :=
  ⟨recursiveSortList_of_fixed cs2 (fun c hc => ih c (sortChildren_mem h2 c hc)),
    sortChildren_idem h2⟩

theorem recursiveSort_unfold (x : BF) :
    recursiveSort x =
      match recursiveSortList x.children with
      | none => none
      | some cs1 =>
        match sortChildren cs1 with
        | none => none
        | some cs2 => some (x.withChildren cs2) := by
  cases x <;> rfl

theorem children_withChildren (x : BF) (cs : List BF) : (x.withChildren cs).children = cs := by
  cases x <;> rfl

theorem withChildren_withChildren (x : BF) (cs cs1 : List BF) :
    (x.withChildren cs).withChildren cs1 = x.withChildren cs1 := by
  cases x <;> rfl

theorem recursiveSort_idem_step (x x1 : BF)
    (ih : ∀ cs1, recursiveSortList x.children = some cs1 →
      ∀ c1 ∈ cs1, recursiveSort c1 = some c1)
    (h : recursiveSort x = some x1) : recursiveSort x1 = some x1 := by
  rw [recursiveSort_unfold] at h
  cases e1 : recursiveSortList x.children with
  | none => rw [e1] at h; simp at h
  | some cs1 =>
    rw [e1] at h
    simp only [] at h
    cases e2 : sortChildren cs1 with
    | none => rw [e2] at h; simp at h
    | some cs2 =>
      rw [e2] at h
      simp only [Option.some.injEq] at h
      subst h
      obtain ⟨a, b⟩ := recursiveSort_node_idem (ih cs1 e1) e2
      rw [recursiveSort_unfold, children_withChildren, a]
      simp only []
      rw [b]
      simp only [withChildren_withChildren]

mutual
/-- The method `recursiveSort()` is idempotent: a second call leaves the sorted
tree as it is. -/
theorem recursiveSort_idem : ∀ (x x1 : BF), recursiveSort x = some x1 →
    recursiveSort x1 = some x1
  | TRUE n cs, x1, h =>
    recursiveSort_idem_step (TRUE n cs) x1 (fun cs1 e => recursiveSortList_idem cs cs1 e) h
  | FALSE n cs, x1, h =>
    recursiveSort_idem_step (FALSE n cs) x1 (fun cs1 e => recursiveSortList_idem cs cs1 e) h
  | INPUT n v cs, x1, h =>
    recursiveSort_idem_step (INPUT n v cs) x1 (fun cs1 e => recursiveSortList_idem cs cs1 e) h
  | NOT n cs, x1, h =>
    recursiveSort_idem_step (NOT n cs) x1 (fun cs1 e => recursiveSortList_idem cs cs1 e) h
  | AND n cs, x1, h =>
    recursiveSort_idem_step (AND n cs) x1 (fun cs1 e => recursiveSortList_idem cs cs1 e) h
  | OR n cs, x1, h =>
    recursiveSort_idem_step (OR n cs) x1 (fun cs1 e => recursiveSortList_idem cs cs1 e) h
  | XOR n cs, x1, h =>
    recursiveSort_idem_step (XOR n cs) x1 (fun cs1 e => recursiveSortList_idem cs cs1 e) h
theorem recursiveSortList_idem : ∀ (cs cs1 : List BF), recursiveSortList cs = some cs1 →
    ∀ c1 ∈ cs1, recursiveSort c1 = some c1
  | [], cs1, h => by
    simp only [recursiveSortList, Option.some.injEq] at h
    subst h
    exact fun _ hc => absurd hc (List.not_mem_nil _)
  | c :: cs, cs1, h => by
    simp only [recursiveSortList] at h
    cases e1 : recursiveSort c with
    | none => rw [e1] at h; simp at h
    | some c1 =>
      rw [e1] at h
      simp only [] at h
      cases e2 : recursiveSortList cs with
      | none => rw [e2] at h; simp at h
      | some cs2 =>
        rw [e2] at h
        simp only [Option.some.injEq] at h
        subst h
        intro x hx
        rcases List.mem_cons.1 hx with e | e
        · rw [e]; exact recursiveSort_idem c c1 e1
        · exact recursiveSortList_idem cs cs2 e2 x e
end

/-! ### Sorting a CNF key -/

theorem compareNode_isSome (x y : BF) (rec : Option Int)
    (h1 : x.size = y.size → x.size > 0 → rec.isSome = true)
    (h2 : x.size = 0 → y.size = 0 → (compareLeaf x y).isSome = true) :
    (compareNode x y rec).isSome = true := by
  unfold compareNode
  by_cases a : x.size < y.size
  · rw [if_pos a]; rfl
  rw [if_neg a]
  by_cases b : x.size > y.size
  · rw [if_pos b]; rfl
  rw [if_neg b]
  by_cases c : x.size > 0
  · rw [if_pos c]; exact h1 (by omega) c
  · rw [if_neg c]; exact h2 (by omega) (by omega)

theorem compareLeaf_isSome_of_type (x y : BF) (h : x.myType = y.myType) :
    (compareLeaf x y).isSome = true := by
  unfold compareLeaf
  by_cases a : x.getDependence < y.getDependence
  · rw [if_pos a]; rfl
  rw [if_neg a]
  by_cases b : x.getDependence > y.getDependence
  · rw [if_pos b]; rfl
  rw [if_neg b, if_neg (by simpa using h)]
  rfl

theorem compareChildren_isSome : ∀ (xs ys : List BF), xs.length = ys.length →
    (∀ a ∈ xs, ∀ b ∈ ys, (BF.compare a b).isSome = true) →
    (compareChildren xs ys).isSome = true
  | [], [], _, _ => by simp [compareChildren]
  | [], _ :: _, h, _ => by simp at h
  | _ :: _, [], h, _ => by simp at h
  | x :: xs, y :: ys, h, hd => by
    simp only [compareChildren]
    obtain ⟨v, hv⟩ := Option.isSome_iff_exists.1
      (hd x (List.mem_cons_self _ _) y (List.mem_cons_self _ _))
    rw [hv]
    simp only []
    by_cases h0 : v ≠ 0
    · rw [if_pos h0]; rfl
    · rw [if_neg h0]
      exact compareChildren_isSome xs ys (by simpa using h)
        (fun a ha b hb => hd a (List.mem_cons_of_mem _ ha) b (List.mem_cons_of_mem _ hb))

theorem compare_isSome_of_literals {n : Nat} {a b : BF} (ha : isLiteral n a)
    (hb : isLiteral n b) : (BF.compare a b).isSome = true := by
  have hin : ∀ i j, (BF.compare (INPUT n i []) (INPUT n j [])).isSome = true := by
    intro i j
    rw [compare_unfold]
    exact compareNode_isSome _ _ _ (fun _ h => by simp [size, children] at h)
      (fun _ _ => compareLeaf_isSome_of_type _ _ rfl)
  rcases isLiteral_cases ha with ⟨i, _, rfl⟩ | ⟨i, _, rfl⟩ <;>
    rcases isLiteral_cases hb with ⟨j, _, rfl⟩ | ⟨j, _, rfl⟩
  · exact hin i j
  · rw [compare_unfold]
    exact compareNode_isSome _ _ _ (fun h _ => by simp [size, children] at h)
      (fun _ h => by simp [size, children] at h)
  · rw [compare_unfold]
    exact compareNode_isSome _ _ _ (fun h _ => by simp [size, children] at h)
      (fun h _ => by simp [size, children] at h)
  · rw [compare_unfold]
    refine compareNode_isSome _ _ _ (fun _ _ => ?_) (fun h _ => by simp [size, children] at h)
    exact compareChildren_isSome _ _ rfl (fun a ha b hb => by
      simp only [children, List.mem_singleton] at ha hb
      subst ha; subst hb
      exact hin i j)

theorem compare_isSome_of_clauses {n : Nat} {a b : BF} (ha : isClause n a)
    (hb : isClause n b) : (BF.compare a b).isSome = true := by
  obtain ⟨l1, rfl, h1⟩ := isClause_cases ha
  obtain ⟨l2, rfl, h2⟩ := isClause_cases hb
  rw [compare_unfold]
  refine compareNode_isSome _ _ _ (fun hs _ => ?_)
    (fun _ _ => compareLeaf_isSome_of_type _ _ rfl)
  exact compareChildren_isSome _ _ (by simpa [size, children] using hs)
    (fun a ha b hb => compare_isSome_of_literals (h1 a ha) (h2 b hb))

theorem sortChildren_of_defined (cs : List BF)
    (h : ∀ a ∈ cs, ∀ b ∈ cs, (BF.compare a b).isSome = true) :
    sortChildren cs = some (listSort lessBF cs) := by
  unfold sortChildren
  rw [if_pos]
  rw [List.all_eq_true]
  intro a ha
  rw [List.all_eq_true]
  intro b hb
  exact h a ha b hb

theorem recursiveSort_literal {n : Nat} {a : BF} (ha : isLiteral n a) :
    recursiveSort a = some a := by
  rcases isLiteral_cases ha with ⟨i, _, rfl⟩ | ⟨i, _, rfl⟩
  · rfl
  · have h1 : recursiveSortList [INPUT n i []] = some [INPUT n i []] := rfl
    have h2 : sortChildren [INPUT n i []] = some [INPUT n i []] := by
      rw [sortChildren_of_defined]
      · rfl
      · intro a ha b hb
        rw [List.mem_singleton] at ha hb
        subst ha; subst hb
        rw [bf_compare_self]; rfl
    rw [recursiveSort_unfold]
    simp only [children, h1, h2]
    rfl

theorem recursiveSort_clause {n : Nat} {c : BF} (hc : isClause n c) :
    ∃ c1, recursiveSort c = some c1 ∧ isClause n c1 := by
  obtain ⟨lits, rfl, hl⟩ := isClause_cases hc
  have h1 : recursiveSortList lits = some lits :=
    recursiveSortList_of_fixed lits (fun a ha => recursiveSort_literal (hl a ha))
  have h2 := sortChildren_of_defined lits
    (fun a ha b hb => compare_isSome_of_literals (hl a ha) (hl b hb))
  refine ⟨OR n (listSort lessBF lits), ?_, ?_⟩
  · rw [recursiveSort_unfold]
    simp only [children, h1, h2]
    rfl
  · exact ⟨rfl, fun l hl1 => hl l ((listSort_perm lessBF lits).subset hl1)⟩

theorem recursiveSortList_clauses {n : Nat} : ∀ (cs : List BF), (∀ c ∈ cs, isClause n c) →
    ∃ cs1, recursiveSortList cs = some cs1 ∧ cs1.length = cs.length ∧ ∀ c ∈ cs1, isClause n c
  | [], _ => ⟨[], rfl, rfl, fun _ h => absurd h (List.not_mem_nil _)⟩
  | c :: cs, h => by
    obtain ⟨c1, e1, hc1⟩ := recursiveSort_clause (h c (List.mem_cons_self _ _))
    obtain ⟨cs1, e2, hlen, hcs1⟩ :=
      recursiveSortList_clauses cs (fun x hx => h x (List.mem_cons_of_mem _ hx))
    refine ⟨c1 :: cs1, ?_, by simp [hlen], ?_⟩
    · simp only [recursiveSortList, e1, e2]
    · intro x hx
      rcases List.mem_cons.1 hx with e | e
      · rw [e]; exact hc1
      · exact hcs1 x e

/-- On a CNF key `recursiveSort` is defined and returns a CNF key with as many
clauses. -/
theorem recursiveSort_CNF {n : Nat} {pk : BF} (hpk : isCNF n pk) :
    ∃ sorted, recursiveSort pk = some sorted ∧ isCNF n sorted ∧ sorted.size = pk.size := by
  obtain ⟨clauses, rfl, hcl⟩ := isCNF_cases hpk
  obtain ⟨cs1, e1, hlen, hcs1⟩ := recursiveSortList_clauses clauses hcl
  have h2 := sortChildren_of_defined cs1
    (fun a ha b hb => compare_isSome_of_clauses (hcs1 a ha) (hcs1 b hb))
  refine ⟨AND n (listSort lessBF cs1), ?_, ?_, ?_⟩
  · rw [recursiveSort_unfold]
    simp only [children, e1, h2]
    rfl
  · exact ⟨rfl, fun c hc => hcs1 c ((listSort_perm lessBF cs1).subset hc)⟩
  · simp only [size, children]
    rw [(listSort_perm lessBF cs1).length_eq, hlen]

/-! ### The program-level encryption -/

theorem encryptBits_returns {σ : Type} (r : rng σ) (hr : Conforming r) {n : Nat}
    (hn : n < 2 ^ 32) (pk : BF) (hpk : isCNF n pk) (hsize : pk.size < 2 ^ 32) (beta : Nat)
    (bits : List Bool) (st : σ) :
    ∃ cs st1, encryptBits r n pk beta bits st = some (cs, st1) := by
  induction bits generalizing st with
  | nil => exact ⟨[], st, rfl⟩
  | cons b bs ih =>
    obtain ⟨c, st1, e1⟩ := (encrypt_shape r hr hn pk hpk b beta st).2 hsize
    obtain ⟨cs, st2, e2⟩ := ih st1
    exact ⟨c :: cs, st2, by simp only [encryptBits, e1, e2]⟩

/-- A successful run of `encrypt(state&)` leaves a state on which the next run
changes nothing: the same sorted key, the same cipher, the same generator
object. -/
theorem state_encrypt_again {σ : Type} (R : seededRng σ) (hR : Reproducible R)
    (I I1 : state σ) (h : state.encrypt R I = some (true, I1)) :
    state.encrypt R I1 = some (true, I1) ∧ I1.cipher.isSome = true ∧
      I1.clearText = I.clearText ∧ I1.salt = I.salt ∧ I1.beta = I.beta := by
  unfold state.encrypt at h
  cases hct : I.clearText with
  | none => rw [hct] at h; simp at h
  | some ct =>
    rw [hct] at h
    simp only [] at h
    cases hpk : I.publicKey with
    | none => rw [hpk] at h; simp at h
    | some pk =>
      rw [hpk] at h
      simp only [] at h
      cases hs : pk.recursiveSort with
      | none => rw [hs] at h; simp at h
      | some sorted =>
        rw [hs] at h
        simp only [] at h
        cases he : encryptBits R.torng I.n sorted I.beta ct
            (R.seed I.r (clearTextSeed I.salt ct)) with
        | none => rw [he] at h; simp at h
        | some p =>
          obtain ⟨cipher, st1⟩ := p
          rw [he] at h
          simp only [Option.some.injEq, Prod.mk.injEq, true_and] at h
          subst h
          refine ⟨?_, rfl, rfl, rfl, rfl⟩
          unfold state.encrypt
          simp only []
          rw [recursiveSort_idem pk sorted hs]
          simp only []
          rw [hR st1 I.r, he]

/-- For a CNF key over fewer than `2^32` variables with fewer than `2^32`
clauses the run of `encrypt(state&)` succeeds. -/
theorem state_encrypt_returns {σ : Type} (R : seededRng σ) (hr : Conforming R.torng)
    (I : state σ) (ct : List Bool) (pk : BF) (hct : I.clearText = some ct)
    (hpk : I.publicKey = some pk) (hn : I.n < 2 ^ 32) (hcnf : isCNF I.n pk)
    (hsize : pk.size < 2 ^ 32) :
    ∃ I1, state.encrypt R I = some (true, I1) := by
  obtain ⟨sorted, e1, h1, h2⟩ := recursiveSort_CNF hcnf
  obtain ⟨cs, st1, e2⟩ := encryptBits_returns R.torng hr hn sorted h1 (by omega) I.beta ct
    (R.seed I.r (clearTextSeed I.salt ct))
  unfold state.encrypt
  rw [hct, hpk]
  simp only []
  rw [e1]
  simp only []
  rw [e2]
  exact ⟨_, rfl⟩

/-! ### Concatenation and successive addition -/

theorem foldl_concatANF (hs : List ANF) (g : ANF) :
    hs.foldl concatANF g = g ++ hs.flatten := by
  induction hs generalizing g with
  | nil => simp
  | cons h hs ih => rw [List.foldl_cons, ih, List.flatten_cons, concatANF, List.append_assoc]

theorem odd_count_addToANF (g h : ANF) (hg : Ascending g) (hh : Ascending h) (z : List Nat) :
    Odd ((addToANF g h).count z) ↔ Odd ((g ++ h).count z) := by
  obtain ⟨a1, a2⟩ := addToANF_spec g h hg hh
  rw [odd_count_iff_mem (Ascending.nodup a1), a2 z, List.count_append, Nat.odd_add,
    odd_count_iff_mem (Ascending.nodup hg), ← Nat.not_odd_iff_even,
    odd_count_iff_mem (Ascending.nodup hh)]
  tauto

/-- Successive additions keep exactly the conjunctions that occur an odd
number of times in the concatenation. -/
theorem foldl_addToANF_spec (hs : List ANF) (g : ANF) (hg : Ascending g)
    (hh : ∀ h ∈ hs, Ascending h) :
    Ascending (hs.foldl addToANF g) ∧
    ∀ z, z ∈ hs.foldl addToANF g ↔ Odd ((hs.foldl concatANF g).count z) := by
  induction hs generalizing g with
  | nil =>
    refine ⟨hg, fun z => ?_⟩
    rw [List.foldl_nil, List.foldl_nil, odd_count_iff_mem (Ascending.nodup hg)]
  | cons h hs ih =>
    have hh1 := hh h (List.mem_cons_self _ _)
    obtain ⟨a1, _⟩ := addToANF_spec g h hg hh1
    obtain ⟨i1, i2⟩ := ih (addToANF g h) a1 (fun x hx => hh x (List.mem_cons_of_mem _ hx))
    rw [List.foldl_cons, List.foldl_cons]
    refine ⟨i1, fun z => ?_⟩
    rw [i2 z, foldl_concatANF, foldl_concatANF, List.count_append, List.count_append,
      Nat.odd_add, Nat.odd_add, odd_count_addToANF g h hg hh1 z]
    rfl

theorem sortANF_foldl_concat (hs : List ANF) (g : ANF) (hg : Ascending g)
    (hh : ∀ h ∈ hs, Ascending h) :
    sortANF (hs.foldl concatANF g) false = hs.foldl addToANF g := by
  obtain ⟨a1, a2⟩ := foldl_addToANF_spec hs g hg hh
  obtain ⟨c1, c2, _⟩ := sortANF_spec (hs.foldl concatANF g) false
  apply Ascending.ext c1 a1
  intro z
  rw [c2 z, a2 z]
  rfl

/-! ### The two modes of `multiplyToANF` -/

theorem sortANF_of_odd_count {u s : ANF} (hs : Ascending s)
    (h : ∀ z, z ∈ s ↔ Odd (u.count z)) : sortANF u false = s := by
  obtain ⟨c1, c2, _⟩ := sortANF_spec u false
  apply Ascending.ext c1 hs
  intro z
  rw [c2 z, h z]
  rfl

/-- On canonical polynomials the unsorted product, once sorted, is the sorted
product. -/
theorem multiplyToANF_modes (g h : ANF) (hg : Canonical g) (hh : Canonical h) :
    ∃ u s, multiplyToANF g h false = some u ∧ multiplyToANF g h true = some s ∧
      sortANF u false = s ∧ Canonical s := by
  obtain ⟨s, es, hcan, hmem⟩ := multiplyToANF_spec g h hg hh
  have same : ∀ x : ANF, Ascending x → sortANF x false = x := fun x hx =>
    sortANF_of_odd_count hx (fun z => (odd_count_iff_mem (Ascending.nodup hx) z).symm)
  unfold multiplyToANF at es ⊢
  by_cases h1 : g.length = 0
  · rw [if_pos h1] at es ⊢
    rw [if_pos h1]
    simp only [Option.some.injEq] at es
    subst es
    exact ⟨g, g, rfl, rfl, same g hg.1, hcan⟩
  rw [if_neg h1] at es ⊢
  rw [if_neg h1]
  by_cases h2 : h.length = 0
  · rw [if_pos h2] at es ⊢
    rw [if_pos h2]
    exact ⟨[], [], rfl, rfl, rfl, by simp only [Option.some.injEq] at es; subst es; exact hcan⟩
  rw [if_neg h2, isOne_of_monomials h hh.2, isOne_of_monomials g hg.2] at es ⊢
  rw [if_neg h2]
  by_cases h3 : h = [[0]]
  · subst h3
    exact ⟨g, g, by simp, by simp, same g hg.1, hg⟩
  by_cases h4 : g = [[0]]
  · subst h4
    exact ⟨h, h, by simp [h3], by simp [h3], same h hh.1, hh⟩
  have hl : ∀ m ∈ g, m ≠ [] := fun m hm => isMonomial_ne_nil (hg.2 m hm)
  have hgp : ∀ m ∈ h, m ≠ [] := fun m hm => isMonomial_ne_nil (hh.2 m hm)
  simp only [h3, h4, decide_False, multiplyLoop_eq g h true hl hgp, Option.some.injEq] at es
  refine ⟨products g h, s, ?_, ?_, ?_, hcan⟩
  · simp [h3, h4, multiplyLoop_eq g h false hl hgp, foldl_addProduct_false]
  · simp [h3, h4, multiplyLoop_eq g h true hl hgp, es]
  · apply sortANF_of_odd_count hcan.1
    intro z
    rw [hmem z, count_products g h hg.2 hh.2]

/-! ### Non-empty strictly ascending conjunctions -/

theorem tidyANF_nil : tidyANF [] := fun _ h => absurd h (List.not_mem_nil _)

theorem tidyANF_singleton (u : Nat) : tidyANF [[u]] := by
  intro m hm
  rw [List.mem_singleton] at hm
  subst hm
  exact ⟨by simp, by simp⟩

theorem tidyANF_pair (u v : Nat) : tidyANF [[u], [v]] := by
  intro m hm
  simp only [List.mem_cons, List.mem_singleton, List.not_mem_nil, or_false] at hm
  rcases hm with e | e <;> subst e <;> exact ⟨by simp, by simp⟩

theorem tidyANF_append {g h : ANF} (hg : tidyANF g) (hh : tidyANF h) : tidyANF (g ++ h) := by
  intro m hm
  rcases List.mem_append.1 hm with e | e
  · exact hg m e
  · exact hh m e

theorem prodOf_tidy {i j : List Nat} (hi : i ≠ [] ∧ i.Pairwise (fun a b => a < b))
    (hj : j ≠ [] ∧ j.Pairwise (fun a b => a < b)) :
    prodOf i j ≠ [] ∧ (prodOf i j).Pairwise (fun a b => a < b) := by
  unfold prodOf
  by_cases h1 : i.head? = some 0
  · rw [if_pos h1]; exact hj
  rw [if_neg h1]
  by_cases h2 : j.head? = some 0
  · rw [if_pos h2]; exact hi
  rw [if_neg h2]
  refine ⟨fun e => ?_, foldl_insertLit_sorted j i hi.2⟩
  obtain ⟨a, ha⟩ := List.exists_mem_of_ne_nil i hi.1
  have := (mem_foldl_insertLit j i a).2 (Or.inl ha)
  rw [e] at this
  exact absurd this (List.not_mem_nil _)

theorem products_tidy (l gp : ANF) (hl : tidyANF l) (hgp : tidyANF gp) :
    tidyANF (products l gp) := by
  intro z hz
  unfold products at hz
  rw [List.mem_flatMap] at hz
  obtain ⟨i, hi, hz⟩ := hz
  rw [List.mem_map] at hz
  obtain ⟨j, hj, rfl⟩ := hz
  exact prodOf_tidy (hgp i hi) (hl j hj)

theorem isOne_of_nonempty (x : ANF) (hx : ∀ m ∈ x, m ≠ []) : ∃ b, isOne x = some b := by
  unfold isOne
  by_cases hlen : x.length = 1
  · rw [if_pos hlen]
    obtain ⟨m, rfl⟩ := List.length_eq_one.1 hlen
    cases m with
    | nil => exact absurd rfl (hx [] (List.mem_singleton_self _))
    | cons a t => exact ⟨decide (a = 0), rfl⟩
  · rw [if_neg hlen]
    exact ⟨false, rfl⟩

/-- In either mode `multiplyToANF` returns on lists of non-empty strictly
ascending conjunctions, and its result is such a list. -/
theorem multiplyToANF_tidy (g h : ANF) (sortResult : Bool) (hg : tidyANF g) (hh : tidyANF h) :
    ∃ r, multiplyToANF g h sortResult = some r ∧ tidyANF r := by
  unfold multiplyToANF
  by_cases h1 : g.length = 0
  · rw [if_pos h1]; exact ⟨g, rfl, hg⟩
  rw [if_neg h1]
  by_cases h2 : h.length = 0
  · rw [if_pos h2]; exact ⟨[], rfl, tidyANF_nil⟩
  rw [if_neg h2]
  obtain ⟨b1, e1⟩ := isOne_of_nonempty h (fun m hm => (hh m hm).1)
  obtain ⟨b2, e2⟩ := isOne_of_nonempty g (fun m hm => (hg m hm).1)
  rw [e1]
  cases b1
  · simp only []
    rw [e2]
    cases b2
    · simp only []
      rw [multiplyLoop_eq g h sortResult (fun m hm => (hg m hm).1) (fun m hm => (hh m hm).1)]
      refine ⟨_, rfl, fun z hz => ?_⟩
      rcases (foldl_addProduct_value (fun _ => true) sortResult (products g h) []).2 z hz
        with e | e
      · exact absurd e (List.not_mem_nil _)
      · exact products_tidy g h hg hh z e
    · exact ⟨h, rfl, hh⟩
  · exact ⟨g, rfl, hg⟩

theorem cur_tidy (V : Int) :
    tidyANF (if V > 0 then [[0], [intToUInt V]] else [[intToUInt (-V)]]) := by
  by_cases h : V > 0
  · rw [if_pos h]; exact tidyANF_pair _ _
  · rw [if_neg h]; exact tidyANF_singleton _

/-- The loop over the literals of a clause returns for every list of child
nodes. -/
theorem convertLiterals_tidy (lits : List BF) (nClause : ANF) (depends : List Nat)
    (hg : tidyANF nClause) :
    ∃ nc dep, convertLiterals lits nClause depends = some (nc, dep) ∧ tidyANF nc := by
  induction lits generalizing nClause depends with
  | nil => exact ⟨nClause, depends, rfl, hg⟩
  | cons lit lits ih =>
    obtain ⟨prod, hp, htidy⟩ :=
      multiplyToANF_tidy nClause _ true hg (cur_tidy (toInt32 lit.getDependence))
    obtain ⟨nc, dp, e, hnc⟩ := ih prod
      (depends ++ [if toInt32 lit.getDependence > 0 then intToUInt (toInt32 lit.getDependence)
        else intToUInt (-toInt32 lit.getDependence)]) htidy
    refine ⟨nc, dp, ?_, hnc⟩
    simp only [convertLiterals]
    rw [hp]
    exact e

theorem convertClauses_tidy (s : List (Option Nat)) (ks : List BF) (cN : Nat)
    (nC : List ANF) (dep : List (List Nat)) (h1 : ∀ x ∈ nC, tidyANF x)
    (nC1 : List ANF) (dep1 : List (List Nat))
    (h : convertClauses s ks cN nC dep = some (nC1, dep1)) : ∀ x ∈ nC1, tidyANF x := by
  induction ks generalizing cN nC dep with
  | nil =>
    simp only [convertClauses, Option.some.injEq, Prod.mk.injEq] at h
    rw [← h.1]; exact h1
  | cons k ks ih =>
    simp only [convertClauses] at h
    cases e1 : inverseSearch s cN 0 with
    | none => rw [e1] at h; simp at h
    | some i =>
      rw [e1] at h
      simp only [] at h
      by_cases hslot : (nC.getD i []).length ≠ 0 ∨ (dep.getD i []).length ≠ 0
      · rw [if_pos hslot] at h; simp at h
      · rw [if_neg hslot] at h
        obtain ⟨nc, dp, e3, hnc⟩ :=
          convertLiterals_tidy k.children [[0]] (dep.getD i []) (tidyANF_singleton 0)
        rw [e3] at h
        simp only [] at h
        refine ih (toUInt (cN + 1)) (nC.set i nc) (dep.set i dp) ?_ h
        intro x hx
        rcases mem_set nC i nc x hx with e | e
        · exact h1 x e
        · subst e; exact hnc

/-- With a permutation in `s` the loop over the clauses returns for every list
of at most `m` clause nodes: none of its error branches is taken. -/
theorem convertClauses_returns (l : List Nat) (m : Nat) (hl : l.Perm (List.range m))
    (hm : m < 2 ^ 32) (ks : List BF) (cN : Nat) (nC : List ANF) (dep : List (List Nat))
    (hcN : cN + ks.length ≤ m)
    (hfresh : ∀ i, (nC.getD i []).length ≠ 0 ∨ (dep.getD i []).length ≠ 0 →
      ∃ c, c < cN ∧ l.get? i = some c) :
    ∃ nC1 dep1, convertClauses (l.map some) ks cN nC dep = some (nC1, dep1) := by
  induction ks generalizing cN nC dep with
  | nil => exact ⟨nC, dep, rfl⟩
  | cons k ks ih =>
    simp only [List.length_cons] at hcN
    have hmem : cN ∈ l := hl.symm.subset (List.mem_range.2 (by omega))
    obtain ⟨i, e1, e2⟩ := inverseSearch_spec l cN 0 hmem
    rw [Nat.zero_add] at e1
    have hslot : ¬ ((nC.getD i []).length ≠ 0 ∨ (dep.getD i []).length ≠ 0) := by
      intro hne
      obtain ⟨c, hc, hc2⟩ := hfresh i hne
      rw [e2] at hc2
      simp only [Option.some.injEq] at hc2
      omega
    obtain ⟨nc, dp, e3, _⟩ :=
      convertLiterals_tidy k.children [[0]] (dep.getD i []) (tidyANF_singleton 0)
    obtain ⟨nC1, dep1, e4⟩ := ih (cN + 1) (nC.set i nc) (dep.set i dp) (by omega)
      (by
        intro j hj
        rcases hj with hj | hj
        · rcases getD_set_nonempty nC i j nc hj with e | e
          · subst e; exact ⟨cN, by omega, e2⟩
          · obtain ⟨c, hc, hc2⟩ := hfresh j (Or.inl e)
            exact ⟨c, by omega, hc2⟩
        · rcases getD_set_nonempty dep i j dp hj with e | e
          · subst e; exact ⟨cN, by omega, e2⟩
          · obtain ⟨c, hc, hc2⟩ := hfresh j (Or.inr e)
            exact ⟨c, by omega, hc2⟩)
    refine ⟨nC1, dep1, ?_⟩
    simp only [convertClauses]
    rw [e1]
    simp only []
    rw [if_neg hslot, e3]
    simp only []
    rw [toUInt_of_small _ (by omega)]
    exact e4

/-! ### Random functions over strictly ascending variables -/

theorem loopMonomials_sublist (vars : List Nat) (hs : vars.Pairwise (fun a b => a < b)) :
    ∀ m ∈ loopMonomials vars, m.Sublist vars := by
  cases vars with
  | nil => simp [loopMonomials]
  | cons V vars =>
    obtain ⟨hV, hs1⟩ := List.pairwise_cons.1 hs
    have hp1 : ∀ v ∈ vars, 0 < v := fun v hv => by have := hV v hv; omega
    intro m hm
    simp only [loopMonomials, List.map_cons, List.cons_append, List.mem_cons, List.mem_append,
      List.mem_map] at hm
    rcases hm with e | ⟨m1, hm1, e⟩ | e
    · rw [e]
      simp [putFront]
    · obtain ⟨hne, hsub⟩ := (mem_loopMonomials vars hs1 hp1 m1).1 hm1
      cases m1 with
      | nil => exact absurd rfl hne
      | cons a t =>
        have ha : 0 < a := hp1 a (hsub.subset (List.mem_cons_self _ _))
        have ha0 : a ≠ 0 := by omega
        rw [← e]
        simp only [putFront, List.head?_cons, Option.some.injEq, ha0, if_false]
        exact List.Sublist.cons₂ V hsub
    · exact List.Sublist.cons V ((mem_loopMonomials vars hs1 hp1 m).1 e).2

theorem allMonomials_tidy (vars : List Nat) (hs : vars.Pairwise (fun a b => a < b)) :
    tidyANF (allMonomials vars) := by
  intro m hm
  unfold allMonomials at hm
  rcases List.mem_cons.1 hm with e | e
  · rw [e]; exact ⟨by simp, by simp⟩
  · exact ⟨loopMonomials_ne_nil vars m e, hs.sublist (loopMonomials_sublist vars hs m e)⟩

theorem RandomFunction_tidy {σ : Type} (r : rng σ) (vars : List Nat)
    (hs : vars.Pairwise (fun a b => a < b)) (st : σ) :
    ∃ res st1, RandomFunction r vars st = some (res, st1) ∧ tidyANF res :=
  ⟨_, _, RandomFunction_eq r vars st,
    fun m hm => allMonomials_tidy vars hs m ((selectBy_sublist _ _).subset hm)⟩

/-! ### The list `g` before the final sort -/

theorem cipherSummand_tidy {σ : Type} (r : rng σ) (nClause : List ANF)
    (depends : List (List Nat)) (h1 : ∀ x ∈ nClause, tidyANF x)
    (m beta i j : Nat) (g : ANF) (st : σ) (hg : tidyANF g) :
    ∃ g1 st1, cipherSummand r nClause depends m beta i j g st = some (g1, st1) ∧
      tidyANF g1 := by
  have hstrict := deleteDoubles_strict _
    (listSort_sorted (fun a b : Nat => decide (a < b)) natLt_asymm natLt_trans
      (gatherDepends depends m beta i j))
  obtain ⟨R, st1, e1, hR⟩ := RandomFunction_tidy r _ hstrict st
  have hnc : tidyANF (nClause.getD (toUInt (i + beta) % m) []) := by
    rcases getD_mem_or_nil nClause (toUInt (i + beta) % m) with h | h
    · exact h1 _ h
    · rw [h]; exact tidyANF_nil
  obtain ⟨R1, e2, hR1⟩ := multiplyToANF_tidy R _ false hR hnc
  refine ⟨concatANF g R1, st1, ?_, tidyANF_append hg hR1⟩
  simp only [cipherSummand]
  rw [e1]
  simp only []
  rw [e2]

theorem cipherLoop_tidy {σ : Type} (r : rng σ) (nClause : List ANF)
    (depends : List (List Nat)) (h1 : ∀ x ∈ nClause, tidyANF x) (m beta : Nat) (st : σ) :
    ∃ g st1, cipherLoop r nClause depends m beta st = some (g, st1) ∧ tidyANF g := by
  have := foldlM_invariant (fun acc : ANF × σ => tidyANF acc.1)
    (fun acc i => (List.range beta).foldlM (fun acc j =>
      cipherSummand r nClause depends m beta i j acc.1 acc.2) acc) (List.range m)
    (fun b i hb => foldlM_invariant _ _ _ (fun b' j hb' => by
      obtain ⟨g1, st1, e, hg⟩ := cipherSummand_tidy r nClause depends h1 m beta i j
        b'.1 b'.2 hb'
      exact ⟨(g1, st1), e, hg⟩) b hb)
    ([], st) tidyANF_nil
  obtain ⟨⟨g, st1⟩, e, hg⟩ := this
  exact ⟨g, st1, e, hg⟩

theorem replicate_tidy (m : Nat) : ∀ x ∈ List.replicate m ([] : ANF), tidyANF x := by
  intro x hx
  rw [List.eq_of_mem_replicate hx]
  exact tidyANF_nil

/-- Every conjunction of the list `g` before the final sort is non-empty and
strictly ascending, for every key and every generator. -/
theorem preCanonical_tidy {σ : Type} (r : rng σ) (pk : BF) (beta : Nat) (st : σ) (g : ANF)
    (st1 : σ) (h : preCanonical r pk beta st = some (g, st1)) : tidyANF g := by
  simp only [preCanonical] at h
  cases e1 : convertClauses (drawPermutation r (toUInt pk.size) (List.range (toUInt pk.size))
      [] st).1 pk.children 0 (List.replicate (toUInt pk.size) [])
      (List.replicate (toUInt pk.size) []) with
  | none => rw [e1] at h; simp at h
  | some p =>
    obtain ⟨nC, dep⟩ := p
    rw [e1] at h
    simp only [] at h
    have hnC := convertClauses_tidy _ _ _ _ _ (replicate_tidy _) nC dep e1
    obtain ⟨g', st', e2, hg'⟩ := cipherLoop_tidy r nC dep hnC (toUInt pk.size) (toUInt beta)
      (drawPermutation r (toUInt pk.size) (List.range (toUInt pk.size)) [] st).2
    rw [e2] at h
    simp only [Option.some.injEq, Prod.mk.injEq] at h
    rw [← h.1]
    exact hg'

/-- For a key with fewer than `2^32` clauses and a generator within the
`randomInt` contract the list `g` is reached: no error branch is taken. -/
theorem preCanonical_returns {σ : Type} (r : rng σ) (hr : Conforming r) (pk : BF)
    (hsize : pk.size < 2 ^ 32) (beta : Nat) (st : σ) :
    ∃ g st1, preCanonical r pk beta st = some (g, st1) := by
  have hsz : toUInt pk.size = pk.size := toUInt_of_small _ hsize
  obtain ⟨l, el, hl⟩ := drawPermutation_spec r hr pk.size (List.range pk.size) []
    st (List.length_range _) hsize
  rw [List.nil_append] at el
  obtain ⟨nC, dep, e1⟩ := convertClauses_returns l pk.size hl hsize pk.children 0
    (List.replicate pk.size []) (List.replicate pk.size [])
    (by simp [size])
    (by
      intro i hi
      exfalso
      rcases hi with hi | hi
      · exact hi (getD_replicate_nil _ i)
      · exact hi (getD_replicate_nil _ i))
  have hnC := convertClauses_tidy _ _ _ _ _ (replicate_tidy _) nC dep e1
  obtain ⟨g, st1, e2, _⟩ := cipherLoop_tidy r nC dep hnC pk.size (toUInt beta)
    (drawPermutation r pk.size (List.range pk.size) [] st).2
  refine ⟨g, st1, ?_⟩
  simp only [preCanonical]
  rw [hsz, el, e1]
  exact e2

theorem encryptANF_eq_preCanonical {σ : Type} (r : rng σ) (pk : BF) (b : Bool) (beta : Nat)
    (st : σ) :
    encryptANF r pk b beta st =
      match preCanonical r pk beta st with
      | none => none
      | some (g, st1) =>
        some (if b then addToANF (sortANF g false) [[0]] else sortANF g false, st1) := by
  simp only [encryptANF, preCanonical]
  cases convertClauses (drawPermutation r (toUInt pk.size) (List.range (toUInt pk.size))
      [] st).1 pk.children 0 (List.replicate (toUInt pk.size) [])
      (List.replicate (toUInt pk.size) []) with
  | none => rfl
  | some p => rfl

/-- For every key with fewer than `2^32` clauses `encrypt` returns a tree. -/
theorem encrypt_returns {σ : Type} (r : rng σ) (hr : Conforming r) (n : Nat) (pk : BF)
    (hsize : pk.size < 2 ^ 32) (b : Bool) (beta : Nat) (st : σ) :
    ∃ c st1, encrypt r n pk b beta st = some (c, st1) := by
  obtain ⟨g, st1, e⟩ := preCanonical_returns r hr pk hsize beta st
  refine ⟨toBF (toUInt n) (if b then addToANF (sortANF g false) [[0]] else sortANF g false),
    st1, ?_⟩
  simp only [encrypt]
  rw [encryptANF_eq_preCanonical, e]

theorem sortANF_subSort_of_tidy (g : ANF) (hg : tidyANF g) :
    sortANF g true = sortANF g false := by
  have hmap : g.map (listSort (fun a b : Nat => decide (a < b))) = g := by
    conv_rhs => rw [← List.map_id g]
    apply List.map_congr_left
    intro m hm
    rw [id]
    apply listSort_of_sorted
    exact (hg m hm).2.imp (fun {a b} hab => by simp; omega)
  simp only [sortANF, if_true, hmap]
  rfl

/-! ### The polynomial of a negated clause -/

theorem cur_canonical {n : Nat} (hn : n < 2 ^ 32) {lit : BF} (h : isLiteral n lit) :
    Canonical (if toInt32 lit.getDependence > 0
      then [[0], [intToUInt (toInt32 lit.getDependence)]]
      else [[intToUInt (-toInt32 lit.getDependence)]]) := by
  obtain ⟨hmono, hpos, _⟩ := literal_mono hn h
  refine ⟨?_, fun m hm => (hmono m hm).1⟩
  by_cases hV : toInt32 lit.getDependence > 0
  · rw [if_pos hV] at hpos ⊢
    refine List.pairwise_cons.2 ⟨fun z hz => ?_, List.pairwise_singleton _ _⟩
    rw [List.mem_singleton] at hz
    subst hz
    rw [Lt_iff]
    simp only [compare, if_pos hpos]
    decide
  · rw [if_neg hV]
    exact List.pairwise_singleton _ _

theorem convertLiterals_canonical {n : Nat} (hn : n < 2 ^ 32) (lits : List BF)
    (hl : ∀ l ∈ lits, isLiteral n l) (nClause : ANF) (depends : List Nat)
    (hg : Canonical nClause) (nc : ANF) (dep : List Nat)
    (h : convertLiterals lits nClause depends = some (nc, dep)) : Canonical nc := by
  induction lits generalizing nClause depends with
  | nil =>
    simp only [convertLiterals, Option.some.injEq, Prod.mk.injEq] at h
    rw [← h.1]; exact hg
  | cons lit lits ih =>
    obtain ⟨prod, hp, hcan, _⟩ := multiplyToANF_spec nClause _ hg
      (cur_canonical hn (hl lit (List.mem_cons_self _ _)))
    simp only [convertLiterals] at h
    rw [hp] at h
    exact ih (fun l hl' => hl l (List.mem_cons_of_mem _ hl')) prod _ hcan h

/-- The polynomial that `encrypt` builds for a clause over at most `2^31 - 1`
variables is canonical and takes the value of the negated clause. -/
theorem nClause_spec {n : Nat} (hn : n < 2 ^ 31) (lits : List BF)
    (hl : ∀ l ∈ lits, isLiteral n l) :
    ∃ nc dep, convertLiterals lits [[0]] [] = some (nc, dep) ∧ Canonical nc ∧
      ∀ a, anfValue a nc = ! evaluate a (OR n lits) := by
  obtain ⟨nc, dep, e, _, hv, _⟩ := convertLiterals_spec hn lits hl [[0]] []
    (fun x hx => by rw [List.mem_singleton] at hx; subst hx; exact goodMono_one n)
    (fun v hv => absurd hv (List.not_mem_nil _))
  refine ⟨nc, dep, e, ?_, fun a => ?_⟩
  · exact convertLiterals_canonical (by omega) lits hl [[0]] [] (by decide) nc dep e
  · rw [hv a, evaluate_OR]
    simp [anfValue_cons, anfValue_nil, monomialValue_one]

/-! ### The inverse of the permutation -/

/-- In a permutation of `0..m-1` every index below `m` has exactly one
position, and the inverse search finds it. -/
theorem inverse_unique (l : List Nat) (m : Nat) (hl : l.Perm (List.range m)) (c : Nat)
    (hc : c < m) :
    ∃ i, i < m ∧ inverseSearch (l.map some) c 0 = some i ∧ ∀ j, l.get? j = some c ↔ j = i := by
  have hmem : c ∈ l := hl.symm.subset (List.mem_range.2 hc)
  have hnd : l.Nodup := hl.symm.nodup_iff.1 (List.nodup_range m)
  have hlen : l.length = m := by rw [hl.length_eq, List.length_range]
  obtain ⟨i, e1, e2⟩ := inverseSearch_spec l c 0 hmem
  rw [Nat.zero_add] at e1
  have hi : i < l.length := by
    by_contra hge
    rw [List.get?_eq_none.2 (by omega)] at e2
    exact absurd e2 (by simp)
  refine ⟨i, by omega, e1, fun j => ⟨fun hj => ?_, fun hj => hj ▸ e2⟩⟩
  symm
  apply List.getElem?_inj hi hnd
  rw [← List.get?_eq_getElem?, ← List.get?_eq_getElem?, e2, hj]

/-! ### The sorted CNF key -/

theorem NonDecreasing_listSort (l : List BF)
    (hd : ∀ a ∈ l, ∀ b ∈ l, (BF.compare a b).isSome = true) :
    NonDecreasing (listSort lessBF l) := by
  have hsorted := listSort_sorted_on lessBF l
    (fun a ha b hb c hc => lessBF_trans (hd a ha b hb) (hd b hb c hc))
    (fun a ha b hb => lessBF_asymm (hd a ha b hb))
  have hperm := listSort_perm lessBF l
  refine hsorted.imp_of_mem ?_
  intro a b ha hb hab
  obtain ⟨v, hv⟩ := Option.isSome_iff_exists.1 (hd a (hperm.subset ha) b (hperm.subset hb))
  have hs : BF.compare b a = some (-v) := by rw [bf_compare_swap a b, hv]; rfl
  rw [lessBF_of_compare hs] at hab
  simp only [decide_eq_false_iff_not] at hab
  exact ⟨v, hv, by omega⟩

theorem sortLits_OR (n : Nat) (lits : List BF) :
    sortLits (OR n lits) = OR n (listSort lessBF lits) := rfl

theorem recursiveSort_clause_eq {n : Nat} {c : BF} (hc : isClause n c) :
    recursiveSort c = some (sortLits c) := by
  obtain ⟨lits, rfl, hl⟩ := isClause_cases hc
  have h1 : recursiveSortList lits = some lits :=
    recursiveSortList_of_fixed lits (fun a ha => recursiveSort_literal (hl a ha))
  have h2 := sortChildren_of_defined lits
    (fun a ha b hb => compare_isSome_of_literals (hl a ha) (hl b hb))
  rw [recursiveSort_unfold]
  simp only [children, h1, h2]
  rfl

theorem recursiveSortList_clauses_eq {n : Nat} : ∀ (cs : List BF), (∀ c ∈ cs, isClause n c) →
    recursiveSortList cs = some (cs.map sortLits)
  | [], _ => rfl
  | c :: cs, h => by
    simp only [recursiveSortList, recursiveSort_clause_eq (h c (List.mem_cons_self _ _)),
      recursiveSortList_clauses_eq cs (fun x hx => h x (List.mem_cons_of_mem _ hx)),
      List.map_cons]

theorem isClause_sortLits {n : Nat} {c : BF} (hc : isClause n c) : isClause n (sortLits c) := by
  obtain ⟨lits, rfl, hl⟩ := isClause_cases hc
  rw [sortLits_OR]
  exact ⟨rfl, fun l hl1 => hl l ((listSort_perm lessBF lits).subset hl1)⟩

/-- The result of `recursiveSort` on a CNF key: the clauses with sorted
literals, sorted. -/
theorem recursiveSort_CNF_eq {n : Nat} {clauses : List BF}
    (hcl : ∀ c ∈ clauses, isClause n c) :
    recursiveSort (AND n clauses) = some (AND n (listSort lessBF (clauses.map sortLits))) := by
  have h2 := sortChildren_of_defined (clauses.map sortLits) (by
    intro a ha b hb
    rw [List.mem_map] at ha hb
    obtain ⟨a0, ha0, rfl⟩ := ha
    obtain ⟨b0, hb0, rfl⟩ := hb
    exact compare_isSome_of_clauses (isClause_sortLits (hcl a0 ha0))
      (isClause_sortLits (hcl b0 hb0)))
  rw [recursiveSort_unfold]
  simp only [children, recursiveSortList_clauses_eq clauses hcl, h2]
  rfl

/-! ### Clauses that compare equal -/

theorem compare_INPUT_zero {n i j : Nat}
    (h : BF.compare (INPUT n i []) (INPUT n j []) = some 0) : i = j := by
  rw [compare_unfold] at h
  simp only [compareNode, compareLeaf, size, children, getDependence, myType,
    List.length_nil, lt_self_iff_false, gt_iff_lt, if_false, ne_eq, not_true_eq_false] at h
  by_cases h1 : (i : Int) + 1 < (j : Int) + 1
  · rw [if_pos h1] at h; simp at h
  · rw [if_neg h1] at h
    by_cases h2 : (j : Int) + 1 < (i : Int) + 1
    · rw [if_pos h2] at h; simp at h
    · omega

theorem compare_zero_of_literals {n : Nat} {a b : BF} (ha : isLiteral n a)
    (hb : isLiteral n b) (h : BF.compare a b = some 0) : a = b := by
  rcases isLiteral_cases ha with ⟨i, _, rfl⟩ | ⟨i, _, rfl⟩ <;>
    rcases isLiteral_cases hb with ⟨j, _, rfl⟩ | ⟨j, _, rfl⟩
  · rw [compare_INPUT_zero h]
  · rw [compare_unfold] at h
    simp [compareNode, size, children] at h
  · rw [compare_unfold] at h
    simp [compareNode, size, children] at h
  · rw [compare_unfold] at h
    simp only [compareNode, size, children, List.length_singleton, lt_self_iff_false,
      gt_iff_lt, if_false, Nat.lt_one_iff, Nat.zero_lt_one, if_true, compareChildren] at h
    cases e : BF.compare (INPUT n i []) (INPUT n j []) with
    | none => rw [e] at h; simp at h
    | some v =>
      rw [e] at h
      simp only [] at h
      by_cases hv : v ≠ 0
      · rw [if_pos hv] at h
        simp only [Option.some.injEq] at h
        exact absurd h hv
      · have hv0 : v = 0 := by simpa using hv
        rw [hv0] at e
        rw [compare_INPUT_zero e]

theorem compareChildren_zero {n : Nat} : ∀ (xs ys : List BF), xs.length = ys.length →
    (∀ a ∈ xs, isLiteral n a) → (∀ b ∈ ys, isLiteral n b) →
    compareChildren xs ys = some 0 → xs = ys
  | [], [], _, _, _, _ => rfl
  | [], _ :: _, h, _, _, _ => by simp at h
  | _ :: _, [], h, _, _, _ => by simp at h
  | x :: xs, y :: ys, h, hx, hy, hz => by
    simp only [compareChildren] at hz
    cases e : BF.compare x y with
    | none => rw [e] at hz; simp at hz
    | some v =>
      rw [e] at hz
      simp only [] at hz
      by_cases hv : v ≠ 0
      · rw [if_pos hv] at hz
        simp only [Option.some.injEq] at hz
        exact absurd hz hv
      · rw [if_neg hv] at hz
        have hv0 : v = 0 := by simpa using hv
        rw [hv0] at e
        rw [compare_zero_of_literals (hx x (List.mem_cons_self _ _))
            (hy y (List.mem_cons_self _ _)) e,
          compareChildren_zero xs ys (by simpa using h)
            (fun a ha => hx a (List.mem_cons_of_mem _ ha))
            (fun b hb => hy b (List.mem_cons_of_mem _ hb)) hz]

theorem compare_zero_of_clauses {n : Nat} {a b : BF} (ha : isClause n a)
    (hb : isClause n b) (h : BF.compare a b = some 0) : a = b := by
  obtain ⟨l1, rfl, h1⟩ := isClause_cases ha
  obtain ⟨l2, rfl, h2⟩ := isClause_cases hb
  rw [compare_unfold] at h
  simp only [compareNode, size, children] at h
  by_cases a1 : l1.length < l2.length
  · rw [if_pos a1] at h; simp at h
  rw [if_neg a1] at h
  by_cases a2 : l1.length > l2.length
  · rw [if_pos a2] at h; simp at h
  rw [if_neg a2] at h
  have hlen : l1.length = l2.length := by omega
  by_cases a3 : l1.length > 0
  · rw [if_pos a3] at h
    rw [compareChildren_zero l1 l2 hlen h1 h2 h]
  · have e1 : l1 = [] := List.length_eq_zero.1 (by omega)
    have e2 : l2 = [] := List.length_eq_zero.1 (by omega)
    rw [e1, e2]

/-- Sorted clauses differ when the clauses are not rearrangements of each
other. -/
theorem differ_sortLits {n : Nat} {c d : BF} (hc : isClause n c) (hd : isClause n d)
    (h : ¬ c.children.Perm d.children) : Differ (sortLits c) (sortLits d) := by
  obtain ⟨v, hv⟩ := Option.isSome_iff_exists.1
    (compare_isSome_of_clauses (isClause_sortLits hc) (isClause_sortLits hd))
  refine ⟨v, hv, fun hv0 => h ?_⟩
  rw [hv0] at hv
  have heq := compare_zero_of_clauses (isClause_sortLits hc) (isClause_sortLits hd) hv
  obtain ⟨l1, rfl, _⟩ := isClause_cases hc
  obtain ⟨l2, rfl, _⟩ := isClause_cases hd
  rw [sortLits_OR, sortLits_OR] at heq
  simp only [OR.injEq, true_and] at heq
  simp only [children]
  exact (listSort_perm lessBF l1).symm.trans (heq ▸ listSort_perm lessBF l2)

theorem recursiveSort_distinct {n : Nat} {clauses : List BF}
    (hcl : ∀ c ∈ clauses, isClause n c)
    (hd : clauses.Pairwise (fun c d => ¬ c.children.Perm d.children)) :
    (listSort lessBF (clauses.map sortLits)).Pairwise Differ := by
  have h1 : (clauses.map sortLits).Pairwise Differ := by
    rw [List.pairwise_map]
    exact hd.imp_of_mem (fun {c d} hc hdm h => differ_sortLits (hcl c hc) (hcl d hdm) h)
  exact ((listSort_perm lessBF _).pairwise_iff (fun {a b} h => Differ.symm h)).2 h1

/-- After `recursiveSort` the clauses and the literals of each clause are in
non-decreasing order, and every clause keeps its literals. -/
theorem recursiveSort_CNF_sorted {n : Nat} {clauses : List BF}
    (hcl : ∀ c ∈ clauses, isClause n c) :
    NonDecreasing (listSort lessBF (clauses.map sortLits)) ∧
    (listSort lessBF (clauses.map sortLits)).Perm (clauses.map sortLits) ∧
    List.Forall₂ (fun c c1 => ∃ lits lits1, c = OR n lits ∧ c1 = OR n lits1 ∧
      lits1.Perm lits ∧ NonDecreasing lits1) clauses (clauses.map sortLits) := by
  refine ⟨NonDecreasing_listSort _ ?_, listSort_perm lessBF _, ?_⟩
  · intro a ha b hb
    rw [List.mem_map] at ha hb
    obtain ⟨a0, ha0, rfl⟩ := ha
    obtain ⟨b0, hb0, rfl⟩ := hb
    exact compare_isSome_of_clauses (isClause_sortLits (hcl a0 ha0))
      (isClause_sortLits (hcl b0 hb0))
  · rw [List.forall₂_map_right_iff, List.forall₂_same]
    intro c hc
    obtain ⟨lits, rfl, hl⟩ := isClause_cases (hcl c hc)
    exact ⟨lits, listSort lessBF lits, rfl, rfl, listSort_perm lessBF lits,
      NonDecreasing_listSort lits
        (fun a ha b hb => compare_isSome_of_literals (hl a ha) (hl b hb))⟩

/-! ### The order of the conjunctions of a random function -/

theorem Lt_cons_same (V : Nat) (a b : List Nat) : Lt (V :: a) (V :: b) ↔ Lt a b := by
  rw [Lt_iff, Lt_iff]
  simp [compare]

theorem Lt_cons_of_lt {V a : Nat} (h : V < a) (x y : List Nat) : Lt (V :: x) (a :: y) := by
  rw [Lt_iff]
  simp [compare, h]

theorem Lt_nil_cons (a : Nat) (y : List Nat) : Lt [] (a :: y) := by
  rw [Lt_iff]
  simp [compare]

theorem loopMonomials_head (vars : List Nat) (hs : vars.Pairwise (fun a b => a < b))
    (hp : ∀ v ∈ vars, 0 < v) (m : List Nat) (hm : m ∈ loopMonomials vars) :
    ∃ a t, m = a :: t ∧ a ∈ vars := by
  obtain ⟨hne, hsub⟩ := (mem_loopMonomials vars hs hp m).1 hm
  cases m with
  | nil => exact absurd rfl hne
  | cons a t => exact ⟨a, t, rfl, hsub.subset (List.mem_cons_self _ _)⟩

theorem loopMonomials_ascending (vars : List Nat) (hs : vars.Pairwise (fun a b => a < b))
    (hp : ∀ v ∈ vars, 0 < v) : Ascending (loopMonomials vars) := by
  induction vars with
  | nil => simp [loopMonomials, Ascending]
  | cons V vars ih =>
    obtain ⟨hV, hs1⟩ := List.pairwise_cons.1 hs
    have hp1 : ∀ v ∈ vars, 0 < v := fun v hv => hp v (List.mem_cons_of_mem _ hv)
    have hasc := ih hs1 hp1
    have hput : ∀ m1 ∈ loopMonomials vars, putFront V m1 = V :: m1 := by
      intro m1 hm1
      obtain ⟨a, t, rfl, ha⟩ := loopMonomials_head vars hs1 hp1 m1 hm1
      have : a ≠ 0 := by have := hp1 a ha; omega
      simp [putFront, this]
    have hmap : (loopMonomials vars).map (putFront V) = (loopMonomials vars).map (List.cons V) :=
      List.map_congr_left hput
    have h1 : putFront V [0] = [V] := by simp [putFront]
    have hgt : ∀ m ∈ loopMonomials vars, ∀ x : List Nat, Lt (V :: x) m := by
      intro m hm x
      obtain ⟨a, t, rfl, ha⟩ := loopMonomials_head vars hs1 hp1 m hm
      exact Lt_cons_of_lt (hV a ha) x t
    unfold Ascending
    simp only [loopMonomials, List.map_cons]
    rw [hmap, h1, List.cons_append, List.pairwise_cons, List.pairwise_append]
    refine ⟨fun m hm => ?_, ?_, hasc, fun a ha b hb => ?_⟩
    · rcases List.mem_append.1 hm with h | h
      · rw [List.mem_map] at h
        obtain ⟨m1, hm1, rfl⟩ := h
        obtain ⟨a, t, rfl, _⟩ := loopMonomials_head vars hs1 hp1 m1 hm1
        rw [Lt_cons_same]
        exact Lt_nil_cons a t
      · exact hgt m h []
    · rw [List.pairwise_map]
      exact hasc.imp (fun {a b} hab => (Lt_cons_same V a b).2 hab)
    · rw [List.mem_map] at ha
      obtain ⟨m1, _, rfl⟩ := ha
      exact hgt b hb m1

theorem allMonomials_ascending (vars : List Nat) (hs : vars.Pairwise (fun a b => a < b))
    (hp : ∀ v ∈ vars, 0 < v) : Ascending (allMonomials vars) := by
  unfold allMonomials Ascending
  rw [List.pairwise_cons]
  refine ⟨fun m hm => ?_, loopMonomials_ascending vars hs hp⟩
  obtain ⟨a, t, rfl, ha⟩ := loopMonomials_head vars hs hp m hm
  exact Lt_cons_of_lt (hp a ha) [] t

/-- For strictly ascending positive variables `RandomFunction` returns a
canonical polynomial. -/
theorem RandomFunction_canonical {σ : Type} (r : rng σ) (vars : List Nat)
    (hs : vars.Pairwise (fun a b => a < b)) (hp : ∀ v ∈ vars, 0 < v) (st : σ) :
    ∃ res st1, RandomFunction r vars st = some (res, st1) ∧ Canonical res := by
  refine ⟨_, _, RandomFunction_eq r vars st, ?_, fun m hm => ?_⟩
  · exact (allMonomials_ascending vars hs hp).sublist (selectBy_sublist _ _)
  · exact isMonomial_of_isMonomialOver hs hp
      ((mem_allMonomials vars hs hp m).1 ((selectBy_sublist _ _).subset hm))

/-! ### The square of a polynomial -/

theorem sum_countP_symm {α : Type} (c : α → α → Bool) (hc : ∀ x y, c x y = c y x)
    (xs : List α) :
    ∃ k, (xs.map (fun x => xs.countP (c x))).sum = xs.countP (fun x => c x x) + 2 * k := by
  induction xs with
  | nil => exact ⟨0, rfl⟩
  | cons a xs ih =>
    obtain ⟨k, hk⟩ := ih
    have h1 : (xs.map (fun x => (a :: xs).countP (c x))).sum =
        (xs.map (fun x => xs.countP (c x))).sum + xs.countP (c a) := by
      have := sum_map_add_indicator (fun x => xs.countP (c x)) (fun x => c x a) xs
      have hsw : xs.countP (fun x => c x a) = xs.countP (c a) := by
        congr 1; funext x; exact hc x a
      rw [← hsw, ← this]
      congr 1
      apply List.map_congr_left
      intro x _
      rw [List.countP_cons]
    refine ⟨k + xs.countP (c a), ?_⟩
    rw [List.map_cons, List.sum_cons, h1, hk, List.countP_cons, List.countP_cons]
    omega

theorem sortedUnion_self {A : List Nat} (hA : isMonomial A) : sortedUnion A A = A := by
  unfold sortedUnion
  rw [Finset.union_self, setMonomial_monomialSet hA]

theorem odd_pairCount_self (g : ANF) (hg : Canonical g) (S : List Nat) :
    Odd (pairCount g g S) ↔ S ∈ g := by
  obtain ⟨k, hk⟩ := sum_countP_symm (fun A B : List Nat => decide (sortedUnion A B = S))
    (fun x y => by
      show decide (sortedUnion x y = S) = decide (sortedUnion y x = S)
      rw [sortedUnion_comm]) g
  have hdiag : g.countP (fun A => decide (sortedUnion A A = S)) = g.count S := by
    rw [List.count]
    apply List.countP_congr
    intro A hA
    rw [sortedUnion_self (hg.2 A hA)]
    simp
  rw [pairCount_eq_sum, hk, hdiag, ← odd_count_iff_mem (Ascending.nodup hg.1) S]
  constructor
  · intro h
    rcases h with ⟨j, hj⟩
    exact ⟨j - k, by omega⟩
  · intro h
    rcases h with ⟨j, hj⟩
    exact ⟨j + k, by omega⟩

/-- The sorted product of a canonical polynomial with itself is the
polynomial. -/
theorem multiplyToANF_self (g : ANF) (hg : Canonical g) : multiplyToANF g g true = some g := by
  obtain ⟨r, e, hcan, hmem⟩ := multiplyToANF_spec g g hg hg
  rw [e]
  congr 1
  exact Ascending.ext hcan.1 hg.1 (fun z => by rw [hmem z, odd_pairCount_self g hg z])

/-! ### `recursiveSort` and evaluation -/

theorem unaryNots_children (x : BF) (hu : unaryNots x) : unaryNotsList x.children := by
  cases x <;> simp only [unaryNots] at hu <;> first | exact hu | exact hu.2

theorem all_congr_of_map {α : Type} (f g : α → Bool) (l1 l2 : List α)
    (h : l1.map f = l2.map g) : l1.all f = l2.all g := by
  induction l1 generalizing l2 with
  | nil =>
    cases l2 with
    | nil => rfl
    | cons b l2 => simp at h
  | cons a l1 ih =>
    cases l2 with
    | nil => simp at h
    | cons b l2 =>
      simp only [List.map_cons, List.cons.injEq] at h
      simp only [List.all_cons, h.1, ih l2 h.2]

theorem any_congr_of_map {α : Type} (f g : α → Bool) (l1 l2 : List α)
    (h : l1.map f = l2.map g) : l1.any f = l2.any g := by
  induction l1 generalizing l2 with
  | nil =>
    cases l2 with
    | nil => rfl
    | cons b l2 => simp at h
  | cons a l1 ih =>
    cases l2 with
    | nil => simp at h
    | cons b l2 =>
      simp only [List.map_cons, List.cons.injEq] at h
      simp only [List.any_cons, h.1, ih l2 h.2]

theorem countP_congr_of_map {α : Type} (f g : α → Bool) (l1 l2 : List α)
    (h : l1.map f = l2.map g) : l1.countP f = l2.countP g := by
  induction l1 generalizing l2 with
  | nil =>
    cases l2 with
    | nil => rfl
    | cons b l2 => simp at h
  | cons a l1 ih =>
    cases l2 with
    | nil => simp at h
    | cons b l2 =>
      simp only [List.map_cons, List.cons.injEq] at h
      simp only [List.countP_cons, h.1, ih l2 h.2]

theorem evaluate_XOR_eq (a : Nat → Bool) (n : Nat) (cs1 cs2 : List BF)
    (h : cs1.countP (evaluate a) = cs2.countP (evaluate a)) :
    evaluate a (XOR n cs1) = evaluate a (XOR n cs2) := by
  rw [Bool.eq_iff_iff]
  simp only [evaluate]
  rw [evaluateXor_false_iff_odd, evaluateXor_false_iff_odd, h]

theorem listSort_short {α : Type} (less : α → α → Bool) (l : List α) (h : l.length ≤ 1) :
    listSort less l = l := by
  cases l with
  | nil => rfl
  | cons a t =>
    cases t with
    | nil => rfl
    | cons b t => simp at h

/-- One node of the proof that `recursiveSort` keeps the value of a tree. -/
theorem evaluate_recursiveSort_step (x x1 : BF) (hu : unaryNots x)
    (ih : ∀ cs1, recursiveSortList x.children = some cs1 →
      cs1.length = x.children.length ∧
        ∀ a, cs1.map (evaluate a) = x.children.map (evaluate a))
    (h : recursiveSort x = some x1) (a : Nat → Bool) : evaluate a x1 = evaluate a x := by
  rw [recursiveSort_unfold] at h
  cases e1 : recursiveSortList x.children with
  | none => rw [e1] at h; simp at h
  | some cs1 =>
    rw [e1] at h
    simp only [] at h
    cases e2 : sortChildren cs1 with
    | none => rw [e2] at h; simp at h
    | some cs2 =>
      rw [e2] at h
      simp only [Option.some.injEq] at h
      subst h
      obtain ⟨hlen, hmap⟩ := ih cs1 e1
      obtain ⟨_, hcs2⟩ := sortChildren_eq e2
      have hperm : cs2.Perm cs1 := hcs2 ▸ listSort_perm lessBF cs1
      have hall : cs2.all (evaluate a) = x.children.all (evaluate a) := by
        rw [← all_congr_of_map _ _ cs1 x.children (hmap a), Bool.eq_iff_iff,
          List.all_eq_true, List.all_eq_true]
        exact ⟨fun h c hc => h c (hperm.symm.subset hc), fun h c hc => h c (hperm.subset hc)⟩
      have hany : cs2.any (evaluate a) = x.children.any (evaluate a) := by
        rw [← any_congr_of_map _ _ cs1 x.children (hmap a), Bool.eq_iff_iff,
          List.any_eq_true, List.any_eq_true]
        exact ⟨fun ⟨c, hc, hv⟩ => ⟨c, hperm.subset hc, hv⟩,
          fun ⟨c, hc, hv⟩ => ⟨c, hperm.symm.subset hc, hv⟩⟩
      have hcount : cs2.countP (evaluate a) = x.children.countP (evaluate a) := by
        rw [← countP_congr_of_map _ _ cs1 x.children (hmap a)]
        exact hperm.countP_eq _
      cases x with
      | TRUE n cs => rfl
      | FALSE n cs => rfl
      | INPUT n v cs => rfl
      | NOT n cs =>
        simp only [unaryNots] at hu
        simp only [children] at hlen hmap
        have hshort : cs1.length ≤ 1 := by omega
        have hcs : cs2 = cs1 := by rw [hcs2, listSort_short lessBF cs1 hshort]
        rw [hcs]
        simp only [withChildren]
        cases cs with
        | nil =>
          have : cs1 = [] := List.length_eq_zero.1 (by simpa using hlen)
          rw [this]
        | cons c t =>
          cases cs1 with
          | nil => simp at hlen
          | cons c1 t1 =>
            have := hmap a
            simp only [List.map_cons, List.cons.injEq] at this
            simp only [evaluate, this.1]
      | AND n cs =>
        simp only [withChildren, children] at hall ⊢
        rw [evaluate_AND, evaluate_AND, hall]
      | OR n cs =>
        simp only [withChildren, children] at hany ⊢
        rw [evaluate_OR, evaluate_OR, hany]
      | XOR n cs =>
        simp only [withChildren, children] at hcount ⊢
        exact evaluate_XOR_eq a n cs2 cs hcount

mutual
/-- The method `recursiveSort()` keeps the value of a tree whose `Not` nodes
have at most one child. -/
theorem evaluate_recursiveSort : ∀ (x x1 : BF), unaryNots x → recursiveSort x = some x1 →
    ∀ a, evaluate a x1 = evaluate a x
  | TRUE n cs, x1, hu, h => evaluate_recursiveSort_step (TRUE n cs) x1 hu
    (fun cs1 e => evaluate_recursiveSortList cs cs1 (unaryNots_children _ hu) e) h
  | FALSE n cs, x1, hu, h => evaluate_recursiveSort_step (FALSE n cs) x1 hu
    (fun cs1 e => evaluate_recursiveSortList cs cs1 (unaryNots_children _ hu) e) h
  | INPUT n v cs, x1, hu, h => evaluate_recursiveSort_step (INPUT n v cs) x1 hu
    (fun cs1 e => evaluate_recursiveSortList cs cs1 (unaryNots_children _ hu) e) h
  | NOT n cs, x1, hu, h => evaluate_recursiveSort_step (NOT n cs) x1 hu
    (fun cs1 e => evaluate_recursiveSortList cs cs1 (unaryNots_children _ hu) e) h
  | AND n cs, x1, hu, h => evaluate_recursiveSort_step (AND n cs) x1 hu
    (fun cs1 e => evaluate_recursiveSortList cs cs1 (unaryNots_children _ hu) e) h
  | OR n cs, x1, hu, h => evaluate_recursiveSort_step (OR n cs) x1 hu
    (fun cs1 e => evaluate_recursiveSortList cs cs1 (unaryNots_children _ hu) e) h
  | XOR n cs, x1, hu, h => evaluate_recursiveSort_step (XOR n cs) x1 hu
    (fun cs1 e => evaluate_recursiveSortList cs cs1 (unaryNots_children _ hu) e) h
theorem evaluate_recursiveSortList : ∀ (cs cs1 : List BF), unaryNotsList cs →
    recursiveSortList cs = some cs1 →
    cs1.length = cs.length ∧ ∀ a, cs1.map (evaluate a) = cs.map (evaluate a)
  | [], cs1, _, h => by
    simp only [recursiveSortList, Option.some.injEq] at h
    subst h
    exact ⟨rfl, fun _ => rfl⟩
  | c :: cs, cs1, hu, h => by
    simp only [unaryNotsList] at hu
    simp only [recursiveSortList] at h
    cases e1 : recursiveSort c with
    | none => rw [e1] at h; simp at h
    | some c1 =>
      rw [e1] at h
      simp only [] at h
      cases e2 : recursiveSortList cs with
      | none => rw [e2] at h; simp at h
      | some cs2 =>
        rw [e2] at h
        simp only [Option.some.injEq] at h
        subst h
        obtain ⟨hlen, hmap⟩ := evaluate_recursiveSortList cs cs2 hu.2 e2
        refine ⟨by simp [hlen], fun a => ?_⟩
        rw [List.map_cons, List.map_cons, evaluate_recursiveSort c c1 hu.1 e1 a, hmap a]
end

theorem compare_INPUT (n1 n2 i j : Nat) :
    ∃ v, BF.compare (INPUT n1 i []) (INPUT n2 j []) = some v ∧ (v = 0 ↔ i = j) := by
  rw [compare_unfold]
  simp only [compareNode, compareLeaf, size, children, getDependence, myType,
    List.length_nil, lt_self_iff_false, gt_iff_lt, if_false, ne_eq, not_true_eq_false]
  by_cases h1 : (i : Int) + 1 < (j : Int) + 1
  · rw [if_pos h1]
    exact ⟨-1, rfl, by constructor <;> intro h <;> omega⟩
  · rw [if_neg h1]
    by_cases h2 : (j : Int) + 1 < (i : Int) + 1
    · rw [if_pos h2]
      exact ⟨1, rfl, by constructor <;> intro h <;> omega⟩
    · rw [if_neg h2]
      exact ⟨0, rfl, by constructor <;> intro _ <;> omega⟩

/-- Two literals compare 0 exactly when they have the same dependence. -/
theorem compare_literals {n1 n2 : Nat} {a b : BF} (ha : ∃ v, isLiteralOf n1 v a)
    (hb : ∃ v, isLiteralOf n2 v b) :
    ∃ v, BF.compare a b = some v ∧ (v = 0 ↔ a.getDependence = b.getDependence) := by
  rcases ha with ⟨i, rfl | rfl⟩ <;> rcases hb with ⟨j, rfl | rfl⟩
  · obtain ⟨v, e, hv⟩ := compare_INPUT n1 n2 i j
    refine ⟨v, e, ?_⟩
    rw [hv]
    simp only [getDependence]
    constructor <;> intro h <;> omega
  · refine ⟨-1, ?_, ?_⟩
    · rw [compare_unfold]; simp [compareNode, size, children]
    · simp only [getDependence]
      constructor <;> intro h <;> omega
  · refine ⟨1, ?_, ?_⟩
    · rw [compare_unfold]; simp [compareNode, size, children]
    · simp only [getDependence]
      constructor <;> intro h <;> omega
  · obtain ⟨v, e, hv⟩ := compare_INPUT n1 n2 i j
    refine ⟨v, ?_, ?_⟩
    · rw [compare_unfold]
      simp only [compareNode, size, children, List.length_singleton, lt_self_iff_false,
        gt_iff_lt, if_false, Nat.zero_lt_one, if_true, compareChildren, e]
      by_cases h0 : v ≠ 0
      · rw [if_pos h0]
      · rw [if_neg h0]
        have : v = 0 := by simpa using h0
        rw [this]
    · rw [hv]
      simp only [getDependence]
      constructor <;> intro h <;> omega

theorem compareChildren_literals {n1 n2 : Nat} : ∀ (xs ys : List BF),
    xs.length = ys.length → (∀ a ∈ xs, ∃ v, isLiteralOf n1 v a) →
    (∀ b ∈ ys, ∃ v, isLiteralOf n2 v b) →
    ∃ v, compareChildren xs ys = some v ∧
      (v = 0 ↔ xs.map getDependence = ys.map getDependence)
  | [], [], _, _, _ => ⟨0, by simp [compareChildren], by simp⟩
  | [], _ :: _, h, _, _ => by simp at h
  | _ :: _, [], h, _, _ => by simp at h
  | x :: xs, y :: ys, h, hx, hy => by
    obtain ⟨v, e, hv⟩ := compare_literals (hx x (List.mem_cons_self _ _))
      (hy y (List.mem_cons_self _ _))
    obtain ⟨w, e2, hw⟩ := compareChildren_literals xs ys (by simpa using h)
      (fun a ha => hx a (List.mem_cons_of_mem _ ha))
      (fun b hb => hy b (List.mem_cons_of_mem _ hb))
    simp only [compareChildren, e, List.map_cons, List.cons.injEq]
    by_cases h0 : v ≠ 0
    · rw [if_pos h0]
      exact ⟨v, rfl, ⟨fun hv0 => absurd hv0 h0, fun hh => absurd (hv.2 hh.1) h0⟩⟩
    · rw [if_neg h0]
      have hv0 : v = 0 := by simpa using h0
      exact ⟨w, e2, by rw [hw]; exact ⟨fun hh => ⟨hv.1 hv0, hh⟩, fun hh => hh.2⟩⟩

/-- Two clauses compare 0 exactly when their literals have the same
dependences in the same order. -/
theorem compare_clauses (n1 n2 : Nat) (l1 l2 : List BF)
    (h1 : ∀ a ∈ l1, ∃ v, isLiteralOf n1 v a) (h2 : ∀ b ∈ l2, ∃ v, isLiteralOf n2 v b) :
    ∃ v, BF.compare (OR n1 l1) (OR n2 l2) = some v ∧
      (v = 0 ↔ l1.map getDependence = l2.map getDependence) := by
  rw [compare_unfold]
  simp only [compareNode, size, children]
  by_cases a1 : l1.length < l2.length
  · rw [if_pos a1]
    refine ⟨-1, rfl, ⟨fun h => by omega, fun h => ?_⟩⟩
    have := congrArg List.length h
    simp only [List.length_map] at this
    omega
  rw [if_neg a1]
  by_cases a2 : l1.length > l2.length
  · rw [if_pos a2]
    refine ⟨1, rfl, ⟨fun h => by omega, fun h => ?_⟩⟩
    have := congrArg List.length h
    simp only [List.length_map] at this
    omega
  rw [if_neg a2]
  have hlen : l1.length = l2.length := by omega
  by_cases a3 : l1.length > 0
  · rw [if_pos a3]
    exact compareChildren_literals l1 l2 hlen h1 h2
  · rw [if_neg a3]
    have e1 : l1 = [] := List.length_eq_zero.1 (by omega)
    have e2 : l2 = [] := List.length_eq_zero.1 (by omega)
    subst e1; subst e2
    exact ⟨0, by simp [compareLeaf, getDependence, myType], by simp⟩

theorem literal_eq_of_dependence {n : Nat} {a b : BF} (ha : ∃ v, isLiteralOf n v a)
    (hb : ∃ v, isLiteralOf n v b) (h : a.getDependence = b.getDependence) : a = b := by
  rcases ha with ⟨i, rfl | rfl⟩ <;> rcases hb with ⟨j, rfl | rfl⟩ <;>
    simp only [getDependence] at h
  · have : i = j := by omega
    rw [this]
  · omega
  · omega
  · have : i = j := by omega
    rw [this]

theorem literals_eq_of_dependences {n : Nat} : ∀ (xs ys : List BF),
    (∀ a ∈ xs, ∃ v, isLiteralOf n v a) → (∀ b ∈ ys, ∃ v, isLiteralOf n v b) →
    xs.map getDependence = ys.map getDependence → xs = ys
  | [], [], _, _, _ => rfl
  | [], _ :: _, _, _, h => by simp at h
  | _ :: _, [], _, _, h => by simp at h
  | x :: xs, y :: ys, hx, hy, h => by
    simp only [List.map_cons, List.cons.injEq] at h
    rw [literal_eq_of_dependence (hx x (List.mem_cons_self _ _))
        (hy y (List.mem_cons_self _ _)) h.1,
      literals_eq_of_dependences xs ys (fun a ha => hx a (List.mem_cons_of_mem _ ha))
        (fun b hb => hy b (List.mem_cons_of_mem _ hb)) h.2]

theorem nbrVars_eq_of_common_literal {n1 n2 : Nat} {a : BF} (h1 : ∃ v, isLiteralOf n1 v a)
    (h2 : ∃ v, isLiteralOf n2 v a) : n1 = n2 := by
  rcases h1 with ⟨i, rfl | rfl⟩ <;> rcases h2 with ⟨j, h | h⟩ <;>
    simp only [INPUT.injEq, NOT.injEq, reduceCtorEq] at h <;> exact h.1

/-- The properties of `compare` on two clauses. -/
theorem compare_clauses_full (n1 n2 : Nat) (l1 l2 : List BF)
    (h1 : ∀ a ∈ l1, ∃ v, isLiteralOf n1 v a) (h2 : ∀ b ∈ l2, ∃ v, isLiteralOf n2 v b) :
    ∃ v, BF.compare (OR n1 l1) (OR n2 l2) = some v ∧
      (v = 0 ↔ l1.map getDependence = l2.map getDependence) ∧
      (n1 = n2 → (v = 0 ↔ l1 = l2)) ∧
      (l1.Perm l2 → l1 ≠ l2 →
        v ≠ 0 ∧ checkForDoubles (OR n2 l2) [OR n1 l1] = some false) := by
  obtain ⟨v, e, hv⟩ := compare_clauses n1 n2 l1 l2 h1 h2
  have hsame : n1 = n2 → (v = 0 ↔ l1 = l2) := by
    intro hn
    subst hn
    rw [hv]
    exact ⟨literals_eq_of_dependences l1 l2 h1 h2, fun h => by rw [h]⟩
  refine ⟨v, e, hv, hsame, fun hp hne => ?_⟩
  have hn : n1 = n2 := by
    cases l1 with
    | nil => exact absurd (List.Perm.nil_eq hp) hne
    | cons a l1 =>
      exact nbrVars_eq_of_common_literal (h1 a (List.mem_cons_self _ _))
        (h2 a (hp.subset (List.mem_cons_self _ _)))
  have hv0 : v ≠ 0 := fun h0 => hne ((hsame hn).1 h0)
  refine ⟨hv0, ?_⟩
  simp only [checkForDoubles, e, if_neg hv0]

/-! ### The plaintext bit -/

theorem encryptANF_true {σ : Type} (r : rng σ) (pk : BF) (beta : Nat) (st : σ) :
    encryptANF r pk true beta st =
      match encryptANF r pk false beta st with
      | none => none
      | some (g0, st0) => some (addToANF g0 [[0]], st0) := by
  rw [encryptANF_eq_preCanonical, encryptANF_eq_preCanonical]
  cases preCanonical r pk beta st with
  | none => rfl
  | some p => rfl

theorem encryptANF_false_ascending {σ : Type} (r : rng σ) (pk : BF) (beta : Nat) (st : σ)
    (g0 : ANF) (st0 : σ) (h : encryptANF r pk false beta st = some (g0, st0)) :
    Ascending g0 := by
  rw [encryptANF_eq_preCanonical] at h
  cases e : preCanonical r pk beta st with
  | none => rw [e] at h; simp at h
  | some p =>
    rw [e] at h
    simp only [Bool.false_eq_true, if_false, Option.some.injEq, Prod.mk.injEq] at h
    rw [← h.1]
    exact (sortANF_spec p.1 false).1

theorem encrypt_eq_toBF {σ : Type} (r : rng σ) (n : Nat) (pk : BF) (b : Bool) (beta : Nat)
    (st : σ) :
    encrypt r n pk b beta st =
      match encryptANF r pk b beta st with
      | none => none
      | some (g, st1) => some (toBF (toUInt n) g, st1) := rfl

/-! ### The seed of the program-level encryption -/

theorem seedLoop_eq (bs : List Bool) (seed pow : Nat) (hs : seed < 2 ^ 64) :
    seedLoop bs seed pow = (seed + pow * binaryValue bs) % 2 ^ 64 := by
  induction bs generalizing seed pow with
  | nil =>
    simp only [seedLoop, binaryValue, Nat.mul_zero, Nat.add_zero]
    exact (Nat.mod_eq_of_lt hs).symm
  | cons b bs ih =>
    simp only [seedLoop, ne_eq, not_true_eq_false, if_false, binaryValue]
    rw [ih _ _ (Nat.mod_lt _ (by norm_num))]
    rw [Nat.add_mod, Nat.mod_mod, Nat.mul_mod, Nat.mod_mod, ← Nat.mul_mod, ← Nat.add_mod]
    congr 1
    ring

theorem binaryValue_lt (bs : List Bool) : binaryValue bs < 2 ^ bs.length := by
  induction bs with
  | nil => simp [binaryValue]
  | cons b bs ih =>
    simp only [binaryValue, List.length_cons, pow_succ]
    cases b <;> simp <;> omega

theorem binaryValue_append (xs ys : List Bool) :
    binaryValue (xs ++ ys) = binaryValue xs + 2 ^ xs.length * binaryValue ys := by
  induction xs with
  | nil => simp [binaryValue]
  | cons b xs ih =>
    rw [List.cons_append, binaryValue, ih, binaryValue, List.length_cons, pow_succ]
    ring

theorem binaryValue_mod (bs : List Bool) (k : Nat) :
    binaryValue bs % 2 ^ k = binaryValue (bs.take k) := by
  by_cases h : k ≤ bs.length
  · have hlen : (bs.take k).length = k := by simp [h]
    conv_lhs => rw [← List.take_append_drop k bs, binaryValue_append, hlen]
    rw [Nat.add_mul_mod_self_left]
    apply Nat.mod_eq_of_lt
    have := binaryValue_lt (bs.take k)
    rwa [hlen] at this
  · rw [List.take_of_length_le (by omega)]
    apply Nat.mod_eq_of_lt
    exact lt_of_lt_of_le (binaryValue_lt bs) (Nat.pow_le_pow_right (by norm_num) (by omega))

theorem binaryValue_take_eq_sum (k : Nat) : ∀ (bs : List Bool),
    binaryValue (bs.take k) =
      Finset.sum (Finset.range k) (fun i => if bs.getD i false = true then 2 ^ i else 0) := by
  induction k with
  | zero => intro bs; simp [binaryValue]
  | succ k ih =>
    intro bs
    cases bs with
    | nil => simp [binaryValue]
    | cons b bs =>
      rw [List.take_succ_cons, binaryValue, ih bs, Finset.sum_range_succ', Finset.mul_sum]
      simp only [List.getD_cons_succ, List.getD_cons_zero, pow_zero]
      rw [Nat.add_comm]
      congr 1
      apply Finset.sum_congr rfl
      intro i _
      split_ifs
      · rw [pow_succ]; ring
      · rfl

/-- The seed of `encrypt(state&)`: the salt XOR the number whose binary digits
are the first 64 bits of the clear text. -/
theorem clearTextSeed_eq (salt : Nat) (ct : List Bool) :
    clearTextSeed salt ct = Nat.xor salt (binaryValue (ct.take 64)) := by
  unfold clearTextSeed
  rw [seedLoop_eq ct 0 1 (by norm_num), Nat.zero_add, Nat.one_mul, binaryValue_mod]

theorem powLoop_eq (bs : List Bool) (pow : Nat) :
    powLoop bs pow = if bs = [] then pow else (pow * 2 ^ bs.length) % 2 ^ 64 := by
  induction bs generalizing pow with
  | nil => simp [powLoop]
  | cons b bs ih =>
    simp only [powLoop, ne_eq, not_true_eq_false, if_false, reduceCtorEq, List.length_cons]
    rw [ih]
    by_cases h : bs = []
    · subst h
      simp
    · rw [if_neg h, Nat.mod_mul_mod, pow_succ]
      congr 1
      ring

/-! ### Values of products without a bound on the variables -/

theorem exists_bound (g : ANF) : ∃ n, ∀ m ∈ g, ∀ v ∈ m, v ≤ n := by
  induction g with
  | nil => exact ⟨0, fun _ h => absurd h (List.not_mem_nil _)⟩
  | cons m g ih =>
    obtain ⟨n, hn⟩ := ih
    refine ⟨n + m.sum, fun x hx v hv => ?_⟩
    rcases List.mem_cons.1 hx with e | e
    · subst e
      have := List.single_le_sum (fun _ _ => Nat.zero_le _) v hv
      omega
    · have := hn x e v hv
      omega

theorem goodANF_of_unbounded (g h : ANF)
    (hg : ∀ m ∈ g, m ≠ [] ∧ (m = [0] ∨ ∀ v ∈ m, 0 < v))
    (hh : ∀ m ∈ h, m ≠ [] ∧ (m = [0] ∨ ∀ v ∈ m, 0 < v)) :
    ∃ n, goodANF n g ∧ goodANF n h := by
  obtain ⟨n, hn⟩ := exists_bound (g ++ h)
  refine ⟨n, fun m hm => ?_, fun m hm => ?_⟩
  · refine ⟨(hg m hm).1, ?_⟩
    rcases (hg m hm).2 with e | e
    · exact Or.inl e
    · exact Or.inr (fun v hv => ⟨e v hv, hn m (List.mem_append_left _ hm) v hv⟩)
  · refine ⟨(hh m hm).1, ?_⟩
    rcases (hh m hm).2 with e | e
    · exact Or.inl e
    · exact Or.inr (fun v hv => ⟨e v hv, hn m (List.mem_append_right _ hm) v hv⟩)

/-! ### Streams -/

theorem extract_append (delim : Char) (l r : List Char) (h : delim ∉ l) :
    extract delim (l ++ delim :: r) = (l, some r) := by
  induction l with
  | nil => simp [extract]
  | cons c l ih =>
    have hc : c ≠ delim := fun e => h (by rw [e]; exact List.mem_cons_self _ _)
    have hl : delim ∉ l := fun e => h (List.mem_cons_of_mem _ e)
    rw [List.cons_append, extract, if_neg hc, ih hl]

theorem extract_none (delim : Char) (l : List Char) (h : delim ∉ l) :
    extract delim l = (l, none) := by
  induction l with
  | nil => simp [extract]
  | cons c l ih =>
    have hc : c ≠ delim := fun e => h (by rw [e]; exact List.mem_cons_self _ _)
    have hl : delim ∉ l := fun e => h (List.mem_cons_of_mem _ e)
    rw [extract, if_neg hc, ih hl]

theorem istringstream_failbit (x : List Char) : (istringstream x).failbit = false := rfl

theorem istringstream_good (x : List Char) : (istringstream x).good = true := rfl

theorem getline_delim (delim : Char) (l r str : List Char) (h : delim ∉ l) :
    getline (istringstream (l ++ delim :: r)) str delim = (istringstream r, l) := by
  simp only [getline, istringstream, istream.good, Bool.not_false, Bool.and_self, if_true,
    extract_append delim l r h]

theorem getline_last (delim : Char) (l str : List Char) (h : delim ∉ l) :
    getline (istringstream l) str delim = (⟨[], true, l.isEmpty⟩, l) := by
  simp only [getline, istringstream, istream.good, Bool.not_false, Bool.and_self, if_true,
    extract_none delim l h]

theorem getline_eof (delim : Char) (f : Bool) (str : List Char) :
    getline ⟨[], true, f⟩ str delim = (⟨[], true, true⟩, str) := by
  simp [getline, istream.good]

/-- The token loop on the text of the tokens `ts`, each followed by a blank,
and a last token: the body is run on every token in turn. -/
theorem whileGetline_tokens {V : Type} (body : V → List Char → Option V)
    (last : List Char) (hl : ' ' ∉ last) (hne : last ≠ []) :
    ∀ (ts : List (List Char)), (∀ t ∈ ts, ' ' ∉ t) → ∀ (fuel : Nat), ts.length + 2 ≤ fuel →
    ∀ (token : List Char) (v : V),
    whileGetline body fuel (istringstream (ts.flatMap (fun t => t ++ [' ']) ++ last)) token v =
      (ts ++ [last]).foldlM body v
  | [], _, fuel, hf, token, v => by
    obtain ⟨f1, rfl⟩ : ∃ f1, fuel = f1 + 2 := ⟨fuel - 2, by simp at hf; omega⟩
    have e : last.isEmpty = false := by cases last <;> simp at hne ⊢
    simp only [List.flatMap_nil, List.nil_append, whileGetline, getline_last ' ' last _ hl, e,
      Bool.false_eq_true, if_false, List.foldlM_cons, List.foldlM_nil]
    cases body v last with
    | none => rfl
    | some v1 => simp [getline_eof]
  | t :: ts, ht, fuel, hf, token, v => by
    obtain ⟨f1, rfl⟩ : ∃ f1, fuel = f1 + 1 := ⟨fuel - 1, by simp at hf; omega⟩
    have h1 : ' ' ∉ t := ht t (List.mem_cons_self _ _)
    have e : (t :: ts).flatMap (fun t => t ++ [' ']) ++ last =
        t ++ ' ' :: (ts.flatMap (fun t => t ++ [' ']) ++ last) := by
      simp [List.flatMap_cons]
    rw [e]
    simp only [whileGetline, getline_delim ' ' t _ _ h1, istringstream_failbit,
      Bool.false_eq_true, if_false, List.cons_append, List.foldlM_cons]
    cases body v t with
    | none => rfl
    | some v1 =>
      exact whileGetline_tokens body last hl hne ts
        (fun x hx => ht x (List.mem_cons_of_mem _ hx)) f1 (by simp at hf; omega) t v1

/-- The loop over the lines on a text whose lines all end in a line feed: the
body is run on every line in turn and then on the empty line. -/
theorem whileGood_lines {V : Type} (body : V → List Char → Option V) :
    ∀ (ls : List (List Char)), (∀ l ∈ ls, Char.ofNat 10 ∉ l) → ∀ (fuel : Nat),
    ls.length + 2 ≤ fuel → ∀ (line : List Char) (v : V),
    whileGood body fuel (istringstream (ls.flatMap (fun l => l ++ endl))) line v =
      (ls ++ [[]]).foldlM body v
  | [], _, fuel, hf, line, v => by
    obtain ⟨f1, rfl⟩ : ∃ f1, fuel = f1 + 2 := ⟨fuel - 2, by simp at hf; omega⟩
    simp only [List.flatMap_nil, whileGood, istringstream_good, if_true,
      getline_last (Char.ofNat 10) [] _ (List.not_mem_nil _), List.nil_append,
      List.foldlM_cons, List.foldlM_nil, List.isEmpty_nil]
    cases body v [] with
    | none => rfl
    | some v1 => simp [istream.good]
  | l :: ls, hl, fuel, hf, line, v => by
    obtain ⟨f1, rfl⟩ : ∃ f1, fuel = f1 + 1 := ⟨fuel - 1, by simp at hf; omega⟩
    have h1 : Char.ofNat 10 ∉ l := hl l (List.mem_cons_self _ _)
    have e : (l :: ls).flatMap (fun l => l ++ endl) =
        l ++ Char.ofNat 10 :: ls.flatMap (fun l => l ++ endl) := by
      simp [List.flatMap_cons, endl]
    rw [e]
    simp only [whileGood, istringstream_good, if_true, getline_delim (Char.ofNat 10) l _ _ h1,
      List.cons_append, List.foldlM_cons]
    cases body v l with
    | none => rfl
    | some v1 =>
      exact whileGood_lines body ls (fun x hx => hl x (List.mem_cons_of_mem _ hx)) f1
        (by simp at hf; omega) l v1

/-! ### Decimal numbers -/

theorem digitChar_spec (k : Nat) (hk : k < 10) :
    (Nat.digitChar k).isDigit = true ∧ (Nat.digitChar k).toNat - 48 = k := by
  interval_cases k <;> exact ⟨by decide, by decide⟩

theorem digitsValue_append_singleton (pre : List Char) (d : Char) :
    digitsValue (pre ++ [d]) = 10 * digitsValue pre + (d.toNat - 48) := by
  simp [digitsValue, List.foldl_append]

theorem toDigitsCore_spec : ∀ (fuel n : Nat) (ds : List Char), n < fuel →
    ∃ pre, Nat.toDigitsCore 10 fuel n ds = pre ++ ds ∧ pre ≠ [] ∧
      (∀ c ∈ pre, c.isDigit = true) ∧ digitsValue pre = n
  | 0, _, _, h => absurd h (Nat.not_lt_zero _)
  | fuel + 1, n, ds, h => by
    have hd := digitChar_spec (n % 10) (Nat.mod_lt _ (by norm_num))
    simp only [Nat.toDigitsCore]
    by_cases h0 : n / 10 = 0
    · rw [if_pos h0]
      refine ⟨[Nat.digitChar (n % 10)], rfl, by simp, ?_, ?_⟩
      · intro c hc
        rw [List.mem_singleton.1 hc]
        exact hd.1
      · have := digitsValue_append_singleton [] (Nat.digitChar (n % 10))
        simp only [List.nil_append] at this
        rw [this, hd.2]
        simp only [digitsValue, List.foldl_nil]
        omega
    · rw [if_neg h0]
      obtain ⟨pre, e, _, hall, hval⟩ := toDigitsCore_spec fuel (n / 10)
        (Nat.digitChar (n % 10) :: ds) (by omega)
      refine ⟨pre ++ [Nat.digitChar (n % 10)], ?_, by simp, ?_, ?_⟩
      · rw [e]
        simp
      · intro c hc
        rcases List.mem_append.1 hc with h1 | h1
        · exact hall c h1
        · rw [List.mem_singleton.1 h1]
          exact hd.1
      · rw [digitsValue_append_singleton, hval, hd.2]
        omega

theorem toDigits_spec (n : Nat) :
    Nat.toDigits 10 n ≠ [] ∧ (∀ c ∈ Nat.toDigits 10 n, c.isDigit = true) ∧
      digitsValue (Nat.toDigits 10 n) = n := by
  obtain ⟨pre, e, h1, h2, h3⟩ := toDigitsCore_spec (n + 1) n [] (Nat.lt_succ_self n)
  rw [List.append_nil] at e
  unfold Nat.toDigits
  rw [e]
  exact ⟨h1, h2, h3⟩

theorem isDigit_bounds (c : Char) (h : c.isDigit = true) : 48 ≤ c.toNat ∧ c.toNat ≤ 57 := by
  simp only [Char.isDigit, Bool.and_eq_true, decide_eq_true_eq] at h
  exact ⟨h.1, h.2⟩

theorem isDigit_not_special (c : Char) (h : c.isDigit = true) :
    isspace c = false ∧ c ≠ '-' ∧ c ≠ '+' ∧ c ≠ ' ' ∧ c ≠ Char.ofNat 10 ∧ c ≠ 'c' ∧
      c ≠ '#' := by
  have hb := isDigit_bounds c h
  refine ⟨?_, ?_, ?_, ?_, ?_, ?_, ?_⟩
  · simp only [isspace, Bool.or_eq_false_iff, decide_eq_false_iff_not, Bool.and_eq_false_imp,
      decide_eq_true_eq]
    omega
  all_goals (intro e; rw [e] at h; exact absurd h (by decide))

/-! ### Reading numbers -/

theorem stol_digits (ds : List Char) (h1 : ds ≠ []) (h2 : ∀ c ∈ ds, c.isDigit = true)
    (h3 : digitsValue ds < 2 ^ 63) : stol ds = some (digitsValue ds : Int) := by
  cases ds with
  | nil => exact absurd rfl h1
  | cons d ds =>
    have hd := isDigit_not_special d (h2 d (List.mem_cons_self _ _))
    have e1 : (d :: ds).dropWhile isspace = d :: ds := by
      rw [List.dropWhile_cons_of_neg (by rw [hd.1]; exact Bool.false_ne_true)]
    have e2 : (d :: ds).takeWhile Char.isDigit = d :: ds :=
      List.takeWhile_eq_self_iff.2 h2
    have n1 : ¬ (some d = some '-' ∨ some d = some '+') := by
      rintro (e | e)
      · exact hd.2.1 (Option.some.inj e)
      · exact hd.2.2.1 (Option.some.inj e)
    have n2 : ¬ (some d = some '-') := fun e => hd.2.1 (Option.some.inj e)
    have r : -(2 : Int) ^ 63 ≤ (digitsValue (d :: ds) : Int) ∧
        (digitsValue (d :: ds) : Int) < 2 ^ 63 := by
      constructor
      · have : (0 : Int) ≤ (digitsValue (d :: ds) : Int) := Int.ofNat_nonneg _
        have h63 : (0 : Int) ≤ 2 ^ 63 := by norm_num
        omega
      · exact_mod_cast h3
    simp only [stol, e1, List.head?_cons, if_neg n1, if_neg n2, e2, reduceCtorEq, if_false,
      if_pos r]

theorem stol_minus_digits (ds : List Char) (h1 : ds ≠ []) (h2 : ∀ c ∈ ds, c.isDigit = true)
    (h3 : digitsValue ds ≤ 2 ^ 63) : stol ('-' :: ds) = some (-(digitsValue ds : Int)) := by
  have e1 : ('-' :: ds).dropWhile isspace = '-' :: ds := by
    rw [List.dropWhile_cons_of_neg (by decide)]
  have e2 : ds.takeWhile Char.isDigit = ds := List.takeWhile_eq_self_iff.2 h2
  have r : -(2 : Int) ^ 63 ≤ -(digitsValue ds : Int) ∧ -(digitsValue ds : Int) < 2 ^ 63 := by
    have h0 : (0 : Int) ≤ (digitsValue ds : Int) := Int.ofNat_nonneg _
    have h4 : (digitsValue ds : Int) ≤ 2 ^ 63 := by exact_mod_cast h3
    have h63 : (0 : Int) < 2 ^ 63 := by norm_num
    constructor <;> omega
  simp only [stol, e1, List.head?_cons, true_or, if_true, List.tail_cons, e2, h1, if_false,
    if_pos r]

theorem stol_printSizeT (n : Nat) (h : n < 2 ^ 63) : stol (printSizeT n) = some (n : Int) := by
  obtain ⟨h1, h2, h3⟩ := toDigits_spec n
  have := stol_digits (Nat.toDigits 10 n) h1 h2 (by rw [h3]; exact h)
  rw [h3] at this
  exact this

theorem stol_printLong (v : Int) (h1 : -(2 : Int) ^ 63 ≤ v) (h2 : v < 2 ^ 63) :
    stol (printLong v) = some v := by
  unfold printLong
  by_cases hv : v < 0
  · rw [if_pos hv]
    obtain ⟨a, b, c⟩ := toDigits_spec (-v).toNat
    have hle : (-v).toNat ≤ 2 ^ 63 := by
      have : ((-v).toNat : Int) ≤ ((2 ^ 63 : Nat) : Int) := by
        rw [Int.toNat_of_nonneg (by omega)]
        push_cast
        omega
      exact_mod_cast this
    have := stol_minus_digits _ a b (by rw [c]; exact hle)
    rw [c, Int.toNat_of_nonneg (by omega), neg_neg] at this
    exact this
  · rw [if_neg hv]
    obtain ⟨a, b, c⟩ := toDigits_spec v.toNat
    have hlt : v.toNat < 2 ^ 63 := by
      have : (v.toNat : Int) < ((2 ^ 63 : Nat) : Int) := by
        rw [Int.toNat_of_nonneg (by omega)]
        push_cast
        omega
      exact_mod_cast this
    have := stol_digits _ a b (by rw [c]; exact hlt)
    rw [c, Int.toNat_of_nonneg (by omega)] at this
    exact this

theorem toLong_of_small (v : Int) (h1 : -(2 : Int) ^ 63 ≤ v) (h2 : v < 2 ^ 63) : toLong v = v := by
  unfold toLong
  have e : ((2 : Int) ^ 64) = 2 ^ 63 + 2 ^ 63 := by norm_num
  rw [Int.emod_eq_of_lt (by omega) (by omega)]
  omega

theorem toSizeT_of_small (n : Nat) (h : n < 2 ^ 64) : toSizeT (n : Int) = n := by
  unfold toSizeT
  have : ((n : Int)) < 2 ^ 64 := by exact_mod_cast h
  rw [Int.emod_eq_of_lt (Int.ofNat_nonneg _) this]
  exact Int.toNat_natCast n

/-! ### The shape of the written tokens -/

theorem numeric_printSizeT (n : Nat) : printSizeT n ≠ [] ∧ Numeric (printSizeT n) :=
  ⟨(toDigits_spec n).1, fun c hc => Or.inl ((toDigits_spec n).2.1 c hc)⟩

theorem numeric_printLong (v : Int) : printLong v ≠ [] ∧ Numeric (printLong v) := by
  unfold printLong
  by_cases hv : v < 0
  · rw [if_pos hv]
    refine ⟨List.cons_ne_nil _ _, fun c hc => ?_⟩
    rcases List.mem_cons.1 hc with e | e
    · exact Or.inr e
    · exact Or.inl ((toDigits_spec _).2.1 c e)
  · rw [if_neg hv]
    exact ⟨(toDigits_spec _).1, fun c hc => Or.inl ((toDigits_spec _).2.1 c hc)⟩

theorem numeric_not_special (t : List Char) (h : Numeric t) (c : Char) (hc : c ∈ t) :
    c ≠ ' ' ∧ c ≠ Char.ofNat 10 ∧ c ≠ 'c' ∧ c ≠ '#' := by
  rcases h c hc with e | e
  · have := isDigit_not_special c e
    exact ⟨this.2.2.2.1, this.2.2.2.2.1, this.2.2.2.2.2.1, this.2.2.2.2.2.2⟩
  · rw [e]
    exact ⟨by decide, by decide, by decide, by decide⟩

theorem numeric_no_blank (t : List Char) (h : Numeric t) : ' ' ∉ t :=
  fun hc => (numeric_not_special t h ' ' hc).1 rfl

theorem numeric_dependenceToken (j : BF) :
    dependenceToken j ≠ [] ∧ Numeric (dependenceToken j) :=
  numeric_printLong _

/-- Every character of a written line is a digit, a minus sign or a blank,
and the line does not start with a blank. -/
theorem childLine_shape (c : BF) :
    (∀ x ∈ childLine c, x.isDigit = true ∨ x = '-' ∨ x = ' ') ∧
    ∃ d rest, childLine c = d :: rest ∧ (d.isDigit = true ∨ d = '-') := by
  unfold childLine
  constructor
  · intro x hx
    rcases List.mem_append.1 hx with h | h
    · obtain ⟨t, ht, hxt⟩ := List.mem_flatMap.1 h
      obtain ⟨j, _, rfl⟩ := List.mem_map.1 ht
      rcases List.mem_append.1 hxt with h1 | h1
      · rcases (numeric_dependenceToken j).2 x h1 with e | e
        · exact Or.inl e
        · exact Or.inr (Or.inl e)
      · exact Or.inr (Or.inr (List.mem_singleton.1 h1))
    · rw [List.mem_singleton.1 h]
      exact Or.inl (by decide)
  · cases hcs : c.children with
    | nil => exact ⟨'0', [], by simp, Or.inl (by decide)⟩
    | cons j js =>
      obtain ⟨hne, hnum⟩ := numeric_dependenceToken j
      cases ht : dependenceToken j with
      | nil => exact absurd ht hne
      | cons d rest =>
        refine ⟨d, rest ++ ' ' ::
          (((List.map dependenceToken js).flatMap fun t => t ++ [' ']) ++ ['0']),
          by simp [List.flatMap_cons, ht], ?_⟩
        exact hnum d (by rw [ht]; exact List.mem_cons_self _ _)

theorem childLine_no_newline (c : BF) : Char.ofNat 10 ∉ childLine c := by
  intro h
  rcases (childLine_shape c).1 _ h with e | e | e
  · exact absurd e (by decide)
  · exact absurd e (by decide)
  · exact absurd e (by decide)

theorem childLine_head (c : BF) :
    (childLine c).length > 0 ∧ (childLine c).head? ≠ some 'c' ∧
      (childLine c).head? ≠ some '#' := by
  obtain ⟨d, rest, e, hd⟩ := (childLine_shape c).2
  rw [e]
  refine ⟨by simp, ?_, ?_⟩
  · intro h
    simp only [List.head?_cons, Option.some.injEq] at h
    rw [h] at hd
    rcases hd with e | e
    · exact absurd e (by decide)
    · exact absurd e (by decide)
  · intro h
    simp only [List.head?_cons, Option.some.injEq] at h
    rw [h] at hd
    rcases hd with e | e
    · exact absurd e (by decide)
    · exact absurd e (by decide)

theorem length_flatMap_ge (ts : List (List Char)) :
    ts.length ≤ (ts.flatMap (fun t => t ++ [' '])).length := by
  induction ts with
  | nil => simp
  | cons t ts ih =>
    simp only [List.flatMap_cons, List.length_append, List.length_cons, List.length_nil]
    omega

/-! ### Writing -/

theorem writeDependences_eq (js : List BF) (out : List Char) :
    writeDependences js out =
      out ++ (js.map dependenceToken).flatMap (fun t => t ++ [' ']) := by
  induction js generalizing out with
  | nil => simp [writeDependences]
  | cons j js ih =>
    rw [writeDependences, ih]
    simp [List.flatMap_cons, dependenceToken]

theorem writeLoop_eq (type : booleanFctTypes) (cs : List BF) (out : List Char)
    (h : ∀ c ∈ cs, c.myType = type) :
    writeLoop type cs out = (out ++ (cs.map childLine).flatMap (fun l => l ++ endl), true) := by
  induction cs generalizing out with
  | nil => simp [writeLoop]
  | cons c cs ih =>
    have hc : ¬ (c.myType ≠ type) := fun e => e (h c (List.mem_cons_self _ _))
    rw [writeLoop, if_neg hc, ih _ (fun x hx => h x (List.mem_cons_of_mem _ hx)),
      writeDependences_eq]
    simp [List.flatMap_cons, childLine]

/-! ### Reading the header -/

theorem readHeader_written (format : List Char) (root : Nat → BF) (v : readerVars)
    (n m : Nat) (hf : ' ' ∉ format) (hn : n < 2 ^ 63) (hm : m < 2 ^ 63) :
    readHeader format root v
        (['p'] ++ ' ' :: (format ++ ' ' :: (printSizeT n ++ ' ' :: printSizeT m))) =
      some ⟨n, m, v.actualNbrClauses, some (root n)⟩ := by
  have b1 : ' ' ∉ ['p'] := by decide
  have b2 : ' ' ∉ printSizeT n := numeric_no_blank _ (numeric_printSizeT n).2
  have b3 : ' ' ∉ printSizeT m := numeric_no_blank _ (numeric_printSizeT m).2
  have e0 : "p".toList = ['p'] := rfl
  have hn64 : n < 2 ^ 64 := lt_trans hn (by norm_num)
  have hm64 : m < 2 ^ 64 := lt_trans hm (by norm_num)
  simp only [readHeader, getline_delim ' ' _ _ _ b1, e0, ne_eq, not_true_eq_false, if_false,
    getline_delim ' ' _ _ _ hf, getline_delim ' ' _ _ _ b2, getline_last ' ' _ _ b3,
    stol_printSizeT n hn, stol_printSizeT m hm, toSizeT_of_small n hn64,
    toSizeT_of_small m hm64]

/-! ### Reading a clause -/

theorem stol_zero : stol ['0'] = some 0 := by decide

theorem cnfToken_literal (n v : Nat) (l : BF) (acc : List BF) (hv : v + 1 < 2 ^ 63)
    (hl : isLiteralOf n v l) :
    cnfToken n (false, acc) (dependenceToken l) = some (false, acc ++ [l]) := by
  have h63 : ((v : Int) + 1) < 2 ^ 63 := by exact_mod_cast hv
  have hv64 : v < 2 ^ 64 := by
    have : (2 : Nat) ^ 63 < 2 ^ 64 := by norm_num
    omega
  have hp : (0 : Int) < 2 ^ 63 := by norm_num
  rcases hl with rfl | rfl
  · have e : dependenceToken (INPUT n v []) = printLong ((v : Int) + 1) := by
      simp only [dependenceToken, getDependence]
      rw [toLong_of_small _ (by omega) h63]
    have s := stol_printLong ((v : Int) + 1) (by omega) h63
    have c1 : ¬ ((v : Int) + 1 < 0) := by omega
    have c2 : (v : Int) + 1 > 0 := by omega
    simp only [cnfToken, Bool.false_eq_true, if_false, e, s, if_neg c1, if_pos c2,
      add_sub_cancel_right, toSizeT_of_small v hv64]
  · have e : dependenceToken (NOT n [INPUT n v []]) = printLong (-((v : Int) + 1)) := by
      simp only [dependenceToken, getDependence]
      rw [toLong_of_small _ (by omega) (by omega)]
    have s := stol_printLong (-((v : Int) + 1)) (by omega) (by omega)
    have c1 : -((v : Int) + 1) < 0 := by omega
    have c2 : ¬ (-((v : Int) + 1) = -(2 : Int) ^ 63) := by omega
    have c3 : - -((v : Int) + 1) - 1 = (v : Int) := by omega
    simp only [cnfToken, Bool.false_eq_true, if_false, e, s, if_pos c1, if_neg c2, c3,
      toSizeT_of_small v hv64]

theorem foldlM_cnfToken (n : Nat) : ∀ (lits : List BF),
    (∀ l ∈ lits, ∃ v, v + 1 < 2 ^ 63 ∧ isLiteralOf n v l) → ∀ (acc : List BF),
    (lits.map dependenceToken).foldlM (cnfToken n) (false, acc) = some (false, acc ++ lits)
  | [], _, acc => by simp
  | l :: lits, h, acc => by
    obtain ⟨v, hv, hl⟩ := h l (List.mem_cons_self _ _)
    simp only [List.map_cons, List.foldlM_cons, cnfToken_literal n v l acc hv hl,
      Option.bind_eq_bind, Option.some_bind]
    rw [foldlM_cnfToken n lits (fun x hx => h x (List.mem_cons_of_mem _ hx))]
    simp

theorem tokens_no_blank (js : List BF) : ∀ t ∈ js.map dependenceToken, ' ' ∉ t := by
  intro t ht
  obtain ⟨j, _, rfl⟩ := List.mem_map.1 ht
  exact numeric_no_blank _ (numeric_dependenceToken j).2

theorem whileGetline_childLine {V : Type} (body : V → List Char → Option V) (c : BF)
    (token : List Char) (v : V) :
    whileGetline body ((childLine c).length + 2) (istringstream (childLine c)) token v =
      (c.children.map dependenceToken ++ [['0']]).foldlM body v := by
  apply whileGetline_tokens body ['0'] (by decide) (by simp) _ (tokens_no_blank _)
  have := length_flatMap_ge (c.children.map dependenceToken)
  simp only [childLine, List.length_append, List.length_map] at this ⊢
  omega

theorem readCNFLine_clause (v : readerVars) (lits : List BF) (re : BF)
    (hn : v.nbrVars ≠ 0) (hre : v.re = some re)
    (h : ∀ l ∈ lits, ∃ i, i + 1 < 2 ^ 63 ∧ isLiteralOf v.nbrVars i l) :
    readCNFLine v (childLine (OR v.nbrVars lits)) =
      some ⟨v.nbrVars, v.nbrClauses, v.actualNbrClauses + 1,
        some (re.withChildren (re.children ++ [OR v.nbrVars lits]))⟩ := by
  have hh := childLine_head (OR v.nbrVars lits)
  have hz : cnfToken v.nbrVars (false, lits) ['0'] = some (true, lits) := by
    simp [cnfToken, stol_zero]
  simp only [readCNFLine, if_pos hh, if_neg hn, whileGetline_childLine, children,
    List.foldlM_append, foldlM_cnfToken v.nbrVars lits h [], List.nil_append,
    Option.bind_eq_bind, Option.some_bind, List.foldlM_cons, List.foldlM_nil, hz, hre]
  rfl

theorem readCNFLine_comment (v : readerVars) (line : List Char)
    (h : line.head? = some 'c') : readCNFLine v line = some v := by
  simp [readCNFLine, h]

theorem foldlM_readCNFLine (n m : Nat) (hn : n ≠ 0) : ∀ (cls : List (List BF)),
    (∀ c ∈ cls, ∀ l ∈ c, ∃ i, i + 1 < 2 ^ 63 ∧ isLiteralOf n i l) →
    ∀ (k : Nat) (acc : List BF),
    ((cls.map (OR n)).map childLine).foldlM readCNFLine ⟨n, m, k, some (AND n acc)⟩ =
      some ⟨n, m, k + cls.length, some (AND n (acc ++ cls.map (OR n)))⟩
  | [], _, k, acc => by simp
  | c :: cls, h, k, acc => by
    have h1 := readCNFLine_clause ⟨n, m, k, some (AND n acc)⟩ c (AND n acc) hn rfl
      (h c (List.mem_cons_self _ _))
    simp only [List.map_cons, List.foldlM_cons, h1, Option.bind_eq_bind, Option.some_bind,
      withChildren, children]
    rw [foldlM_readCNFLine n m hn cls (fun x hx => h x (List.mem_cons_of_mem _ hx))]
    simp only [List.length_cons, List.append_assoc, List.singleton_append]
    congr 2
    omega

/-! ### Reading a summand -/

theorem anfToken_variable (n v : Nat) (acc : List BF) (hv : v + 1 < 2 ^ 63) :
    anfToken n (false, acc) (dependenceToken (INPUT n v [])) =
      some (false, acc ++ [INPUT n v []]) := by
  have h63 : ((v : Int) + 1) < 2 ^ 63 := by exact_mod_cast hv
  have hv64 : v < 2 ^ 64 := by
    have : (2 : Nat) ^ 63 < 2 ^ 64 := by norm_num
    omega
  have hp : (0 : Int) < 2 ^ 63 := by norm_num
  have e : dependenceToken (INPUT n v []) = printLong ((v : Int) + 1) := by
    simp only [dependenceToken, getDependence]
    rw [toLong_of_small _ (by omega) h63]
  have s := stol_printLong ((v : Int) + 1) (by omega) h63
  have c1 : ¬ ((v : Int) + 1 < 0) := by omega
  have c2 : (v : Int) + 1 > 0 := by omega
  simp only [anfToken, Bool.false_eq_true, false_and, if_false, e, s, if_neg c1, if_pos c2,
    add_sub_cancel_right, toSizeT_of_small v hv64]

theorem foldlM_anfToken (n : Nat) : ∀ (ids : List Nat), (∀ v ∈ ids, v + 1 < 2 ^ 63) →
    ∀ (acc : List BF),
    ((ids.map (fun v => INPUT n v [])).map dependenceToken).foldlM (anfToken n) (false, acc) =
      some (false, acc ++ ids.map (fun v => INPUT n v []))
  | [], _, acc => by simp
  | v :: ids, h, acc => by
    simp only [List.map_cons, List.foldlM_cons,
      anfToken_variable n v acc (h v (List.mem_cons_self _ _)),
      Option.bind_eq_bind, Option.some_bind]
    rw [foldlM_anfToken n ids (fun x hx => h x (List.mem_cons_of_mem _ hx))]
    simp

/-- A summand of a cipher over `n` variables whose numbers can be written:
`AndOf(Constant(true))`, or the `AndOf` of a non-empty list of variables. -/
theorem readANFLine_summand (v : readerVars) (s : BF) (re : BF)
    (hn : v.nbrVars ≠ 0) (hre : v.re = some re)
    (h : s = AND v.nbrVars [TRUE v.nbrVars []] ∨
      ∃ ids : List Nat, ids ≠ [] ∧ (∀ i ∈ ids, i + 1 < 2 ^ 63) ∧
        s = AND v.nbrVars (ids.map (fun i => INPUT v.nbrVars i []))) :
    readANFLine v (childLine s) =
      some ⟨v.nbrVars, v.nbrClauses, v.actualNbrClauses + 1,
        some (re.withChildren (re.children ++ [s]))⟩ := by
  have hh := childLine_head s
  rcases h with rfl | ⟨ids, hne, hids, rfl⟩
  · have t0 : dependenceToken (TRUE v.nbrVars []) = ['0'] := by
      simp only [dependenceToken, getDependence]
      rw [toLong_of_small 0 (by norm_num) (by norm_num)]
      decide
    have z1 : anfToken v.nbrVars (false, []) ['0'] = some (true, []) := by
      simp [anfToken, stol_zero]
    have z2 : anfToken v.nbrVars (true, []) ['0'] = some (true, []) := by
      simp [anfToken, stol_zero]
    simp only [readANFLine, if_pos hh, if_neg hn, whileGetline_childLine, children,
      List.map_cons, List.map_nil, t0, List.cons_append, List.nil_append, List.foldlM_cons,
      List.foldlM_nil, z1, z2, Option.bind_eq_bind, Option.some_bind, hre]
    rfl
  · have hz : ∀ acc, anfToken v.nbrVars (false, acc) ['0'] = some (true, acc) := by
      intro acc
      simp [anfToken, stol_zero]
    have hlen : ¬ ((ids.map (fun i => INPUT v.nbrVars i [])).length < 1) := by
      cases ids with
      | nil => exact absurd rfl hne
      | cons a as => simp
    simp only [readANFLine, if_pos hh, if_neg hn, whileGetline_childLine, children,
      List.foldlM_append, foldlM_anfToken v.nbrVars ids hids [], List.nil_append,
      Option.bind_eq_bind, Option.some_bind, List.foldlM_cons, List.foldlM_nil, hz, hre,
      if_neg hlen]
    rfl

theorem readANFLine_comment (v : readerVars) (line : List Char)
    (h : line.head? = some 'c') : readANFLine v line = some v := by
  simp [readANFLine, h]

theorem foldlM_readANFLine (n m : Nat) (hn : n ≠ 0) : ∀ (ss : List BF),
    (∀ s ∈ ss, s = AND n [TRUE n []] ∨
      ∃ ids : List Nat, ids ≠ [] ∧ (∀ i ∈ ids, i + 1 < 2 ^ 63) ∧
        s = AND n (ids.map (fun i => INPUT n i []))) →
    ∀ (k : Nat) (acc : List BF),
    (ss.map childLine).foldlM readANFLine ⟨n, m, k, some (XOR n acc)⟩ =
      some ⟨n, m, k + ss.length, some (XOR n (acc ++ ss))⟩
  | [], _, k, acc => by simp
  | s :: ss, h, k, acc => by
    have h1 := readANFLine_summand ⟨n, m, k, some (XOR n acc)⟩ s (XOR n acc) hn rfl
      (h s (List.mem_cons_self _ _))
    simp only [List.map_cons, List.foldlM_cons, h1, Option.bind_eq_bind, Option.some_bind,
      withChildren, children]
    rw [foldlM_readANFLine n m hn ss (fun x hx => h x (List.mem_cons_of_mem _ hx))]
    simp only [List.length_cons, List.append_assoc, List.singleton_append]
    congr 2
    omega

/-! ### The round trips -/

theorem length_lines_le (ls : List (List Char)) :
    ls.length ≤ (ls.flatMap (fun l => l ++ endl)).length := by
  induction ls with
  | nil => simp
  | cons t ts ih =>
    have : endl.length = 1 := rfl
    simp only [List.flatMap_cons, List.length_append, List.length_cons]
    omega

/-- The header line `p format n m` has no line feed. -/
theorem headerLine_shape (format : List Char) (n m : Nat)
    (hf : ∀ c ∈ format, c ≠ Char.ofNat 10) :
    Char.ofNat 10 ∉ ['p'] ++ ' ' :: (format ++ ' ' :: (printSizeT n ++ ' ' :: printSizeT m)) := by
  intro h
  simp only [List.cons_append, List.nil_append, List.mem_cons, List.mem_append] at h
  rcases h with e | e | e | e | e | e | e
  · exact absurd e (by decide)
  · exact absurd e (by decide)
  · exact hf _ e rfl
  · exact absurd e (by decide)
  · exact (numeric_not_special _ (numeric_printSizeT n).2 _ e).2.1 rfl
  · exact absurd e (by decide)
  · exact (numeric_not_special _ (numeric_printSizeT m).2 _ e).2.1 rfl

theorem readCNFLine_header (v : readerVars) (hv : v.nbrVars = 0) (n m : Nat)
    (hn : n < 2 ^ 63) (hm : m < 2 ^ 63) :
    readCNFLine v (['p'] ++ ' ' :: (['c', 'n', 'f'] ++ ' ' ::
        (printSizeT n ++ ' ' :: printSizeT m))) =
      some ⟨n, m, v.actualNbrClauses, some (AND n [])⟩ := by
  have h := readHeader_written ['c', 'n', 'f'] (fun n => AND n []) v n m (by decide) hn hm
  have e : "cnf".toList = ['c', 'n', 'f'] := rfl
  rw [readCNFLine, if_pos ⟨by simp, by simp, by simp⟩, if_pos hv, e]
  exact h

theorem readANFLine_header (v : readerVars) (hv : v.nbrVars = 0) (n m : Nat)
    (hn : n < 2 ^ 63) (hm : m < 2 ^ 63) :
    readANFLine v (['p'] ++ ' ' :: (['a', 'n', 'f'] ++ ' ' ::
        (printSizeT n ++ ' ' :: printSizeT m))) =
      some ⟨n, m, v.actualNbrClauses, some (XOR n [])⟩ := by
  have h := readHeader_written ['a', 'n', 'f'] (fun n => XOR n []) v n m (by decide) hn hm
  have e : "anf".toList = ['a', 'n', 'f'] := rfl
  rw [readANFLine, if_pos ⟨by simp, by simp, by simp⟩, if_pos hv, e]
  exact h

theorem cnf_text_lines (L1 L2 L3 N M X : List Char) :
    L1 ++ endl ++ L2 ++ endl ++ L3 ++ endl ++ ['p', ' ', 'c', 'n', 'f', ' '] ++ N ++ [' '] ++ M
        ++ endl ++ X =
      [L1, L2, L3, ['p'] ++ ' ' :: (['c', 'n', 'f'] ++ ' ' :: (N ++ ' ' :: M))].flatMap
        (fun l => l ++ endl) ++ X := by
  simp [List.flatMap_cons]

theorem anf_text_lines (L1 L2 L3 L4 L5 N M X : List Char) :
    L1 ++ endl ++ ['p', ' ', 'a', 'n', 'f', ' '] ++ N ++ [' '] ++ M ++ endl ++ L2 ++ endl ++
        L3 ++ endl ++ L4 ++ endl ++ L5 ++ endl ++ X =
      [L1, ['p'] ++ ' ' :: (['a', 'n', 'f'] ++ ' ' :: (N ++ ' ' :: M)), L2, L3, L4, L5].flatMap
        (fun l => l ++ endl) ++ X := by
  simp [List.flatMap_cons]

/-- The text that `writeCNF` writes for a key of clauses, as lines. -/
theorem writeCNF_eq (n : Nat) (cs : List BF)
    (hty : ∀ c ∈ cs, c.myType = booleanFctTypes.BFT_OR) :
    writeCNF (AND n cs) = ((cnfLines n cs).flatMap (fun l => l ++ endl), true) := by
  rw [writeCNF, children, writeLoop_eq _ _ _ hty, cnfLines, List.flatMap_append]
  exact congrArg (fun t => (t, true)) (cnf_text_lines _ _ _ _ _ _)

/-- The text that `writeANF` writes for a sum of conjunctions, as lines. -/
theorem writeANF_eq (n : Nat) (cs : List BF)
    (hty : ∀ s ∈ cs, s.myType = booleanFctTypes.BFT_AND) :
    writeANF (XOR n cs) = ((anfLines n cs).flatMap (fun l => l ++ endl), true) := by
  rw [writeANF, children, writeLoop_eq _ _ _ hty, anfLines, List.flatMap_append]
  exact congrArg (fun t => (t, true)) (anf_text_lines _ _ _ _ _ _ _ _)

theorem cnfLines_no_newline (n : Nat) (cs : List BF) :
    ∀ l ∈ cnfLines n cs, Char.ofNat 10 ∉ l := by
  intro l hl
  rcases List.mem_append.1 hl with h1 | h1
  · simp only [List.mem_cons, List.mem_singleton, List.not_mem_nil, or_false] at h1
    rcases h1 with rfl | rfl | rfl | rfl
    · decide
    · decide
    · decide
    · exact headerLine_shape _ _ _ (by decide)
  · obtain ⟨c, _, rfl⟩ := List.mem_map.1 h1
    exact childLine_no_newline c

theorem anfLines_no_newline (n : Nat) (cs : List BF) :
    ∀ l ∈ anfLines n cs, Char.ofNat 10 ∉ l := by
  intro l hl
  rcases List.mem_append.1 hl with h1 | h1
  · simp only [List.mem_cons, List.mem_singleton, List.not_mem_nil, or_false] at h1
    rcases h1 with rfl | rfl | rfl | rfl | rfl | rfl
    · decide
    · exact headerLine_shape _ _ _ (by decide)
    · decide
    · decide
    · decide
    · decide
  · obtain ⟨c, _, rfl⟩ := List.mem_map.1 h1
    exact childLine_no_newline c

theorem readCNFLine_nil (v : readerVars) : readCNFLine v [] = some v := by
  simp [readCNFLine]

theorem readANFLine_nil (v : readerVars) : readANFLine v [] = some v := by
  simp [readANFLine]

/-- The round trip of a key of clauses through `writeCNF` and `readCNF`. -/
theorem readCNF_writeCNF (n : Nat) (cls : List (List BF)) (hn1 : 1 ≤ n) (hn2 : n < 2 ^ 63)
    (hlen : cls.length < 2 ^ 63)
    (h : ∀ c ∈ cls, ∀ l ∈ c, ∃ i, i + 1 < 2 ^ 63 ∧ isLiteralOf n i l) :
    (writeCNF (AND n (cls.map (OR n)))).2 = true ∧
    readCNF (writeCNF (AND n (cls.map (OR n)))).1 = some (AND n (cls.map (OR n))) := by
  have hty : ∀ c ∈ cls.map (OR n), c.myType = booleanFctTypes.BFT_OR := by
    intro c hc
    obtain ⟨l, _, rfl⟩ := List.mem_map.1 hc
    rfl
  rw [writeCNF_eq n _ hty]
  refine ⟨rfl, ?_⟩
  have hn0 : n ≠ 0 := by omega
  have hfuel := length_lines_le (cnfLines n (cls.map (OR n)))
  simp only [readCNF]
  rw [whileGood_lines readCNFLine _ (cnfLines_no_newline n _) _ (by omega)]
  have hh := readCNFLine_header ⟨0, 0, 0, none⟩ rfl n cls.length hn2 hlen
  simp only [List.cons_append, List.nil_append] at hh
  simp only [cnfLines, List.length_map, List.cons_append, List.nil_append, List.foldlM_cons,
    readCNFLine_comment _ _ (rfl : "c This cnf file was written by the cnfparser of KryptoSAT.".toList.head? = some 'c'),
    readCNFLine_comment _ _ (rfl : "c The format is specified in e.g. http://www.dwheeler.com/essays/minisat-user-guide.html".toList.head? = some 'c'),
    readCNFLine_comment _ _ (rfl : "c".toList.head? = some 'c'),
    Option.bind_eq_bind, Option.some_bind, hh, List.foldlM_append,
    foldlM_readCNFLine n cls.length hn0 cls h 0 [], List.foldlM_nil, readCNFLine_nil,
    Nat.zero_add, ne_eq, not_true_eq_false, if_false]

/-- The round trip of a sum of conjunctions through `writeANF` and `readANF`. -/
theorem readANF_writeANF (n : Nat) (ss : List BF) (hn1 : 1 ≤ n) (hn2 : n < 2 ^ 63)
    (hlen : ss.length < 2 ^ 63)
    (h : ∀ s ∈ ss, s = AND n [TRUE n []] ∨
      ∃ ids : List Nat, ids ≠ [] ∧ (∀ i ∈ ids, i + 1 < 2 ^ 63) ∧
        s = AND n (ids.map (fun i => INPUT n i []))) :
    (writeANF (XOR n ss)).2 = true ∧ readANF (writeANF (XOR n ss)).1 = some (XOR n ss) := by
  have hty : ∀ s ∈ ss, s.myType = booleanFctTypes.BFT_AND := by
    intro s hs
    rcases h s hs with rfl | ⟨ids, _, _, rfl⟩ <;> rfl
  rw [writeANF_eq n _ hty]
  refine ⟨rfl, ?_⟩
  have hn0 : n ≠ 0 := by omega
  have hfuel := length_lines_le (anfLines n ss)
  simp only [readANF]
  rw [whileGood_lines readANFLine _ (anfLines_no_newline n _) _ (by omega)]
  have hh := readANFLine_header ⟨0, 0, 0, none⟩ rfl n ss.length hn2 hlen
  simp only [List.cons_append, List.nil_append] at hh
  simp only [anfLines, List.cons_append, List.nil_append, List.foldlM_cons,
    readANFLine_comment _ _ (rfl : "c The format of the next line is 'p anf numberOfVariables NumberOfSummands'".toList.head? = some 'c'),
    readANFLine_comment _ _ (rfl : "c The following lines specify the summands, one per line.".toList.head? = some 'c'),
    readANFLine_comment _ _ (rfl : "c Each summand is a conjunction of variables (without negation).".toList.head? = some 'c'),
    readANFLine_comment _ _ (rfl : "c These are given as a space seperated list of their indices terminated by '0'.".toList.head? = some 'c'),
    readANFLine_comment _ _ (rfl : "c A double  '0 0' indicates the constant summand '1'.".toList.head? = some 'c'),
    Option.bind_eq_bind, Option.some_bind, hh, List.foldlM_append,
    foldlM_readANFLine n ss.length hn0 ss h 0 [], List.foldlM_nil, readANFLine_nil,
    Nat.zero_add, ne_eq, not_true_eq_false, if_false]

/-! ### The two loops never use up their budget -/

theorem extract_length (delim : Char) : ∀ (text rest : List Char),
    (extract delim text).2 = some rest → rest.length < text.length
  | [], rest, h => by simp [extract] at h
  | c :: cs, rest, h => by
    by_cases hc : c = delim
    · simp only [extract, if_pos hc, Option.some.injEq] at h
      rw [← h]
      simp
    · simp only [extract, if_neg hc] at h
      have := extract_length delim cs rest h
      simp only [List.length_cons]
      omega

theorem splitLines_eq (text : List Char) :
    splitLines text =
      match (extract (Char.ofNat 10) text).2 with
      | some rest => (extract (Char.ofNat 10) text).1 :: splitLines rest
      | none => [(extract (Char.ofNat 10) text).1] := by
  induction text with
  | nil => rfl
  | cons c cs ih =>
    by_cases hc : c = Char.ofNat 10
    · simp only [splitLines, extract, if_pos hc]
    · simp only [splitLines, extract, if_neg hc]
      rw [ih]
      cases (extract (Char.ofNat 10) cs).2 with
      | none => rfl
      | some rest => rfl

theorem splitTokens_eq (text : List Char) :
    splitTokens text =
      match (extract ' ' text).2 with
      | some rest => (extract ' ' text).1 :: splitTokens rest
      | none => if (extract ' ' text).1.isEmpty then [] else [(extract ' ' text).1] := by
  induction text with
  | nil => rfl
  | cons c cs ih =>
    by_cases hc : c = ' '
    · simp only [splitTokens, extract, if_pos hc]
    · simp only [splitTokens, extract, if_neg hc]
      rw [ih]
      cases (extract ' ' cs).2 with
      | none =>
        simp only [List.isEmpty_cons, Bool.false_eq_true, if_false]
        cases h : (extract ' ' cs).1 with
        | nil => rfl
        | cons a as => rfl
      | some rest => rfl

theorem getline_some (delim : Char) (text str rest : List Char)
    (hr : (extract delim text).2 = some rest) :
    getline (istringstream text) str delim = (istringstream rest, (extract delim text).1) := by
  simp only [getline, istringstream_good, if_true]
  simp only [istringstream, hr]

theorem getline_none (delim : Char) (text str : List Char)
    (hr : (extract delim text).2 = none) :
    getline (istringstream text) str delim =
      (⟨[], true, (extract delim text).1.isEmpty⟩, (extract delim text).1) := by
  simp only [getline, istringstream_good, if_true]
  simp only [istringstream, hr]

/-- The loop over the lines is the fold of its body over the lines of the
text: with a budget of the length of the text plus two the budget is never
used up. -/
theorem whileGood_total {V : Type} (body : V → List Char → Option V) :
    ∀ (fuel : Nat) (text : List Char), text.length + 2 ≤ fuel → ∀ (line : List Char) (v : V),
    whileGood body fuel (istringstream text) line v = (splitLines text).foldlM body v
  | 0, _, h, _, _ => by omega
  | fuel + 1, text, h, line, v => by
    rw [splitLines_eq]
    cases hr : (extract (Char.ofNat 10) text).2 with
    | some rest =>
      have hlen := extract_length _ text rest hr
      simp only [whileGood, istringstream_good, if_true, getline_some _ text line rest hr,
        List.foldlM_cons]
      cases body v (extract (Char.ofNat 10) text).1 with
      | none => rfl
      | some v1 => exact whileGood_total body fuel rest (by omega) _ v1
    | none =>
      simp only [whileGood, istringstream_good, if_true, getline_none _ text line hr,
        List.foldlM_cons, List.foldlM_nil]
      cases body v (extract (Char.ofNat 10) text).1 with
      | none => rfl
      | some v1 =>
        obtain ⟨f1, rfl⟩ : ∃ f1, fuel = f1 + 1 := ⟨fuel - 1, by omega⟩
        simp [whileGood, istream.good]

/-- The loop over the tokens is the fold of its body over the tokens of the
line: with a budget of the length of the line plus two the budget is never
used up. -/
theorem whileGetline_total {V : Type} (body : V → List Char → Option V) :
    ∀ (fuel : Nat) (text : List Char), text.length + 2 ≤ fuel → ∀ (token : List Char) (v : V),
    whileGetline body fuel (istringstream text) token v = (splitTokens text).foldlM body v
  | 0, _, h, _, _ => by omega
  | fuel + 1, text, h, token, v => by
    rw [splitTokens_eq]
    cases hr : (extract ' ' text).2 with
    | some rest =>
      have hlen := extract_length _ text rest hr
      simp only [whileGetline, getline_some _ text token rest hr, istringstream_failbit,
        Bool.false_eq_true, if_false, List.foldlM_cons]
      cases body v (extract ' ' text).1 with
      | none => rfl
      | some v1 => exact whileGetline_total body fuel rest (by omega) _ v1
    | none =>
      simp only [whileGetline, getline_none _ text token hr]
      by_cases he : (extract ' ' text).1.isEmpty = true
      · simp [he]
      · have he1 : (extract ' ' text).1.isEmpty = false := by simpa using he
        simp only [he1, Bool.false_eq_true, if_false, List.foldlM_cons, List.foldlM_nil]
        cases body v (extract ' ' text).1 with
        | none => rfl
        | some v1 =>
          obtain ⟨f1, rfl⟩ : ∃ f1, fuel = f1 + 1 := ⟨fuel - 1, by omega⟩
          simp [whileGetline, getline, istream.good]

/-- The function `readCNF` as a fold over the lines of the text. -/
theorem readCNF_eq_fold (text : List Char) :
    readCNF text =
      match (splitLines text).foldlM readCNFLine ⟨0, 0, 0, none⟩ with
      | none => none
      | some v => if v.actualNbrClauses ≠ v.nbrClauses then none else v.re := by
  rw [readCNF, whileGood_total readCNFLine _ text (le_refl _)]

/-- The function `readANF` as a fold over the lines of the text. -/
theorem readANF_eq_fold (text : List Char) :
    readANF text =
      match (splitLines text).foldlM readANFLine ⟨0, 0, 0, none⟩ with
      | none => none
      | some v =>
        if v.actualNbrClauses ≠ v.nbrClauses then none
        else
          match v.re with
          | none => none
          | some re => some re := by
  rw [readANF, whileGood_total readANFLine _ text (le_refl _)]

/-! ### The dependence as a `long` -/

theorem toLong_zero : toLong 0 = 0 := by decide

theorem toLong_toLong (v : Int) : toLong (toLong v) = toLong v := by
  unfold toLong
  omega

theorem toLong_neg_toLong (v : Int) : toLong (-toLong v) = toLong (-v) := by
  unfold toLong
  omega

theorem toLong_mod (n : Nat) : toLong ((n % 2 ^ 64 : Nat) : Int) = toLong (n : Int) := by
  unfold toLong
  push_cast
  omega

/-- The `long` that `getDependence()` returns is the dependence computed in
the integers, converted to `long`. -/
theorem getDependenceLong_eq : ∀ x : BF, getDependenceLong x = toLong x.getDependence
  | TRUE _ _ => by rw [getDependenceLong, getDependence, toLong_zero]
  | FALSE _ _ => by rw [getDependenceLong, getDependence, toLong_zero]
  | INPUT _ v _ => by
    rw [getDependenceLong, getDependence, toLong_mod]
    push_cast
    rfl
  | NOT _ [] => by rw [getDependenceLong, getDependence, toLong_zero]
  | NOT _ (c :: _) => by
    rw [getDependenceLong, getDependence, getDependenceLong_eq c, toLong_neg_toLong]
  | AND _ [] => by rw [getDependenceLong, getDependence, toLong_zero]
  | AND _ (c :: _) => by rw [getDependenceLong, getDependence, getDependenceLong_eq c]
  | OR _ [] => by rw [getDependenceLong, getDependence, toLong_zero]
  | OR _ (c :: _) => by rw [getDependenceLong, getDependence, getDependenceLong_eq c]
  | XOR _ [] => by rw [getDependenceLong, getDependence, toLong_zero]
  | XOR _ (c :: _) => by rw [getDependenceLong, getDependence, getDependenceLong_eq c]

/-- The dependence of a variable with `i + 1 < 2^63`, as a `long`. -/
theorem getDependenceLong_INPUT (n i : Nat) (h : i + 1 < 2 ^ 63) :
    getDependenceLong (INPUT n i []) = (i : Int) + 1 := by
  have h63 : ((i : Int) + 1) < 2 ^ 63 := by exact_mod_cast h
  have hp : (0 : Int) < 2 ^ 63 := by norm_num
  rw [getDependenceLong_eq, getDependence, toLong_of_small _ (by omega) h63]

/-- The dependence of a negated variable with `i + 1 < 2^63`, as a `long`. -/
theorem getDependenceLong_NOT (n i : Nat) (h : i + 1 < 2 ^ 63) :
    getDependenceLong (NOT n [INPUT n i []]) = -((i : Int) + 1) := by
  have h63 : ((i : Int) + 1) < 2 ^ 63 := by exact_mod_cast h
  have hp : (0 : Int) < 2 ^ 63 := by norm_num
  rw [getDependenceLong_eq, getDependence, getDependence,
    toLong_of_small _ (by omega) (by omega)]

/-! ### The summands of the two ciphers of one generator stream -/

theorem mem_addToANF_one (g0 : ANF) (hg : Ascending g0) (m : List Nat) :
    m ∈ addToANF g0 [[0]] ↔ ((m ∈ g0 ∧ m ≠ [0]) ∨ (m ∉ g0 ∧ m = [0])) := by
  rw [(addToANF_spec g0 [[0]] hg (List.pairwise_singleton _ _)).2 m]
  simp only [List.mem_singleton, ne_eq]

theorem mem_children_toBF (n : Nat) (g : ANF) (m : List Nat) :
    BF.AND n (m.map (fun j => if j = 0 then BF.TRUE n [] else BF.INPUT n (j - 1) [])) ∈
        (toBF n g).children ↔ m ∈ g := by
  simp only [toBF, children]
  exact List.mem_map_of_injective (summand_injective n)

theorem children_toBF_addToANF_one (n : Nat) (g0 : ANF) (hg : Ascending g0) :
    (∀ s, s ≠ AND n [TRUE n []] →
      (s ∈ (toBF n (addToANF g0 [[0]])).children ↔ s ∈ (toBF n g0).children)) ∧
    (AND n [TRUE n []] ∈ (toBF n (addToANF g0 [[0]])).children ↔
      AND n [TRUE n []] ∉ (toBF n g0).children) := by
  have h0 : AND n [TRUE n []] =
      BF.AND n (([0] : List Nat).map
        (fun j => if j = 0 then BF.TRUE n [] else BF.INPUT n (j - 1) [])) := rfl
  constructor
  · intro s hs
    simp only [toBF, children, List.mem_map]
    constructor
    · rintro ⟨m, hm, rfl⟩
      rcases (mem_addToANF_one g0 hg m).1 hm with h | h
      · exact ⟨m, h.1, rfl⟩
      · rw [h.2] at hs
        exact absurd rfl hs
    · rintro ⟨m, hm, rfl⟩
      refine ⟨m, (mem_addToANF_one g0 hg m).2 (Or.inl ⟨hm, ?_⟩), rfl⟩
      intro e
      rw [e] at hs
      exact hs rfl
  · rw [h0, mem_children_toBF, mem_children_toBF, mem_addToANF_one g0 hg]
    constructor
    · rintro (h | h)
      · exact absurd rfl h.2
      · exact h.1
    · intro h
      exact Or.inr ⟨h, rfl⟩

/-! ### The line of the constant summand -/

theorem writeLoop_constant (n : Nat) (out : List Char) :
    writeLoop booleanFctTypes.BFT_AND [AND n [TRUE n []]] out =
      (out ++ ['0', ' ', '0'] ++ endl, true) := by
  have t0 : dependenceToken (TRUE n []) = ['0'] := by
    simp only [dependenceToken, getDependence]
    rw [toLong_of_small 0 (by norm_num) (by norm_num)]
    decide
  rw [writeLoop_eq _ _ _ (by intro c hc; rw [List.mem_singleton.1 hc]; rfl)]
  simp [childLine, children, t0, List.flatMap_cons]

theorem readANFLine_constant (v : readerVars) (re : BF) (hn : v.nbrVars ≠ 0)
    (hre : v.re = some re) :
    readANFLine v ['0', ' ', '0'] =
      some ⟨v.nbrVars, v.nbrClauses, v.actualNbrClauses + 1,
        some (re.withChildren (re.children ++ [AND v.nbrVars [TRUE v.nbrVars []]]))⟩ := by
  have t0 : dependenceToken (TRUE v.nbrVars []) = ['0'] := by
    simp only [dependenceToken, getDependence]
    rw [toLong_of_small 0 (by norm_num) (by norm_num)]
    decide
  have h := readANFLine_summand v (AND v.nbrVars [TRUE v.nbrVars []]) re hn hre (Or.inl rfl)
  have e : childLine (AND v.nbrVars [TRUE v.nbrVars []]) = ['0', ' ', '0'] := by
    simp [childLine, children, t0, List.flatMap_cons]
  rw [e] at h
  exact h

/-! # The claims -/

theorem conforming_constantRng : Conforming constantRng := fun _ _ h => h

theorem conforming_lcg : Conforming lcg := fun _ _ h => Nat.mod_lt _ h

theorem isCNF_smallKey : isCNF 3 smallKey := by
  simp [isCNF, isClause, isLiteral, smallKey]

theorem encrypt_none_of_wrapped_size {σ : Type} (r : rng σ) (n N : Nat) (c : BF)
    (hN : (N + 1) % 2 ^ 32 = 0) (b : Bool) (beta_ : Nat) (st : σ) :
    encrypt r n (AND n (List.replicate (N + 1) c)) b beta_ st = none := by
  have hm : toUInt (AND n (List.replicate (N + 1) c)).size = 0 := by
    simp only [size, children, List.length_replicate, toUInt]
    exact hN
  have hc : convertClauses (drawPermutation r 0 (List.range 0) [] st).1
      (AND n (List.replicate (N + 1) c)).children 0 (List.replicate 0 []) (List.replicate 0 []) =
      none := by
    simp only [drawPermutation, children, List.replicate_succ, convertClauses, inverseSearch]
  simp only [encrypt, encryptANF]
  rw [hm, hc]

/-- The limit on the number of clauses in C1 cannot be dropped either: for a
CNF key with `2^32` clauses, which the all-true private key fulfils, `m` is
narrowed to 0, the inverse search fails and `encrypt` returns no tree. -/
theorem encrypt_none_of_many_clauses {σ : Type} (r : rng σ) (b : Bool) (beta_ : Nat) (st : σ) :
    isCNF 1 (AND 1 (List.replicate (2 ^ 32) (OR 1 [INPUT 1 0 []]))) ∧
    evaluate (fun _ => true) (AND 1 (List.replicate (2 ^ 32) (OR 1 [INPUT 1 0 []]))) = true ∧
    encrypt r 1 (AND 1 (List.replicate (2 ^ 32) (OR 1 [INPUT 1 0 []]))) b beta_ st = none := by
  refine ⟨?_, ?_, ?_⟩
  · refine ⟨rfl, fun c hc => ?_⟩
    rw [List.eq_of_mem_replicate hc]
    simp [isClause, isLiteral]
  · rw [evaluate_AND, List.all_eq_true]
    intro c hc
    rw [List.eq_of_mem_replicate hc]
    decide
  · have h : (2 : Nat) ^ 32 = (2 ^ 32 - 1) + 1 := by norm_num
    rw [h]
    exact encrypt_none_of_wrapped_size r 1 _ _ (by norm_num) b beta_ st

/-- C1 (as stated, refuted): without a bound on the key length decryption can
fail.  For the key `wideKey` over `2^32` variables, which the all-true private
key fulfils, and a generator within its contract, `encrypt` of the bit `false`
returns a tree that evaluates to `true`: the dependence `2^32` of the literal
is narrowed to the `int` 0. -/
theorem C1_unbounded_key_counterexample :
    Conforming constantRng ∧ isCNF (2 ^ 32) wideKey ∧
    evaluate (fun _ => true) wideKey = true ∧
    ∃ c, encrypt constantRng (2 ^ 32) wideKey false 1 () = some (c, ()) ∧
      evaluate (fun _ => true) c = true :=
  ⟨conforming_constantRng, by simp [isCNF, isClause, isLiteral, wideKey], by decide,
    XOR 0 [AND 0 [TRUE 0 []]], by rfl, by decide⟩

/-- C1 (amended): decryption undoes encryption within the `int` limits of
`encrypt`.  For every bit `b`, window `beta_`, key length `n ≤ 2^31 - 1`, CNF
public key `pk` over `n` variables with fewer than `2^32` clauses, private key
`priv` fulfilling `pk`, and every generator whose `randomInt(max)` lies in
`[0,max)`, `encrypt` returns a tree `c`, and `c.evaluate(priv) = b`. -/
theorem C1_decrypt_undoes_encrypt {σ : Type} (r : rng σ) (hr : Conforming r) (n : Nat)
    (hn : n < 2 ^ 31) (priv : Nat → Bool) (pk : BF) (hpk : isCNF n pk)
    (hsize : pk.size < 2 ^ 32) (hsat : evaluate priv pk = true) (b : Bool) (beta_ : Nat)
    (st : σ) :
    ∃ c st1, encrypt r n pk b beta_ st = some (c, st1) ∧ evaluate priv c = b :=
  encrypt_correct r hr hn priv pk hpk hsize hsat b beta_ st

/-- C1, instance: `smallKey` with the private key `alternatingKey`, bit `true`,
`beta = 2`, and the generator `lcg` started in state 5. -/
theorem C1_decrypt_undoes_encrypt_witness :
    Conforming lcg ∧ 3 < 2 ^ 31 ∧ isCNF 3 smallKey ∧ smallKey.size < 2 ^ 32 ∧
    evaluate alternatingKey smallKey = true ∧
    ∃ c st1, encrypt lcg 3 smallKey true 2 5 = some (c, st1) ∧
      evaluate alternatingKey c = true :=
  ⟨conforming_lcg, by decide, isCNF_smallKey, by decide, by decide,
    C1_decrypt_undoes_encrypt lcg conforming_lcg 3 (by decide) alternatingKey smallKey
      isCNF_smallKey (by decide) (by decide) true 2 5⟩

/-- C2: planting.  Whenever `generatePublicKey` returns a key (for any
generator, private key, parameters and loop budget), every clause of the key
evaluates to true under the private key, and so does the key. -/
theorem C2_planting {σ : Type} (r : rng σ) (privateKey : Nat → Bool)
    (n m k : Nat) (fuel : Nat) (st : σ) (key : BF) (st1 : σ)
    (h : generatePublicKey r privateKey n m k fuel st = some (key, st1)) :
    (∀ c ∈ key.children, evaluate privateKey c = true) ∧ evaluate privateKey key = true := by
  obtain ⟨re, rfl, hp, _⟩ := generatePublicKey_spec r privateKey n m k fuel st key st1 h
  refine ⟨hp, ?_⟩
  rw [evaluate_AND, List.all_eq_true]
  exact hp

/-- C2, instance: with the generator `lcg` started in state 1, `n = 3`, two
clauses of two literals and six rounds per loop, `generatePublicKey` returns
`smallKey`. -/
theorem C2_planting_witness :
    generatePublicKey lcg alternatingKey 3 2 2 6 1 = some (smallKey, 48) ∧
    ((∀ c ∈ smallKey.children, evaluate alternatingKey c = true) ∧
      evaluate alternatingKey smallKey = true) :=
  ⟨by rfl, C2_planting lcg alternatingKey 3 2 2 6 1 smallKey 48 (by rfl)⟩

/-- C3: whenever `generatePublicKey` returns a key, any two clauses at
different positions of the key compare non-zero: `compare` is defined on them
and its value is not 0. -/
theorem C3_clauses_distinct {σ : Type} (r : rng σ) (privateKey : Nat → Bool)
    (n m k : Nat) (fuel : Nat) (st : σ) (key : BF) (st1 : σ)
    (h : generatePublicKey r privateKey n m k fuel st = some (key, st1))
    (p q : Nat) (hp : p < key.children.length) (hq : q < key.children.length) (hpq : p ≠ q) :
    ∃ v, BF.compare (key.children.get ⟨p, hp⟩) (key.children.get ⟨q, hq⟩) = some v ∧ v ≠ 0 := by
  obtain ⟨re, rfl, _, hd⟩ := generatePublicKey_spec r privateKey n m k fuel st key st1 h
  have hd1 := List.pairwise_iff_get.1 hd
  rcases Nat.lt_or_gt_of_ne hpq with hlt | hgt
  · exact hd1 ⟨p, hp⟩ ⟨q, hq⟩ hlt
  · exact (hd1 ⟨q, hq⟩ ⟨p, hp⟩ hgt).symm

/-- C3, instance: the two clauses of the key that `generatePublicKey` returns for
the generator `lcg`, taken in the order second, first. -/
theorem C3_clauses_distinct_witness :
    generatePublicKey lcg alternatingKey 3 2 2 6 1 = some (smallKey, 48) ∧
    ∃ v, BF.compare (smallKey.children.get ⟨1, by decide⟩)
      (smallKey.children.get ⟨0, by decide⟩) = some v ∧ v ≠ 0 :=
  ⟨by rfl, C3_clauses_distinct lcg alternatingKey 3 2 2 6 1 smallKey 48 (by rfl) 1 0
    (by decide) (by decide) (by decide)⟩

/-- C4: for strictly ascending lists `g` and `h` of monomials, `addToANF g h` is
strictly ascending and contains exactly the monomials that occur in exactly
one of `g` and `h`; and `add({{1,2},{3}}, {{1,2},{4}}) = {{3},{4}}`. -/
theorem C4_add_symmetric_difference (g h : ANF) (hg : Ascending g) (hh : Ascending h) :
    Ascending (addToANF g h) ∧
    (∀ z, z ∈ addToANF g h ↔ ((z ∈ g ∧ z ∉ h) ∨ (z ∉ g ∧ z ∈ h))) ∧
    addToANF [[1, 2], [3]] [[1, 2], [4]] = [[3], [4]] :=
  ⟨(addToANF_spec g h hg hh).1, (addToANF_spec g h hg hh).2, by decide⟩

/-- C4, instance: `g = {{1,2},{3}}` and `h = {{1,2},{4}}`. -/
theorem C4_add_symmetric_difference_witness :
    Ascending [[1, 2], [3]] ∧ Ascending [[1, 2], [4]] ∧
    (Ascending (addToANF [[1, 2], [3]] [[1, 2], [4]]) ∧
      (∀ z, z ∈ addToANF [[1, 2], [3]] [[1, 2], [4]] ↔
        ((z ∈ [[1, 2], [3]] ∧ z ∉ [[1, 2], [4]]) ∨ (z ∉ [[1, 2], [3]] ∧ z ∈ [[1, 2], [4]]))) ∧
      addToANF [[1, 2], [3]] [[1, 2], [4]] = [[3], [4]]) :=
  ⟨by decide, by decide, C4_add_symmetric_difference _ _ (by decide) (by decide)⟩

/-- C5: for canonical polynomials `g` and `h`, `multiplyToANF g h` with
`sortResult = true` returns a canonical polynomial, and a monomial `S` is in it
exactly when the number of pairs (A in g, B in h) with sorted union `S` is
odd, the reserved `[0]` counting as the empty set. -/
theorem C5_multiply_is_product (g h : ANF) (hg : Canonical g) (hh : Canonical h) :
    ∃ r, multiplyToANF g h true = some r ∧ Canonical r ∧
      ∀ S, S ∈ r ↔ Odd (pairCount g h S) :=
  multiplyToANF_spec g h hg hh

/-- C5, instance: `(1 + x1) * (x1 + x2)`. -/
theorem C5_multiply_is_product_witness :
    Canonical [[0], [1]] ∧ Canonical [[1], [2]] ∧
    ∃ r, multiplyToANF [[0], [1]] [[1], [2]] true = some r ∧ Canonical r ∧
      ∀ S, S ∈ r ↔ Odd (pairCount [[0], [1]] [[1], [2]] S) :=
  ⟨by decide, by decide, C5_multiply_is_product _ _ (by decide) (by decide)⟩

/-- C6: multiply distributes over add.  For canonical polynomials `g`, `h`, `p`
the three products (in the default sorting mode) are returned, and
`sortANF(multiply(add(g,h), p)) = sortANF(add(multiply(g,p), multiply(h,p)))`. -/
theorem C6_multiply_distributes (g h p : ANF) (hg : Canonical g) (hh : Canonical h)
    (hp : Canonical p) :
    ∃ r1 r2 r3, multiplyToANF (addToANF g h) p true = some r1 ∧
      multiplyToANF g p true = some r2 ∧ multiplyToANF h p true = some r3 ∧
      sortANF r1 true = sortANF (addToANF r2 r3) true :=
  multiply_distrib g h p hg hh hp

/-- C6, instance: `g = 1 + x1`, `h = x1 + x2`, `p = x2 + x1 x3`. -/
theorem C6_multiply_distributes_witness :
    Canonical [[0], [1]] ∧ Canonical [[1], [2]] ∧ Canonical [[1, 3], [2]] ∧
    ∃ r1 r2 r3, multiplyToANF (addToANF [[0], [1]] [[1], [2]]) [[1, 3], [2]] true = some r1 ∧
      multiplyToANF [[0], [1]] [[1, 3], [2]] true = some r2 ∧
      multiplyToANF [[1], [2]] [[1, 3], [2]] true = some r3 ∧
      sortANF r1 true = sortANF (addToANF r2 r3) true :=
  ⟨by decide, by decide, by decide,
    C6_multiply_distributes _ _ _ (by decide) (by decide) (by decide)⟩

/-- C7: add is self-inverse.  For strictly ascending lists `g` and `h` of
monomials, in particular for canonical polynomials, `add(add(g,h), h) = g`. -/
theorem C7_add_self_inverse (g h : ANF) (hg : Ascending g) (hh : Ascending h) :
    addToANF (addToANF g h) h = g :=
  addToANF_self_inverse g h hg hh

/-- C7, instance: `g = {{1,2},{3}}` and `h = {{1,2},{4}}`. -/
theorem C7_add_self_inverse_witness :
    Ascending [[1, 2], [3]] ∧ Ascending [[1, 2], [4]] ∧
    addToANF (addToANF [[1, 2], [3]] [[1, 2], [4]]) [[1, 2], [4]] = [[1, 2], [3]] :=
  ⟨by decide, by decide, C7_add_self_inverse _ _ (by decide) (by decide)⟩

/-- C8: identity and zero laws of multiply.  For a canonical polynomial `g` and
either `sortResult`, multiplying by the constant-1 polynomial `{{0}}` on either
side returns `g`, multiplying by the empty polynomial on either side returns
the empty polynomial; and `multiply({{0}}, {{1},{2}}) = {{1},{2}}`. -/
theorem C8_multiply_identity_zero (g : ANF) (hg : Canonical g) (sortResult : Bool) :
    multiplyToANF g [[0]] sortResult = some g ∧
    multiplyToANF [[0]] g sortResult = some g ∧
    multiplyToANF g [] sortResult = some [] ∧
    multiplyToANF [] g sortResult = some [] ∧
    multiplyToANF [[0]] [[1], [2]] true = some [[1], [2]] :=
  ⟨multiplyToANF_one_right g sortResult, multiplyToANF_one_left g hg.2 sortResult,
    multiplyToANF_zero_right g sortResult, multiplyToANF_zero_left g sortResult, by decide⟩

/-- C8, instance: `g = {{1},{2}}` in the unsorted mode. -/
theorem C8_multiply_identity_zero_witness :
    Canonical [[1], [2]] ∧
    (multiplyToANF [[1], [2]] [[0]] false = some [[1], [2]] ∧
      multiplyToANF [[0]] [[1], [2]] false = some [[1], [2]] ∧
      multiplyToANF [[1], [2]] [] false = some [] ∧
      multiplyToANF [] [[1], [2]] false = some [] ∧
      multiplyToANF [[0]] [[1], [2]] true = some [[1], [2]]) :=
  ⟨by decide, C8_multiply_identity_zero _ (by decide) false⟩

/-- C9: `sortANF` realises all-occurrences XOR for every input.  For every list
`g` and either `subSort`, `sortANF g` is strictly ascending, contains a monomial
exactly when it occurs an odd number of times in `g` after the optional inner
sort, and has the same XOR-of-ANDs value as `g` under every assignment. -/
theorem C9_sortANF_all_occurrences_xor (g : ANF) (subSort : Bool) :
    Ascending (sortANF g subSort) ∧
    (∀ z, z ∈ sortANF g subSort ↔ Odd ((innerSorted g subSort).count z)) ∧
    ∀ a, anfValue a (sortANF g subSort) = anfValue a g :=
  sortANF_spec g subSort

/-- C10: `sortANF` is idempotent, for every list `g` and either `subSort`. -/
theorem C10_sortANF_idempotent (g : ANF) (subSort : Bool) :
    sortANF (sortANF g subSort) subSort = sortANF g subSort :=
  sortANF_idem g subSort

/-- C12: under every assignment an `AndOf` node is true exactly when all its
children are, an `OrOf` node exactly when at least one child is, and an `XorOf`
node exactly when an odd number of children are; without children they
evaluate to true, false and false. -/
theorem C12_and_or_xor_evaluate (input : Nat → Bool) (n : Nat) (cs : List BF) :
    (evaluate input (AND n cs) = true ↔ ∀ c ∈ cs, evaluate input c = true) ∧
    (evaluate input (OR n cs) = true ↔ ∃ c ∈ cs, evaluate input c = true) ∧
    (evaluate input (XOR n cs) = true ↔ Odd (cs.countP (evaluate input))) ∧
    evaluate input (AND n []) = true ∧ evaluate input (OR n []) = false ∧
    evaluate input (XOR n []) = false := by
  refine ⟨?_, ?_, ?_, rfl, rfl, rfl⟩
  · rw [evaluate_AND, List.all_eq_true]
  · rw [evaluate_OR, List.any_eq_true]
  · simp only [evaluate]
    exact evaluateXor_false_iff_odd input cs

/-- C13 (as stated, refuted): a `Not` node with two children does not evaluate
to the error default `false`; it negates its first child. -/
theorem C13_two_children_counterexample :
    (NOT 1 [FALSE 1 [], FALSE 1 []]).size ≠ 1 ∧
    evaluate (fun _ => false) (NOT 1 [FALSE 1 [], FALSE 1 []]) = true := by
  decide

/-- C13 (amended): under every assignment a `Not` node without children
evaluates to `false`, and a `Not` node with at least one child evaluates to the
negation of its first child; further children are ignored.  In particular a
`Not` node with exactly one child evaluates to the negation of that child. -/
theorem C13_not_evaluate (input : Nat → Bool) (n : Nat) (c : BF) (cs : List BF) :
    evaluate input (NOT n []) = false ∧
    evaluate input (NOT n (c :: cs)) = (! evaluate input c) ∧
    evaluate input (NOT n [c]) = (! evaluate input c) :=
  ⟨rfl, rfl, rfl⟩

/-- C14: `RandomFunction` is uniform over all boolean functions.  For a
strictly ascending list of `k` positive variable ids and any generator,
`RandomFunction` returns, consumes exactly the next `2^k` coin flips (and no
other draw), and its result is the selection by those flips from a fixed list
of `2^k` distinct monomials, which are exactly the monomials over the
variables (the constant and every non-empty subset).  The map from flip
sequences of length `2^k` to the returned sets of monomials is a bijection:
every set of monomials over the variables is the result of exactly one flip
sequence.  With zero variables the result is `{}` or the constant-1 polynomial
according to the single flip. -/
theorem C14_RandomFunction_uniform {σ : Type} (r : rng σ) (vars : List Nat)
    (hs : vars.Pairwise (fun a b => a < b)) (hp : ∀ v ∈ vars, 0 < v) :
    (∀ st, RandomFunction r vars st =
      some (selectBy (coinFlips r (2 ^ vars.length) st).1 (allMonomials vars),
        (coinFlips r (2 ^ vars.length) st).2)) ∧
    (∀ st, (coinFlips r (2 ^ vars.length) st).1.length = 2 ^ vars.length) ∧
    (allMonomials vars).length = 2 ^ vars.length ∧ (allMonomials vars).Nodup ∧
    (∀ m, m ∈ allMonomials vars ↔ isMonomialOver vars m) ∧
    (∀ T : Finset (List Nat), (∀ m ∈ T, isMonomialOver vars m) →
      ∃! fs : List Bool, fs.length = 2 ^ vars.length ∧
        (selectBy fs (allMonomials vars)).toFinset = T) ∧
    (∀ st, RandomFunction r [] st =
      some (if (r.randomBool st).1 then [[0]] else [], (r.randomBool st).2)) := by
  refine ⟨fun st => RandomFunction_eq r vars st, fun st => coinFlips_length r _ st,
    allMonomials_length vars, allMonomials_nodup vars hs hp, mem_allMonomials vars hs hp,
    fun T hT => ?_, fun st => ?_⟩
  · rw [← allMonomials_length]
    exact existsUnique_flips _ (allMonomials_nodup vars hs hp) T
      (fun m hm => (mem_allMonomials vars hs hp m).2 (hT m hm))
  · rw [RandomFunction_eq]
    cases h : (r.randomBool st).1 <;> simp [coinFlips, selectBy, allMonomials, loopMonomials, h]

/-- C14, instance: the variables `[1, 2]` and the generator `lcg` started in
state 5; the four monomials are `1`, `x1`, `x1 x2`, `x2`. -/
theorem C14_RandomFunction_uniform_witness :
    List.Pairwise (fun a b => a < b) [1, 2] ∧ (∀ v ∈ [1, 2], 0 < v) ∧
    RandomFunction lcg [1, 2] 5 =
      some (selectBy (coinFlips lcg (2 ^ 2) 5).1 (allMonomials [1, 2]),
        (coinFlips lcg (2 ^ 2) 5).2) ∧
    allMonomials [1, 2] = [[0], [1], [1, 2], [2]] :=
  ⟨by decide, by decide,
    (C14_RandomFunction_uniform lcg [1, 2] (by decide) (by decide)).1 5, by decide⟩

/-- C15 (as stated, refuted): without a bound on the key length a summand can
mix `Constant(true)` with a variable.  For the CNF key `wrapKey` over `2^32`
variables (indices `2^32-1` and `4`, both below `n`) and a generator within its
contract, `encrypt` of the bit `false` with `beta = 3` returns a tree whose
first summand is `AndOf[Constant(true), Variable(4)]`, which is not a cipher
summand for any number of variables: the dependence `2^32` of the first literal
is narrowed to the `int` 0, the reserved id. -/
theorem C15_constant_mixed_with_variable_counterexample :
    Conforming constantRng ∧ isCNF (2 ^ 32) wrapKey ∧
    encrypt constantRng (2 ^ 32) wrapKey false 3 () =
      some (XOR 0 [AND 0 [TRUE 0 [], INPUT 0 4 []], AND 0 [INPUT 0 4 []]], ()) ∧
    ∀ k, ¬ isSummand k (AND 0 [TRUE 0 [], INPUT 0 4 []]) := by
  refine ⟨conforming_constantRng, by simp [isCNF, isClause, isLiteral, wrapKey], by rfl, ?_⟩
  intro k h
  rcases h with e | ⟨ids, _, _, _, e⟩
  · simp at e
  · cases ids with
    | nil => simp at e
    | cons a rest => simp at e

/-- C15 (amended): the shape of the cipher for keys over at most `2^32 - 1`
variables.  For every CNF public key with variable indices `< n ≤ 2^32 - 1`,
every bit, beta and generator whose `randomInt(max)` lies in `[0,max)`, every
tree returned by `encrypt` is an `XorOf` whose every child is an `AndOf` that
is either the single child `Constant(true)` or consists of at least one
`Variable` with strictly increasing indices `< n`, and no two summands are
equal; and `encrypt` does return a tree when the key has fewer than `2^32`
clauses. -/
theorem C15_cipher_shape {σ : Type} (r : rng σ) (hr : Conforming r) (n : Nat)
    (hn : n < 2 ^ 32) (pk : BF) (hpk : isCNF n pk) (b : Bool) (beta_ : Nat) (st : σ) :
    (∀ c st1, encrypt r n pk b beta_ st = some (c, st1) →
      ∃ cs : List BF, c = XOR n cs ∧ (∀ s ∈ cs, isSummand n s) ∧ cs.Nodup) ∧
    (pk.size < 2 ^ 32 → ∃ c st1, encrypt r n pk b beta_ st = some (c, st1)) :=
  encrypt_shape r hr hn pk hpk b beta_ st

/-- C15, instance: `smallKey`, bit `true`, `beta = 2`, and the generator `lcg`
started in state 5. -/
theorem C15_cipher_shape_witness :
    Conforming lcg ∧ 3 < 2 ^ 32 ∧ isCNF 3 smallKey ∧
    ((∀ c st1, encrypt lcg 3 smallKey true 2 5 = some (c, st1) →
      ∃ cs : List BF, c = XOR 3 cs ∧ (∀ s ∈ cs, isSummand 3 s) ∧ cs.Nodup) ∧
    (smallKey.size < 2 ^ 32 → ∃ c st1, encrypt lcg 3 smallKey true 2 5 = some (c, st1))) :=
  ⟨conforming_lcg, by decide, isCNF_smallKey,
    C15_cipher_shape lcg conforming_lcg 3 (by decide) smallKey isCNF_smallKey true 2 5⟩

/-- C16 (as stated, refuted): for `n = 0`, `m = 1`, `k = 1` the generator `lcg`
(which keeps the contract of `randomInt` for every `max > 0`) makes
`generatePublicKey` return a key whose only literal is `Not(Variable(1))`,
and the index 1 is not below `n = 0`. -/
theorem C16_no_variables_counterexample :
    Conforming lcg ∧
    generatePublicKey lcg alternatingKey 0 1 1 4 4 =
      some (AND 0 [OR 0 [NOT 0 [INPUT 0 1 []]]], 54) ∧
    ¬ isLiteral 0 (NOT 0 [INPUT 0 1 []]) :=
  ⟨conforming_lcg, by rfl, by simp [isLiteral]⟩

/-- C16 (amended): for `n ≥ 1` and every generator whose `randomInt(max)` lies
in `[0,max)`, whenever `generatePublicKey` returns, the key is an `AndOf` with
exactly `m` children, each an `OrOf` with exactly `k` children, the `j`-th child
being `Variable(i_j)` or `Not(Variable(i_j))` with `i_j < n`, and the `k`
indices of a clause are pairwise distinct. -/
theorem C16_generated_key_shape {σ : Type} (r : rng σ) (hr : Conforming r)
    (privateKey : Nat → Bool) (n m k : Nat) (hn : 0 < n) (fuel : Nat) (st : σ) (key : BF)
    (st1 : σ) (h : generatePublicKey r privateKey n m k fuel st = some (key, st1)) :
    ∃ clauses, key = AND n clauses ∧ clauses.length = m ∧
      ∀ c ∈ clauses, ∃ (vars : List Nat) (lits : List BF), c = OR n lits ∧
        lits.length = k ∧ vars.length = k ∧ vars.Nodup ∧ (∀ v ∈ vars, v < n) ∧
        List.Forall₂ (fun v l => l = INPUT n v [] ∨ l = NOT n [INPUT n v []]) vars lits := by
  obtain ⟨clauses, e, hl, hc⟩ :=
    generatePublicKey_shape r hr privateKey n m k hn fuel st key st1 h
  refine ⟨clauses, e, hl, fun c hcm => ?_⟩
  obtain ⟨vars, lits, e1, e2, e3, e4, e5⟩ := hc c hcm
  exact ⟨vars, lits, e1, by rw [← e5.length_eq, e2], e2, e3, e4, e5⟩

/-- C16, instance: the run of `generatePublicKey` that returns `smallKey`. -/
theorem C16_generated_key_shape_witness :
    Conforming lcg ∧ 0 < 3 ∧
    generatePublicKey lcg alternatingKey 3 2 2 6 1 = some (smallKey, 48) ∧
    ∃ clauses, smallKey = AND 3 clauses ∧ clauses.length = 2 ∧
      ∀ c ∈ clauses, ∃ (vars : List Nat) (lits : List BF), c = OR 3 lits ∧
        lits.length = 2 ∧ vars.length = 2 ∧ vars.Nodup ∧ (∀ v ∈ vars, v < 3) ∧
        List.Forall₂ (fun v l => l = INPUT 3 v [] ∨ l = NOT 3 [INPUT 3 v []]) vars lits :=
  ⟨conforming_lcg, by decide, by rfl,
    C16_generated_key_shape lcg conforming_lcg alternatingKey 3 2 2 (by decide) 6 1 smallKey 48
      (by rfl)⟩

/-- C17: re-encryption is reproducible.  For a generator whose `seed(v)` leaves
an object that depends on `v` only, a successful run of the program-level
`encrypt` (which reseeds the generator from salt and clear text, applies
`recursiveSort` to the key in place, and encrypts every bit) leaves a state on
which the next run succeeds again and changes nothing: the cipher trees of all
bits are identical to those of the first run, and so are the sorted key and the
generator object, with salt, clear text and beta as before.  For a CNF key
over fewer than `2^32` variables with fewer than `2^32` clauses and a generator
within the `randomInt` contract the first run does succeed. -/
theorem C17_reencryption_reproducible {σ : Type} (R : seededRng σ) (hR : Reproducible R)
    (I : state σ) :
    (∀ I1, state.encrypt R I = some (true, I1) →
      state.encrypt R I1 = some (true, I1) ∧ I1.cipher.isSome = true ∧
        I1.clearText = I.clearText ∧ I1.salt = I.salt ∧ I1.beta = I.beta) ∧
    (∀ ct pk, I.clearText = some ct → I.publicKey = some pk → Conforming R.torng →
      I.n < 2 ^ 32 → isCNF I.n pk → pk.size < 2 ^ 32 →
      ∃ I1, state.encrypt R I = some (true, I1)) :=
  ⟨fun I1 h => state_encrypt_again R hR I I1 h,
    fun ct pk hct hpk hr hn hcnf hsize => state_encrypt_returns R hr I ct pk hct hpk hn hcnf hsize⟩

/-- C17, instance: the state `smallState` with the generator `seededLcg`; the
first run succeeds and the second run reproduces its state. -/
theorem C17_reencryption_reproducible_witness :
    Reproducible seededLcg ∧
    ∃ I1, state.encrypt seededLcg smallState = some (true, I1) ∧
      state.encrypt seededLcg I1 = some (true, I1) ∧ I1.cipher.isSome = true :=
  ⟨fun _ _ _ => rfl,
    ((C17_reencryption_reproducible seededLcg (fun _ _ _ => rfl) smallState).2
      [true, false] smallKey rfl rfl conforming_lcg (by decide) isCNF_smallKey
      (by decide)).elim
      (fun I1 h => ⟨I1, h,
        ((C17_reencryption_reproducible seededLcg (fun _ _ _ => rfl) smallState).1 I1 h).1,
        ((C17_reencryption_reproducible seededLcg (fun _ _ _ => rfl) smallState).1 I1 h).2.1⟩)⟩

/-- C18 (as stated, refuted): with `n = 3` and the private key
`[true, false, true]` the clause `¬x1 ∨ ¬x2 ∨ x3` evaluates to `true`. -/
theorem C18_clause_is_fulfilled_counterexample :
    alternatingKey 0 = true ∧ alternatingKey 1 = false ∧ alternatingKey 2 = true ∧
    evaluate alternatingKey
      (OR 3 [NOT 3 [INPUT 3 0 []], NOT 3 [INPUT 3 1 []], INPUT 3 2 []]) = true := by
  decide

/-- C18 (amended): with `n = 3` and the private key `[true, false, true]` the
clause `¬x1 ∨ ¬x2 ∨ x3` evaluates to `true`, so the planting check of
`generatePublicKey` accepts it: when the signs drawn for the variables 0, 1, 2
give this clause, the loop `while(!clauseAccepted)` ends at once and the clause
is appended to the (so far empty) key. -/
theorem C18_planting_check_accepts {σ : Type} (r : rng σ) (st st1 : σ) (fuel : Nat)
    (h : drawSigns r 3 [0, 1, 2] st =
      ([NOT 3 [INPUT 3 0 []], NOT 3 [INPUT 3 1 []], INPUT 3 2 []], st1)) :
    evaluate alternatingKey
      (OR 3 [NOT 3 [INPUT 3 0 []], NOT 3 [INPUT 3 1 []], INPUT 3 2 []]) = true ∧
    plantClause r alternatingKey 3 [0, 1, 2] [] (fuel + 1) st =
      some ([OR 3 [NOT 3 [INPUT 3 0 []], NOT 3 [INPUT 3 1 []], INPUT 3 2 []]], st1) := by
  refine ⟨by decide, ?_⟩
  simp only [plantClause, h]
  rfl

/-- C18, instance: the generator `lcg` in state 7 draws the signs of this
clause. -/
theorem C18_planting_check_accepts_witness :
    drawSigns lcg 3 [0, 1, 2] 7 =
      ([NOT 3 [INPUT 3 0 []], NOT 3 [INPUT 3 1 []], INPUT 3 2 []], 8) ∧
    (evaluate alternatingKey
      (OR 3 [NOT 3 [INPUT 3 0 []], NOT 3 [INPUT 3 1 []], INPUT 3 2 []]) = true ∧
    plantClause lcg alternatingKey 3 [0, 1, 2] [] (0 + 1) 7 =
      some ([OR 3 [NOT 3 [INPUT 3 0 []], NOT 3 [INPUT 3 1 []], INPUT 3 2 []]], 8)) :=
  ⟨by rfl, C18_planting_check_accepts lcg 7 8 0 (by rfl)⟩

/-- C19 (as stated, refuted): for `k = n` the rejection loops can converge.
With `n = 2`, `k = 2`, `m = 1` and the generator `lcg`, which keeps the contract
of `randomInt`, `generatePublicKey` returns a key. -/
theorem C19_k_equals_n_counterexample :
    Conforming lcg ∧
    generatePublicKey lcg alternatingKey 2 1 2 4 4 =
      some (AND 2 [OR 2 [INPUT 2 1 [], INPUT 2 0 []]], 42) :=
  ⟨conforming_lcg, by rfl⟩

/-- C19 (amended): if `k > n ≥ 1` and `m ≥ 1`, `generatePublicKey` never
returns: for every generator whose `randomInt(max)` lies in `[0,max)`, every
start state and every loop budget the result is `none`, because `k` pairwise
distinct indices below `n` do not exist. -/
theorem C19_never_returns {σ : Type} (r : rng σ) (hr : Conforming r)
    (privateKey : Nat → Bool) (n m k : Nat) (hn : 0 < n) (hk : n < k) (hm : 0 < m)
    (fuel : Nat) (st : σ) :
    generatePublicKey r privateKey n m k fuel st = none :=
  generatePublicKey_none_of_lt r hr privateKey n m k hn hk hm fuel st

/-- C19, instance: two literals per clause over one variable. -/
theorem C19_never_returns_witness :
    Conforming lcg ∧ 0 < 1 ∧ 1 < 2 ∧ 0 < 1 ∧
    generatePublicKey lcg alternatingKey 1 1 2 5 0 = none :=
  ⟨conforming_lcg, by decide, by decide, by decide,
    C19_never_returns lcg conforming_lcg alternatingKey 1 1 2 (by decide) (by decide)
      (by decide) 5 0⟩

/-- C20 (as stated, refuted): with the initial values `n = 1024`, `m = 0` the
method `checkM` sets `m = 5120`, which is `5·n` and not `8·n`. -/
theorem C20_default_is_not_8n_counterexample :
    (state.init () 0).m = 0 ∧ (state.init () 0).n = 1024 ∧
    (state.checkM (state.init () 0)).m = 5120 ∧
    (state.checkM (state.init () 0)).m ≠ 8 * (state.init () 0).n := by
  decide

/-- C20 (amended): when `m` is 0 after argument parsing, `checkM` sets
`m = 5·n` (formed in `size_t`) and leaves `n` and `k` as they are; the initial
value of `k` is 3. -/
theorem C20_default_parameters {σ : Type} (I : state σ) (hm : I.m = 0) (r0 : σ)
    (goodSeed : Nat) :
    (state.checkM I).m = (5 * I.n) % 2 ^ 64 ∧ (state.checkM I).n = I.n ∧
    (state.checkM I).k = I.k ∧ (state.init r0 goodSeed).k = 3 := by
  simp [state.checkM, hm, state.init, Nat.mul_comm]

/-- C20, instance: the freshly constructed state. -/
theorem C20_default_parameters_witness :
    (state.init () 0).m = 0 ∧
    ((state.checkM (state.init () 0)).m = (5 * (state.init () 0).n) % 2 ^ 64 ∧
      (state.checkM (state.init () 0)).n = (state.init () 0).n ∧
      (state.checkM (state.init () 0)).k = (state.init () 0).k ∧
      (state.init () 0).k = 3) :=
  ⟨rfl, C20_default_parameters (state.init () 0) rfl () 0⟩

/-- C21: the default overloads.  The three-argument `generatePublicKey` returns
exactly what the five-argument one returns with `m = 8*n` formed in `size_t`
and `k = 3`, for the same generator, start state and loop budget; when `8*n`
is a `size_t` value (`8*n < 2^64`) this is the call with `m = 8·n`.  The
four-argument `encrypt` returns exactly what `encrypt` with `beta = 3`
returns. -/
theorem C21_default_overloads {σ : Type} (r : rng σ) (privateKey : Nat → Bool) (n : Nat)
    (publicKey : BF) (input : Bool) (fuel : Nat) (st : σ) :
    generatePublicKeyDefault r privateKey n fuel st =
      generatePublicKey r privateKey n ((8 * n) % 2 ^ 64) 3 fuel st ∧
    (8 * n < 2 ^ 64 → generatePublicKeyDefault r privateKey n fuel st =
      generatePublicKey r privateKey n (8 * n) 3 fuel st) ∧
    encryptDefault r n publicKey input st = encrypt r n publicKey input 3 st := by
  refine ⟨rfl, fun h => ?_, rfl⟩
  unfold generatePublicKeyDefault
  rw [Nat.mod_eq_of_lt h]

/-- C21, instance: three variables, so `m = 24`; the generator `lcg` started in
state 1, and `smallKey` for `encrypt`. -/
theorem C21_default_overloads_witness :
    8 * 3 < 2 ^ 64 ∧
    generatePublicKeyDefault lcg alternatingKey 3 6 1 =
      generatePublicKey lcg alternatingKey 3 (8 * 3) 3 6 1 ∧
    encryptDefault lcg 3 smallKey true 1 = encrypt lcg 3 smallKey true 3 1 :=
  ⟨by decide, (C21_default_overloads lcg alternatingKey 3 smallKey true 6 1).2.1 (by decide),
    (C21_default_overloads lcg alternatingKey 3 smallKey true 6 1).2.2⟩

/-- C22 (as stated, refuted): without a bound on the key length the polynomial
of a clause need not take the value of the negated clause.  Over `2^32`
variables the clause `OrOf[Variable(2^32-1)]` gets the polynomial `{[0]}`, the
constant 1, which is true under the all-true assignment although the clause
is true there as well: the dependence `2^32` is narrowed to the `int` 0. -/
theorem C22_wide_clause_counterexample :
    isClause (2 ^ 32) (OR (2 ^ 32) [INPUT (2 ^ 32) (2 ^ 32 - 1) []]) ∧
    convertLiterals (OR (2 ^ 32) [INPUT (2 ^ 32) (2 ^ 32 - 1) []]).children [[0]] [] =
      some ([[0]], [0]) ∧
    anfValue (fun _ => true) [[0]] = true ∧
    evaluate (fun _ => true) (OR (2 ^ 32) [INPUT (2 ^ 32) (2 ^ 32 - 1) []]) = true :=
  ⟨by simp [isClause, isLiteral], by rfl, by rfl, by decide⟩

/-- C22 (amended): for `n ≤ 2^31 - 1` and every clause that is an `OrOf` of
literals `Variable(i)` / `Not(Variable(i))` with `i < n`, the loop of `encrypt`
over the literals returns a polynomial `nClause` that is canonical and whose
XOR-of-ANDs value, under every assignment, is true exactly when the clause
evaluates to false. -/
theorem C22_negated_clause_polynomial (n : Nat) (hn : n < 2 ^ 31) (c : BF)
    (hc : isClause n c) :
    ∃ nc dep, convertLiterals c.children [[0]] [] = some (nc, dep) ∧ Canonical nc ∧
      ∀ a, (anfValue a nc = true ↔ evaluate a c = false) := by
  obtain ⟨lits, rfl, hl⟩ := isClause_cases hc
  obtain ⟨nc, dep, e, hcan, hv⟩ := nClause_spec hn lits hl
  refine ⟨nc, dep, e, hcan, fun a => ?_⟩
  rw [hv a]
  cases evaluate a (OR n lits) <;> simp

/-- C22, instance: the clause `¬x2 ∨ x1` of `smallKey` has the polynomial
`x2 + x1 x2`. -/
theorem C22_negated_clause_polynomial_witness :
    3 < 2 ^ 31 ∧ isClause 3 (OR 3 [NOT 3 [INPUT 3 1 []], INPUT 3 0 []]) ∧
    convertLiterals (OR 3 [NOT 3 [INPUT 3 1 []], INPUT 3 0 []]).children [[0]] [] =
      some ([[1, 2], [2]], [2, 1]) ∧
    ∃ nc dep, convertLiterals (OR 3 [NOT 3 [INPUT 3 1 []], INPUT 3 0 []]).children [[0]] [] =
        some (nc, dep) ∧ Canonical nc ∧
      ∀ a, (anfValue a nc = true ↔
        evaluate a (OR 3 [NOT 3 [INPUT 3 1 []], INPUT 3 0 []]) = false) :=
  ⟨by decide, by simp [isClause, isLiteral], by rfl,
    C22_negated_clause_polynomial 3 (by decide) _ (by simp [isClause, isLiteral])⟩

/-- C23 (as stated, refuted): `encrypt` can return the null result.  For a key
with `2^32` clauses the number `m` of clauses is narrowed to 0, the permutation
is empty, the inverse search for clause 0 fails, and `encrypt` returns no
tree, for a generator within its contract. -/
theorem C23_many_clauses_counterexample :
    Conforming constantRng ∧
    (AND 1 (List.replicate (2 ^ 32) (OR 1 [INPUT 1 0 []]))).size = 2 ^ 32 ∧
    toUInt (2 ^ 32) = 0 ∧
    inverseSearch (drawPermutation constantRng 0 (List.range 0) [] ()).1 0 0 = none ∧
    encrypt constantRng 1 (AND 1 (List.replicate (2 ^ 32) (OR 1 [INPUT 1 0 []]))) false 3 () =
      none :=
  ⟨conforming_constantRng, by simp only [size, children, List.length_replicate],
    by decide, by rfl,
    (encrypt_none_of_many_clauses constantRng false 3 ()).2.2⟩

/-- C23 (amended): for every `m ≤ 2^32 - 1` and every generator whose
`randomInt(max)` lies in `[0,max)`, the array `s` drawn by the permutation step
of `encrypt` is a permutation of `0..m-1`; every clause index below `m` has
exactly one position in `s`, which the inverse search returns; and for every
key with `m` clauses `encrypt` returns a tree, so neither "Error in
permutation" branch is taken. -/
theorem C23_permutation_sound {σ : Type} (r : rng σ) (hr : Conforming r) (m : Nat)
    (hm : m < 2 ^ 32) (st : σ) :
    (∃ l : List Nat, (drawPermutation r m (List.range m) [] st).1 = l.map some ∧
      l.Perm (List.range m) ∧
      ∀ c < m, ∃ i, i < m ∧ inverseSearch (l.map some) c 0 = some i ∧
        ∀ j, l.get? j = some c ↔ j = i) ∧
    ∀ (n : Nat) (pk : BF) (b : Bool) (beta_ : Nat), pk.size = m →
      ∃ t st1, encrypt r n pk b beta_ st = some (t, st1) := by
  refine ⟨?_, fun n pk b beta_ hsz => encrypt_returns r hr n pk (by omega) b beta_ st⟩
  obtain ⟨l, el, hl⟩ := drawPermutation_spec r hr m (List.range m) [] st
    (List.length_range _) hm
  rw [List.nil_append] at el
  exact ⟨l, el, hl, fun c hc => inverse_unique l m hl c hc⟩

/-- C23, instance: three clauses and the generator `lcg` started in state 5,
which draws the permutation `2, 1, 0`; and `smallKey` with its two clauses. -/
theorem C23_permutation_sound_witness :
    Conforming lcg ∧ 3 < 2 ^ 32 ∧
    (drawPermutation lcg 3 (List.range 3) [] 5).1 = [some 2, some 1, some 0] ∧
    (∃ l : List Nat, (drawPermutation lcg 3 (List.range 3) [] 5).1 = l.map some ∧
      l.Perm (List.range 3) ∧
      ∀ c < 3, ∃ i, i < 3 ∧ inverseSearch (l.map some) c 0 = some i ∧
        ∀ j, l.get? j = some c ↔ j = i) ∧
    ∃ t st1, encrypt lcg 3 smallKey true 2 5 = some (t, st1) :=
  ⟨conforming_lcg, by decide, by decide,
    (C23_permutation_sound lcg conforming_lcg 3 (by decide) 5).1,
    (C23_permutation_sound lcg conforming_lcg 2 (by decide) 5).2 3 smallKey true 2 rfl⟩

/-- C24: concatenate-then-sort equals successive addition.  For strictly
ascending lists `g, h1, ..., hr` of conjunctions (in particular canonical
polynomials), `sortANF` without inner sort of the successive concatenation
equals the successive `addToANF`. -/
theorem C24_concat_sort_is_addition (g : ANF) (hs : List ANF) (hg : Ascending g)
    (hh : ∀ h ∈ hs, Ascending h) :
    sortANF (hs.foldl concatANF g) false = hs.foldl addToANF g :=
  sortANF_foldl_concat hs g hg hh

/-- C24, instance: `g = {x1, x2}`, `h1 = {x2, x3}`, `h2 = {1, x1}`. -/
theorem C24_concat_sort_is_addition_witness :
    Ascending [[1], [2]] ∧ (∀ h ∈ [[[2], [3]], [[0], [1]]], Ascending h) ∧
    sortANF ([[[2], [3]], [[0], [1]]].foldl concatANF [[1], [2]]) false =
      [[[2], [3]], [[0], [1]]].foldl addToANF [[1], [2]] ∧
    [[[2], [3]], [[0], [1]]].foldl addToANF [[1], [2]] = [[0], [3]] :=
  ⟨by decide, by decide,
    C24_concat_sort_is_addition [[1], [2]] [[[2], [3]], [[0], [1]]] (by decide) (by decide),
    by decide⟩

/-- C25: the unsorted and the sorted multiplication agree after
canonicalisation.  For canonical polynomials `g` and `h` both modes of
`multiplyToANF` return, and `sortANF` without inner sort of the unsorted
product is the sorted product, which is canonical. -/
theorem C25_multiply_modes_agree (g h : ANF) (hg : Canonical g) (hh : Canonical h) :
    ∃ u s, multiplyToANF g h false = some u ∧ multiplyToANF g h true = some s ∧
      sortANF u false = s ∧ Canonical s :=
  multiplyToANF_modes g h hg hh

/-- C25, instance: `(1 + x1)(x1 + x2)`; the unsorted product lists `x1` twice. -/
theorem C25_multiply_modes_agree_witness :
    Canonical [[0], [1]] ∧ Canonical [[1], [2]] ∧
    multiplyToANF [[0], [1]] [[1], [2]] false = some [[1], [1], [2], [1, 2]] ∧
    ∃ u s, multiplyToANF [[0], [1]] [[1], [2]] false = some u ∧
      multiplyToANF [[0], [1]] [[1], [2]] true = some s ∧ sortANF u false = s ∧ Canonical s :=
  ⟨by decide, by decide, by decide,
    C25_multiply_modes_agree [[0], [1]] [[1], [2]] (by decide) (by decide)⟩

/-- C26: in `encrypt`, for every public key and every generator, every
conjunction of the concatenated list `g` before the final sort is non-empty
and strictly ascending, so `sortANF(g, false)` returns the same list as
`sortANF(g, true)`; `encrypt` continues from `g` with that sort; and `g` is
reached for every key with fewer than `2^32` clauses and every generator
whose `randomInt(max)` lies in `[0,max)`. -/
theorem C26_summands_already_sorted {σ : Type} (r : rng σ) (pk : BF) (beta_ : Nat) (st : σ) :
    (∀ g st1, preCanonical r pk beta_ st = some (g, st1) →
      (∀ m ∈ g, m ≠ [] ∧ m.Pairwise (fun a b => a < b)) ∧
        sortANF g false = sortANF g true) ∧
    (∀ b, encryptANF r pk b beta_ st =
      match preCanonical r pk beta_ st with
      | none => none
      | some (g, st1) =>
        some (if b then addToANF (sortANF g false) [[0]] else sortANF g false, st1)) ∧
    (Conforming r → pk.size < 2 ^ 32 → ∃ g st1, preCanonical r pk beta_ st = some (g, st1)) :=
  ⟨fun g st1 h => ⟨preCanonical_tidy r pk beta_ st g st1 h,
      (sortANF_subSort_of_tidy g (preCanonical_tidy r pk beta_ st g st1 h)).symm⟩,
    fun b => encryptANF_eq_preCanonical r pk b beta_ st,
    fun hr hsize => preCanonical_returns r hr pk hsize beta_ st⟩

/-- C26, instance: `smallKey` with `beta = 2` and the generator `lcg` started
in state 5. -/
theorem C26_summands_already_sorted_witness :
    ∃ g st1, preCanonical lcg smallKey 2 5 = some (g, st1) ∧
      (∀ m ∈ g, m ≠ [] ∧ m.Pairwise (fun a b => a < b)) ∧
      sortANF g false = sortANF g true :=
  ((C26_summands_already_sorted lcg smallKey 2 5).2.2 conforming_lcg (by decide)).elim
    (fun g h => h.elim (fun st1 h1 =>
      ⟨g, st1, h1, (C26_summands_already_sorted lcg smallKey 2 5).1 g st1 h1⟩))

/-- C27: after `recursiveSort` on a CNF public key the clauses of the key are
in non-decreasing order under `compare` (no clause compares greater than a
later one), they are, up to their order, the clauses of the key with sorted
literals, and each of these has the same literals as the clause it comes from
(as a multiset), in non-decreasing order. -/
theorem C27_recursiveSort_orders (n : Nat) (pk : BF) (hpk : isCNF n pk) :
    ∃ cs1 cs2 : List BF, recursiveSort pk = some (AND n cs2) ∧ NonDecreasing cs2 ∧
      cs2.Perm cs1 ∧
      List.Forall₂ (fun c c1 => ∃ lits lits1, c = OR n lits ∧ c1 = OR n lits1 ∧
        lits1.Perm lits ∧ NonDecreasing lits1) pk.children cs1 := by
  obtain ⟨clauses, rfl, hcl⟩ := isCNF_cases hpk
  obtain ⟨h1, h2, h3⟩ := recursiveSort_CNF_sorted hcl
  exact ⟨clauses.map sortLits, _, recursiveSort_CNF_eq hcl, h1, h2, h3⟩

/-- C27, instance: `smallKey`. -/
theorem C27_recursiveSort_orders_witness :
    isCNF 3 smallKey ∧
    recursiveSort smallKey = some (AND 3 [OR 3 [INPUT 3 0 [], INPUT 3 2 []],
      OR 3 [INPUT 3 0 [], NOT 3 [INPUT 3 1 []]]]) ∧
    ∃ cs1 cs2 : List BF, recursiveSort smallKey = some (AND 3 cs2) ∧ NonDecreasing cs2 ∧
      cs2.Perm cs1 ∧
      List.Forall₂ (fun c c1 => ∃ lits lits1, c = OR 3 lits ∧ c1 = OR 3 lits1 ∧
        lits1.Perm lits ∧ NonDecreasing lits1) smallKey.children cs1 :=
  ⟨isCNF_smallKey, by rfl, C27_recursiveSort_orders 3 smallKey isCNF_smallKey⟩

/-- C28 (as stated, refuted): distinctness under `compare` does not survive
the sort.  `generatePublicKey` returns, for the generator `lcg` started in
state 27, the key `mirrorKey` with the clauses `x1 ∨ x3` and `x3 ∨ x1`; they
compare non-zero, but `recursiveSort` turns both into `x1 ∨ x3`, and the two
clauses of the sorted key compare 0. -/
theorem C28_mirror_clauses_counterexample :
    Conforming lcg ∧ generatePublicKey lcg alternatingKey 3 2 2 4 27 = some (mirrorKey, 43) ∧
    isCNF 3 mirrorKey ∧
    BF.compare (OR 3 [INPUT 3 0 [], INPUT 3 2 []]) (OR 3 [INPUT 3 2 [], INPUT 3 0 []]) =
      some (-1) ∧
    BF.compare (OR 3 [INPUT 3 2 [], INPUT 3 0 []]) (OR 3 [INPUT 3 0 [], INPUT 3 2 []]) =
      some 1 ∧
    recursiveSort mirrorKey = some (AND 3 [OR 3 [INPUT 3 0 [], INPUT 3 2 []],
      OR 3 [INPUT 3 0 [], INPUT 3 2 []]]) ∧
    BF.compare (OR 3 [INPUT 3 0 [], INPUT 3 2 []]) (OR 3 [INPUT 3 0 [], INPUT 3 2 []]) =
      some 0 :=
  ⟨conforming_lcg, by rfl, by simp [isCNF, isClause, isLiteral, mirrorKey], by decide,
    by decide, by rfl, by decide⟩

/-- C28 (amended): if no clause of a CNF public key is a rearrangement of the
literals of another clause, then after `recursiveSort` the clauses of the key
are pairwise distinct under `compare`: on any two of them `compare` is defined
and not 0. -/
theorem C28_distinct_after_sort (n : Nat) (pk : BF) (hpk : isCNF n pk)
    (hd : pk.children.Pairwise (fun c d => ¬ c.children.Perm d.children)) :
    ∃ cs2 : List BF, recursiveSort pk = some (AND n cs2) ∧ cs2.Pairwise Differ := by
  obtain ⟨clauses, rfl, hcl⟩ := isCNF_cases hpk
  exact ⟨_, recursiveSort_CNF_eq hcl, recursiveSort_distinct hcl hd⟩

/-- C28, instance: `smallKey`, whose clauses `x1 ∨ x3` and `¬x2 ∨ x1` are not
rearrangements of each other. -/
theorem C28_distinct_after_sort_witness :
    isCNF 3 smallKey ∧
    smallKey.children.Pairwise (fun c d => ¬ c.children.Perm d.children) ∧
    ∃ cs2 : List BF, recursiveSort smallKey = some (AND 3 cs2) ∧ cs2.Pairwise Differ :=
  have hd : smallKey.children.Pairwise (fun c d => ¬ c.children.Perm d.children) :=
    List.pairwise_cons.2 ⟨fun d hd hp => by
      simp only [List.mem_singleton] at hd
      subst hd
      have := hp.subset (List.mem_cons_of_mem _ (List.mem_singleton_self _))
      simp [children] at this, List.pairwise_singleton _ _⟩
  ⟨isCNF_smallKey, hd, C28_distinct_after_sort 3 smallKey isCNF_smallKey hd⟩

/-- C29 (code): for two childless nodes with equal dependence and different
variant tags `compare` is not defined.  The leaf comparison returns
`(int)y->front()->myType() - (int)x->front()->myType()`, which reads the first
child of two nodes that have none. -/
theorem C29_leaf_compare_undefined (x y : BF) (hx : x.size = 0) (hy : y.size = 0)
    (hd : x.getDependence = y.getDependence) (ht : x.myType ≠ y.myType) :
    BF.compare x y = none ∧ BF.compare y x = none ∧
      front x.children = none ∧ front y.children = none := by
  have hcx : x.children = [] := List.length_eq_zero.1 hx
  have hcy : y.children = [] := List.length_eq_zero.1 hy
  refine ⟨?_, ?_, by rw [hcx]; rfl, by rw [hcy]; rfl⟩
  · rw [compare_unfold]
    simp [compareNode, compareLeaf, hx, hy, hd, ht]
  · rw [compare_unfold]
    simp [compareNode, compareLeaf, hx, hy, hd, Ne.symm ht]

/-- C29, instance: `Constant(true)` and `Constant(false)`. -/
theorem C29_leaf_compare_undefined_witness :
    (TRUE 1 []).size = 0 ∧ (FALSE 1 []).size = 0 ∧
    (TRUE 1 []).getDependence = (FALSE 1 []).getDependence ∧
    (TRUE 1 []).myType ≠ (FALSE 1 []).myType ∧
    (BF.compare (TRUE 1 []) (FALSE 1 []) = none ∧ BF.compare (FALSE 1 []) (TRUE 1 []) = none ∧
      front (TRUE 1 []).children = none ∧ front (FALSE 1 []).children = none) :=
  ⟨rfl, rfl, rfl, by decide,
    C29_leaf_compare_undefined (TRUE 1 []) (FALSE 1 []) rfl rfl rfl (by decide)⟩

/-- C30 (as stated, refuted): for the variable with index `2^63 - 1` among
`2^63` variables, an index below `nbrVars`, `getDependence()` forms
`inputVar + 1 = 2^63` in `size_t` and returns it as a `long`, which is the
smallest `long`, `-2^63`: the dependence of `Variable(i)` is not `i + 1` and
is not positive. -/
theorem C30_largest_index_counterexample :
    2 ^ 63 - 1 < 2 ^ 63 ∧
    getDependenceLong (INPUT (2 ^ 63) (2 ^ 63 - 1) []) = -(2 : Int) ^ 63 ∧
    getDependenceLong (INPUT (2 ^ 63) (2 ^ 63 - 1) []) ≠ ((2 ^ 63 - 1 : Nat) : Int) + 1 ∧
    ¬ 0 < getDependenceLong (INPUT (2 ^ 63) (2 ^ 63 - 1) []) :=
  ⟨by decide, by decide, by decide, by decide⟩

/-- C30 (amended): dependence encodes a literal whose index `i` has
`i + 1 < 2^63`.  Then `dependence(Variable(i)) = i+1` and
`dependence(Not(Variable(i))) = -(i+1)` as the `long` values that
`getDependence()` returns, the first positive and the second negative, and
they are the dependences computed in the integers; and for `i < nbrVars` and
every assignment `a`, `Variable(i)` evaluates to `a[d-1]` for its positive
dependence `d`, and `Not(Variable(i))` evaluates to `not a[-d-1]` for its
negative dependence `d`. -/
theorem C30_dependence_encodes_literal (n i : Nat) (h63 : i + 1 < 2 ^ 63) (a : Nat → Bool) :
    getDependenceLong (INPUT n i []) = (i : Int) + 1 ∧
    getDependenceLong (NOT n [INPUT n i []]) = -((i : Int) + 1) ∧
    0 < getDependenceLong (INPUT n i []) ∧ getDependenceLong (NOT n [INPUT n i []]) < 0 ∧
    getDependenceLong (INPUT n i []) = (INPUT n i []).getDependence ∧
    getDependenceLong (NOT n [INPUT n i []]) = (NOT n [INPUT n i []]).getDependence ∧
    (i < n →
      evaluate a (INPUT n i []) = a (getDependenceLong (INPUT n i []) - 1).toNat ∧
      evaluate a (NOT n [INPUT n i []]) =
        ! a (-getDependenceLong (NOT n [INPUT n i []]) - 1).toNat) := by
  have e1 := getDependenceLong_INPUT n i h63
  have e2 := getDependenceLong_NOT n i h63
  have h1 : ((i : Int) + 1 - 1).toNat = i := by omega
  have h2 : (- -((i : Int) + 1) - 1).toNat = i := by omega
  rw [e1, e2]
  refine ⟨rfl, rfl, by omega, by omega, rfl, rfl, fun hi => ?_⟩
  have h3 : ¬ (i ≥ n) := by omega
  constructor
  · simp only [evaluate, h1, if_neg h3]
  · simp only [evaluate, h2, if_neg h3]

/-- C30, instance: the variable with index 1 of three, under the private key
`[true, false, true]`. -/
theorem C30_dependence_encodes_literal_witness :
    1 + 1 < 2 ^ 63 ∧ 1 < 3 ∧
    getDependenceLong (INPUT 3 1 []) = 2 ∧
    getDependenceLong (NOT 3 [INPUT 3 1 []]) = -2 ∧
    evaluate alternatingKey (INPUT 3 1 []) =
      alternatingKey (getDependenceLong (INPUT 3 1 []) - 1).toNat ∧
    evaluate alternatingKey (NOT 3 [INPUT 3 1 []]) =
      ! alternatingKey (-getDependenceLong (NOT 3 [INPUT 3 1 []]) - 1).toNat :=
  ⟨by decide, by decide,
    (C30_dependence_encodes_literal 3 1 (by decide) alternatingKey).1,
    (C30_dependence_encodes_literal 3 1 (by decide) alternatingKey).2.1,
    ((C30_dependence_encodes_literal 3 1 (by decide) alternatingKey).2.2.2.2.2.2
      (by decide)).1,
    ((C30_dependence_encodes_literal 3 1 (by decide) alternatingKey).2.2.2.2.2.2
      (by decide)).2⟩

/-- C31: `RandomFunction` returns a sorted result when its variables are
sorted.  For every strictly ascending list of positive variable ids, every
generator and every generator state, the call returns; each returned monomial
is the constant `[0]` or strictly ascending; the returned list is strictly
ascending in the order of `operator<` on monomials, which `sortANF` sorts by;
so it is canonical and has no duplicates. -/
theorem C31_RandomFunction_sorted {σ : Type} (r : rng σ) (vars : List Nat)
    (hs : vars.Pairwise (fun a b => a < b)) (hp : ∀ v ∈ vars, 0 < v) (st : σ) :
    ∃ res st1, RandomFunction r vars st = some (res, st1) ∧
      (∀ m ∈ res, m = [0] ∨ m.Pairwise (fun a b => a < b)) ∧
      res.Pairwise Lt ∧ Canonical res ∧ res.Nodup := by
  obtain ⟨res, st1, e, hc⟩ := RandomFunction_canonical r vars hs hp st
  refine ⟨res, st1, e, fun m hm => ?_, hc.1, hc, Ascending.nodup hc.1⟩
  rcases hc.2 m hm with h | h
  · exact Or.inl h
  · exact Or.inr h.2.1

/-- C31, instance: the variables `[1, 2]` and the generator `lcg` started in
state 1. -/
theorem C31_RandomFunction_sorted_witness :
    ([1, 2] : List Nat).Pairwise (fun a b => a < b) ∧ (∀ v ∈ ([1, 2] : List Nat), 0 < v) ∧
    ∃ res st1, RandomFunction lcg [1, 2] 1 = some (res, st1) ∧
      (∀ m ∈ res, m = [0] ∨ m.Pairwise (fun a b => a < b)) ∧
      res.Pairwise Lt ∧ Canonical res ∧ res.Nodup :=
  ⟨by decide, by decide, C31_RandomFunction_sorted lcg [1, 2] (by decide) (by decide) 1⟩

/-- C33: `addToANF` is an XOR homomorphism for evaluation without any
sortedness precondition.  For all lists of monomials `g` and `h` and every
assignment, the XOR-of-ANDs value of `addToANF(g, h)` is the value of `g` XOR
the value of `h`. -/
theorem C33_addToANF_xor_value (g h : ANF) (a : Nat → Bool) :
    anfValue a (addToANF g h) = (anfValue a g != anfValue a h) :=
  (addToANF_value a g h).1

/-- C34: `multiplyToANF` is an AND homomorphism for evaluation in both modes.
For all polynomials `g` and `h` whose monomials are non-empty and are either
`[0]` or made of positive ids only, and for either value of `sortResult`, the
call returns a polynomial whose XOR-of-ANDs value is, on every assignment, the
value of `g` AND the value of `h`. -/
theorem C34_multiplyToANF_and_value (g h : ANF) (sortResult : Bool)
    (hg : ∀ m ∈ g, m ≠ [] ∧ (m = [0] ∨ ∀ v ∈ m, 0 < v))
    (hh : ∀ m ∈ h, m ≠ [] ∧ (m = [0] ∨ ∀ v ∈ m, 0 < v)) :
    ∃ res, multiplyToANF g h sortResult = some res ∧
      ∀ a, anfValue a res = (anfValue a g && anfValue a h) := by
  obtain ⟨n, h1, h2⟩ := goodANF_of_unbounded g h hg hh
  obtain ⟨res, e, _, hv⟩ := multiplyToANF_value g h sortResult h1 h2
  exact ⟨res, e, hv⟩

/-- C34, instance: `(x2 x1 + 1 + x1)` times `(x3 + x3 x1)`, the first factor
neither sorted nor free of repeats, without sorting the result. -/
theorem C34_multiplyToANF_and_value_witness :
    (∀ m ∈ ([[2, 1], [0], [1], [1]] : ANF), m ≠ [] ∧ (m = [0] ∨ ∀ v ∈ m, 0 < v)) ∧
    (∀ m ∈ ([[3], [3, 1]] : ANF), m ≠ [] ∧ (m = [0] ∨ ∀ v ∈ m, 0 < v)) ∧
    ∃ res, multiplyToANF [[2, 1], [0], [1], [1]] [[3], [3, 1]] false = some res ∧
      ∀ a, anfValue a res =
        (anfValue a [[2, 1], [0], [1], [1]] && anfValue a [[3], [3, 1]]) :=
  ⟨by decide, by decide,
    C34_multiplyToANF_and_value [[2, 1], [0], [1], [1]] [[3], [3, 1]] false
      (by decide) (by decide)⟩

/-- C35: multiplication is idempotent.  For every canonical polynomial `g`,
`multiplyToANF` applied to `g` and a copy of `g` with `sortResult = true`
returns `g`. -/
theorem C35_multiply_idempotent (g : ANF) (hg : Canonical g) :
    multiplyToANF g g true = some g :=
  multiplyToANF_self g hg

/-- C35, instance: the polynomial `1 + x1 + x1 x2 + x3`. -/
theorem C35_multiply_idempotent_witness :
    Canonical [[0], [1], [1, 2], [3]] ∧
    multiplyToANF [[0], [1], [1, 2], [3]] [[0], [1], [1, 2], [3]] true =
      some [[0], [1], [1, 2], [3]] :=
  ⟨by decide, C35_multiply_idempotent [[0], [1], [1, 2], [3]] (by decide)⟩

/-- C36: on clauses the comparator is order-sensitive structural equality.
For two `OrOf` nodes whose children are literals `Variable(i)` or
`Not(Variable(i))`, `compare` is defined, and it returns 0 exactly when both
have literals of the same dependences in the same order; over the same number
of variables that is exactly when the two lists of literals are equal; and two
clauses with the same literals in a different order compare non-zero, so the
check for doubles of `generatePublicKey` answers that the second clause is no
double of the first. -/
theorem C36_clause_compare_is_ordered_equality (n1 n2 : Nat) (l1 l2 : List BF)
    (h1 : ∀ a ∈ l1, ∃ v, isLiteralOf n1 v a) (h2 : ∀ b ∈ l2, ∃ v, isLiteralOf n2 v b) :
    ∃ v, BF.compare (OR n1 l1) (OR n2 l2) = some v ∧
      (v = 0 ↔ l1.map getDependence = l2.map getDependence) ∧
      (n1 = n2 → (v = 0 ↔ l1 = l2)) ∧
      (l1.Perm l2 → l1 ≠ l2 →
        v ≠ 0 ∧ checkForDoubles (OR n2 l2) [OR n1 l1] = some false) :=
  compare_clauses_full n1 n2 l1 l2 h1 h2

/-- C36, instance: the clauses `x1 ∨ ¬x3` and `¬x3 ∨ x1`. -/
theorem C36_clause_compare_is_ordered_equality_witness :
    BF.compare (OR 3 [INPUT 3 0 [], NOT 3 [INPUT 3 2 []]])
      (OR 3 [NOT 3 [INPUT 3 2 []], INPUT 3 0 []]) = some (-1) ∧
    ∃ v, BF.compare (OR 3 [INPUT 3 0 [], NOT 3 [INPUT 3 2 []]])
        (OR 3 [NOT 3 [INPUT 3 2 []], INPUT 3 0 []]) = some v ∧
      (v = 0 ↔ [INPUT 3 0 [], NOT 3 [INPUT 3 2 []]].map getDependence =
        [NOT 3 [INPUT 3 2 []], INPUT 3 0 []].map getDependence) ∧
      (3 = 3 → (v = 0 ↔ [INPUT 3 0 [], NOT 3 [INPUT 3 2 []]] =
        [NOT 3 [INPUT 3 2 []], INPUT 3 0 []])) ∧
      ([INPUT 3 0 [], NOT 3 [INPUT 3 2 []]].Perm [NOT 3 [INPUT 3 2 []], INPUT 3 0 []] →
        [INPUT 3 0 [], NOT 3 [INPUT 3 2 []]] ≠ [NOT 3 [INPUT 3 2 []], INPUT 3 0 []] →
        v ≠ 0 ∧ checkForDoubles (OR 3 [NOT 3 [INPUT 3 2 []], INPUT 3 0 []])
          [OR 3 [INPUT 3 0 [], NOT 3 [INPUT 3 2 []]]] = some false) :=
  ⟨by rfl,
    C36_clause_compare_is_ordered_equality 3 3 [INPUT 3 0 [], NOT 3 [INPUT 3 2 []]]
      [NOT 3 [INPUT 3 2 []], INPUT 3 0 []]
      (fun a ha => (List.mem_pair.1 ha).elim (fun e => ⟨0, Or.inl e⟩) (fun e => ⟨2, Or.inr e⟩))
      (fun b hb => (List.mem_pair.1 hb).elim (fun e => ⟨2, Or.inr e⟩) (fun e => ⟨0, Or.inl e⟩))⟩

/-- C37: the plaintext bit influences `encrypt` only through the final
constant term.  For the same generator, generator state, key, `n` and `beta`:
when the call for bit 0 has no result, neither has the call for bit 1;
otherwise both calls leave the generator in the same state, the polynomial for
bit 0 is strictly ascending, the polynomial for bit 1 is
`addToANF(polynomial for bit 0, [[0]])`, the returned trees are the
conversions of these two polynomials, and the two differ exactly in the
constant: the monomial `[0]` is in one polynomial and not in the other and all
other monomials are the same, and likewise the summand `AndOf(Constant(true))`
for the children of the two trees.  The calls return under the contract of
`randomInt` for keys with fewer than `2^32` clauses. -/
theorem C37_bit_only_moves_constant {σ : Type} (r : rng σ) (n : Nat) (pk : BF) (beta : Nat)
    (st : σ) :
    (encryptANF r pk false beta st = none →
      encrypt r n pk false beta st = none ∧ encrypt r n pk true beta st = none) ∧
    (∀ g0 st0, encryptANF r pk false beta st = some (g0, st0) →
      Ascending g0 ∧
      encryptANF r pk true beta st = some (addToANF g0 [[0]], st0) ∧
      encrypt r n pk false beta st = some (toBF (toUInt n) g0, st0) ∧
      encrypt r n pk true beta st = some (toBF (toUInt n) (addToANF g0 [[0]]), st0) ∧
      (∀ m, m ∈ addToANF g0 [[0]] ↔ ((m ∈ g0 ∧ m ≠ [0]) ∨ (m ∉ g0 ∧ m = [0]))) ∧
      (∀ s, s ≠ AND (toUInt n) [TRUE (toUInt n) []] →
        (s ∈ (toBF (toUInt n) (addToANF g0 [[0]])).children ↔
          s ∈ (toBF (toUInt n) g0).children)) ∧
      (AND (toUInt n) [TRUE (toUInt n) []] ∈ (toBF (toUInt n) (addToANF g0 [[0]])).children ↔
        AND (toUInt n) [TRUE (toUInt n) []] ∉ (toBF (toUInt n) g0).children)) ∧
    (Conforming r → pk.size < 2 ^ 32 →
      ∃ g0 st0, encryptANF r pk false beta st = some (g0, st0)) := by
  refine ⟨fun h => ?_, fun g0 st0 h => ?_, fun hr hsize => ?_⟩
  · rw [encrypt_eq_toBF, encrypt_eq_toBF, encryptANF_true, h]
    exact ⟨rfl, rfl⟩
  · have hasc := encryptANF_false_ascending r pk beta st g0 st0 h
    have ht : encryptANF r pk true beta st = some (addToANF g0 [[0]], st0) := by
      rw [encryptANF_true, h]
    refine ⟨hasc, ht, ?_, ?_, mem_addToANF_one g0 hasc,
      (children_toBF_addToANF_one (toUInt n) g0 hasc).1,
      (children_toBF_addToANF_one (toUInt n) g0 hasc).2⟩
    · rw [encrypt_eq_toBF, h]
    · rw [encrypt_eq_toBF, ht]
  · obtain ⟨g, st1, e⟩ := preCanonical_returns r hr pk hsize beta st
    refine ⟨sortANF g false, st1, ?_⟩
    rw [encryptANF_eq_preCanonical, e]
    rfl

/-- C37, instance: `smallKey` with `beta = 2` and the generator `lcg` started
in state 5. -/
theorem C37_bit_only_moves_constant_witness :
    ∃ g0 st0, encryptANF lcg smallKey false 2 5 = some (g0, st0) ∧
      encrypt lcg 3 smallKey false 2 5 = some (toBF (toUInt 3) g0, st0) ∧
      encrypt lcg 3 smallKey true 2 5 = some (toBF (toUInt 3) (addToANF g0 [[0]]), st0) :=
  ((C37_bit_only_moves_constant lcg 3 smallKey 2 5).2.2 conforming_lcg (by decide)).elim
    (fun g0 h => h.elim (fun st0 h1 =>
      ⟨g0, st0, h1, ((C37_bit_only_moves_constant lcg 3 smallKey 2 5).2.1 g0 st0 h1).2.2.1,
        ((C37_bit_only_moves_constant lcg 3 smallKey 2 5).2.1 g0 st0 h1).2.2.2.1⟩))

set_option maxRecDepth 100000 in
/-- C38 (as stated, refuted): a key over `2^63` variables with the one clause
`x1` is a CNF tree with `nbrVars ≥ 1` whose clause is an `OrOf` of a variable;
`writeCNF` succeeds and writes the header `p cnf 9223372036854775808 1`, and
`readCNF` has no tree to return for the written text, because `stol` has no
`long` for the number of variables. -/
theorem C38_huge_key_counterexample :
    1 ≤ (AND (2 ^ 63) [OR (2 ^ 63) [INPUT (2 ^ 63) 0 []]]).getNumberOfVars ∧
    (writeCNF (AND (2 ^ 63) [OR (2 ^ 63) [INPUT (2 ^ 63) 0 []]])).2 = true ∧
    stol (printSizeT (2 ^ 63)) = none ∧
    readCNF (writeCNF (AND (2 ^ 63) [OR (2 ^ 63) [INPUT (2 ^ 63) 0 []]])).1 = none :=
  ⟨by decide, by rfl, by rfl, by rfl⟩

/-- C38 (amended): public keys survive a save/load round trip.  For every CNF
tree with `1 ≤ nbrVars < 2^63` and fewer than `2^63` clauses, whose clauses are
`OrOf` nodes of literals `Variable(i)` or `Not(Variable(i))` with
`i + 1 < 2^63`, `writeCNF` succeeds and `readCNF` applied to the written text
returns the same tree: the same `nbrVars`, the same clauses and the same
literals in the same order. -/
theorem C38_cnf_round_trip (n : Nat) (cls : List (List BF)) (hn1 : 1 ≤ n)
    (hn2 : n < 2 ^ 63) (hlen : cls.length < 2 ^ 63)
    (h : ∀ c ∈ cls, ∀ l ∈ c, ∃ i, i + 1 < 2 ^ 63 ∧ isLiteralOf n i l) :
    (writeCNF (AND n (cls.map (OR n)))).2 = true ∧
    readCNF (writeCNF (AND n (cls.map (OR n)))).1 = some (AND n (cls.map (OR n))) :=
  readCNF_writeCNF n cls hn1 hn2 hlen h

/-- C38, instance: the key `smallKey`, `(x1 ∨ x3) ∧ (¬x2 ∨ x1)`. -/
theorem C38_cnf_round_trip_witness :
    smallKey = AND 3 ([[INPUT 3 0 [], INPUT 3 2 []],
      [NOT 3 [INPUT 3 1 []], INPUT 3 0 []]].map (OR 3)) ∧
    (writeCNF (AND 3 ([[INPUT 3 0 [], INPUT 3 2 []],
      [NOT 3 [INPUT 3 1 []], INPUT 3 0 []]].map (OR 3)))).2 = true ∧
    readCNF (writeCNF (AND 3 ([[INPUT 3 0 [], INPUT 3 2 []],
      [NOT 3 [INPUT 3 1 []], INPUT 3 0 []]].map (OR 3)))).1 =
      some (AND 3 ([[INPUT 3 0 [], INPUT 3 2 []],
        [NOT 3 [INPUT 3 1 []], INPUT 3 0 []]].map (OR 3))) :=
  ⟨rfl, C38_cnf_round_trip 3 [[INPUT 3 0 [], INPUT 3 2 []],
      [NOT 3 [INPUT 3 1 []], INPUT 3 0 []]] (by decide) (by decide) (by decide)
    (fun c hc l hl =>
      (List.mem_pair.1 hc).elim
        (fun ec => (List.mem_pair.1 (ec ▸ hl)).elim
          (fun e => ⟨0, by decide, Or.inl e⟩) (fun e => ⟨2, by decide, Or.inl e⟩))
        (fun ec => (List.mem_pair.1 (ec ▸ hl)).elim
          (fun e => ⟨1, by decide, Or.inr e⟩) (fun e => ⟨0, by decide, Or.inl e⟩)))⟩

set_option maxRecDepth 100000 in
/-- C39 (as stated, refuted): a cipher over `2^63` variables with the one
summand `x1` is a cipher-shaped tree with `nbrVars ≥ 1`; `writeANF` succeeds
and writes the header `p anf 9223372036854775808 1`, and `readANF` has no tree
to return for the written text, because `stol` has no `long` for the number of
variables. -/
theorem C39_huge_cipher_counterexample :
    1 ≤ (XOR (2 ^ 63) [AND (2 ^ 63) [INPUT (2 ^ 63) 0 []]]).getNumberOfVars ∧
    (writeANF (XOR (2 ^ 63) [AND (2 ^ 63) [INPUT (2 ^ 63) 0 []]])).2 = true ∧
    readANF (writeANF (XOR (2 ^ 63) [AND (2 ^ 63) [INPUT (2 ^ 63) 0 []]])).1 = none :=
  ⟨by decide, by rfl, by rfl⟩

/-- C39 (amended): ciphers survive a save/load round trip.  For every
cipher-shaped tree with `1 ≤ nbrVars < 2^63` and fewer than `2^63` summands
(an `XorOf` of `AndOf` nodes, each summand being either the single child
`Constant(true)` or a non-empty list of `Variable(i)` nodes with
`i + 1 < 2^63`), `writeANF` succeeds and `readANF` applied to the written text
returns the same tree; the line written for the constant summand is `0 0`, and
`readANF` reads this line as the summand `AndOf(Constant(true))`. -/
theorem C39_anf_round_trip (n : Nat) (ss : List BF) (hn1 : 1 ≤ n) (hn2 : n < 2 ^ 63)
    (hlen : ss.length < 2 ^ 63)
    (h : ∀ s ∈ ss, s = AND n [TRUE n []] ∨
      ∃ ids : List Nat, ids ≠ [] ∧ (∀ i ∈ ids, i + 1 < 2 ^ 63) ∧
        s = AND n (ids.map (fun i => INPUT n i []))) :
    (writeANF (XOR n ss)).2 = true ∧
    readANF (writeANF (XOR n ss)).1 = some (XOR n ss) ∧
    (∀ out, writeLoop booleanFctTypes.BFT_AND [AND n [TRUE n []]] out =
      (out ++ ['0', ' ', '0'] ++ endl, true)) ∧
    (∀ (m k : Nat) (re : BF), readANFLine ⟨n, m, k, some re⟩ ['0', ' ', '0'] =
      some ⟨n, m, k + 1, some (re.withChildren (re.children ++ [AND n [TRUE n []]]))⟩) :=
  ⟨(readANF_writeANF n ss hn1 hn2 hlen h).1, (readANF_writeANF n ss hn1 hn2 hlen h).2,
    fun out => writeLoop_constant n out,
    fun m k re => readANFLine_constant ⟨n, m, k, some re⟩ re (by show n ≠ 0; omega) rfl⟩

/-- C39, instance: the cipher `1 + x1 x3` over three variables. -/
theorem C39_anf_round_trip_witness :
    (writeANF (XOR 3 [AND 3 [TRUE 3 []], AND 3 ([0, 2].map (fun i => INPUT 3 i []))])).2 = true ∧
    readANF (writeANF (XOR 3 [AND 3 [TRUE 3 []],
      AND 3 ([0, 2].map (fun i => INPUT 3 i []))])).1 =
      some (XOR 3 [AND 3 [TRUE 3 []], AND 3 ([0, 2].map (fun i => INPUT 3 i []))]) :=
  ⟨(C39_anf_round_trip 3 [AND 3 [TRUE 3 []], AND 3 ([0, 2].map (fun i => INPUT 3 i []))]
      (by decide) (by decide) (by decide)
      (fun s hs => (List.mem_pair.1 hs).elim (fun e => Or.inl e)
        (fun e => Or.inr ⟨[0, 2], by decide, by decide, e⟩))).1,
    (C39_anf_round_trip 3 [AND 3 [TRUE 3 []], AND 3 ([0, 2].map (fun i => INPUT 3 i []))]
      (by decide) (by decide) (by decide)
      (fun s hs => (List.mem_pair.1 hs).elim (fun e => Or.inl e)
        (fun e => Or.inr ⟨[0, 2], by decide, by decide, e⟩))).2.1⟩

/-- C40: the encryption seed depends only on the first 64 clear-text bits.
With `size_t` of 64 bits the value handed to `seed` by `encrypt(state&)` is
the salt XOR the sum over `i < 64` of `clearText[i] * 2^i`; the variable `pow`
ends as `2^length` modulo `2^64`, so it is never reset to 1; and two clear
texts of equal length that agree on their first 64 bits give the same seed,
hence the same seeded generator, for every salt. -/
theorem C40_seed_uses_first_64_bits (ct : List Bool) :
    (∀ salt, clearTextSeed salt ct = Nat.xor salt
      (Finset.sum (Finset.range 64) (fun i => if ct.getD i false = true then 2 ^ i else 0))) ∧
    seedLoop ct 0 1 = binaryValue ct % 2 ^ 64 ∧
    powLoop ct 1 = 2 ^ ct.length % 2 ^ 64 ∧
    (∀ ct2 : List Bool, ct2.length = ct.length → ct2.take 64 = ct.take 64 →
      ∀ salt, clearTextSeed salt ct2 = clearTextSeed salt ct ∧
        ∀ (σ : Type) (R : seededRng σ) (s : σ),
          R.seed s (clearTextSeed salt ct2) = R.seed s (clearTextSeed salt ct)) := by
  refine ⟨fun salt => ?_, ?_, ?_, fun ct2 _ h salt => ?_⟩
  · rw [clearTextSeed_eq, binaryValue_take_eq_sum]
  · rw [seedLoop_eq ct 0 1 (by norm_num), Nat.zero_add, Nat.one_mul]
  · rw [powLoop_eq]
    by_cases h : ct = []
    · subst h
      rfl
    · rw [if_neg h, Nat.one_mul]
  · have e : clearTextSeed salt ct2 = clearTextSeed salt ct := by
      rw [clearTextSeed_eq, clearTextSeed_eq, h]
    exact ⟨e, fun σ R s => by rw [e]⟩

/-- C40, instance: two clear texts of 65 bits that differ in the last bit
only, with the salt 7. -/
theorem C40_seed_uses_first_64_bits_witness :
    (List.replicate 64 true ++ [true]).length = (List.replicate 64 true ++ [false]).length ∧
    (List.replicate 64 true ++ [true]).take 64 =
      (List.replicate 64 true ++ [false]).take 64 ∧
    clearTextSeed 7 (List.replicate 64 true ++ [true]) =
      clearTextSeed 7 (List.replicate 64 true ++ [false]) :=
  ⟨by decide, by decide,
    ((C40_seed_uses_first_64_bits (List.replicate 64 true ++ [false])).2.2.2
      (List.replicate 64 true ++ [true]) (by decide) (by decide) 7).1⟩

end kryptoSAT
